import Mathlib

/-!
# The process-run scheduler simulator (`chapter02/homework01/main.go`)

A shallow embedding of the scheduler simulator: the process table, the
two program loaders (`LoadProgram`, `Load`), the state-transition operations,
round-robin selection (`NextProc`), `CheckIfDone` and the simulation loop `Run`.

Conventions of the embedding.

* `procInfo : map[int]*Process` only ever holds the keys `0 .. len-1`
  (`NewProcess` inserts at key `len(procInfo)` and nothing is ever deleted), so it is
  a `List Process` indexed by PID.  `ioFinishTimes : map[int][]int` is likewise a
  list of lists indexed by PID; a missing key reads as the empty slice.
* Go `int` values are `Int`s.  The loop of `Run` is given twice.  `Run64` computes
  its four arithmetic statements (`clockTick++`, `cpuBusy++`, `ioBusy++` and
  `clockTick + s.ioLength + 1`) on 64 bits with wrap-around, as the Go program does
  for every input.  `Run` computes them exactly, on unbounded integers; it is the same
  function as `Run64` as long as no value leaves the 64-bit range (`Run64_eq_Run`),
  and the properties that depend on the values of the clock or of a finish time are
  stated for `Run64`.  `strconv.Atoi` rejects values outside the 64-bit range.
* The string-typed labels (`"READY"`, `"cpu"`, `"SWITCH_ON_IO"`, ...) are closed
  enumerations.
* A Go method that mutates the scheduler and returns an `error` becomes a function
  returning the new scheduler together with `Option SchedError`: the mutations made
  before an error return persist, as they do in Go.
* `Run` discards every error (`_ = ...`) and prints the trace.  The printing is not
  modelled.  The discarded errors, the state changes and the executed instructions
  are recorded in ghost fields of `RunState`, which no modelled code reads.  The state
  changes are logged per call made by `Run`, as the difference between the table
  before and after the call; no operation assigns the `State` of a process twice.
* Go iterates over a map in an unspecified order.  The order in which the
  I/O-completion scan of tick `t` visits the PIDs is a parameter `order t` of `Run`.
* The `for` loop of `Run` is unrolled with a fuel argument: `none` means the fuel ran
  out before every process was `DONE`.
-/

namespace ProcessRun

/-! ## Data model -/

/-- Instruction types (`DoCompute = "cpu"`, `DoIO = "io"`, `DoIODone = "io_done"`). -/
inductive Instr where
  | cpu
  | io
  | io_done
deriving DecidableEq

/-- Process states (`StateRunning`, `StateReady`, `StateDone`, `StateBlocked`). -/
inductive ProcState where
  | RUNNING
  | READY
  | DONE
  | BLOCKED
deriving DecidableEq

/-- Process-switch behaviours (`SchedSwitchOnIO`, `SchedSwitchOnEnd`). -/
inductive SwitchBehavior where
  | SWITCH_ON_IO
  | SWITCH_ON_END
deriving DecidableEq

/-- I/O-finished behaviours (`IORunLater`, `IORUNImmediate`). -/
inductive IODoneBehavior where
  | IO_RUN_LATER
  | IO_RUN_IMMEDIATE
deriving DecidableEq

/-- The Go struct `Process`. -/
structure Process where
  Code : List Instr
  PC : Int
  PID : Int
  State : ProcState
  IOTime : Int
deriving DecidableEq

/-- The Go struct `Scheduler`. -/
structure Scheduler where
  currProc : Int
  procInfo : List Process
  processSwitchBehavior : SwitchBehavior
  ioDoneBehavior : IODoneBehavior
  ioLength : Int
  ioFinishTimes : List (List Int)
deriving DecidableEq

/-- The errors built with `fmt.Errorf` in the source, one constructor per message. -/
inductive SchedError where
  | processDoesNotExist (pid : Int)
  | unexpectedState (expected got : ProcState)
  | noCurrentProcess
  | invalidComputeInstructions (instr : List Char)
  | badOpcode (opcode : Char)
  | badDescription (fields : List (List Char))
  | invalidNumberOfInstructions (field : List Char)
  | invalidCPUScheme (field : List Char)
deriving DecidableEq

/-- `NewScheduler`. -/
def NewScheduler (processSwitchBehavior : SwitchBehavior) (ioDoneBehavior : IODoneBehavior)
    (ioLength : Int) : Scheduler :=
  { currProc := -1
    procInfo := []
    processSwitchBehavior := processSwitchBehavior
    ioDoneBehavior := ioDoneBehavior
    ioLength := ioLength
    ioFinishTimes := [] }

/-- The map lookup `proc, exists := s.procInfo[pid]`. -/
def Scheduler.proc? (s : Scheduler) (pid : Int) : Option Process :=
  if 0 ≤ pid then s.procInfo[pid.toNat]? else none

/-- The assignment `s.procInfo[pid].State = st` (through the stored pointer). -/
def Scheduler.setState (s : Scheduler) (pid : Int) (st : ProcState) : Scheduler :=
  match s.proc? pid with
  | some proc => { s with procInfo := s.procInfo.set pid.toNat { proc with State := st } }
  | none => s

/-- The assignment `s.procInfo[pid].Code = code`. -/
def Scheduler.setCode (s : Scheduler) (pid : Int) (code : List Instr) : Scheduler :=
  match s.proc? pid with
  | some proc => { s with procInfo := s.procInfo.set pid.toNat { proc with Code := code } }
  | none => s

/-- `NewProcess`: the new PID is the current number of processes. -/
def NewProcess (s : Scheduler) : Scheduler × Int :=
  let pid : Int := s.procInfo.length
  ({ s with procInfo := s.procInfo ++ [{ PID := pid, PC := 0, Code := [], State := ProcState.READY,
                                         IOTime := 0 }] }, pid)

/-! ## Library functions used by the loaders -/

/-- `strings.Split(s, sep)` for a one-character separator: the pieces between the
occurrences of `sep`, one more than there are occurrences. -/
def stringsSplit (sep : Char) : List Char → List (List Char)
  | [] => [[]]
  | c :: cs =>
    if c = sep then [] :: stringsSplit sep cs
    else
      match stringsSplit sep cs with
      | [] => [[c]]
      | t :: ts => (c :: t) :: ts

/-- The size in bits of a Go `int` (`strconv.IntSize` on a 64-bit platform). -/
def intSize : Nat := 64

/-- A decimal digit. -/
def isDigit (c : Char) : Bool := decide ('0' ≤ c) && decide (c ≤ '9')

/-- The value of a string of decimal digits. -/
def decimalValue (ds : List Char) : Nat :=
  ds.foldl (fun acc c => 10 * acc + (c.toNat - '0'.toNat)) 0

/-- `strconv.Atoi`: an optional sign followed by one or more decimal digits; a syntax
error (`none`) on anything else and a range error (`none`) when the value does not fit
a Go `int`. -/
def Atoi (str : List Char) : Option Int :=
  match str with
  | [] => none
  | c :: rest =>
    let neg : Bool := decide (c = '-')
    let ds : List Char := if c = '-' ∨ c = '+' then rest else str
    if ds.isEmpty || !(ds.all isDigit) then none
    else
      let n := decimalValue ds
      if neg then (if n ≤ 2 ^ (intSize - 1) then some (-(n : Int)) else none)
      else (if n < 2 ^ (intSize - 1) then some (n : Int) else none)

/-- A `float64` value: a rational (rounding is not modelled), an infinity or NaN. -/
inductive GoFloat where
  | finite (q : ℚ)
  | posInf
  | negInf
  | nan

/-- The statement `chanceCPU /= 100.0`. -/
def GoFloat.div100 : GoFloat → GoFloat
  | GoFloat.finite q => GoFloat.finite (q / 100)
  | f => f

/-- The comparison `draw < chanceCPU` for a finite `draw`. -/
def GoFloat.drawLt (draw : ℚ) : GoFloat → Bool
  | GoFloat.finite q => decide (draw < q)
  | GoFloat.posInf => true
  | GoFloat.negInf => false
  | GoFloat.nan => false

/-! ## The loaders -/

/-- The statement `s.procInfo[pid].Code = append(s.procInfo[pid].Code, instrs...)`. -/
def Scheduler.appendCode (s : Scheduler) (pid : Int) (instrs : List Instr) : Scheduler :=
  match s.proc? pid with
  | some proc => s.setCode pid (proc.Code ++ instrs)
  | none => s

/-- The `for _, instr := range instructions` loop of `LoadProgram`. -/
def LoadProgram.loop (pid : Int) : Scheduler → List (List Char) → Scheduler × Option SchedError
  | s, [] => (s, none)
  | s, instr :: rest =>
    match instr with
    | [] => LoadProgram.loop pid s rest
    | opcode :: arg =>
      if opcode = 'c' then
        match Atoi arg with
        | none => (s, some (SchedError.invalidComputeInstructions instr))
        | some num =>
          LoadProgram.loop pid (s.appendCode pid (List.replicate num.toNat Instr.cpu)) rest
      else if opcode = 'i' then
        LoadProgram.loop pid (s.appendCode pid [Instr.io, Instr.io_done]) rest
      else (s, some (SchedError.badOpcode opcode))

/-- `LoadProgram`: parses a program such as `"c7,i,c5,i"` into a new process.  The
program text is a list of characters; every character the loader distinguishes is
ASCII, so reading bytes (as Go does) or characters makes no difference. -/
def LoadProgram (s : Scheduler) (program : List Char) : Scheduler × Option SchedError :=
  let sp := NewProcess s
  LoadProgram.loop sp.2 sp.1 (stringsSplit ',' program)

/-- The `for i := 0; i < numInstructions; i++` loop of `Load`; `draws k` is the value
returned by the `k`-th call of `rand.Float64()` made by this `Load`. -/
def Load.loop (pid : Int) (chanceCPU : GoFloat) (draws : Nat → ℚ) :
    Nat → Nat → Scheduler → Scheduler
  | 0, _, s => s
  | k + 1, i, s =>
    if GoFloat.drawLt (draws i) chanceCPU then
      Load.loop pid chanceCPU draws k (i + 1) (s.appendCode pid [Instr.cpu])
    else
      Load.loop pid chanceCPU draws k (i + 1) (s.appendCode pid [Instr.io, Instr.io_done])

/-- `Load`: parses a description `"X:Y"` into a new process of `X` random
instructions.  `parseFloat` stands for `strconv.ParseFloat(·, 64)` and `draws` for the
successive results of `rand.Float64()`. -/
def Load (parseFloat : List Char → Option GoFloat) (draws : Nat → ℚ) (s : Scheduler)
    (programDescription : List Char) : Scheduler × Option SchedError :=
  let sp := NewProcess s
  let tmp := stringsSplit ':' programDescription
  match tmp with
  | [f0, f1] =>
    match Atoi f0 with
    | none => (sp.1, some (SchedError.invalidNumberOfInstructions f0))
    | some numInstructions =>
      match parseFloat f1 with
      | none => (sp.1, some (SchedError.invalidCPUScheme f1))
      | some chanceCPU =>
        (Load.loop sp.2 chanceCPU.div100 draws numInstructions.toNat 0 sp.1, none)
  | _ => (sp.1, some (SchedError.badDescription tmp))

/-! ## State transitions -/

/-- `MoveToReady`. -/
def MoveToReady (s : Scheduler) (expected : ProcState) (pid : Int) :
    Scheduler × Option SchedError :=
  let pid := if pid = -1 then s.currProc else pid
  match s.proc? pid with
  | none => (s, some (SchedError.processDoesNotExist pid))
  | some proc =>
    if proc.State ≠ expected then (s, some (SchedError.unexpectedState expected proc.State))
    else (s.setState pid ProcState.READY, none)

/-- `MoveToWait`. -/
def MoveToWait (s : Scheduler) (expected : ProcState) : Scheduler × Option SchedError :=
  if s.currProc = -1 then (s, some SchedError.noCurrentProcess)
  else
    match s.proc? s.currProc with
    | none => (s, some (SchedError.processDoesNotExist s.currProc))
    | some proc =>
      if proc.State ≠ expected then (s, some (SchedError.unexpectedState expected proc.State))
      else (s.setState s.currProc ProcState.BLOCKED, none)

/-- `MoveToRunning`. -/
def MoveToRunning (s : Scheduler) (expected : ProcState) : Scheduler × Option SchedError :=
  if s.currProc = -1 then (s, some SchedError.noCurrentProcess)
  else
    match s.proc? s.currProc with
    | none => (s, some (SchedError.processDoesNotExist s.currProc))
    | some proc =>
      if proc.State ≠ expected then (s, some (SchedError.unexpectedState expected proc.State))
      else (s.setState s.currProc ProcState.RUNNING, none)

/-- `MoveToDone`. -/
def MoveToDone (s : Scheduler) (expected : ProcState) : Scheduler × Option SchedError :=
  if s.currProc = -1 then (s, some SchedError.noCurrentProcess)
  else
    match s.proc? s.currProc with
    | none => (s, some (SchedError.processDoesNotExist s.currProc))
    | some proc =>
      if proc.State ≠ expected then (s, some (SchedError.unexpectedState expected proc.State))
      else (s.setState s.currProc ProcState.DONE, none)

/-- The test `s.procInfo[i].State == StateReady` of the two loops of `NextProc`.  Go
dereferences the map entry without an existence check; every index the loops visit
exists when `-1 ≤ currProc < len(procInfo)`, which is the case throughout `Run`.  A
missing entry (where Go would stop with a nil-pointer panic) counts as not READY. -/
def Scheduler.isReady (s : Scheduler) (i : Nat) : Bool :=
  match s.procInfo[i]? with
  | some proc => decide (proc.State = ProcState.READY)
  | none => false

/-- The index selected by the two loops of `NextProc(-1)`: the first READY process
among `currProc+1, ..., totalProcs-1`, and failing that among `0, ..., currProc`. -/
def NextProc.scan (s : Scheduler) : Option Nat :=
  match ((List.range s.procInfo.length).filter
      (fun (i : Nat) => decide (s.currProc + 1 ≤ (i : Int)))).find? s.isReady with
  | some i => some i
  | none => (List.range (s.currProc + 1).toNat).find? s.isReady

/-- `NextProc`: selects the next process to run (`pid = -1`: round robin). -/
def NextProc (s : Scheduler) (pid : Int) : Scheduler × Option SchedError :=
  if pid ≠ -1 then MoveToRunning { s with currProc := pid } ProcState.READY
  else
    match NextProc.scan s with
    | some i => MoveToRunning { s with currProc := (i : Int) } ProcState.READY
    | none => (s, none)

/-- `GetNumProcesses`. -/
def GetNumProcesses (s : Scheduler) : Int := s.procInfo.length

/-- `GetNumActive`: the number of processes that are not DONE. -/
def GetNumActive (s : Scheduler) : Nat :=
  s.procInfo.countP (fun proc => decide (proc.State ≠ ProcState.DONE))

/-- `GetNumRunnable`: the number of processes that are READY or RUNNING. -/
def GetNumRunnable (s : Scheduler) : Nat :=
  s.procInfo.countP
    (fun proc => decide (proc.State = ProcState.READY ∨ proc.State = ProcState.RUNNING))

/-- `CheckIfDone`. -/
def CheckIfDone (s : Scheduler) : Scheduler × Option SchedError :=
  if s.currProc = -1 then (s, some SchedError.noCurrentProcess)
  else
    match s.proc? s.currProc with
    | none => (s, some (SchedError.processDoesNotExist s.currProc))
    | some proc =>
      if proc.Code.length = 0 ∧ proc.State = ProcState.RUNNING then
        NextProc (s.setState s.currProc ProcState.DONE) (-1)
      else (s, none)

/-- `GetIOSInFlight`: the number of recorded finish times later than `currentTime`. -/
def GetIOSInFlight (s : Scheduler) (currentTime : Int) : Nat :=
  (s.ioFinishTimes.map (fun finishTimes => finishTimes.countP (fun t => decide (t > currentTime)))).sum

/-! ## The simulation loop -/

/-- A change of a process's `State`, with the `Code` the process had at that moment. -/
structure Transition where
  pid : Nat
  src : ProcState
  dst : ProcState
  code : List Instr
deriving DecidableEq

/-- The state changes between two versions of the process table, in PID order. -/
def stateChanges : Nat → List Process → List Process → List Transition
  | i, p :: ps, q :: qs =>
    if p.State ≠ q.State then
      { pid := i, src := p.State, dst := q.State, code := q.Code } :: stateChanges (i + 1) ps qs
    else stateChanges (i + 1) ps qs
  | _, _, _ => []

/-- The local variables of `Run` (`cpuBusy`, `ioBusy`, `clockTick`) with the scheduler,
and three ghost logs: the errors that `Run` discards, the state changes made by the
calls of `Run`, and the instructions executed (tick, PID, instruction). -/
structure RunState where
  s : Scheduler
  cpuBusy : Int
  ioBusy : Int
  clockTick : Int
  errs : List SchedError
  transitions : List Transition
  execs : List (Int × Int × Instr)
deriving DecidableEq

/-- A call `_ = op(...)` made by `Run`: the scheduler is updated, the error is
discarded (kept in the ghost log), as are the state changes the call made. -/
def RunState.call (r : RunState) (op : Scheduler → Scheduler × Option SchedError) : RunState :=
  { r with
    s := (op r.s).1
    errs := r.errs ++ (op r.s).2.toList
    transitions := r.transitions ++ stateChanges 0 r.s.procInfo (op r.s).1.procInfo }

/-- The test `s.procInfo[s.currProc].State == StateRunning`. -/
def Scheduler.currIsRunning (s : Scheduler) : Bool :=
  match s.proc? s.currProc with
  | some proc => decide (proc.State = ProcState.RUNNING)
  | none => false

/-- The `IO_RUN_IMMEDIATE` branch of the I/O-completion scan: demote the current
runner if it is another process, then force-select `pid`. -/
def ioRunImmediate (pid : Int) (r : RunState) : RunState :=
  let r :=
    if r.s.currProc ≠ pid ∧ r.s.currIsRunning = true then
      r.call (fun s => MoveToReady s ProcState.RUNNING s.currProc)
    else r
  r.call (fun s => NextProc s pid)

/-- The `else` (run later) branch of the I/O-completion scan. -/
def ioRunLater (pid : Int) (r : RunState) : RunState :=
  let r :=
    if r.s.processSwitchBehavior = SwitchBehavior.SWITCH_ON_END ∧ GetNumRunnable r.s > 1 then
      r.call (fun s => NextProc s pid)
    else r
  if GetNumRunnable r.s = 1 then r.call (fun s => NextProc s pid) else r

/-- The body of `if t == clockTick { ... }` in the I/O-completion scan, for `pid`. -/
def handleIODone (pid : Int) (r : RunState) : RunState :=
  let r := r.call (fun s => MoveToReady s ProcState.BLOCKED pid)
  let r :=
    if r.s.ioDoneBehavior = IODoneBehavior.IO_RUN_IMMEDIATE then ioRunImmediate pid r
    else ioRunLater pid r
  r.call CheckIfDone

/-- The inner loop `for _, t := range s.ioFinishTimes[pid]` of the scan. -/
def scanPid (r : RunState) (pid : Nat) : RunState :=
  (r.s.ioFinishTimes.getD pid []).foldl
    (fun r t => if t = r.clockTick then handleIODone (pid : Int) r else r) r

/-- The I/O-completion scan `for pid := range s.procInfo`, visiting the PIDs in the
order `order`. -/
def ioScan (order : List Nat) (r : RunState) : RunState :=
  order.foldl scanPid r

/-- The statement `s.ioFinishTimes[pid] = append(s.ioFinishTimes[pid], t)`.  `Run`
creates an entry for every PID before its loop, so the entry written here exists. -/
def Scheduler.recordFinish (s : Scheduler) (pid : Int) (t : Int) : Scheduler :=
  { s with ioFinishTimes := s.ioFinishTimes.set pid.toNat (s.ioFinishTimes.getD pid.toNat [] ++ [t]) }

/-- The execution step: if the current process is RUNNING and has an instruction, pop
it (`none` stands for `instructionToExecute == ""`). -/
def execStep (r : RunState) : RunState × Option Instr :=
  match r.s.proc? r.s.currProc with
  | some proc =>
    if proc.State = ProcState.RUNNING then
      match proc.Code with
      | instr :: rest =>
        ({ r with
           s := r.s.setCode r.s.currProc rest
           cpuBusy := r.cpuBusy + 1
           execs := r.execs ++ [(r.clockTick, r.s.currProc, instr)] }, some instr)
      | [] => (r, none)
    else (r, none)
  | none => (r, none)

/-- The block `if instructionToExecute == DoIO { ... }`: block the current process,
record when its I/O finishes, and switch if the policy says so.  The finish time is
computed on unbounded integers; `ioIssue64` computes it on 64 bits. -/
def ioIssue (r : RunState) : RunState :=
  let r := r.call (fun s => MoveToWait s ProcState.RUNNING)
  let r := { r with s := r.s.recordFinish r.s.currProc (r.clockTick + r.s.ioLength + 1) }
  if r.s.processSwitchBehavior = SwitchBehavior.SWITCH_ON_IO then
    r.call (fun s => NextProc s (-1))
  else r

/-- The part of the loop body after the trace output: I/O issue handling and the
completion check. -/
def afterExec (instructionToExecute : Option Instr) (r : RunState) : RunState :=
  let r := if instructionToExecute = some Instr.io then ioIssue r else r
  r.call CheckIfDone

/-- One iteration of the `for s.GetNumActive() > 0` loop of `Run`, with the clock and
the counters on unbounded integers; `tick64` is the iteration on 64 bits. -/
def tick (order : Int → List Nat) (r : RunState) : RunState :=
  let r := { r with clockTick := r.clockTick + 1 }
  let r := ioScan (order r.clockTick) r
  let ei := execStep r
  let r := ei.1
  let r := if GetIOSInFlight r.s r.clockTick > 0 then { r with ioBusy := r.ioBusy + 1 } else r
  afterExec ei.2 r

/-- The loop `for s.GetNumActive() > 0 { ... }`, at most `fuel` iterations. -/
def runLoop (order : Int → List Nat) : Nat → RunState → Option RunState
  | 0, r => if GetNumActive r.s > 0 then none else some r
  | fuel + 1, r => if GetNumActive r.s > 0 then runLoop order fuel (tick order r) else some r

/-- The state of `Run` when it reaches its loop: finish times reset, process 0 made
current and moved to RUNNING, counters at zero. -/
def runInit (s : Scheduler) : RunState :=
  let s := { s with ioFinishTimes := List.replicate s.procInfo.length [] }
  let s := { s with currProc := 0 }
  RunState.call
    { s := s, cpuBusy := 0, ioBusy := 0, clockTick := 0, errs := [], transitions := [], execs := [] }
    (fun s => MoveToRunning s ProcState.READY)

/-- `Run`, on unbounded integers (`Run64` is `Run` on 64-bit integers).  The result
carries the three returned counters `cpuBusy`, `ioBusy` and `clockTick`; `none` means
that the loop did not exit within `fuel` iterations. -/
def Run (order : Int → List Nat) (fuel : Nat) (s : Scheduler) : Option RunState :=
  if s.procInfo.length = 0 then
    some { s := s, cpuBusy := 0, ioBusy := 0, clockTick := 0, errs := [], transitions := [],
           execs := [] }
  else runLoop order fuel (runInit s)

/-! ## Views and invariants used by the proofs -/

/-- The state of the process with PID `p`; a PID outside the table reads as DONE. -/
def Scheduler.st (s : Scheduler) (p : Nat) : ProcState :=
  match s.procInfo[p]? with
  | some proc => proc.State
  | none => ProcState.DONE

/-- The remaining code of the process with PID `p` (empty outside the table). -/
def Scheduler.code (s : Scheduler) (p : Nat) : List Instr :=
  match s.procInfo[p]? with
  | some proc => proc.Code
  | none => []

/-- The finish times recorded for PID `p`. -/
def Scheduler.times (s : Scheduler) (p : Nat) : List Int := s.ioFinishTimes.getD p []

/-- The current process as a table index. -/
def Scheduler.cur (s : Scheduler) : Nat := s.currProc.toNat

/-- The five documented transitions; DONE is entered only with an empty `Code`. -/
def Documented (src dst : ProcState) (code : List Instr) : Prop :=
  (src = ProcState.READY ∧ dst = ProcState.RUNNING) ∨
  (src = ProcState.RUNNING ∧ dst = ProcState.READY) ∨
  (src = ProcState.RUNNING ∧ dst = ProcState.BLOCKED) ∨
  (src = ProcState.BLOCKED ∧ dst = ProcState.READY) ∨
  (src = ProcState.RUNNING ∧ dst = ProcState.DONE ∧ code = [])

/-- The structural invariant of the scheduler during `Run`. -/
structure Good (s : Scheduler) : Prop where
  cur_nonneg : 0 ≤ s.currProc
  cur_lt : s.cur < s.procInfo.length
  times_len : s.ioFinishTimes.length = s.procInfo.length
  running : ∀ p, s.st p = ProcState.RUNNING → p = s.cur
  ready : ∀ p, s.st p = ProcState.READY →
    s.st s.cur = ProcState.RUNNING ∨
      (s.processSwitchBehavior = SwitchBehavior.SWITCH_ON_END ∧ s.st s.cur = ProcState.BLOCKED)
  blocked : s.processSwitchBehavior = SwitchBehavior.SWITCH_ON_END →
    ∀ p, s.st p = ProcState.BLOCKED → p = s.cur
  done : ∀ p, s.st p = ProcState.DONE → s.code p = []

/-- A process is BLOCKED exactly when one of its recorded finish times is later than
`T`, and then exactly one is. -/
def TimeOK (T : Int) (s : Scheduler) (p : Nat) : Prop :=
  (s.times p).countP (fun t => decide (t > T)) = if s.st p = ProcState.BLOCKED then 1 else 0

/-- What a call made by `Run` may change: states along documented transitions, and
the current process; nothing else. -/
structure Evolves (s s' : Scheduler) : Prop where
  len : s'.procInfo.length = s.procInfo.length
  sw : s'.processSwitchBehavior = s.processSwitchBehavior
  iod : s'.ioDoneBehavior = s.ioDoneBehavior
  ioLength : s'.ioLength = s.ioLength
  times : s'.ioFinishTimes = s.ioFinishTimes
  code : ∀ p, s'.code p = s.code p
  trans : ∀ p, s'.st p = s.st p ∨ Documented (s.st p) (s'.st p) (s.code p)

/-- The total number of instructions left in the table. -/
def codeSum (s : Scheduler) : Nat := (s.procInfo.map (fun proc => proc.Code.length)).sum

/-- The total remaining waiting time at time `T`. -/
def waitSum (T : Int) (s : Scheduler) : Nat :=
  (s.ioFinishTimes.map (fun l => (l.map (fun t => (t - T).toNat)).sum)).sum

/-- The ghost logs are consistent with a run in which no call failed: no error was
discarded, every logged state change is a documented transition, and each process has
one logged entry into DONE exactly when it is DONE. -/
structure GhostOK (r : RunState) : Prop where
  errs : r.errs = []
  trans : ∀ t ∈ r.transitions, Documented t.src t.dst t.code
  doneOnce : ∀ p, r.transitions.countP (fun t => decide (t.pid = p ∧ t.dst = ProcState.DONE)) =
    if p < r.s.procInfo.length ∧ r.s.st p = ProcState.DONE then 1 else 0

/-- The state `r'` is reached from `r` by calls that change only process states and
the current process. -/
structure Calls (r r' : RunState) : Prop where
  ghost : GhostOK r → GhostOK r'
  clock : r'.clockTick = r.clockTick
  cpu : r'.cpuBusy = r.cpuBusy
  io : r'.ioBusy = r.ioBusy
  execs : r'.execs = r.execs
  len : r'.s.procInfo.length = r.s.procInfo.length
  sw : r'.s.processSwitchBehavior = r.s.processSwitchBehavior
  iod : r'.s.ioDoneBehavior = r.s.ioDoneBehavior
  ioLength : r'.s.ioLength = r.s.ioLength
  times : r'.s.ioFinishTimes = r.s.ioFinishTimes
  code : ∀ p, r'.s.code p = r.s.code p
  active : GetNumActive r'.s ≤ GetNumActive r.s
  done : ∀ p, r.s.st p = ProcState.DONE → r'.s.st p = ProcState.DONE

/-- What holds after the policy stage of an I/O completion of `p` that started in
scheduler state `s0`. -/
def PolicyPost (s0 : Scheduler) (p : Nat) (r r' : RunState) : Prop :=
  Calls r r' ∧ Good r'.s ∧ r'.s.st p ≠ ProcState.BLOCKED ∧
    ∀ q, q ≠ p → (r'.s.st q = ProcState.BLOCKED ↔ s0.st q = ProcState.BLOCKED)

/-- What every part of a tick preserves: the ghost invariant, the clock, the table
size, the configuration, and that DONE is final. -/
structure Frame (r r' : RunState) : Prop where
  ghost : GhostOK r → GhostOK r'
  clock : r'.clockTick = r.clockTick
  len : r'.s.procInfo.length = r.s.procInfo.length
  sw : r'.s.processSwitchBehavior = r.s.processSwitchBehavior
  iod : r'.s.ioDoneBehavior = r.s.ioDoneBehavior
  ioLength : r'.s.ioLength = r.s.ioLength
  done : ∀ p, r.s.st p = ProcState.DONE → r'.s.st p = ProcState.DONE

/-- The invariant of the loop of `Run`. -/
structure LoopInv (r : RunState) : Prop where
  good : Good r.s
  time : ∀ p, TimeOK r.clockTick r.s p
  ghost : GhostOK r
  ioLen : 0 ≤ r.s.ioLength

/-- The termination measure of the loop of `Run`: every instruction left weighs
`ioLength + 2`, every process that is not DONE weighs one, and every pending I/O weighs
the time left until it finishes. -/
def potential (r : RunState) : Nat :=
  (r.s.ioLength.toNat + 2) * codeSum r.s + GetNumActive r.s + waitSum r.clockTick r.s

/-! ## Specification-level functions for the loaders -/

/-- The table after a new process with the given `Code` has been added. -/
def Scheduler.withNewProcess (s : Scheduler) (code : List Instr) : Scheduler :=
  { s with procInfo := s.procInfo ++ [{ PID := (s.procInfo.length : Int), PC := 0, Code := code,
                                        State := ProcState.READY, IOTime := 0 }] }

/-- The instructions appended and the error returned by the loop of `LoadProgram`, as
a function of the list of tokens alone. -/
def tokensCode : List (List Char) → List Instr × Option SchedError
  | [] => ([], none)
  | instr :: rest =>
    match instr with
    | [] => tokensCode rest
    | opcode :: arg =>
      if opcode = 'c' then
        match Atoi arg with
        | none => ([], some (SchedError.invalidComputeInstructions instr))
        | some num =>
          (List.replicate num.toNat Instr.cpu ++ (tokensCode rest).1, (tokensCode rest).2)
      else if opcode = 'i' then
        ([Instr.io, Instr.io_done] ++ (tokensCode rest).1, (tokensCode rest).2)
      else ([], some (SchedError.badOpcode opcode))

/-- The instructions appended by the loop of `Load`, as a function of the draws. -/
def drawsCode (chanceCPU : GoFloat) (draws : Nat → ℚ) : Nat → Nat → List Instr
  | 0, _ => []
  | k + 1, i =>
    (if GoFloat.drawLt (draws i) chanceCPU then [Instr.cpu] else [Instr.io, Instr.io_done]) ++
      drawsCode chanceCPU draws k (i + 1)

/-- A token that the loop of `LoadProgram` rejects: it is not empty and either starts
with a character other than `c` and `i`, or starts with `c` and `strconv.Atoi` rejects
the rest. -/
def RejectedToken (tok : List Char) : Prop :=
  ∃ opcode arg, tok = opcode :: arg ∧
    ((opcode ≠ 'c' ∧ opcode ≠ 'i') ∨ (opcode = 'c' ∧ Atoi arg = none))

/-- A decimal numeral: one or more decimal digits. -/
def IsNumeral (ds : List Char) : Prop := ds ≠ [] ∧ ∀ c ∈ ds, isDigit c = true

/-- A token of a well-formed explicit-opcode program, in the words of the
specification: empty, `i`, or `c` followed by a positive integer. -/
def WellFormedToken (tok : List Char) : Prop :=
  tok = [] ∨ tok = ['i'] ∨ ∃ ds, tok = 'c' :: ds ∧ IsNumeral ds ∧ 0 < decimalValue ds

/-- The expansion of a token according to the specification: `n` CPU instructions for
`cn`, the pair I/O-issue, I/O-complete for `i`, nothing for the empty token. -/
def expandToken (tok : List Char) : List Instr :=
  match tok with
  | [] => []
  | opcode :: arg =>
    if opcode = 'c' then List.replicate (decimalValue arg) Instr.cpu
    else if opcode = 'i' then [Instr.io, Instr.io_done]
    else []

/-- The number of instructions of kind `i` in the table. -/
def countInstr (i : Instr) (s : Scheduler) : Nat :=
  (s.procInfo.map (fun proc => proc.Code.count i)).sum

/-- A number of loop iterations within which `Run` always finishes. -/
def fuelBound (s : Scheduler) : Nat := (s.ioLength.toNat + 2) * codeSum s + s.procInfo.length

/-- The table of the end-to-end scenario of the specification: `"c2,i,c1"` then
`"c3"`, switch on I/O, run later, I/O length 2. -/
def scenario : Scheduler :=
  (LoadProgram (LoadProgram
    (NewScheduler SwitchBehavior.SWITCH_ON_IO IODoneBehavior.IO_RUN_LATER 2) "c2,i,c1".toList).1
    "c3".toList).1

/-- The table holding the single process `"i"`, switch on I/O, run later, I/O length 0. -/
def ioOnly : Scheduler :=
  (LoadProgram (NewScheduler SwitchBehavior.SWITCH_ON_IO IODoneBehavior.IO_RUN_LATER 0) "i".toList).1

/-! ## Specification-level notions for the operations and for runs -/

/-- The order in which round-robin selection examines the PIDs of a table of `n`
processes: `currProc+1, ..., n-1, 0, ..., currProc`. -/
def roundRobinOrder (n : Nat) (currProc : Int) : List Nat :=
  (List.range n).rotate (currProc + 1).toNat

/-- The contract of a transition operation `op` whose target process is `target`: it
returns an error exactly when the target does not exist or is not in the `expected`
state; on error nothing changes; on success the `State` of the target, and nothing
else, becomes `newState`. -/
def TransitionContract (op : Scheduler → Scheduler × Option SchedError) (s : Scheduler)
    (target : Int) (expected newState : ProcState) : Prop :=
  ((op s).2.isSome = true ↔
      (s.proc? target = none ∨ ∃ proc, s.proc? target = some proc ∧ proc.State ≠ expected)) ∧
    ((op s).2.isSome = true → (op s).1 = s) ∧
    ((op s).2 = none →
      ∃ proc, s.proc? target = some proc ∧ proc.State = expected ∧
        (op s).1 = { s with procInfo := s.procInfo.set target.toNat { proc with State := newState } })

/-- A creation of a process: `NewProcess`, `LoadProgram(program)` or
`Load(programDescription)`, the latter with the draws that its calls of
`rand.Float64()` return. -/
inductive Creation where
  | newProcess
  | loadProgram (program : List Char)
  | load (programDescription : List Char) (draws : Nat → ℚ)

/-- The effect of one creation. -/
def Creation.run (parseFloat : List Char → Option GoFloat) (s : Scheduler) :
    Creation → Scheduler × Option SchedError
  | Creation.newProcess => ((NewProcess s).1, none)
  | Creation.loadProgram program => LoadProgram s program
  | Creation.load programDescription draws => Load parseFloat draws s programDescription

/-- A sequence of creations, all of which succeed (`none` as soon as one fails). -/
def createAll (parseFloat : List Char → Option GoFloat) : Scheduler → List Creation → Option Scheduler
  | s, [] => some s
  | s, c :: cs =>
    match (c.run parseFloat s).2 with
    | none => createAll parseFloat (c.run parseFloat s).1 cs
    | some _ => none

/-- The state of `Run` after `k` iterations of its loop. -/
def runState (order : Int → List Nat) (s : Scheduler) : Nat → RunState
  | 0 => runInit s
  | k + 1 => tick order (runState order s k)

/-- The loop of `Run` makes at least `k` iterations: its condition holds in each of
the first `k` states. -/
def LoopRuns (order : Int → List Nat) (s : Scheduler) (k : Nat) : Prop :=
  ∀ i, i < k → 0 < GetNumActive (runState order s i).s

/-- The state inside the next tick, right after its I/O-completion scan. -/
def scanned (order : Int → List Nat) (r : RunState) : RunState :=
  ioScan (order (r.clockTick + 1)) { r with clockTick := r.clockTick + 1 }

/-- Every `io` instruction is immediately followed by an `io_done` instruction. -/
def IoFollowed (code : List Instr) : Prop :=
  ∀ i, code[i]? = some Instr.io → code[i + 1]? = some Instr.io_done

/-- Every `io_done` instruction is immediately preceded by an `io` instruction. -/
def IoDonePreceded (code : List Instr) : Prop :=
  ∀ i, code[i]? = some Instr.io_done → ∃ j, i = j + 1 ∧ code[j]? = some Instr.io

/-- Every `io_done` instruction other than the front one is immediately preceded by
an `io` instruction. -/
def IoDonePrecededAfterFront (code : List Instr) : Prop :=
  ∀ i, code[i + 1]? = some Instr.io_done → code[i]? = some Instr.io

/-! ## Specification-level notions for run traces -/

/-- The length of the longest `Code` in the table. -/
def maxCodeLength (s : Scheduler) : Nat :=
  (s.procInfo.map (fun proc => proc.Code.length)).foldr max 0

/-- The number of processes whose `State` is RUNNING. -/
def numRunning (s : Scheduler) : Nat :=
  s.procInfo.countP (fun proc => decide (proc.State = ProcState.RUNNING))

/-- What the operations called by `Run` keep: the table size, the configuration, the
recorded finish times and every `Code`. -/
structure SameData (s s' : Scheduler) : Prop where
  len : s'.procInfo.length = s.procInfo.length
  sw : s'.processSwitchBehavior = s.processSwitchBehavior
  iod : s'.ioDoneBehavior = s.ioDoneBehavior
  ioLength : s'.ioLength = s.ioLength
  times : s'.ioFinishTimes = s.ioFinishTimes
  code : ∀ p, s'.code p = s.code p

/-- Between `s` and `s'` only the current process and process states differ, and
every process `p` whose state differs went from a state `a` to a state `b` with
`A p a b`. -/
structure Moves (A : Nat → ProcState → ProcState → Prop) (s s' : Scheduler) : Prop where
  data : SameData s s'
  st : ∀ p, s'.st p ≠ s.st p → A p (s.st p) (s'.st p)

/-- The transitions logged between `r` and the later state `r'`. -/
def newTransitions (r r' : RunState) : List Transition :=
  r'.transitions.drop r.transitions.length

/-- The state `r'` is reached from `r` by steps that keep the table size, that add to
the log of transitions only entries satisfying `Q`, and that log every change of a
process state. -/
def Logged (Q : Transition → Prop) (r r' : RunState) : Prop :=
  r'.s.procInfo.length = r.s.procInfo.length ∧
  ∃ new, r'.transitions = r.transitions ++ new ∧ (∀ x ∈ new, Q x) ∧
    ∀ p, r'.s.st p ≠ r.s.st p → ∃ x ∈ new, x.pid = p ∧ x.src = r.s.st p

/-- The statement `if s.GetIOSInFlight(clockTick) > 0 { ioBusy++ }` of the loop body. -/
def ioBusyStep (r : RunState) : RunState :=
  if GetIOSInFlight r.s r.clockTick > 0 then { r with ioBusy := r.ioBusy + 1 } else r

/-- A table for the I/O-done policy `IO_RUN_IMMEDIATE`: `"i"` then `"c3"`, switch on
I/O, I/O length 1. -/
def immediateScenario : Scheduler :=
  (LoadProgram (LoadProgram
    (NewScheduler SwitchBehavior.SWITCH_ON_IO IODoneBehavior.IO_RUN_IMMEDIATE 1) "i".toList).1
    "c3".toList).1

/-- The facts that hold in the state after `k` iterations of the loop of `Run`. -/
structure RunFacts (order : Int → List Nat) (s : Scheduler) (k : Nat) : Prop where
  inv : LoopInv (runState order s k)
  clock : (runState order s k).clockTick = (k : Int)
  len : (runState order s k).s.procInfo.length = s.procInfo.length
  sw : (runState order s k).s.processSwitchBehavior = s.processSwitchBehavior
  iod : (runState order s k).s.ioDoneBehavior = s.ioDoneBehavior
  ioLength : (runState order s k).s.ioLength = s.ioLength
  perm : (order ((runState order s k).clockTick + 1)).Perm
    (List.range (runState order s k).s.procInfo.length)
  execs_le : ∀ e ∈ (runState order s k).execs, e.1 ≤ (k : Int)
  times_le : ∀ p, ∀ x ∈ (runState order s k).s.times p, x ≤ (k : Int) + s.ioLength + 1
  times_inj : ∀ p q x, x ∈ (runState order s k).s.times p →
    x ∈ (runState order s k).s.times q → p = q

/-! ## Notions for runs on arbitrary tables -/

/-- A process that is DONE has no instruction left. -/
def DoneEmpty (s : Scheduler) : Prop := ∀ p, s.st p = ProcState.DONE → s.code p = []

/-- The state `r'` is reached from `r` by calls of the scheduler's operations only:
the table data, the counters, the clock and the log of executed instructions are the
same, and a process that is DONE still has an empty `Code`. -/
structure Quiet (r r' : RunState) : Prop where
  data : SameData r.s r'.s
  cpu : r'.cpuBusy = r.cpuBusy
  io : r'.ioBusy = r.ioBusy
  clock : r'.clockTick = r.clockTick
  execs : r'.execs = r.execs
  done : DoneEmpty r.s → DoneEmpty r'.s

/-- The instructions that process `p` has executed, in the order of execution,
according to the log of executed instructions. -/
def executedBy (p : Nat) (execs : List (Int × Int × Instr)) : List Instr :=
  (execs.filter (fun e => decide (e.2.1 = (p : Int)))).map (fun e => e.2.2)

/-- The effect of one iteration of the loop of `Run` on an arbitrary state: the
completion scan only calls operations; then either no instruction is executed, or
the current process `c`, which is RUNNING, executes and loses the front instruction
of its `Code`, and when that instruction is `io` the finish time
`clockTick + ioLength + 1` is recorded for `c` and `c` ends the tick BLOCKED. -/
structure TickEffect (order : Int → List Nat) (r : RunState) : Prop where
  scan : Quiet { r with clockTick := r.clockTick + 1 } (scanned order r)
  clock : (tick order r).clockTick = r.clockTick + 1
  ioBusy : (tick order r).ioBusy =
    r.ioBusy + (if GetIOSInFlight r.s (r.clockTick + 1) > 0 then 1 else 0)
  done : DoneEmpty r.s → DoneEmpty (tick order r).s
  blocked : ∀ p, (scanned order r).s.st p = ProcState.BLOCKED →
    (tick order r).s.st p = ProcState.BLOCKED
  exec :
    ((execStep (scanned order r)).2 = none ∧ SameData r.s (tick order r).s ∧
      (tick order r).cpuBusy = r.cpuBusy ∧ (tick order r).execs = r.execs) ∨
    ∃ (c : Nat) (instr : Instr) (rest : List Instr),
      (execStep (scanned order r)).2 = some instr ∧
      (scanned order r).s.currProc = (c : Int) ∧ c < r.s.procInfo.length ∧
      (scanned order r).s.st c = ProcState.RUNNING ∧ r.s.code c = instr :: rest ∧
      SameData
        (if instr = Instr.io then
          (r.s.setCode (c : Int) rest).recordFinish (c : Int)
            (r.clockTick + 1 + r.s.ioLength + 1)
        else r.s.setCode (c : Int) rest)
        (tick order r).s ∧
      (tick order r).cpuBusy = r.cpuBusy + 1 ∧
      (tick order r).execs = r.execs ++ [(r.clockTick + 1, (c : Int), instr)] ∧
      (instr = Instr.io → (tick order r).s.st c = ProcState.BLOCKED)

/-- The table holding the single process `"i"`, with the given policies and I/O
length. -/
def ioTable (sw : SwitchBehavior) (iod : IODoneBehavior) (ioLength : Int) : Scheduler :=
  (LoadProgram (NewScheduler sw iod ioLength) "i".toList).1

/-- What holds in the state after `k` iterations of the loop of `Run`, whatever the
table, the configuration and the scan order. -/
structure TraceFacts (order : Int → List Nat) (s : Scheduler) (k : Nat) : Prop where
  clock : (runState order s k).clockTick = (k : Int)
  len : (runState order s k).s.procInfo.length = s.procInfo.length
  sw : (runState order s k).s.processSwitchBehavior = s.processSwitchBehavior
  iod : (runState order s k).s.ioDoneBehavior = s.ioDoneBehavior
  ioLength : (runState order s k).s.ioLength = s.ioLength
  timesLen : (runState order s k).s.ioFinishTimes.length = s.procInfo.length
  cpu : (runState order s k).cpuBusy + (codeSum (runState order s k).s : Int) = (codeSum s : Int)
  cpu_le : (runState order s k).cpuBusy ≤ (k : Int)
  executed : ∀ p, executedBy p (runState order s k).execs ++ (runState order s k).s.code p =
    s.code p
  execs_le : ∀ e ∈ (runState order s k).execs, 1 ≤ e.1 ∧ e.1 ≤ (k : Int)
  execs_sorted : ((runState order s k).execs.map (fun e => e.1)).Pairwise (fun a b => a < b)
  times_le : ∀ p, ∀ x ∈ (runState order s k).s.times p, x ≤ (k : Int) + s.ioLength + 1
  times_inj : ∀ p q x, x ∈ (runState order s k).s.times p →
    x ∈ (runState order s k).s.times q → p = q
  times_nodup : ∀ p, ((runState order s k).s.times p).Nodup
  done : DoneEmpty s → DoneEmpty (runState order s k).s

/-! ## `Run` on 64-bit integers

Go's `int` is a 64-bit two's complement integer, and the four arithmetic statements of
`Run` (`clockTick++`, `cpuBusy++`, `ioBusy++` and `clockTick + s.ioLength + 1`) wrap
around.  The definitions below are `Run` and its parts with exactly these four
statements computed on 64 bits; everything else is shared with `Run`.  `Run64` and
`Run` agree as long as no value leaves the 64-bit range (`Run64_eq_Run`). -/

/-- The value of a Go `int` expression whose mathematical value is `x`: two's
complement wrap-around to 64 bits (`9223372036854775808` is `2^63` and
`18446744073709551616` is `2^64`). -/
def wrap64 (x : Int) : Int :=
  (x + 9223372036854775808) % 18446744073709551616 - 9223372036854775808

/-- The integer `x` is a value of Go's `int`. -/
def InRange64 (x : Int) : Prop := -2 ^ 63 ≤ x ∧ x < 2 ^ 63

/-- No arithmetic of `Run` leaves the 64-bit range during the first `n` ticks:
`ioLength` is a Go `int`, and neither the clock (at most `n`) nor a finish time
recorded by then (at most `n + ioLength + 1`) reaches `2^63`. -/
def NoOverflow (s : Scheduler) (n : Nat) : Prop :=
  -2 ^ 63 ≤ s.ioLength ∧ (n : Int) < 2 ^ 63 ∧ (n : Int) + s.ioLength + 1 < 2 ^ 63

/-- The execution step of `Run` with `cpuBusy++` on 64 bits. -/
def execStep64 (r : RunState) : RunState × Option Instr :=
  match r.s.proc? r.s.currProc with
  | some proc =>
    if proc.State = ProcState.RUNNING then
      match proc.Code with
      | instr :: rest =>
        ({ r with
           s := r.s.setCode r.s.currProc rest
           cpuBusy := wrap64 (r.cpuBusy + 1)
           execs := r.execs ++ [(r.clockTick, r.s.currProc, instr)] }, some instr)
      | [] => (r, none)
    else (r, none)
  | none => (r, none)

/-- The block `if instructionToExecute == DoIO { ... }` with the finish time
`clockTick + s.ioLength + 1` computed on 64 bits, left to right. -/
def ioIssue64 (r : RunState) : RunState :=
  let r := r.call (fun s => MoveToWait s ProcState.RUNNING)
  let r := { r with s := r.s.recordFinish r.s.currProc
                      (wrap64 (wrap64 (r.clockTick + r.s.ioLength) + 1)) }
  if r.s.processSwitchBehavior = SwitchBehavior.SWITCH_ON_IO then
    r.call (fun s => NextProc s (-1))
  else r

/-- The part of the loop body after the trace output, on 64 bits. -/
def afterExec64 (instructionToExecute : Option Instr) (r : RunState) : RunState :=
  let r := if instructionToExecute = some Instr.io then ioIssue64 r else r
  r.call CheckIfDone

/-- The statement `if numOutStanding > 0 { ioBusy++ }` on 64 bits. -/
def ioBusyStep64 (r : RunState) : RunState :=
  if GetIOSInFlight r.s r.clockTick > 0 then { r with ioBusy := wrap64 (r.ioBusy + 1) } else r

/-- One iteration of the loop of `Run` on 64 bits. -/
def tick64 (order : Int → List Nat) (r : RunState) : RunState :=
  let r := { r with clockTick := wrap64 (r.clockTick + 1) }
  let r := ioScan (order r.clockTick) r
  let ei := execStep64 r
  afterExec64 ei.2 (ioBusyStep64 ei.1)

/-- The loop `for s.GetNumActive() > 0 { ... }` on 64 bits, at most `fuel` iterations. -/
def runLoop64 (order : Int → List Nat) : Nat → RunState → Option RunState
  | 0, r => if GetNumActive r.s > 0 then none else some r
  | fuel + 1, r =>
    if GetNumActive r.s > 0 then runLoop64 order fuel (tick64 order r) else some r

/-- `Run` on 64-bit integers: what the Go program computes for every input.  `none`
means that the loop did not exit within `fuel` iterations. -/
def Run64 (order : Int → List Nat) (fuel : Nat) (s : Scheduler) : Option RunState :=
  if s.procInfo.length = 0 then
    some { s := s, cpuBusy := 0, ioBusy := 0, clockTick := 0, errs := [], transitions := [],
           execs := [] }
  else runLoop64 order fuel (runInit s)

/-- The state of `Run64` after `k` iterations of its loop. -/
def runState64 (order : Int → List Nat) (s : Scheduler) : Nat → RunState
  | 0 => runInit s
  | k + 1 => tick64 order (runState64 order s k)

/-- The loop of `Run64` makes at least `k` iterations. -/
def LoopRuns64 (order : Int → List Nat) (s : Scheduler) (k : Nat) : Prop :=
  ∀ i, i < k → 0 < GetNumActive (runState64 order s i).s

/-- The state inside the next tick of `Run64`, right after its I/O-completion scan. -/
def scanned64 (order : Int → List Nat) (r : RunState) : RunState :=
  ioScan (order (wrap64 (r.clockTick + 1))) { r with clockTick := wrap64 (r.clockTick + 1) }

/-- The state of the run of the single process `"i"` (policies `SWITCH_ON_END`,
`IO_RUN_LATER`, I/O length `L`) while its I/O is pending: the `io` was executed at
tick 1, the finish time `F` is recorded, the clock is `c` and the I/O-busy count `b`. -/
def pendingState (L F c b : Int) : RunState :=
  { s := { currProc := 0
           procInfo := [{ PID := 0, PC := 0, Code := [Instr.io_done],
                          State := ProcState.BLOCKED, IOTime := 0 }]
           processSwitchBehavior := SwitchBehavior.SWITCH_ON_END
           ioDoneBehavior := IODoneBehavior.IO_RUN_LATER
           ioLength := L
           ioFinishTimes := [[F]] }
    cpuBusy := 1
    ioBusy := b
    clockTick := c
    errs := []
    transitions := [{ pid := 0, src := ProcState.READY, dst := ProcState.RUNNING,
                      code := [Instr.io, Instr.io_done] },
                    { pid := 0, src := ProcState.RUNNING, dst := ProcState.BLOCKED,
                      code := [Instr.io_done] }]
    execs := [(1, 0, Instr.io)] }

/-! ## Validity of the current process -/

/-- The field `currProc` is -1 or the PID of a process of the table. -/
def ValidCur (s : Scheduler) : Prop :=
  s.currProc = -1 ∨ (0 ≤ s.currProc ∧ s.currProc < (s.procInfo.length : Int))

/-- Between `s` and `s'` the table keeps its size and `currProc` stays valid. -/
def KeepsCur (s s' : Scheduler) : Prop :=
  s'.procInfo.length = s.procInfo.length ∧ (ValidCur s → ValidCur s')

/-- The schedulers reached from `NewScheduler` by a sequence of calls of the
scheduler's operations, with any arguments and whether or not a call returns an error,
in which `NextProc` is called with -1 or with the PID of a process of the table, as
every call in the program is.  The scan order given to `Run` lists PIDs of the table;
`Run` is taken on 64-bit integers, and also on unbounded integers. -/
inductive Reached (parseFloat : List Char → Option GoFloat) : Scheduler → Prop
  | newScheduler (sw : SwitchBehavior) (iod : IODoneBehavior) (ioLength : Int) :
      Reached parseFloat (NewScheduler sw iod ioLength)
  | create (s : Scheduler) (c : Creation) :
      Reached parseFloat s → Reached parseFloat (c.run parseFloat s).1
  | moveToReady (s : Scheduler) (expected : ProcState) (pid : Int) :
      Reached parseFloat s → Reached parseFloat (MoveToReady s expected pid).1
  | moveToWait (s : Scheduler) (expected : ProcState) :
      Reached parseFloat s → Reached parseFloat (MoveToWait s expected).1
  | moveToRunning (s : Scheduler) (expected : ProcState) :
      Reached parseFloat s → Reached parseFloat (MoveToRunning s expected).1
  | moveToDone (s : Scheduler) (expected : ProcState) :
      Reached parseFloat s → Reached parseFloat (MoveToDone s expected).1
  | nextProc (s : Scheduler) (pid : Int) :
      Reached parseFloat s → (pid = -1 ∨ (0 ≤ pid ∧ pid < (s.procInfo.length : Int))) →
      Reached parseFloat (NextProc s pid).1
  | checkIfDone (s : Scheduler) :
      Reached parseFloat s → Reached parseFloat (CheckIfDone s).1
  | run64 (s : Scheduler) (order : Int → List Nat) (fuel : Nat) (r : RunState) :
      Reached parseFloat s → (∀ t, ∀ p ∈ order t, p < s.procInfo.length) →
      Run64 order fuel s = some r → Reached parseFloat r.s
  | run (s : Scheduler) (order : Int → List Nat) (fuel : Nat) (r : RunState) :
      Reached parseFloat s → (∀ t, ∀ p ∈ order t, p < s.procInfo.length) →
      Run order fuel s = some r → Reached parseFloat r.s

/-! ## Lemmas and theorems -/

open ProcState

/-! ## Lemmas -/

@[simp]
theorem proc?_natCast (s : Scheduler) (c : Nat) : s.proc? (c : Int) = s.procInfo[c]? := by
  simp [Scheduler.proc?]

theorem st_of_get (s : Scheduler) {p : Nat} {proc : Process} (h : s.procInfo[p]? = some proc) :
    s.st p = proc.State := by simp [Scheduler.st, h]

theorem lt_of_st_ne_done (s : Scheduler) {p : Nat} (h : s.st p ≠ DONE) : p < s.procInfo.length := by
  by_contra hlt
  have : s.procInfo[p]? = none := by simp at hlt; simp [hlt]
  simp [Scheduler.st, this] at h

theorem setState_procInfo (s : Scheduler) (c : Nat) (v : ProcState) :
    (s.setState (c : Int) v).procInfo = List.modify (fun proc => { proc with State := v }) c s.procInfo := by
  unfold Scheduler.setState
  rw [proc?_natCast]
  cases h : s.procInfo[c]? with
  | none =>
    simp
    rw [List.getElem?_eq_none_iff] at h
    apply List.ext_getElem?
    intro m
    rw [List.getElem?_modify]
    by_cases hm : c = m
    · subst hm; simp [List.getElem?_eq_none_iff.mpr h]
    · simp [hm]
  | some proc =>
    simp
    apply List.ext_getElem?
    intro m
    rw [List.getElem?_modify, List.getElem?_set]
    by_cases hm : c = m
    · subst hm
      have hlt : c < s.procInfo.length := by
        by_contra hh; simp at hh; simp [List.getElem?_eq_none_iff.mpr hh] at h
      simp [h, hlt]
    · simp [hm]

@[simp]
theorem setState_currProc (s : Scheduler) (c : Int) (v : ProcState) :
    (s.setState c v).currProc = s.currProc := by
  unfold Scheduler.setState; split <;> rfl
@[simp]
theorem setState_sw (s : Scheduler) (c : Int) (v : ProcState) :
    (s.setState c v).processSwitchBehavior = s.processSwitchBehavior := by
  unfold Scheduler.setState; split <;> rfl
@[simp]
theorem setState_iod (s : Scheduler) (c : Int) (v : ProcState) :
    (s.setState c v).ioDoneBehavior = s.ioDoneBehavior := by
  unfold Scheduler.setState; split <;> rfl
@[simp]
theorem setState_ioLength (s : Scheduler) (c : Int) (v : ProcState) :
    (s.setState c v).ioLength = s.ioLength := by
  unfold Scheduler.setState; split <;> rfl
@[simp]
theorem setState_times (s : Scheduler) (c : Int) (v : ProcState) :
    (s.setState c v).ioFinishTimes = s.ioFinishTimes := by
  unfold Scheduler.setState; split <;> rfl
@[simp]
theorem setState_length (s : Scheduler) (c : Int) (v : ProcState) :
    (s.setState c v).procInfo.length = s.procInfo.length := by
  unfold Scheduler.setState; split <;> simp
@[simp]
theorem setState_cur (s : Scheduler) (c : Int) (v : ProcState) :
    (s.setState c v).cur = s.cur := by simp [Scheduler.cur]

theorem setState_st (s : Scheduler) (c : Nat) (v : ProcState) (p : Nat) :
    (s.setState (c : Int) v).st p = if p = c ∧ c < s.procInfo.length then v else s.st p := by
  unfold Scheduler.st
  rw [setState_procInfo, List.getElem?_modify]
  by_cases hm : p = c
  · subst hm
    by_cases hlt : p < s.procInfo.length
    · simp [hlt, List.getElem?_eq_getElem hlt]
    · have : s.procInfo[p]? = none := by simp at hlt; simp [hlt]
      simp [hlt, this]
  · have : ¬ c = p := fun h => hm h.symm
    simp [hm, this]

@[simp]
theorem setState_code (s : Scheduler) (c : Nat) (v : ProcState) (p : Nat) :
    (s.setState (c : Int) v).code p = s.code p := by
  unfold Scheduler.code
  rw [setState_procInfo, List.getElem?_modify]
  cases s.procInfo[p]? <;> simp
  split <;> rfl

@[simp]
theorem setState_times' (s : Scheduler) (c : Int) (v : ProcState) (p : Nat) :
    (s.setState c v).times p = s.times p := by simp [Scheduler.times]

theorem setCode_procInfo (s : Scheduler) (c : Nat) (code : List Instr) :
    (s.setCode (c : Int) code).procInfo =
      List.modify (fun proc => { proc with Code := code }) c s.procInfo := by
  unfold Scheduler.setCode
  rw [proc?_natCast]
  cases h : s.procInfo[c]? with
  | none =>
    simp
    rw [List.getElem?_eq_none_iff] at h
    apply List.ext_getElem?
    intro m
    rw [List.getElem?_modify]
    by_cases hm : c = m
    · subst hm; simp [List.getElem?_eq_none_iff.mpr h]
    · simp [hm]
  | some proc =>
    simp
    apply List.ext_getElem?
    intro m
    rw [List.getElem?_modify, List.getElem?_set]
    by_cases hm : c = m
    · subst hm
      have hlt : c < s.procInfo.length := by
        by_contra hh; simp at hh; simp [List.getElem?_eq_none_iff.mpr hh] at h
      simp [h, hlt]
    · simp [hm]

@[simp]
theorem setCode_currProc (s : Scheduler) (c : Int) (v : List Instr) :
    (s.setCode c v).currProc = s.currProc := by
  unfold Scheduler.setCode; split <;> rfl
@[simp]
theorem setCode_sw (s : Scheduler) (c : Int) (v : List Instr) :
    (s.setCode c v).processSwitchBehavior = s.processSwitchBehavior := by
  unfold Scheduler.setCode; split <;> rfl
@[simp]
theorem setCode_iod (s : Scheduler) (c : Int) (v : List Instr) :
    (s.setCode c v).ioDoneBehavior = s.ioDoneBehavior := by
  unfold Scheduler.setCode; split <;> rfl
@[simp]
theorem setCode_ioLength (s : Scheduler) (c : Int) (v : List Instr) :
    (s.setCode c v).ioLength = s.ioLength := by
  unfold Scheduler.setCode; split <;> rfl
@[simp]
theorem setCode_times (s : Scheduler) (c : Int) (v : List Instr) :
    (s.setCode c v).ioFinishTimes = s.ioFinishTimes := by
  unfold Scheduler.setCode; split <;> rfl
@[simp]
theorem setCode_length (s : Scheduler) (c : Int) (v : List Instr) :
    (s.setCode c v).procInfo.length = s.procInfo.length := by
  unfold Scheduler.setCode; split <;> simp
@[simp]
theorem setCode_cur (s : Scheduler) (c : Int) (v : List Instr) :
    (s.setCode c v).cur = s.cur := by simp [Scheduler.cur]

@[simp]
theorem setCode_st (s : Scheduler) (c : Nat) (v : List Instr) (p : Nat) :
    (s.setCode (c : Int) v).st p = s.st p := by
  unfold Scheduler.st
  rw [setCode_procInfo, List.getElem?_modify]
  cases s.procInfo[p]? <;> simp
  split <;> rfl

theorem setCode_code (s : Scheduler) (c : Nat) (v : List Instr) (p : Nat) :
    (s.setCode (c : Int) v).code p = if p = c ∧ c < s.procInfo.length then v else s.code p := by
  unfold Scheduler.code
  rw [setCode_procInfo, List.getElem?_modify]
  by_cases hm : p = c
  · subst hm
    by_cases hlt : p < s.procInfo.length
    · simp [hlt, List.getElem?_eq_getElem hlt]
    · have : s.procInfo[p]? = none := by simp at hlt; simp [hlt]
      simp [hlt, this]
  · have : ¬ c = p := fun h => hm h.symm
    simp [hm, this]

@[simp]
theorem setCode_times' (s : Scheduler) (c : Int) (v : List Instr) (p : Nat) :
    (s.setCode c v).times p = s.times p := by simp [Scheduler.times]

/-! ### Changing the current process -/

@[simp]
theorem withCur_st (s : Scheduler) (x : Int) (p : Nat) :
    Scheduler.st { s with currProc := x } p = s.st p := rfl
@[simp]
theorem withCur_code (s : Scheduler) (x : Int) (p : Nat) :
    Scheduler.code { s with currProc := x } p = s.code p := rfl
@[simp]
theorem withCur_times (s : Scheduler) (x : Int) (p : Nat) :
    Scheduler.times { s with currProc := x } p = s.times p := rfl
@[simp]
theorem withCur_cur (s : Scheduler) (x : Nat) :
    Scheduler.cur { s with currProc := (x : Int) } = x := by simp [Scheduler.cur]

/-! ### Recording a finish time -/

@[simp]
theorem recordFinish_st (s : Scheduler) (c t : Int) (p : Nat) : (s.recordFinish c t).st p = s.st p := rfl
@[simp]
theorem recordFinish_code (s : Scheduler) (c t : Int) (p : Nat) :
    (s.recordFinish c t).code p = s.code p := rfl
@[simp]
theorem recordFinish_procInfo (s : Scheduler) (c t : Int) : (s.recordFinish c t).procInfo = s.procInfo := rfl
@[simp]
theorem recordFinish_currProc (s : Scheduler) (c t : Int) : (s.recordFinish c t).currProc = s.currProc := rfl
@[simp]
theorem recordFinish_cur (s : Scheduler) (c t : Int) : (s.recordFinish c t).cur = s.cur := rfl
@[simp]
theorem recordFinish_sw (s : Scheduler) (c t : Int) :
    (s.recordFinish c t).processSwitchBehavior = s.processSwitchBehavior := rfl
@[simp]
theorem recordFinish_iod (s : Scheduler) (c t : Int) :
    (s.recordFinish c t).ioDoneBehavior = s.ioDoneBehavior := rfl
@[simp]
theorem recordFinish_ioLength (s : Scheduler) (c t : Int) : (s.recordFinish c t).ioLength = s.ioLength := rfl
@[simp]
theorem recordFinish_length (s : Scheduler) (c t : Int) :
    (s.recordFinish c t).ioFinishTimes.length = s.ioFinishTimes.length := by
  simp [Scheduler.recordFinish]

theorem recordFinish_times (s : Scheduler) (c : Nat) (t : Int) (p : Nat) :
    (s.recordFinish (c : Int) t).times p =
      if p = c ∧ c < s.ioFinishTimes.length then s.times c ++ [t] else s.times p := by
  simp only [Scheduler.recordFinish, Scheduler.times, List.getD_eq_getElem?_getD, Int.toNat_natCast,
    List.getElem?_set]
  by_cases hm : p = c
  · subst hm
    by_cases hlt : p < s.ioFinishTimes.length
    · simp [hlt]
    · have : s.ioFinishTimes[p]? = none := by simp at hlt; simp [hlt]
      simp [hlt, this]
  · have : ¬ c = p := fun h => hm h.symm
    simp [hm, this]

theorem get_of_st_ne_done (s : Scheduler) {p : Nat} (h : s.st p ≠ DONE) :
    ∃ proc, s.procInfo[p]? = some proc ∧ proc.State = s.st p ∧ proc.Code = s.code p := by
  cases hg : s.procInfo[p]? with
  | none => simp [Scheduler.st, hg] at h
  | some proc => exact ⟨proc, rfl, by simp [Scheduler.st, hg], by simp [Scheduler.code, hg]⟩

theorem get_of_lt (s : Scheduler) {p : Nat} (h : p < s.procInfo.length) :
    ∃ proc, s.procInfo[p]? = some proc ∧ proc.State = s.st p ∧ proc.Code = s.code p := by
  refine ⟨s.procInfo[p], List.getElem?_eq_getElem h, ?_, ?_⟩
  · simp [Scheduler.st, List.getElem?_eq_getElem h]
  · simp [Scheduler.code, List.getElem?_eq_getElem h]

theorem natCast_ne_neg_one (p : Nat) : (p : Int) ≠ -1 := by omega

theorem MoveToReady_eq (s : Scheduler) (p : Nat) (e : ProcState) (h : s.st p = e) (hne : e ≠ DONE) :
    MoveToReady s e (p : Int) = (s.setState (p : Int) READY, none) := by
  obtain ⟨proc, hget, hst, -⟩ := get_of_st_ne_done s (p := p) (by rw [h]; exact hne)
  unfold MoveToReady
  simp [natCast_ne_neg_one, hget, hst, h]

theorem MoveToRunning_eq (s : Scheduler) (c : Nat) (e : ProcState) (hc : s.currProc = (c : Int))
    (h : s.st c = e) (hne : e ≠ DONE) :
    MoveToRunning s e = (s.setState (c : Int) RUNNING, none) := by
  obtain ⟨proc, hget, hst, -⟩ := get_of_st_ne_done s (p := c) (by rw [h]; exact hne)
  unfold MoveToRunning
  simp [hc, natCast_ne_neg_one, hget, hst, h]

theorem MoveToWait_eq (s : Scheduler) (c : Nat) (e : ProcState) (hc : s.currProc = (c : Int))
    (h : s.st c = e) (hne : e ≠ DONE) :
    MoveToWait s e = (s.setState (c : Int) BLOCKED, none) := by
  obtain ⟨proc, hget, hst, -⟩ := get_of_st_ne_done s (p := c) (by rw [h]; exact hne)
  unfold MoveToWait
  simp [hc, natCast_ne_neg_one, hget, hst, h]

theorem NextProc_pid_eq (s : Scheduler) (p : Nat) (h : s.st p = READY) :
    NextProc s (p : Int) = (Scheduler.setState { s with currProc := (p : Int) } (p : Int) RUNNING, none) := by
  unfold NextProc
  simp only [natCast_ne_neg_one, ne_eq, not_false_eq_true, if_true]
  exact MoveToRunning_eq _ p READY rfl h (by decide)

theorem isReady_iff (s : Scheduler) (i : Nat) : s.isReady i = true ↔ s.st i = READY := by
  unfold Scheduler.isReady Scheduler.st
  cases s.procInfo[i]? <;> simp

theorem scan_some (s : Scheduler) {i : Nat} (h : NextProc.scan s = some i) : s.st i = READY := by
  unfold NextProc.scan at h
  split at h
  · rename_i j hj
    cases h
    exact (isReady_iff s _).mp (List.find?_some hj)
  · exact (isReady_iff s _).mp (List.find?_some h)

theorem scan_none (s : Scheduler) (h : NextProc.scan s = none) (p : Nat) : s.st p ≠ READY := by
  intro hp
  have hlt : p < s.procInfo.length := lt_of_st_ne_done s (by rw [hp]; decide)
  unfold NextProc.scan at h
  split at h
  · cases h
  · rename_i h1'
    rw [List.find?_eq_none] at h h1'
    by_cases hle : s.currProc + 1 ≤ (p : Int)
    · exact h1' p (by simp [List.mem_filter, hlt, hle]) ((isReady_iff s p).mpr hp)
    · exact h p (by simp [List.mem_range]; omega) ((isReady_iff s p).mpr hp)

theorem NextProc_rr_some (s : Scheduler) {i : Nat} (h : NextProc.scan s = some i) :
    NextProc s (-1) = (Scheduler.setState { s with currProc := (i : Int) } (i : Int) RUNNING, none) := by
  unfold NextProc
  simp only [ne_eq, not_true_eq_false, if_false, h]
  exact MoveToRunning_eq _ i READY rfl (scan_some s h) (by decide)

theorem NextProc_rr_none (s : Scheduler) (h : NextProc.scan s = none) : NextProc s (-1) = (s, none) := by
  unfold NextProc
  simp [h]

theorem CheckIfDone_eq (s : Scheduler) (c : Nat) (hc : s.currProc = (c : Int)) (hlt : c < s.procInfo.length) :
    CheckIfDone s =
      if s.code c = [] ∧ s.st c = RUNNING then NextProc (s.setState (c : Int) DONE) (-1)
      else (s, none) := by
  obtain ⟨proc, hget, hst, hcode⟩ := get_of_lt s hlt
  unfold CheckIfDone
  simp [hc, natCast_ne_neg_one, hget, hst, hcode]

theorem currIsRunning_iff (s : Scheduler) (c : Nat) (hc : s.currProc = (c : Int)) :
    s.currIsRunning = true ↔ s.st c = RUNNING := by
  unfold Scheduler.currIsRunning Scheduler.st
  rw [hc, proc?_natCast]
  cases s.procInfo[c]? <;> simp

/-! ### Counting -/

theorem countP_le_one_iff {α : Type} (P : α → Bool) (l : List α) :
    l.countP P ≤ 1 ↔
      ∀ (i j : Nat) (a b : α), l[i]? = some a → l[j]? = some b → P a = true → P b = true → i = j := by
  induction l with
  | nil => simp
  | cons x xs ih =>
    rw [List.countP_cons]
    constructor
    · intro h i j a b hi hj ha hb
      by_cases hx : P x = true
      · have h0 : xs.countP P = 0 := by simpa [hx] using h
        rw [List.countP_eq_zero] at h0
        cases i with
        | zero =>
          cases j with
          | zero => rfl
          | succ j =>
            simp at hj
            exact absurd hb (h0 b (List.getElem?_mem hj))
        | succ i =>
          simp at hi
          exact absurd ha (h0 a (List.getElem?_mem hi))
      · have h1 : xs.countP P ≤ 1 := by simpa [hx] using h
        cases i with
        | zero => simp at hi; subst hi; exact absurd ha hx
        | succ i =>
          cases j with
          | zero => simp at hj; subst hj; exact absurd hb hx
          | succ j =>
            simp at hi hj
            have := ih.mp h1 i j a b hi hj ha hb
            omega
    · intro h
      have hxs : xs.countP P ≤ 1 := ih.mpr (fun i j a b hi hj ha hb => by
        have := h (i + 1) (j + 1) a b (by simpa using hi) (by simpa using hj) ha hb
        omega)
      by_cases hx : P x = true
      · have h0 : xs.countP P = 0 := by
          rw [List.countP_eq_zero]
          intro a ha hPa
          obtain ⟨i, hi⟩ := List.getElem?_of_mem ha
          have := h 0 (i + 1) x a (by simp) (by simpa using hi) hx hPa
          omega
        simp [hx, h0]
      · simp [hx]; exact hxs

theorem countP_pos_of_get {α : Type} (P : α → Bool) (l : List α) {i : Nat} {a : α}
    (hi : l[i]? = some a) (ha : P a = true) : 0 < l.countP P :=
  List.countP_pos_iff.mpr ⟨a, List.getElem?_mem hi, ha⟩

/-- A state is runnable when it is READY or RUNNING. -/
theorem runnable_unique (s : Scheduler) (h : GetNumRunnable s ≤ 1) {p q : Nat}
    (hp : s.st p = READY ∨ s.st p = RUNNING) (hq : s.st q = READY ∨ s.st q = RUNNING) : p = q := by
  obtain ⟨a, ha, hsa, -⟩ := get_of_st_ne_done s (p := p) (by rcases hp with h | h <;> rw [h] <;> decide)
  obtain ⟨b, hb, hsb, -⟩ := get_of_st_ne_done s (p := q) (by rcases hq with h | h <;> rw [h] <;> decide)
  exact (countP_le_one_iff _ _).mp h p q a b ha hb (by simpa [hsa] using hp) (by simpa [hsb] using hq)

theorem runnable_pos (s : Scheduler) {p : Nat} (hp : s.st p = READY ∨ s.st p = RUNNING) :
    0 < GetNumRunnable s := by
  obtain ⟨a, ha, hsa, -⟩ := get_of_st_ne_done s (p := p) (by rcases hp with h | h <;> rw [h] <;> decide)
  exact countP_pos_of_get _ _ ha (by simpa [hsa] using hp)

theorem runnable_other (s : Scheduler) (h : 1 < GetNumRunnable s) (p : Nat) :
    ∃ q, q ≠ p ∧ (s.st q = READY ∨ s.st q = RUNNING) := by
  by_contra hcon
  push_neg at hcon
  have : GetNumRunnable s ≤ 1 := by
    refine (countP_le_one_iff _ _).mpr (fun i j a b hi hj ha hb => ?_)
    have hia : s.st i = a.State := st_of_get s hi
    have hjb : s.st j = b.State := st_of_get s hj
    have h1 : i = p := by
      by_contra hne
      have := hcon i hne
      rw [hia] at this
      simp at ha
      tauto
    have h2 : j = p := by
      by_contra hne
      have := hcon j hne
      rw [hjb] at this
      simp at hb
      tauto
    omega
  omega

theorem active_pos_iff (s : Scheduler) : 0 < GetNumActive s ↔ ∃ p, s.st p ≠ DONE := by
  unfold GetNumActive
  rw [List.countP_pos_iff]
  constructor
  · rintro ⟨a, ha, hPa⟩
    obtain ⟨i, hi⟩ := List.getElem?_of_mem ha
    exact ⟨i, by rw [st_of_get s hi]; simpa using hPa⟩
  · rintro ⟨p, hp⟩
    obtain ⟨a, ha, hsa, -⟩ := get_of_st_ne_done s hp
    exact ⟨a, List.getElem?_mem ha, by simpa [hsa] using hp⟩

theorem countP_modify {α : Type} (P : α → Bool) (f : α → α) :
    ∀ (l : List α) (c : Nat) (a : α), l[c]? = some a →
      (List.modify f c l).countP P + (if P a = true then 1 else 0) =
        l.countP P + (if P (f a) = true then 1 else 0)
  | [], c, a, h => by simp at h
  | x :: xs, 0, a, h => by
    simp at h
    subst h
    simp [List.modify, List.countP_cons]
    omega
  | x :: xs, c + 1, a, h => by
    simp at h
    have := countP_modify P f xs c a h
    simp [List.modify, List.countP_cons] at this ⊢
    omega

theorem sum_map_modify {α : Type} (g : α → Nat) (f : α → α) :
    ∀ (l : List α) (c : Nat) (a : α), l[c]? = some a →
      ((List.modify f c l).map g).sum + g a = (l.map g).sum + g (f a)
  | [], c, a, h => by simp at h
  | x :: xs, 0, a, h => by
    simp at h
    subst h
    simp [List.modify]
    omega
  | x :: xs, c + 1, a, h => by
    simp at h
    have := sum_map_modify g f xs c a h
    simp [List.modify] at this ⊢
    omega

theorem active_setState (s : Scheduler) (c : Nat) (v : ProcState) (hc : c < s.procInfo.length) :
    GetNumActive (s.setState (c : Int) v) + (if s.st c ≠ DONE then 1 else 0) =
      GetNumActive s + (if v ≠ DONE then 1 else 0) := by
  obtain ⟨proc, hget, hst, -⟩ := get_of_lt s hc
  unfold GetNumActive
  rw [setState_procInfo]
  have := countP_modify (fun proc : Process => decide (proc.State ≠ DONE))
    (fun proc => { proc with State := v }) s.procInfo c proc hget
  simp only [hst, decide_eq_true_eq] at this
  exact this

theorem active_setState_same (s : Scheduler) (c : Nat) (v : ProcState) (h1 : s.st c ≠ DONE) (h2 : v ≠ DONE) :
    GetNumActive (s.setState (c : Int) v) = GetNumActive s := by
  have := active_setState s c v (lt_of_st_ne_done s h1)
  simp [h1, h2] at this
  exact this

theorem active_setState_done (s : Scheduler) (c : Nat) (h1 : s.st c ≠ DONE) :
    GetNumActive (s.setState (c : Int) DONE) + 1 = GetNumActive s := by
  have := active_setState s c DONE (lt_of_st_ne_done s h1)
  simp [h1] at this
  exact this

theorem codeSum_setState (s : Scheduler) (c : Nat) (v : ProcState) : codeSum (s.setState (c : Int) v) = codeSum s := by
  unfold codeSum
  rw [setState_procInfo]
  by_cases hc : c < s.procInfo.length
  · obtain ⟨proc, hget, -, -⟩ := get_of_lt s hc
    have := sum_map_modify (fun proc : Process => proc.Code.length)
      (fun proc => { proc with State := v }) s.procInfo c proc hget
    simpa using this
  · congr 1
    apply List.ext_getElem?
    intro m
    simp only [List.getElem?_map, List.getElem?_modify]
    cases s.procInfo[m]? <;> simp
    split <;> rfl

theorem codeSum_setCode (s : Scheduler) (c : Nat) (code : List Instr) (hc : c < s.procInfo.length) :
    codeSum (s.setCode (c : Int) code) + (s.code c).length = codeSum s + code.length := by
  obtain ⟨proc, hget, -, hcode⟩ := get_of_lt s hc
  unfold codeSum
  rw [setCode_procInfo]
  have := sum_map_modify (fun proc : Process => proc.Code.length)
    (fun proc => { proc with Code := code }) s.procInfo c proc hget
  simpa [hcode] using this

theorem active_setCode (s : Scheduler) (c : Nat) (code : List Instr) :
    GetNumActive (s.setCode (c : Int) code) = GetNumActive s := by
  unfold GetNumActive
  rw [setCode_procInfo]
  by_cases hc : c < s.procInfo.length
  · obtain ⟨proc, hget, -, -⟩ := get_of_lt s hc
    have := countP_modify (fun proc : Process => decide (proc.State ≠ DONE))
      (fun proc => { proc with Code := code }) s.procInfo c proc hget
    simpa using this
  · congr 1
    apply List.ext_getElem?
    intro m
    simp only [List.getElem?_modify]
    cases hm : s.procInfo[m]? with
    | none => simp
    | some a =>
      have : m < s.procInfo.length := by
        by_contra hh; simp at hh; simp [List.getElem?_eq_none_iff.mpr hh] at hm
      have : ¬ c = m := by omega
      simp [this]

/-! ### `Evolves` -/

theorem Evolves.evolves_refl (s : Scheduler) : Evolves s s :=
  ⟨rfl, rfl, rfl, rfl, rfl, fun _ => rfl, fun _ => Or.inl rfl⟩

theorem Evolves_setState (s : Scheduler) (x : Int) (c : Nat) (v : ProcState)
    (h : Documented (s.st c) v (s.code c)) :
    Evolves s (Scheduler.setState { s with currProc := x } (c : Int) v) := by
  refine ⟨by simp, by simp, by simp, by simp, by simp, fun p => by simp, fun p => ?_⟩
  rw [setState_st]
  split
  · rename_i hp
    right
    rw [hp.1]
    exact h
  · left; rfl

theorem Evolves_setState' (s : Scheduler) (c : Nat) (v : ProcState)
    (h : Documented (s.st c) v (s.code c)) : Evolves s (s.setState (c : Int) v) :=
  Evolves_setState s s.currProc c v h

theorem Good.currProc_eq {s : Scheduler} (hG : Good s) : s.currProc = (s.cur : Int) := by
  unfold Scheduler.cur
  rw [Int.toNat_of_nonneg hG.cur_nonneg]

theorem Documented.src_ne_done {a b : ProcState} {code : List Instr} (h : Documented a b code) :
    a ≠ DONE := by
  rcases h with h | h | h | h | h <;> rw [h.1] <;> decide

theorem Documented.ne {a b : ProcState} {code : List Instr} (h : Documented a b code) : a ≠ b := by
  rcases h with ⟨h1, h2⟩ | ⟨h1, h2⟩ | ⟨h1, h2⟩ | ⟨h1, h2⟩ | ⟨h1, h2, -⟩ <;> rw [h1, h2] <;> decide

theorem Evolves.done_stays {s s' : Scheduler} (h : Evolves s s') {p : Nat} (hp : s.st p = DONE) :
    s'.st p = DONE := by
  rcases h.trans p with h1 | h1
  · rw [h1, hp]
  · exact absurd hp h1.src_ne_done

/-- Round-robin selection after the current process left the CPU. -/
theorem NextProc_rr_good (s : Scheduler) (hn : 0 ≤ s.currProc) (hlt : s.cur < s.procInfo.length)
    (htl : s.ioFinishTimes.length = s.procInfo.length)
    (hrun : ∀ p, s.st p ≠ RUNNING)
    (hblk : s.processSwitchBehavior = SwitchBehavior.SWITCH_ON_END →
      ∀ p, s.st p = BLOCKED → p = s.cur ∧ ∀ q, s.st q ≠ READY)
    (hdone : ∀ p, s.st p = DONE → s.code p = []) :
    ∃ s', NextProc s (-1) = (s', none) ∧ Good s' ∧ Evolves s s' ∧
      (∀ q, s'.st q = BLOCKED ↔ s.st q = BLOCKED) ∧ GetNumActive s' = GetNumActive s := by
  cases hscan : NextProc.scan s with
  | none =>
    refine ⟨s, NextProc_rr_none s hscan, ⟨hn, hlt, htl, ?_, ?_, ?_, hdone⟩, Evolves.evolves_refl s,
      fun _ => Iff.rfl, rfl⟩
    · intro p hp; exact absurd hp (hrun p)
    · intro p hp; exact absurd hp (scan_none s hscan p)
    · intro h p hp; exact (hblk h p hp).1
  | some i =>
    have hi : s.st i = READY := scan_some s hscan
    have hilt : i < s.procInfo.length := lt_of_st_ne_done s (by rw [hi]; decide)
    refine ⟨_, NextProc_rr_some s hscan, ⟨by simp, by simpa using hilt, by simpa using htl, ?_, ?_, ?_, ?_⟩,
      Evolves_setState s _ i RUNNING (Or.inl ⟨hi, rfl⟩), ?_, ?_⟩
    · intro p hp
      simp only [setState_cur, withCur_cur]
      rw [setState_st] at hp
      by_contra hne
      simp [hne] at hp
      exact hrun p hp
    · intro p _
      left
      simp only [setState_cur, withCur_cur]
      rw [setState_st]
      simp [hilt]
    · intro h p hp
      simp only [setState_cur, withCur_cur]
      simp only [setState_sw] at h
      rw [setState_st] at hp
      by_cases hpi : p = i
      · exact hpi
      · simp [hpi] at hp
        exact absurd hi ((hblk h p hp).2 i)
    · intro p hp
      rw [setState_st] at hp
      simp only [setState_code, withCur_code]
      by_cases hpi : p = i
      · simp [hpi, hilt] at hp
      · simp [hpi] at hp
        exact hdone p hp
    · intro q
      rw [setState_st]
      by_cases hqi : q = i
      · subst hqi; simp [hilt, hi]
      · simp [hqi]
    · exact active_setState_same _ i RUNNING (by simp [hi]) (by decide)

theorem CheckIfDone_good (s : Scheduler) (hG : Good s) :
    ∃ s', CheckIfDone s = (s', none) ∧ Good s' ∧ Evolves s s' ∧
      (∀ q, s'.st q = BLOCKED ↔ s.st q = BLOCKED) ∧
      GetNumActive s' + (if s.code s.cur = [] ∧ s.st s.cur = RUNNING then 1 else 0) =
        GetNumActive s := by
  rw [CheckIfDone_eq s s.cur hG.currProc_eq hG.cur_lt]
  by_cases hcond : s.code s.cur = [] ∧ s.st s.cur = RUNNING
  · simp only [hcond, and_self, if_true]
    have hev : Evolves s (s.setState (s.cur : Int) DONE) :=
      Evolves_setState' s s.cur DONE (Or.inr (Or.inr (Or.inr (Or.inr ⟨hcond.2, rfl, hcond.1⟩))))
    have hst : ∀ p, (s.setState (s.cur : Int) DONE).st p = if p = s.cur then DONE else s.st p := by
      intro p; rw [setState_st]; simp [hG.cur_lt]
    obtain ⟨s', h1, h2, h3, h4, h5⟩ := NextProc_rr_good (s.setState (s.cur : Int) DONE)
      (by simpa using hG.cur_nonneg) (by simpa using hG.cur_lt) (by simpa using hG.times_len)
      (by
        intro p hp
        rw [hst] at hp
        by_cases hpc : p = s.cur
        · simp [hpc] at hp
        · simp [hpc] at hp; exact hpc (hG.running p hp))
      (by
        intro hsw p hp
        simp only [setState_sw] at hsw
        rw [hst] at hp
        by_cases hpc : p = s.cur
        · simp [hpc] at hp
        · simp [hpc] at hp; exact absurd (hG.blocked hsw p hp) hpc)
      (by
        intro p hp
        rw [hst] at hp
        simp only [setState_code]
        by_cases hpc : p = s.cur
        · rw [hpc]; exact hcond.1
        · simp [hpc] at hp; exact hG.done p hp)
    refine ⟨s', h1, h2, ?_, ?_, ?_⟩
    · refine ⟨h3.len.trans hev.len, h3.sw.trans hev.sw, h3.iod.trans hev.iod,
        h3.ioLength.trans hev.ioLength, h3.times.trans hev.times,
        fun p => (h3.code p).trans (hev.code p), fun p => ?_⟩
      rcases h3.trans p with h | h
      · rw [h]; exact hev.trans p
      · -- the process selected next was READY, so it is not the one that became DONE
        rcases hev.trans p with h' | h'
        · rw [h', hev.code p] at h; exact Or.inr h
        · exfalso
          have hp : p = s.cur := by
            by_contra hpc
            have := hst p; simp [hpc] at this
            exact h'.ne this.symm
          rw [hst, if_pos hp] at h
          exact h.src_ne_done rfl
    · intro q
      rw [h4 q, hst]
      by_cases hqc : q = s.cur
      · simp [hqc, hcond.2]
      · simp [hqc]
    · rw [h5]
      exact active_setState_done s s.cur (by rw [hcond.2]; decide)
  · simp only [hcond, if_false]
    exact ⟨s, rfl, hG, Evolves.evolves_refl s, fun _ => Iff.rfl, by simp⟩

theorem mem_stateChanges : ∀ (ps qs : List Process) (i : Nat) (t : Transition),
    t ∈ stateChanges i ps qs →
      ∃ (k : Nat) (p q : Process), ps[k]? = some p ∧ qs[k]? = some q ∧ p.State ≠ q.State ∧
        t = { pid := i + k, src := p.State, dst := q.State, code := q.Code }
  | [], _, _, t, h => by simp [stateChanges] at h
  | _ :: _, [], _, t, h => by simp [stateChanges] at h
  | p :: ps, q :: qs, i, t, h => by
    unfold stateChanges at h
    by_cases hne : p.State ≠ q.State
    · rw [if_pos hne] at h
      rcases List.mem_cons.mp h with h | h
      · exact ⟨0, p, q, by simp, by simp, hne, by simpa using h⟩
      · obtain ⟨k, p', q', h1, h2, h3, h4⟩ := mem_stateChanges ps qs (i + 1) t h
        exact ⟨k + 1, p', q', by simpa using h1, by simpa using h2, h3, by rw [h4]; congr 1; omega⟩
    · rw [if_neg hne] at h
      obtain ⟨k, p', q', h1, h2, h3, h4⟩ := mem_stateChanges ps qs (i + 1) t h
      exact ⟨k + 1, p', q', by simpa using h1, by simpa using h2, h3, by rw [h4]; congr 1; omega⟩

theorem countP_stateChanges_lt : ∀ (ps qs : List Process) (i x : Nat), x < i →
    (stateChanges i ps qs).countP (fun t => decide (t.pid = x ∧ t.dst = DONE)) = 0 := by
  intro ps qs i x hx
  rw [List.countP_eq_zero]
  intro t ht
  obtain ⟨k, p, q, -, -, -, h4⟩ := mem_stateChanges ps qs i t ht
  simp [h4]
  omega

theorem countP_stateChanges : ∀ (ps qs : List Process) (i k : Nat) (p q : Process),
    ps[k]? = some p → qs[k]? = some q →
    (stateChanges i ps qs).countP (fun t => decide (t.pid = i + k ∧ t.dst = DONE)) =
      if p.State ≠ DONE ∧ q.State = DONE then 1 else 0
  | [], _, _, k, p, q, h1, _ => by simp at h1
  | _ :: _, [], _, k, p, q, _, h2 => by simp at h2
  | p0 :: ps, q0 :: qs, i, 0, p, q, h1, h2 => by
    simp at h1 h2
    subst h1 h2
    unfold stateChanges
    have hrest := countP_stateChanges_lt ps qs (i + 1) i (by omega)
    by_cases hne : p0.State ≠ q0.State
    · rw [if_pos hne, List.countP_cons]
      simp only [Nat.add_zero] at hrest ⊢
      rw [hrest]
      by_cases hq : q0.State = DONE
      · have : p0.State ≠ DONE := by rw [← hq]; exact hne
        simp [hq, this]
      · simp [hq]
    · rw [if_neg hne]
      simp only [Nat.add_zero] at hrest ⊢
      rw [hrest]
      simp only [ne_eq, not_not] at hne
      by_cases hq : q0.State = DONE
      · simp [hq, hne]
      · simp [hq]
  | p0 :: ps, q0 :: qs, i, k + 1, p, q, h1, h2 => by
    simp at h1 h2
    have ih := countP_stateChanges ps qs (i + 1) k p q h1 h2
    have e : i + 1 + k = i + (k + 1) := by omega
    rw [e] at ih
    unfold stateChanges
    by_cases hne : p0.State ≠ q0.State
    · rw [if_pos hne, List.countP_cons, ih]
      have : ¬ (i = i + (k + 1)) := by omega
      simp [this]
    · rw [if_neg hne, ih]

@[simp]
theorem call_s (r : RunState) (op : Scheduler → Scheduler × Option SchedError) : (r.call op).s = (op r.s).1 := rfl
@[simp]
theorem call_clockTick (r : RunState) (op : Scheduler → Scheduler × Option SchedError) : (r.call op).clockTick = r.clockTick := rfl
@[simp]
theorem call_cpuBusy (r : RunState) (op : Scheduler → Scheduler × Option SchedError) : (r.call op).cpuBusy = r.cpuBusy := rfl
@[simp]
theorem call_ioBusy (r : RunState) (op : Scheduler → Scheduler × Option SchedError) : (r.call op).ioBusy = r.ioBusy := rfl
@[simp]
theorem call_execs (r : RunState) (op : Scheduler → Scheduler × Option SchedError) : (r.call op).execs = r.execs := rfl

theorem call_ghost (r : RunState) (op : Scheduler → Scheduler × Option SchedError) {s' : Scheduler} (hop : op r.s = (s', none)) (hev : Evolves r.s s')
    (hg : GhostOK r) : GhostOK (r.call op) := by
  refine ⟨?_, ?_, ?_⟩
  · simp [RunState.call, hop, hg.errs]
  · intro t ht
    simp only [RunState.call, hop, List.mem_append] at ht
    rcases ht with ht | ht
    · exact hg.trans t ht
    · obtain ⟨k, p, q, h1, h2, h3, h4⟩ := mem_stateChanges _ _ 0 t ht
      have e1 : r.s.st k = p.State := st_of_get _ h1
      have e2 : s'.st k = q.State := st_of_get _ h2
      have e3 : s'.code k = q.Code := by simp [Scheduler.code, h2]
      rcases hev.trans k with h | h
      · rw [e1, e2] at h; exact absurd h.symm h3
      · rw [h4]
        simp only
        rw [← e1, ← e2, ← e3, hev.code k]
        exact h
  · intro p
    simp only [RunState.call, hop, List.countP_append]
    rw [hg.doneOnce p, hev.len]
    by_cases hp : p < r.s.procInfo.length
    · obtain ⟨a, ha, hsa, -⟩ := get_of_lt r.s hp
      obtain ⟨b, hb, hsb, -⟩ := get_of_lt s' (hev.len ▸ hp)
      have := countP_stateChanges _ _ 0 p a b ha hb
      simp only [Nat.zero_add] at this
      rw [this, hsa, hsb]
      by_cases h1 : r.s.st p = DONE
      · simp [h1, hp, hev.done_stays h1]
      · by_cases h2 : s'.st p = DONE
        · simp [h1, h2, hp]
        · simp [h1, h2]
    · have : (stateChanges 0 r.s.procInfo s'.procInfo).countP
          (fun t => decide (t.pid = p ∧ t.dst = DONE)) = 0 := by
        rw [List.countP_eq_zero]
        intro t ht
        obtain ⟨k, a, b, h1, -, -, h4⟩ := mem_stateChanges _ _ 0 t ht
        have hk : k < r.s.procInfo.length := by
          by_contra hh; simp at hh; simp [List.getElem?_eq_none_iff.mpr hh] at h1
        simp [h4]
        omega
      rw [this]
      simp [hp]

theorem Calls.calls_refl (r : RunState) : Calls r r :=
  ⟨id, rfl, rfl, rfl, rfl, rfl, rfl, rfl, rfl, rfl, fun _ => rfl, le_refl _, fun _ h => h⟩

theorem Calls.calls_trans {r1 r2 r3 : RunState} (h1 : Calls r1 r2) (h2 : Calls r2 r3) : Calls r1 r3 :=
  ⟨fun g => h2.ghost (h1.ghost g), h2.clock.trans h1.clock, h2.cpu.trans h1.cpu,
    h2.io.trans h1.io, h2.execs.trans h1.execs, h2.len.trans h1.len, h2.sw.trans h1.sw,
    h2.iod.trans h1.iod, h2.ioLength.trans h1.ioLength, h2.times.trans h1.times,
    fun p => (h2.code p).trans (h1.code p), le_trans h2.active h1.active,
    fun p h => h2.done p (h1.done p h)⟩

theorem Calls.call (r : RunState) (op : Scheduler → Scheduler × Option SchedError)
    {s' : Scheduler} (hop : op r.s = (s', none)) (hev : Evolves r.s s')
    (hact : GetNumActive s' ≤ GetNumActive r.s) : Calls r (r.call op) := by
  refine ⟨call_ghost r op hop hev, rfl, rfl, rfl, rfl, ?_, ?_, ?_, ?_, ?_, ?_, ?_, ?_⟩ <;>
    simp only [call_s, hop]
  · exact hev.len
  · exact hev.sw
  · exact hev.iod
  · exact hev.ioLength
  · exact hev.times
  · exact hev.code
  · exact hact
  · exact fun p h => hev.done_stays h

/-- Force-selecting a READY process when no process is RUNNING. -/
theorem forceSelect_good (s : Scheduler) (p : Nat) (hp : s.st p = READY)
    (htl : s.ioFinishTimes.length = s.procInfo.length)
    (hrun : ∀ q, s.st q ≠ RUNNING)
    (hblk : s.processSwitchBehavior = SwitchBehavior.SWITCH_ON_END → ∀ q, s.st q ≠ BLOCKED)
    (hdone : ∀ q, s.st q = DONE → s.code q = []) :
    ∃ s', NextProc s (p : Int) = (s', none) ∧ Good s' ∧ Evolves s s' ∧
      (∀ q, s'.st q = BLOCKED ↔ s.st q = BLOCKED) ∧ GetNumActive s' = GetNumActive s := by
  have hplt : p < s.procInfo.length := lt_of_st_ne_done s (by rw [hp]; decide)
  refine ⟨_, NextProc_pid_eq s p hp, ⟨by simp, by simpa using hplt, by simpa using htl, ?_, ?_, ?_, ?_⟩,
    Evolves_setState s _ p RUNNING (Or.inl ⟨hp, rfl⟩), ?_, ?_⟩
  · intro q hq
    simp only [setState_cur, withCur_cur]
    rw [setState_st] at hq
    by_contra hne
    simp [hne] at hq
    exact hrun q hq
  · intro q _
    left
    simp only [setState_cur, withCur_cur]
    rw [setState_st]
    simp [hplt]
  · intro h q hq
    simp only [setState_sw] at h
    rw [setState_st] at hq
    by_cases hqp : q = p
    · simp [hqp, hplt] at hq
    · simp [hqp] at hq
      exact absurd hq (hblk h q)
  · intro q hq
    rw [setState_st] at hq
    simp only [setState_code, withCur_code]
    by_cases hqp : q = p
    · simp [hqp, hplt] at hq
    · simp [hqp] at hq
      exact hdone q hq
  · intro q
    rw [setState_st]
    by_cases hqp : q = p
    · subst hqp; simp [hplt, hp]
    · simp [hqp]
  · exact active_setState_same _ p RUNNING (by simp [hp]) (by decide)

theorem policy_st (s0 : Scheduler) (p : Nat) (r : RunState) (hb : s0.st p = BLOCKED)
    (hr : r.s = s0.setState (p : Int) READY) (q : Nat) :
    r.s.st q = if q = p then READY else s0.st q := by
  have hplt : p < s0.procInfo.length := lt_of_st_ne_done s0 (by rw [hb]; decide)
  rw [hr, setState_st]
  simp [hplt]

theorem policy_select (s0 : Scheduler) (p : Nat) (r : RunState) (hG : Good s0)
    (hr : r.s = s0.setState (p : Int) READY) (r2 : RunState) (hC : Calls r r2)
    (hp2 : r2.s.st p = READY)
    (hrel : ∀ q, q ≠ p → r2.s.st q = s0.st q ∨ (s0.st q = RUNNING ∧ r2.s.st q = READY))
    (hrun : ∀ q, r2.s.st q ≠ RUNNING)
    (hblk : r2.s.processSwitchBehavior = SwitchBehavior.SWITCH_ON_END → ∀ q, r2.s.st q ≠ BLOCKED) :
    PolicyPost s0 p r (r2.call (fun s => NextProc s (p : Int))) := by
  have hcode : ∀ q, r2.s.code q = s0.code q := by
    intro q; rw [hC.code q, hr]; simp
  obtain ⟨s', h1, h2, h3, h4, h5⟩ := forceSelect_good r2.s p hp2
    (by rw [hC.times, hC.len, hr]; simpa using hG.times_len) hrun hblk
    (by
      intro q hq
      rw [hcode]
      by_cases hqp : q = p
      · rw [hqp, hp2] at hq; cases hq
      · rcases hrel q hqp with h | h
        · exact hG.done q (h ▸ hq)
        · rw [h.2] at hq; cases hq)
  have hCall := Calls.call r2 (fun s => NextProc s (p : Int)) h1 h3 (le_of_eq h5)
  refine ⟨hC.calls_trans hCall, by simpa [h1] using h2, ?_, ?_⟩
  · simp only [call_s, h1]
    intro h
    rw [h4, hp2] at h
    cases h
  · intro q hqp
    simp only [call_s, h1]
    rw [h4]
    rcases hrel q hqp with h | h
    · rw [h]
    · rw [h.1, h.2]
      constructor <;> intro h' <;> cases h'

theorem ioRunImmediate_post (s0 : Scheduler) (p : Nat) (r : RunState) (hG : Good s0)
    (hb : s0.st p = BLOCKED) (hr : r.s = s0.setState (p : Int) READY) :
    PolicyPost s0 p r (ioRunImmediate (p : Int) r) := by
  have hst := policy_st s0 p r hb hr
  have hcur : r.s.currProc = (s0.cur : Int) := by rw [hr]; simpa using hG.currProc_eq
  unfold ioRunImmediate
  by_cases hcond : r.s.currProc ≠ (p : Int) ∧ r.s.currIsRunning = true
  · simp only [hcond, ne_eq, not_false_eq_true, and_self, if_true]
    have hcp : s0.cur ≠ p := by
      intro h; apply hcond.1; rw [hcur, h]
    have hrunning : r.s.st s0.cur = RUNNING := (currIsRunning_iff r.s s0.cur hcur).mp hcond.2
    have h0 : s0.st s0.cur = RUNNING := by
      have := hst s0.cur; simp only [hcp, if_false] at this; rw [← this]; exact hrunning
    have hop : (fun s : Scheduler => MoveToReady s RUNNING s.currProc) r.s =
        (r.s.setState (s0.cur : Int) READY, none) := by
      simp only [hcur]
      exact MoveToReady_eq r.s s0.cur RUNNING hrunning (by decide)
    have hev : Evolves r.s (r.s.setState (s0.cur : Int) READY) :=
      Evolves_setState' r.s s0.cur READY (Or.inr (Or.inl ⟨hrunning, rfl⟩))
    have hC := Calls.call r (fun s : Scheduler => MoveToReady s RUNNING s.currProc) hop hev
      (le_of_eq (active_setState_same r.s s0.cur READY (by rw [hrunning]; decide) (by decide)))
    have hclt : s0.cur < r.s.procInfo.length := by rw [hr]; simpa using hG.cur_lt
    have hst2 : ∀ q, (r.call (fun s : Scheduler => MoveToReady s RUNNING s.currProc)).s.st q =
        if q = s0.cur then READY else r.s.st q := by
      intro q
      simp only [call_s, hop]
      rw [setState_st]
      simp [hclt]
    refine policy_select s0 p r hG hr _ hC ?_ ?_ ?_ ?_
    · rw [hst2, hst]; simp [Ne.symm hcp]
    · intro q hqp
      rw [hst2, hst]
      by_cases hqc : q = s0.cur
      · right; simp [hqc, h0]
      · left; simp [hqc, hqp]
    · intro q hq
      rw [hst2, hst] at hq
      by_cases hqc : q = s0.cur
      · simp [hqc] at hq
      · by_cases hqp : q = p
        · simp [hqc, hqp] at hq
        · simp [hqc, hqp] at hq
          exact hqc (hG.running q hq)
    · intro hsw q hq
      have hsw0 : s0.processSwitchBehavior = SwitchBehavior.SWITCH_ON_END := by
        rw [hC.sw, hr] at hsw; simpa using hsw
      exact hcp (hG.blocked hsw0 p hb).symm
  · simp only [hcond, if_false]
    refine policy_select s0 p r hG hr r (Calls.calls_refl r) ?_ ?_ ?_ ?_
    · rw [hst]; simp
    · intro q hqp; left; rw [hst]; simp [hqp]
    · intro q hq
      rw [hst] at hq
      by_cases hqp : q = p
      · simp [hqp] at hq
      · simp [hqp] at hq
        have hqc := hG.running q hq
        apply hcond
        constructor
        · rw [hcur]; intro h; apply hqp; rw [hqc]; exact_mod_cast h
        · rw [currIsRunning_iff r.s s0.cur hcur, hst]
          rw [← hqc]; simp [hqp, hq]
    · intro hsw q hq
      have hsw0 : s0.processSwitchBehavior = SwitchBehavior.SWITCH_ON_END := by
        rw [hr] at hsw; simpa using hsw
      rw [hst] at hq
      by_cases hqp : q = p
      · simp [hqp] at hq
      · simp [hqp] at hq
        have h1 := hG.blocked hsw0 q hq
        have h2 := hG.blocked hsw0 p hb
        exact hqp (h1.trans h2.symm)

theorem ioRunLater_post (s0 : Scheduler) (p : Nat) (r : RunState) (hG : Good s0)
    (hb : s0.st p = BLOCKED) (hr : r.s = s0.setState (p : Int) READY) :
    PolicyPost s0 p r (ioRunLater (p : Int) r) := by
  have hst := policy_st s0 p r hb hr
  have hplt : p < s0.procInfo.length := lt_of_st_ne_done s0 (by rw [hb]; decide)
  have hpr : r.s.st p = READY := by rw [hst]; simp
  have hsw : r.s.processSwitchBehavior = s0.processSwitchBehavior := by rw [hr]; simp
  have hpos : 0 < GetNumRunnable r.s := runnable_pos r.s (Or.inl hpr)
  -- force-selection of `p`, used in two branches
  have hsel : GetNumRunnable r.s = 1 ∨ s0.processSwitchBehavior = SwitchBehavior.SWITCH_ON_END →
      PolicyPost s0 p r (r.call (fun s => NextProc s (p : Int))) := by
    intro hcase
    refine policy_select s0 p r hG hr r (Calls.calls_refl r) hpr ?_ ?_ ?_
    · intro q hqp; left; rw [hst]; simp [hqp]
    · intro q hq
      rcases hcase with h1 | hend
      · have := runnable_unique r.s (le_of_eq h1) (Or.inl hpr) (Or.inr hq)
        rw [← this, hpr] at hq; cases hq
      · rw [hst] at hq
        by_cases hqp : q = p
        · simp [hqp] at hq
        · simp [hqp] at hq
          exact hqp ((hG.running q hq).trans (hG.blocked hend p hb).symm)
    · intro hsw' q hq
      rw [hsw] at hsw'
      rw [hst] at hq
      by_cases hqp : q = p
      · simp [hqp] at hq
      · simp [hqp] at hq
        exact hqp ((hG.blocked hsw' q hq).trans (hG.blocked hsw' p hb).symm)
  unfold ioRunLater
  by_cases hcond : r.s.processSwitchBehavior = SwitchBehavior.SWITCH_ON_END ∧ GetNumRunnable r.s > 1
  · simp only [hcond, and_self, if_true]
    have hpost := hsel (Or.inr (hsw ▸ hcond.1))
    -- after the selection more than one process is still runnable
    have hne : ¬ GetNumRunnable (r.call (fun s => NextProc s (p : Int))).s = 1 := by
      intro h1
      obtain ⟨q, hqp, hq⟩ := runnable_other r.s hcond.2 p
      have hop := NextProc_pid_eq r.s p hpr
      have hst2 : ∀ x, (r.call (fun s => NextProc s (p : Int))).s.st x =
          if x = p then RUNNING else r.s.st x := by
        intro x
        simp only [call_s, hop]
        rw [setState_st]
        have : p < r.s.procInfo.length := by rw [hr]; simpa using hplt
        simp [this]
      have hq2 : (r.call (fun s => NextProc s (p : Int))).s.st q = READY ∨
          (r.call (fun s => NextProc s (p : Int))).s.st q = RUNNING := by
        rw [hst2]; simpa [hqp] using hq
      have hp2 : (r.call (fun s => NextProc s (p : Int))).s.st p = READY ∨
          (r.call (fun s => NextProc s (p : Int))).s.st p = RUNNING := by
        rw [hst2]; simp
      exact hqp (runnable_unique _ (le_of_eq h1) hq2 hp2)
    simp only [hne, if_false]
    exact hpost
  · simp only [hcond, if_false]
    by_cases h1 : GetNumRunnable r.s = 1
    · simp only [h1, if_true]
      exact hsel (Or.inl h1)
    · simp only [h1, if_false]
      have hgt : 1 < GetNumRunnable r.s := by omega
      have hio : s0.processSwitchBehavior ≠ SwitchBehavior.SWITCH_ON_END := by
        intro h; exact hcond ⟨hsw ▸ h, hgt⟩
      obtain ⟨q, hqp, hq⟩ := runnable_other r.s hgt p
      have hq0 : s0.st q = READY ∨ s0.st q = RUNNING := by
        have := hst q; simp only [hqp, if_false] at this; rw [← this]; exact hq
      have hcrun : s0.st s0.cur = RUNNING := by
        rcases hq0 with h | h
        · rcases hG.ready q h with h' | h'
          · exact h'
          · exact absurd h'.1 hio
        · rw [← hG.running q h]; exact h
      have hcp : s0.cur ≠ p := by
        intro h; rw [h, hb] at hcrun; cases hcrun
      refine ⟨Calls.calls_refl r, ⟨?_, ?_, ?_, ?_, ?_, ?_, ?_⟩, ?_, ?_⟩
      · rw [hr]; simpa using hG.cur_nonneg
      · rw [hr]; simpa using hG.cur_lt
      · rw [hr]; simpa using hG.times_len
      · intro x hx
        have hc : r.s.cur = s0.cur := by rw [hr]; simp
        rw [hc]
        rw [hst] at hx
        by_cases hxp : x = p
        · simp [hxp] at hx
        · simp [hxp] at hx; exact hG.running x hx
      · intro x _
        left
        have hc : r.s.cur = s0.cur := by rw [hr]; simp
        rw [hc, hst]
        simp [hcp, hcrun]
      · intro h; exact absurd (hsw ▸ h) hio
      · intro x hx
        rw [hst] at hx
        have : r.s.code x = s0.code x := by rw [hr]; simp
        rw [this]
        by_cases hxp : x = p
        · simp [hxp] at hx
        · simp [hxp] at hx; exact hG.done x hx
      · rw [hpr]; decide
      · intro x hxp
        rw [hst]; simp [hxp]

theorem CheckIfDone_call (r : RunState) (hG : Good r.s) :
    Calls r (r.call CheckIfDone) ∧ Good (r.call CheckIfDone).s ∧
      (∀ q, (r.call CheckIfDone).s.st q = BLOCKED ↔ r.s.st q = BLOCKED) ∧
      GetNumActive (r.call CheckIfDone).s +
          (if r.s.code r.s.cur = [] ∧ r.s.st r.s.cur = RUNNING then 1 else 0) =
        GetNumActive r.s := by
  obtain ⟨s', h1, h2, h3, h4, h5⟩ := CheckIfDone_good _ hG
  have hC := Calls.call r CheckIfDone h1 h3 (by omega)
  refine ⟨hC, ?_, ?_, ?_⟩ <;> simp only [call_s, h1]
  · exact h2
  · exact h4
  · exact h5

theorem handleIODone_good (r : RunState) (p : Nat) (hG : Good r.s) (hb : r.s.st p = BLOCKED) :
    Calls r (handleIODone (p : Int) r) ∧ Good (handleIODone (p : Int) r).s ∧
      (handleIODone (p : Int) r).s.st p ≠ BLOCKED ∧
      ∀ q, q ≠ p → ((handleIODone (p : Int) r).s.st q = BLOCKED ↔ r.s.st q = BLOCKED) := by
  have hop : (fun s : Scheduler => MoveToReady s BLOCKED (p : Int)) r.s =
      (r.s.setState (p : Int) READY, none) := MoveToReady_eq r.s p BLOCKED hb (by decide)
  have hev : Evolves r.s (r.s.setState (p : Int) READY) :=
    Evolves_setState' r.s p READY (Or.inr (Or.inr (Or.inr (Or.inl ⟨hb, rfl⟩))))
  have hC1 := Calls.call r (fun s : Scheduler => MoveToReady s BLOCKED (p : Int)) hop hev
    (le_of_eq (active_setState_same r.s p READY (by rw [hb]; decide) (by decide)))
  have hr1 : (r.call (fun s : Scheduler => MoveToReady s BLOCKED (p : Int))).s =
      r.s.setState (p : Int) READY := by simp only [call_s, hop]
  have hpost : PolicyPost r.s p (r.call (fun s : Scheduler => MoveToReady s BLOCKED (p : Int)))
      (if (r.call (fun s : Scheduler => MoveToReady s BLOCKED (p : Int))).s.ioDoneBehavior =
          IODoneBehavior.IO_RUN_IMMEDIATE then
        ioRunImmediate (p : Int) (r.call (fun s : Scheduler => MoveToReady s BLOCKED (p : Int)))
      else ioRunLater (p : Int) (r.call (fun s : Scheduler => MoveToReady s BLOCKED (p : Int)))) := by
    split
    · exact ioRunImmediate_post r.s p _ hG hb hr1
    · exact ioRunLater_post r.s p _ hG hb hr1
  obtain ⟨hC2, hG2, hnb, hfr⟩ := hpost
  obtain ⟨hC3, hG3, hblk, -⟩ := CheckIfDone_call _ hG2
  exact ⟨(hC1.calls_trans hC2).calls_trans hC3, hG3, fun h => hnb ((hblk p).mp h),
    fun q hqp => (hblk q).trans (hfr q hqp)⟩

theorem fold_none (f : RunState → RunState) : ∀ (l : List Int) (r : RunState),
    (∀ t ∈ l, t ≠ r.clockTick) →
      l.foldl (fun r t => if t = r.clockTick then f r else r) r = r
  | [], _, _ => rfl
  | t :: l, r, h => by
    have ht : t ≠ r.clockTick := h t (List.mem_cons_self _ _)
    simp only [List.foldl_cons, ht, if_false]
    exact fold_none f l r (fun t' ht' => h t' (List.mem_cons_of_mem _ ht'))

theorem fold_one (f : RunState → RunState) : ∀ (l : List Int) (r : RunState),
    (f r).clockTick = r.clockTick → l.count r.clockTick = 1 →
      l.foldl (fun r t => if t = r.clockTick then f r else r) r = f r
  | [], _, _, h => by simp at h
  | t :: l, r, hf, h => by
    by_cases ht : t = r.clockTick
    · simp only [List.foldl_cons, ht, if_true]
      apply fold_none
      intro t' ht' heq
      rw [hf] at heq
      rw [ht, List.count_cons_self] at h
      have : l.count r.clockTick = 0 := by omega
      rw [List.count_eq_zero] at this
      exact this (heq ▸ ht')
    · simp only [List.foldl_cons, ht, if_false]
      apply fold_one f l r hf
      rw [List.count_cons_of_ne (fun h' => ht h'.symm)] at h
      exact h

theorem countP_gt_split (l : List Int) (c : Int) :
    l.countP (fun t => decide (t > c)) =
      l.count (c + 1) + l.countP (fun t => decide (t > c + 1)) := by
  induction l with
  | nil => simp
  | cons t l ih =>
    rw [List.countP_cons, List.countP_cons, List.count_cons, ih]
    by_cases h1 : t = c + 1
    · have h2 : t > c := by omega
      have h3 : ¬ t > c + 1 := by omega
      simp [h1]
      omega
    · by_cases h2 : t > c
      · have h3 : t > c + 1 := by omega
        simp [h1, h2, h3]
        omega
      · have h3 : ¬ t > c + 1 := by omega
        simp [h1, h2, h3]

theorem TimeOK.transfer {T : Int} {s s' : Scheduler} {q : Nat}
    (ht : s'.ioFinishTimes = s.ioFinishTimes) (hb : s'.st q = BLOCKED ↔ s.st q = BLOCKED)
    (h : TimeOK T s q) : TimeOK T s' q := by
  unfold TimeOK at h ⊢
  have : s'.times q = s.times q := by simp [Scheduler.times, ht]
  rw [this, h]
  by_cases hq : s.st q = BLOCKED
  · simp [hq, hb.mpr hq]
  · have : ¬ s'.st q = BLOCKED := fun h' => hq (hb.mp h')
    simp [hq, this]

theorem scanPid_good (r : RunState) (p : Nat) (c : Int) (hG : Good r.s)
    (hclock : r.clockTick = c + 1) (hT : TimeOK c r.s p) :
    Calls r (scanPid r p) ∧ Good (scanPid r p).s ∧ TimeOK (c + 1) (scanPid r p).s p ∧
      ∀ q, q ≠ p → ((scanPid r p).s.st q = BLOCKED ↔ r.s.st q = BLOCKED) := by
  have hsplit := countP_gt_split (r.s.times p) c
  unfold TimeOK at hT
  rw [hT] at hsplit
  have hdef : scanPid r p = (r.s.times p).foldl
      (fun r t => if t = r.clockTick then handleIODone (p : Int) r else r) r := rfl
  by_cases hcnt : (r.s.times p).count (c + 1) = 0
  · -- no completion for `p` at this tick
    have hno : ∀ t ∈ r.s.times p, t ≠ r.clockTick := by
      rw [List.count_eq_zero] at hcnt
      intro t ht heq
      rw [hclock] at heq
      exact hcnt (heq ▸ ht)
    rw [hdef, fold_none _ _ _ hno]
    refine ⟨Calls.calls_refl r, hG, ?_, fun _ _ => Iff.rfl⟩
    unfold TimeOK
    rw [hcnt] at hsplit
    omega
  · -- the I/O of `p` completes
    have hb : r.s.st p = BLOCKED := by
      by_contra hnb
      simp only [hnb, if_false] at hsplit
      omega
    simp only [hb, if_true] at hsplit
    have hone : (r.s.times p).count r.clockTick = 1 := by rw [hclock]; omega
    obtain ⟨hC, hG', hnb, hfr⟩ := handleIODone_good r p hG hb
    rw [hdef, fold_one _ _ _ hC.clock hone]
    refine ⟨hC, hG', ?_, hfr⟩
    unfold TimeOK
    have : (handleIODone (p : Int) r).s.times p = r.s.times p := by
      simp [Scheduler.times, hC.times]
    rw [this]
    simp only [hnb, if_false]
    omega

theorem ioScan_good : ∀ (order : List Nat) (r : RunState) (c : Int), order.Nodup → Good r.s →
    r.clockTick = c + 1 → (∀ p ∈ order, TimeOK c r.s p) →
    (∀ p, p ∉ order → TimeOK (c + 1) r.s p) →
      Calls r (ioScan order r) ∧ Good (ioScan order r).s ∧ ∀ p, TimeOK (c + 1) (ioScan order r).s p
  | [], r, c, _, hG, _, _, hout => ⟨Calls.calls_refl r, hG, fun p => hout p (List.not_mem_nil p)⟩
  | p :: ps, r, c, hnd, hG, hclock, hin, hout => by
    obtain ⟨hC, hG1, hTp, hfr⟩ := scanPid_good r p c hG hclock (hin p (List.mem_cons_self _ _))
    have hnd' := List.nodup_cons.mp hnd
    obtain ⟨hC2, hG2, hT2⟩ := ioScan_good ps (scanPid r p) c hnd'.2 hG1 (hC.clock.trans hclock)
      (by
        intro q hq
        have hqp : q ≠ p := fun h => hnd'.1 (h ▸ hq)
        exact (hin q (List.mem_cons_of_mem _ hq)).transfer hC.times (hfr q hqp))
      (by
        intro q hq
        by_cases hqp : q = p
        · rw [hqp]; exact hTp
        · exact (hout q (by simp [hqp, hq])).transfer hC.times (hfr q hqp))
    exact ⟨hC.calls_trans hC2, hG2, hT2⟩

/-! ### Waiting time -/

theorem wait1_mono (T : Int) : ∀ l : List Int,
    (l.map (fun t => (t - (T + 1)).toNat)).sum ≤ (l.map (fun t => (t - T).toNat)).sum
  | [] => by simp
  | t :: l => by
    have := wait1_mono T l
    simp only [List.map_cons, List.sum_cons]
    omega

theorem wait1_strict (T : Int) : ∀ l : List Int, (∃ t ∈ l, t > T) →
    (l.map (fun t => (t - (T + 1)).toNat)).sum < (l.map (fun t => (t - T).toNat)).sum
  | [], h => by simp at h
  | t :: l, h => by
    have hm := wait1_mono T l
    simp only [List.map_cons, List.sum_cons]
    by_cases ht : t > T
    · omega
    · have : ∃ t ∈ l, t > T := by
        obtain ⟨t', ht', hgt⟩ := h
        rcases List.mem_cons.mp ht' with h' | h'
        · exact absurd (h' ▸ hgt) ht
        · exact ⟨t', h', hgt⟩
      have := wait1_strict T l this
      omega

theorem waitAll_mono (T : Int) : ∀ ls : List (List Int),
    (ls.map (fun l => (l.map (fun t => (t - (T + 1)).toNat)).sum)).sum ≤
      (ls.map (fun l => (l.map (fun t => (t - T).toNat)).sum)).sum
  | [] => by simp
  | l :: ls => by
    have h1 := wait1_mono T l
    have h2 := waitAll_mono T ls
    simp only [List.map_cons, List.sum_cons]
    omega

theorem waitAll_strict (T : Int) : ∀ ls : List (List Int), (∃ l ∈ ls, ∃ t ∈ l, t > T) →
    (ls.map (fun l => (l.map (fun t => (t - (T + 1)).toNat)).sum)).sum <
      (ls.map (fun l => (l.map (fun t => (t - T).toNat)).sum)).sum
  | [], h => by simp at h
  | l :: ls, h => by
    have h1 := wait1_mono T l
    have h2 := waitAll_mono T ls
    simp only [List.map_cons, List.sum_cons]
    obtain ⟨l', hl', ht⟩ := h
    rcases List.mem_cons.mp hl' with h' | h'
    · have := wait1_strict T l (h' ▸ ht)
      omega
    · have := waitAll_strict T ls ⟨l', h', ht⟩
      omega

theorem waitSum_mono (T : Int) (s : Scheduler) : waitSum (T + 1) s ≤ waitSum T s :=
  waitAll_mono T s.ioFinishTimes

theorem waitSum_strict (T : Int) (s : Scheduler) (x : Nat) (t : Int) (ht : t ∈ s.times x)
    (hgt : t > T) : waitSum (T + 1) s < waitSum T s := by
  apply waitAll_strict T s.ioFinishTimes
  refine ⟨s.times x, ?_, t, ht, hgt⟩
  unfold Scheduler.times at ht ⊢
  rw [List.getD_eq_getElem?_getD] at ht ⊢
  cases hx : s.ioFinishTimes[x]? with
  | none => simp [hx] at ht
  | some l => simpa using List.getElem?_mem hx

theorem waitSum_congr (T : Int) {s s' : Scheduler} (h : s'.ioFinishTimes = s.ioFinishTimes) :
    waitSum T s' = waitSum T s := by
  unfold waitSum; rw [h]

theorem sum_map_set {α : Type} (g : α → Nat) :
    ∀ (l : List α) (c : Nat) (a b : α), l[c]? = some a →
      ((l.set c b).map g).sum + g a = (l.map g).sum + g b
  | [], c, a, b, h => by simp at h
  | x :: xs, 0, a, b, h => by
    simp at h
    subst h
    simp
    omega
  | x :: xs, c + 1, a, b, h => by
    simp at h
    have := sum_map_set g xs c a b h
    simp at this ⊢
    omega

theorem waitSum_recordFinish (T : Int) (s : Scheduler) (x : Nat) (t : Int)
    (hx : x < s.ioFinishTimes.length) :
    waitSum T (s.recordFinish (x : Int) t) = waitSum T s + (t - T).toNat := by
  unfold waitSum Scheduler.recordFinish
  simp only [Int.toNat_natCast]
  have hget : s.ioFinishTimes[x]? = some (s.ioFinishTimes[x]) := List.getElem?_eq_getElem hx
  have := sum_map_set (fun l : List Int => (l.map (fun t => (t - T).toNat)).sum) s.ioFinishTimes x
    (s.ioFinishTimes[x]) (s.ioFinishTimes.getD x [] ++ [t]) hget
  have hd : s.ioFinishTimes.getD x [] = s.ioFinishTimes[x] := by
    rw [List.getD_eq_getElem?_getD, hget]; rfl
  rw [hd] at this ⊢
  simp only [List.map_append, List.sum_append, List.map_cons, List.map_nil, List.sum_cons,
    List.sum_nil, Nat.add_zero] at this
  omega

/-! ### The execution step -/

theorem Good_setCode (s : Scheduler) (hG : Good s) (rest : List Instr)
    (hrun : s.st s.cur = RUNNING) : Good (s.setCode (s.cur : Int) rest) := by
  refine ⟨by simpa using hG.cur_nonneg, by simpa using hG.cur_lt, by simpa using hG.times_len,
    ?_, ?_, ?_, ?_⟩
  · intro p hp; simp only [setCode_st, setCode_cur] at hp ⊢; exact hG.running p hp
  · intro p hp; simp only [setCode_st, setCode_cur, setCode_sw] at hp ⊢; exact hG.ready p hp
  · intro h p hp; simp only [setCode_st, setCode_cur, setCode_sw] at h hp ⊢; exact hG.blocked h p hp
  · intro p hp
    simp only [setCode_st] at hp
    rw [setCode_code]
    by_cases hpc : p = s.cur
    · rw [hpc, hrun] at hp; cases hp
    · simp [hpc]; exact hG.done p hp

theorem TimeOK_setCode (T : Int) (s : Scheduler) (c : Nat) (rest : List Instr) (p : Nat)
    (h : TimeOK T s p) : TimeOK T (s.setCode (c : Int) rest) p := by
  unfold TimeOK at h ⊢
  simpa using h

theorem execStep_spec (r : RunState) (hG : Good r.s) :
    ((execStep r).2 = none ∧ (execStep r).1 = r ∧
        ¬ (r.s.st r.s.cur = RUNNING ∧ r.s.code r.s.cur ≠ [])) ∨
    ∃ instr rest, r.s.st r.s.cur = RUNNING ∧ r.s.code r.s.cur = instr :: rest ∧
      (execStep r).2 = some instr ∧
      (execStep r).1 = { r with s := r.s.setCode (r.s.cur : Int) rest
                                cpuBusy := r.cpuBusy + 1
                                execs := r.execs ++ [(r.clockTick, r.s.currProc, instr)] } := by
  obtain ⟨proc, hget, hst, hcode⟩ := get_of_lt r.s hG.cur_lt
  have hproc : r.s.proc? r.s.currProc = some proc := by
    rw [hG.currProc_eq, proc?_natCast]; exact hget
  unfold execStep
  rw [hproc]
  simp only
  by_cases hrun : proc.State = RUNNING
  · rw [if_pos hrun]
    cases hc : proc.Code with
    | nil =>
      left
      refine ⟨rfl, rfl, ?_⟩
      rw [← hcode, hc]; simp
    | cons instr rest =>
      right
      refine ⟨instr, rest, hst ▸ hrun, by rw [← hcode, hc], rfl, ?_⟩
      simp only [hG.currProc_eq]
  · rw [if_neg hrun]
    left
    refine ⟨rfl, rfl, ?_⟩
    rw [← hst]; simp [hrun]

theorem Frame.frame_refl (r : RunState) : Frame r r := ⟨id, rfl, rfl, rfl, rfl, rfl, fun _ h => h⟩

theorem Frame.frame_trans {r1 r2 r3 : RunState} (h1 : Frame r1 r2) (h2 : Frame r2 r3) : Frame r1 r3 :=
  ⟨fun g => h2.ghost (h1.ghost g), h2.clock.trans h1.clock, h2.len.trans h1.len,
    h2.sw.trans h1.sw, h2.iod.trans h1.iod, h2.ioLength.trans h1.ioLength,
    fun p h => h2.done p (h1.done p h)⟩

theorem Calls.frame {r r' : RunState} (h : Calls r r') : Frame r r' :=
  ⟨h.ghost, h.clock, h.len, h.sw, h.iod, h.ioLength, h.done⟩

theorem GhostOK_of {r r' : RunState} (h1 : r'.errs = r.errs) (h2 : r'.transitions = r.transitions)
    (h3 : r'.s.procInfo.length = r.s.procInfo.length) (h4 : ∀ p, r'.s.st p = r.s.st p)
    (g : GhostOK r) : GhostOK r' := by
  refine ⟨h1.trans g.errs, fun t ht => g.trans t (h2 ▸ ht), fun p => ?_⟩
  rw [h2, h3, h4, g.doneOnce p]

theorem codeSum_congr {s s' : Scheduler} (hlen : s'.procInfo.length = s.procInfo.length)
    (hcode : ∀ p, s'.code p = s.code p) : codeSum s' = codeSum s := by
  unfold codeSum
  congr 1
  apply List.ext_getElem?
  intro m
  simp only [List.getElem?_map]
  by_cases hm : m < s.procInfo.length
  · obtain ⟨a, ha, -, hca⟩ := get_of_lt s hm
    obtain ⟨b, hb, -, hcb⟩ := get_of_lt s' (hlen ▸ hm)
    rw [ha, hb]
    simp only [Option.map_some']
    rw [hca, hcb, hcode]
  · have h1 : s.procInfo[m]? = none := by simp at hm; simp [hm]
    have h2 : s'.procInfo[m]? = none := by simp at hm; simp [hlen, hm]
    rw [h1, h2]

theorem Calls.codeSum {r r' : RunState} (h : Calls r r') : codeSum r'.s = codeSum r.s :=
  codeSum_congr h.len h.code

theorem NextProc_rr_call (r : RunState) (hn : 0 ≤ r.s.currProc)
    (hlt : r.s.cur < r.s.procInfo.length)
    (htl : r.s.ioFinishTimes.length = r.s.procInfo.length)
    (hrun : ∀ p, r.s.st p ≠ RUNNING)
    (hblk : r.s.processSwitchBehavior = SwitchBehavior.SWITCH_ON_END →
      ∀ p, r.s.st p = BLOCKED → p = r.s.cur ∧ ∀ q, r.s.st q ≠ READY)
    (hdone : ∀ p, r.s.st p = DONE → r.s.code p = []) :
    Calls r (r.call (fun s => NextProc s (-1))) ∧ Good (r.call (fun s => NextProc s (-1))).s ∧
      (∀ q, (r.call (fun s => NextProc s (-1))).s.st q = BLOCKED ↔ r.s.st q = BLOCKED) ∧
      GetNumActive (r.call (fun s => NextProc s (-1))).s = GetNumActive r.s := by
  obtain ⟨s', h1, h2, h3, h4, h5⟩ := NextProc_rr_good r.s hn hlt htl hrun hblk hdone
  have hC := Calls.call r (fun s => NextProc s (-1)) h1 h3 (le_of_eq h5)
  refine ⟨hC, ?_, ?_, ?_⟩ <;> simp only [call_s, h1]
  · exact h2
  · exact h4
  · exact h5

theorem ioIssue_good (r : RunState) (hG : Good r.s) (hrun : r.s.st r.s.cur = RUNNING)
    (hT : ∀ p, TimeOK r.clockTick r.s p) (hL : 0 ≤ r.s.ioLength) :
    Frame r (ioIssue r) ∧ Good (ioIssue r).s ∧ (∀ p, TimeOK r.clockTick (ioIssue r).s p) ∧
      (ioIssue r).cpuBusy = r.cpuBusy ∧ codeSum (ioIssue r).s = codeSum r.s ∧
      GetNumActive (ioIssue r).s = GetNumActive r.s ∧
      waitSum r.clockTick (ioIssue r).s = waitSum r.clockTick r.s + (r.s.ioLength.toNat + 1) := by
  have hc := hG.currProc_eq
  have hop : (fun s : Scheduler => MoveToWait s RUNNING) r.s =
      (r.s.setState (r.s.cur : Int) BLOCKED, none) :=
    MoveToWait_eq r.s r.s.cur RUNNING hc hrun (by decide)
  have hev : Evolves r.s (r.s.setState (r.s.cur : Int) BLOCKED) :=
    Evolves_setState' r.s r.s.cur BLOCKED (Or.inr (Or.inr (Or.inl ⟨hrun, rfl⟩)))
  have hact1 := active_setState_same r.s r.s.cur BLOCKED (by rw [hrun]; decide) (by decide)
  have hC1 := Calls.call r (fun s : Scheduler => MoveToWait s RUNNING) hop hev (le_of_eq hact1)
  have hs4 : (r.call (fun s : Scheduler => MoveToWait s RUNNING)).s =
      r.s.setState (r.s.cur : Int) BLOCKED := by simp only [call_s, hop]
  -- the state after the finish time has been recorded
  obtain ⟨r5, hr5def⟩ : ∃ r5 : RunState, r5 =
    { r.call (fun s : Scheduler => MoveToWait s RUNNING) with
      s := (r.call (fun s : Scheduler => MoveToWait s RUNNING)).s.recordFinish
        (r.call (fun s : Scheduler => MoveToWait s RUNNING)).s.currProc
        ((r.call (fun s : Scheduler => MoveToWait s RUNNING)).clockTick +
          (r.call (fun s : Scheduler => MoveToWait s RUNNING)).s.ioLength + 1) } := ⟨_, rfl⟩
  have hr5 : ioIssue r =
      if r5.s.processSwitchBehavior = SwitchBehavior.SWITCH_ON_IO then
        r5.call (fun s => NextProc s (-1))
      else r5 := by rw [hr5def]; rfl
  have hs5 : r5.s = (r.s.setState (r.s.cur : Int) BLOCKED).recordFinish (r.s.cur : Int)
      (r.clockTick + r.s.ioLength + 1) := by
    rw [hr5def]
    simp only [hs4, call_clockTick, setState_currProc, setState_ioLength, hc]
  have hclock5 : r5.clockTick = r.clockTick := by rw [hr5def]; rfl
  have hcpu5 : r5.cpuBusy = r.cpuBusy := by rw [hr5def]; rfl
  have hst5 : ∀ q, r5.s.st q = if q = r.s.cur then BLOCKED else r.s.st q := by
    intro q
    rw [hs5, recordFinish_st, setState_st]
    simp [hG.cur_lt]
  have htl' : r.s.cur < r.s.ioFinishTimes.length := by rw [hG.times_len]; exact hG.cur_lt
  have htl : r.s.cur < (r.s.setState (r.s.cur : Int) BLOCKED).ioFinishTimes.length := by
    simp only [setState_times]; exact htl'
  have htimes5 : ∀ q, r5.s.times q =
      if q = r.s.cur then r.s.times r.s.cur ++ [r.clockTick + r.s.ioLength + 1] else r.s.times q := by
    intro q
    rw [hs5, recordFinish_times]
    simp [htl']
  have hF5 : Frame r r5 := by
    refine Frame.frame_trans hC1.frame ?_
    rw [hr5def]
    refine ⟨?_, rfl, rfl, rfl, rfl, rfl, fun _ h => h⟩
    exact GhostOK_of rfl rfl rfl (fun _ => rfl)
  have hT5 : ∀ q, TimeOK r.clockTick r5.s q := by
    intro q
    unfold TimeOK
    rw [htimes5, hst5]
    by_cases hq : q = r.s.cur
    · have h0 := hT r.s.cur
      unfold TimeOK at h0
      have h0' : (r.s.times r.s.cur).countP (fun t => decide (t > r.clockTick)) = 0 := by
        simpa [hrun] using h0
      simp only [hq, if_true, List.countP_append, h0']
      have : r.clockTick + r.s.ioLength + 1 > r.clockTick := by omega
      simp [List.countP_cons, this]
    · simp only [hq, if_false]
      exact hT q
  have hcode5 : ∀ q, r5.s.code q = r.s.code q := by
    intro q; rw [hs5]; simp
  have hlen5 : r5.s.procInfo.length = r.s.procInfo.length := by rw [hs5]; simp
  have hact5 : GetNumActive r5.s = GetNumActive r.s := by
    rw [hs5]; exact hact1
  have hwait5 : waitSum r.clockTick r5.s = waitSum r.clockTick r.s + (r.s.ioLength.toNat + 1) := by
    rw [hs5]
    rw [waitSum_recordFinish _ _ _ _ htl, waitSum_congr _ (setState_times _ _ _)]
    congr 1
    omega
  have hdone5 : ∀ q, r5.s.st q = DONE → r5.s.code q = [] := by
    intro q hq
    rw [hcode5]
    rw [hst5] at hq
    by_cases hqc : q = r.s.cur
    · simp [hqc] at hq
    · simp [hqc] at hq; exact hG.done q hq
  have hnorun5 : ∀ q, r5.s.st q ≠ RUNNING := by
    intro q hq
    rw [hst5] at hq
    by_cases hqc : q = r.s.cur
    · simp [hqc] at hq
    · simp [hqc] at hq; exact hqc (hG.running q hq)
  have hcur5 : r5.s.cur = r.s.cur := by rw [hs5]; simp
  have hcn5 : 0 ≤ r5.s.currProc := by rw [hs5]; simpa using hG.cur_nonneg
  have htl5 : r5.s.ioFinishTimes.length = r5.s.procInfo.length := by
    rw [hs5]; simpa using hG.times_len
  have hsw5 : r5.s.processSwitchBehavior = r.s.processSwitchBehavior := by rw [hs5]; simp
  rw [hr5]
  by_cases hsw : r5.s.processSwitchBehavior = SwitchBehavior.SWITCH_ON_IO
  · rw [if_pos hsw]
    obtain ⟨hC6, hG6, hb6, ha6⟩ := NextProc_rr_call r5
      hcn5 (by rw [hcur5, hlen5]; exact hG.cur_lt) htl5 hnorun5
      (by intro h; rw [hsw] at h; cases h) hdone5
    refine ⟨hF5.frame_trans hC6.frame, hG6, ?_, ?_, ?_, ?_, ?_⟩
    · intro q
      exact (hT5 q).transfer hC6.times (hb6 q)
    · rw [hC6.cpu]; exact hcpu5
    · rw [hC6.codeSum]; exact codeSum_congr hlen5 hcode5
    · rw [ha6, hact5]
    · rw [waitSum_congr _ hC6.times]; exact hwait5
  · rw [if_neg hsw]
    have hend : r.s.processSwitchBehavior = SwitchBehavior.SWITCH_ON_END := by
      rw [hsw5] at hsw
      cases h : r.s.processSwitchBehavior
      · exact absurd h hsw
      · rfl
    refine ⟨hF5, ⟨hcn5, by rw [hcur5, hlen5]; exact hG.cur_lt,
      htl5, ?_, ?_, ?_, hdone5⟩, hT5, hcpu5,
      codeSum_congr hlen5 hcode5, hact5, hwait5⟩
    · intro q hq; exact absurd hq (hnorun5 q)
    · intro q _
      right
      refine ⟨by rw [hsw5]; exact hend, ?_⟩
      rw [hcur5, hst5]; simp
    · intro _ q hq
      rw [hcur5]
      rw [hst5] at hq
      by_cases hqc : q = r.s.cur
      · exact hqc
      · simp [hqc] at hq; exact hG.blocked hend q hq

theorem afterExec_good (instr : Option Instr) (r : RunState) (hG : Good r.s)
    (hT : ∀ p, TimeOK r.clockTick r.s p) (hL : 0 ≤ r.s.ioLength)
    (hio : instr = some Instr.io → r.s.st r.s.cur = RUNNING) :
    Frame r (afterExec instr r) ∧ Good (afterExec instr r).s ∧
      (∀ p, TimeOK r.clockTick (afterExec instr r).s p) ∧
      (afterExec instr r).cpuBusy = r.cpuBusy ∧ codeSum (afterExec instr r).s = codeSum r.s ∧
      GetNumActive (afterExec instr r).s ≤ GetNumActive r.s ∧
      (instr = none → r.s.code r.s.cur = [] → r.s.st r.s.cur = RUNNING →
        GetNumActive (afterExec instr r).s + 1 = GetNumActive r.s) ∧
      waitSum r.clockTick (afterExec instr r).s =
        waitSum r.clockTick r.s + (if instr = some Instr.io then r.s.ioLength.toNat + 1 else 0) := by
  unfold afterExec
  by_cases hi : instr = some Instr.io
  · simp only [hi, if_true]
    obtain ⟨hF, hG', hT', hcpu, hcs, hact, hw⟩ := ioIssue_good r hG (hio hi) hT hL
    obtain ⟨hC, hG'', hb, ha⟩ := CheckIfDone_call (ioIssue r) hG'
    refine ⟨hF.frame_trans hC.frame, hG'', ?_, ?_, ?_, ?_, ?_, ?_⟩
    · intro p; exact (hT' p).transfer hC.times (hb p)
    · rw [hC.cpu, hcpu]
    · rw [hC.codeSum, hcs]
    · have := hC.active; omega
    · intro h; cases h
    · rw [waitSum_congr _ hC.times, hw]
  · simp only [hi, if_false]
    obtain ⟨hC, hG'', hb, ha⟩ := CheckIfDone_call r hG
    refine ⟨hC.frame, hG'', ?_, hC.cpu, hC.codeSum, hC.active, ?_, ?_⟩
    · intro p; exact (hT p).transfer hC.times (hb p)
    · intro _ h1 h2
      simp only [h1, h2, and_self, if_true] at ha
      exact ha
    · rw [waitSum_congr _ hC.times]; simp

theorem exists_time_of_blocked {T : Int} {s : Scheduler} {x : Nat} (hT : TimeOK T s x)
    (hb : s.st x = BLOCKED) : ∃ t ∈ s.times x, t > T := by
  unfold TimeOK at hT
  simp only [hb, if_true] at hT
  have : 0 < (s.times x).countP (fun t => decide (t > T)) := by omega
  obtain ⟨t, ht, hgt⟩ := List.countP_pos_iff.mp this
  exact ⟨t, ht, by simpa using hgt⟩

theorem TimeOK_out_of_range (T : Int) (s : Scheduler) (p : Nat)
    (htl : s.ioFinishTimes.length = s.procInfo.length) (hp : ¬ p < s.procInfo.length) :
    TimeOK T s p := by
  unfold TimeOK
  have h1 : s.times p = [] := by
    unfold Scheduler.times
    rw [List.getD_eq_getElem?_getD]
    have : s.ioFinishTimes[p]? = none := by simp at hp; simp [htl, hp]
    rw [this]; rfl
  have h2 : s.st p = DONE := by
    by_contra h; exact hp (lt_of_st_ne_done s h)
  rw [h1, h2]; simp

/-- One iteration of the loop of `Run` keeps the invariant, lowers the termination
measure and conserves `cpuBusy` plus the number of instructions left. -/
theorem tick_spec (order : Int → List Nat) (r : RunState) (hI : LoopInv r)
    (hperm : (order (r.clockTick + 1)).Perm (List.range r.s.procInfo.length))
    (hact : 0 < GetNumActive r.s) :
    LoopInv (tick order r) ∧ potential (tick order r) < potential r ∧
      (tick order r).cpuBusy + (codeSum (tick order r).s : Int) = r.cpuBusy + (codeSum r.s : Int) ∧
      (tick order r).clockTick = r.clockTick + 1 ∧
      codeSum r.s ≤ codeSum (tick order r).s + 1 ∧
      (tick order r).s.procInfo.length = r.s.procInfo.length ∧
      (∀ p, r.s.st p = DONE → (tick order r).s.st p = DONE) := by
  obtain ⟨r0, hr0⟩ : ∃ r0 : RunState, r0 = { r with clockTick := r.clockTick + 1 } := ⟨_, rfl⟩
  have hs0 : r0.s = r.s := by rw [hr0]
  have hc0 : r0.clockTick = r.clockTick + 1 := by rw [hr0]
  have hg0 : GhostOK r0 := by
    rw [hr0]; exact GhostOK_of (r := r) rfl rfl rfl (fun _ => rfl) hI.ghost
  have hcpu0 : r0.cpuBusy = r.cpuBusy := by rw [hr0]
  have hG0 : Good r0.s := hs0 ▸ hI.good
  -- the scan
  obtain ⟨hC1, hG1, hT1⟩ := ioScan_good (order r0.clockTick) r0 r.clockTick
    (by rw [hc0]; exact hperm.nodup_iff.mpr (List.nodup_range _)) hG0 hc0
    (by intro p _; rw [hs0]; exact hI.time p)
    (by
      intro p hp
      rw [hs0]
      apply TimeOK_out_of_range _ _ _ hI.good.times_len
      intro hlt
      apply hp
      rw [hc0, hperm.mem_iff, List.mem_range]
      exact hlt)
  obtain ⟨r1, hr1⟩ : ∃ r1 : RunState, r1 = ioScan (order r0.clockTick) r0 := ⟨_, rfl⟩
  rw [← hr1] at hC1 hG1 hT1
  have hc1 : r1.clockTick = r.clockTick + 1 := hC1.clock.trans hc0
  have hL1 : 0 ≤ r1.s.ioLength := by rw [hC1.ioLength, hs0]; exact hI.ioLen
  have hL1' : r1.s.ioLength = r.s.ioLength := by rw [hC1.ioLength, hs0]
  have hw1 : waitSum (r.clockTick + 1) r1.s = waitSum (r.clockTick + 1) r.s := by
    rw [waitSum_congr _ hC1.times, hs0]
  have hcs1 : codeSum r1.s = codeSum r.s := by rw [hC1.codeSum, hs0]
  have ha1 : GetNumActive r1.s ≤ GetNumActive r.s := by have := hC1.active; rwa [hs0] at this
  have hwm := waitSum_mono r.clockTick r.s
  have htick : tick order r =
      afterExec (execStep r1).2
        (if GetIOSInFlight (execStep r1).1.s (execStep r1).1.clockTick > 0 then
          { (execStep r1).1 with ioBusy := (execStep r1).1.ioBusy + 1 }
        else (execStep r1).1) := by
    rw [hr1, hr0]; rfl
  rcases execStep_spec r1 hG1 with ⟨hnone, heq, hneg⟩ | ⟨instr, rest, hrun, hcode, hsome, heq⟩
  · -- no instruction is executed
    obtain ⟨r3, hr3⟩ : ∃ r3 : RunState, r3 =
        (if GetIOSInFlight r1.s r1.clockTick > 0 then { r1 with ioBusy := r1.ioBusy + 1 }
        else r1) := ⟨_, rfl⟩
    have hs3 : r3.s = r1.s := by rw [hr3]; split <;> rfl
    have hc3 : r3.clockTick = r1.clockTick := by rw [hr3]; split <;> rfl
    have hcpu3 : r3.cpuBusy = r1.cpuBusy := by rw [hr3]; split <;> rfl
    have hF3 : Frame r1 r3 := by
      refine ⟨?_, hc3, by rw [hs3], by rw [hs3], by rw [hs3], by rw [hs3],
        fun p h => by rw [hs3]; exact h⟩
      rw [hr3]; split
      · exact GhostOK_of rfl rfl rfl (fun _ => rfl)
      · exact id
    rw [htick, heq, hnone, ← hr3]
    obtain ⟨hF, hG', hT', hcpu, hcs, hact', hstrict, hw⟩ := afterExec_good none r3
      (hs3 ▸ hG1) (by intro p; rw [hc3, hc1, hs3]; exact hT1 p) (hs3 ▸ hL1)
      (by intro h; cases h)
    have hFall : Frame r0 (afterExec none r3) := (hC1.frame.frame_trans hF3).frame_trans hF
    have hclock : (afterExec none r3).clockTick = r.clockTick + 1 :=
      hFall.clock.trans hc0
    refine ⟨⟨hG', ?_, hFall.ghost hg0, ?_⟩, ?_, ?_, hclock, ?_, ?_, ?_⟩
    · intro p; rw [hclock, ← hc1, ← hc3]; exact hT' p
    · rw [hFall.ioLength, hs0]; exact hI.ioLen
    · unfold potential
      rw [hclock, hFall.ioLength, hs0, hcs, hs3, hcs1]
      rw [hc3, hc1, hs3] at hw
      simp only [if_false, Nat.add_zero, reduceCtorEq] at hw
      rw [hw, hw1]
      rw [hs3] at hact' hstrict
      by_cases hr : r1.s.st r1.s.cur = RUNNING
      · have hcd : r1.s.code r1.s.cur = [] := by
          by_contra h; exact hneg ⟨hr, h⟩
        have := hstrict rfl hcd hr
        omega
      · by_cases hz : GetNumActive r1.s = 0
        · omega
        · obtain ⟨q, hq⟩ := (active_pos_iff r1.s).mp (Nat.pos_of_ne_zero hz)
          have hblocked : ∃ x, r1.s.st x = BLOCKED := by
            cases hsq : r1.s.st q with
            | RUNNING => exact absurd (hG1.running q hsq ▸ hsq) hr
            | READY =>
              rcases hG1.ready q hsq with h | h
              · exact absurd h hr
              · exact ⟨_, h.2⟩
            | DONE => exact absurd hsq hq
            | BLOCKED => exact ⟨q, hsq⟩
          obtain ⟨x, hx⟩ := hblocked
          obtain ⟨t, ht, hgt⟩ := exists_time_of_blocked (hT1 x) hx
          have ht' : t ∈ r.s.times x := by
            have : r1.s.times x = r.s.times x := by
              simp [Scheduler.times, hC1.times, hs0]
            rwa [this] at ht
          have := waitSum_strict r.clockTick r.s x t ht' (by omega)
          omega
    · rw [hcpu, hcs, hcpu3, hs3, hcs1, hC1.cpu, hcpu0]
    · rw [hcs, hs3, hcs1]; omega
    · rw [hFall.len, hs0]
    · intro p hp; exact hFall.done p (hs0 ▸ hp)
  · -- an instruction is executed
    obtain ⟨r2, hr2⟩ : ∃ r2 : RunState, r2 = (execStep r1).1 := ⟨_, rfl⟩
    have hs2 : r2.s = r1.s.setCode (r1.s.cur : Int) rest := by rw [hr2, heq]
    have hc2 : r2.clockTick = r1.clockTick := by rw [hr2, heq]
    have hcpu2 : r2.cpuBusy = r1.cpuBusy + 1 := by rw [hr2, heq]
    have hg2 : GhostOK r1 → GhostOK r2 := by
      rw [hr2, heq]
      exact GhostOK_of rfl rfl (by simp) (fun p => by simp)
    obtain ⟨r3, hr3⟩ : ∃ r3 : RunState, r3 =
        (if GetIOSInFlight r2.s r2.clockTick > 0 then { r2 with ioBusy := r2.ioBusy + 1 }
        else r2) := ⟨_, rfl⟩
    have hs3 : r3.s = r2.s := by rw [hr3]; split <;> rfl
    have hc3 : r3.clockTick = r2.clockTick := by rw [hr3]; split <;> rfl
    have hcpu3 : r3.cpuBusy = r2.cpuBusy := by rw [hr3]; split <;> rfl
    have hg3 : GhostOK r2 → GhostOK r3 := by
      rw [hr3]; split
      · exact GhostOK_of rfl rfl rfl (fun _ => rfl)
      · exact id
    have hF3 : Frame r1 r3 := by
      refine ⟨fun g => hg3 (hg2 g), hc3.trans hc2, ?_, ?_, ?_, ?_, ?_⟩ <;> rw [hs3, hs2]
      · simp
      · simp
      · simp
      · simp
      · intro p hp; simpa using hp
    have hG3 : Good r3.s := by
      rw [hs3, hs2]; exact Good_setCode r1.s hG1 rest hrun
    have hcur3 : r3.s.cur = r1.s.cur := by rw [hs3, hs2]; simp
    have hst3 : ∀ p, r3.s.st p = r1.s.st p := by intro p; rw [hs3, hs2]; simp
    have hT3 : ∀ p, TimeOK r3.clockTick r3.s p := by
      intro p
      rw [hc3, hc2, hc1, hs3, hs2]
      exact TimeOK_setCode _ _ _ _ _ (hT1 p)
    have hcs3 : codeSum r3.s + 1 = codeSum r1.s := by
      have := codeSum_setCode r1.s r1.s.cur rest hG1.cur_lt
      rw [hcode] at this
      rw [hs3, hs2]
      simp only [List.length_cons] at this
      omega
    have ha3 : GetNumActive r3.s = GetNumActive r1.s := by
      rw [hs3, hs2]; exact active_setCode _ _ _
    have hw3 : waitSum (r.clockTick + 1) r3.s = waitSum (r.clockTick + 1) r1.s := by
      apply waitSum_congr; rw [hs3, hs2]; simp
    rw [htick, hsome, ← hr2, ← hr3]
    obtain ⟨hF, hG', hT', hcpu, hcs, hact', -, hw⟩ := afterExec_good (some instr) r3
      hG3 hT3 (by rw [hF3.ioLength]; exact hL1)
      (by intro _; rw [hcur3, hst3]; exact hrun)
    have hFall : Frame r0 (afterExec (some instr) r3) := (hC1.frame.frame_trans hF3).frame_trans hF
    have hclock : (afterExec (some instr) r3).clockTick = r.clockTick + 1 :=
      hFall.clock.trans hc0
    refine ⟨⟨hG', ?_, hFall.ghost hg0, ?_⟩, ?_, ?_, hclock, ?_, ?_, ?_⟩
    · intro p; rw [hclock, ← hc1, ← hc2, ← hc3]; exact hT' p
    · rw [hFall.ioLength, hs0]; exact hI.ioLen
    · unfold potential
      rw [hclock, hFall.ioLength, hs0, hcs]
      rw [hc3, hc2, hc1, hF3.ioLength, hL1'] at hw
      rw [hw, hw3, hw1]
      have hmul : (r.s.ioLength.toNat + 2) * codeSum r.s =
          (r.s.ioLength.toNat + 2) * codeSum r3.s + (r.s.ioLength.toNat + 2) := by
        rw [← hcs1, ← hcs3]; ring
      have hle : (if some instr = some Instr.io then r.s.ioLength.toNat + 1 else 0) ≤
          r.s.ioLength.toNat + 1 := by split <;> omega
      omega
    · rw [hcpu, hcs, hcpu3, hcpu2, hC1.cpu, hcpu0, ← hcs1, ← hcs3]
      push_cast
      ring
    · rw [hcs, ← hcs1, ← hcs3]
    · rw [hFall.len, hs0]
    · intro p hp; exact hFall.done p (hs0 ▸ hp)

/-- The fuel that always suffices: `(ioLength + 2)` per instruction plus one per process. -/
theorem waitSum_replicate (T : Int) (n : Nat) :
    (List.map (fun l : List Int => (l.map (fun t => (t - T).toNat)).sum) (List.replicate n [])).sum = 0 := by
  induction n with
  | zero => simp
  | succ n ih => simp [List.replicate_succ]

theorem runInit_spec (s : Scheduler) (hL : 0 ≤ s.ioLength) (hne : s.procInfo ≠ [])
    (hready : ∀ proc ∈ s.procInfo, proc.State = READY) :
    LoopInv (runInit s) ∧ (runInit s).cpuBusy = 0 ∧ (runInit s).clockTick = 0 ∧
      codeSum (runInit s).s = codeSum s ∧
      (runInit s).s.procInfo.length = s.procInfo.length ∧
      (runInit s).s.ioLength = s.ioLength ∧
      potential (runInit s) ≤ (s.ioLength.toNat + 2) * codeSum s + s.procInfo.length := by
  have hpos : 0 < s.procInfo.length := List.length_pos.mpr hne
  obtain ⟨s1, hs1⟩ : ∃ s1 : Scheduler, s1 =
    { s with ioFinishTimes := List.replicate s.procInfo.length [], currProc := 0 } := ⟨_, rfl⟩
  obtain ⟨r0, hr0⟩ : ∃ r0 : RunState, r0 =
    { s := s1, cpuBusy := 0, ioBusy := 0, clockTick := 0, errs := [], transitions := [],
      execs := [] } := ⟨_, rfl⟩
  have hinit : runInit s = r0.call (fun s => MoveToRunning s READY) := by
    rw [hr0, hs1]; rfl
  have hst1 : ∀ p, s1.st p = if p < s.procInfo.length then READY else DONE := by
    intro p
    rw [hs1]
    show s.st p = _
    by_cases hp : p < s.procInfo.length
    · obtain ⟨proc, hget, hst, -⟩ := get_of_lt s hp
      rw [if_pos hp, ← hst]
      exact hready proc (List.getElem?_mem hget)
    · rw [if_neg hp]
      by_contra h; exact hp (lt_of_st_ne_done s h)
  have hr0s : r0.s = s1 := by rw [hr0]
  have hcur1 : s1.currProc = ((0 : Nat) : Int) := by rw [hs1]; rfl
  have h0 : s1.st 0 = READY := by rw [hst1]; simp [hpos]
  have hop : (fun s : Scheduler => MoveToRunning s READY) r0.s =
      (s1.setState ((0 : Nat) : Int) RUNNING, none) := by
    rw [hr0s]; exact MoveToRunning_eq s1 0 READY hcur1 h0 (by decide)
  have hev : Evolves r0.s (s1.setState ((0 : Nat) : Int) RUNNING) := by
    rw [hr0s]
    exact Evolves_setState' s1 0 RUNNING (Or.inl ⟨h0, rfl⟩)
  have hact : GetNumActive (s1.setState ((0 : Nat) : Int) RUNNING) = GetNumActive s1 :=
    active_setState_same s1 0 RUNNING (by rw [h0]; decide) (by decide)
  have hC := Calls.call r0 (fun s : Scheduler => MoveToRunning s READY) hop hev
    (by rw [hr0s]; exact le_of_eq hact)
  have hg0 : GhostOK r0 := by
    refine ⟨by rw [hr0], by rw [hr0]; simp, fun p => ?_⟩
    rw [hr0s, hst1]
    have : r0.transitions = [] := by rw [hr0]
    rw [this]
    have hlen1 : s1.procInfo.length = s.procInfo.length := by rw [hs1]
    rw [hlen1]
    by_cases hp : p < s.procInfo.length
    · simp [hp]
    · simp [hp]
  have hlen1 : s1.procInfo.length = s.procInfo.length := by rw [hs1]
  have hs' : (runInit s).s = s1.setState ((0 : Nat) : Int) RUNNING := by
    rw [hinit]; simp only [call_s, hop]
  have hst' : ∀ p, (runInit s).s.st p =
      if p = 0 then RUNNING else if p < s.procInfo.length then READY else DONE := by
    intro p
    rw [hs', setState_st, hst1]
    by_cases hp : p = 0
    · simp [hp, hlen1, hpos]
    · simp [hp]
  have htimes : (runInit s).s.ioFinishTimes = List.replicate s.procInfo.length [] := by
    rw [hs']; simp only [setState_times]; rw [hs1]
  have hcurr : (runInit s).s.cur = 0 := by
    rw [hs']; simp only [setState_cur]; rw [hs1]; rfl
  have hcode : ∀ p, (runInit s).s.code p = s.code p := by
    intro p; rw [hs']; simp only [setState_code]; rw [hs1]; rfl
  have hlen : (runInit s).s.procInfo.length = s.procInfo.length := by
    rw [hs']; simp only [setState_length]; exact hlen1
  have hioL : (runInit s).s.ioLength = s.ioLength := by
    rw [hs']; simp only [setState_ioLength]; rw [hs1]
  have hclock : (runInit s).clockTick = 0 := by rw [hinit, hC.clock, hr0]
  have hcs : codeSum (runInit s).s = codeSum s := codeSum_congr hlen hcode
  refine ⟨⟨⟨?_, ?_, ?_, ?_, ?_, ?_, ?_⟩, ?_, ?_, ?_⟩, ?_, hclock, hcs, hlen, hioL, ?_⟩
  · rw [hs']; simp only [setState_currProc]; rw [hs1]
  · rw [hcurr, hlen]; exact hpos
  · rw [htimes, hlen]; simp
  · intro p hp
    rw [hst'] at hp
    rw [hcurr]
    by_contra h
    simp only [h, if_false] at hp
    split at hp <;> cases hp
  · intro p _
    left
    rw [hcurr, hst']; simp
  · intro _ p hp
    rw [hst'] at hp
    split at hp
    · cases hp
    · split at hp <;> cases hp
  · intro p hp
    rw [hst'] at hp
    rw [hcode]
    by_cases hp0 : p = 0
    · simp [hp0] at hp
    · by_cases hpl : p < s.procInfo.length
      · simp [hp0, hpl] at hp
      · unfold Scheduler.code
        have : s.procInfo[p]? = none := by simp at hpl; simp [hpl]
        rw [this]
  · intro p
    unfold TimeOK
    have : (runInit s).s.times p = [] := by
      unfold Scheduler.times
      rw [htimes, List.getD_eq_getElem?_getD, List.getElem?_replicate]
      split <;> rfl
    rw [this, hst']
    by_cases hp0 : p = 0
    · simp [hp0]
    · by_cases hpl : p < s.procInfo.length
      · simp [hp0, hpl]
      · simp [hp0, hpl]
  · rw [hinit]; exact hC.ghost hg0
  · rw [hioL]; exact hL
  · rw [hinit, hC.cpu, hr0]
  · unfold potential
    rw [hioL, hcs, hclock]
    have h1 : waitSum 0 (runInit s).s = 0 := by
      unfold waitSum; rw [htimes]; exact waitSum_replicate 0 _
    have h2 : GetNumActive (runInit s).s ≤ s.procInfo.length := by
      rw [← hlen]; exact List.countP_le_length _
    omega

/-- The loop of `Run` exits within `potential r` iterations. -/
theorem runLoop_spec (order : Int → List Nat) (n : Nat)
    (hperm : ∀ t, (order t).Perm (List.range n)) :
    ∀ (fuel : Nat) (r : RunState), LoopInv r → r.s.procInfo.length = n → potential r ≤ fuel →
      ∃ r', runLoop order fuel r = some r' ∧ LoopInv r' ∧ GetNumActive r'.s = 0 ∧
        r'.cpuBusy + (codeSum r'.s : Int) = r.cpuBusy + (codeSum r.s : Int) ∧
        r'.clockTick + (codeSum r'.s : Int) ≥ r.clockTick + (codeSum r.s : Int) ∧
        r'.clockTick + (potential r' : Int) ≤ r.clockTick + (potential r : Int) ∧
        r'.s.procInfo.length = n
  | 0, r, hI, hn, hfuel => by
    have hz : GetNumActive r.s = 0 := by unfold potential at hfuel; omega
    refine ⟨r, ?_, hI, hz, rfl, le_refl _, le_refl _, hn⟩
    simp [runLoop, hz]
  | fuel + 1, r, hI, hn, hfuel => by
    by_cases hz : GetNumActive r.s = 0
    · refine ⟨r, ?_, hI, hz, rfl, le_refl _, le_refl _, hn⟩
      simp [runLoop, hz]
    · have hpos : 0 < GetNumActive r.s := Nat.pos_of_ne_zero hz
      obtain ⟨hI', hpot, hcpu, hclock, hcs, hlen, -⟩ :=
        tick_spec order r hI (by rw [hn]; exact hperm _) hpos
      obtain ⟨r', h1, h2, h3, h4, h5, h6, h7⟩ :=
        runLoop_spec order n hperm fuel (tick order r) hI' (hlen.trans hn) (by omega)
      refine ⟨r', ?_, h2, h3, h4.trans hcpu, ?_, ?_, h7⟩
      · simp only [runLoop, hpos, if_true]; exact h1
      · omega
      · omega

/-- The behaviour of `Run` on a table whose processes are all READY. -/
theorem Run_spec (order : Int → List Nat) (fuel : Nat) (s : Scheduler) (hL : 0 ≤ s.ioLength)
    (hne : s.procInfo ≠ []) (hready : ∀ proc ∈ s.procInfo, proc.State = READY)
    (hperm : ∀ t, (order t).Perm (List.range s.procInfo.length))
    (hfuel : (s.ioLength.toNat + 2) * codeSum s + s.procInfo.length ≤ fuel) :
    ∃ r, Run order fuel s = some r ∧ LoopInv r ∧ GetNumActive r.s = 0 ∧
      r.cpuBusy = (codeSum s : Int) ∧ codeSum r.s = 0 ∧ (codeSum s : Int) ≤ r.clockTick ∧
      r.clockTick ≤ (((s.ioLength.toNat + 2) * codeSum s + s.procInfo.length : Nat) : Int) ∧
      r.s.procInfo.length = s.procInfo.length := by
  obtain ⟨hI, hcpu, hclock, hcs, hlen, hioL, hpot⟩ := runInit_spec s hL hne hready
  obtain ⟨r, h1, h2, h3, h4, h5, h6, h7⟩ :=
    runLoop_spec order s.procInfo.length hperm fuel (runInit s) hI hlen (by omega)
  have hzero : codeSum r.s = 0 := by
    unfold codeSum
    rw [List.sum_eq_zero_iff]
    intro x hx
    obtain ⟨proc, hproc, rfl⟩ := List.mem_map.mp hx
    obtain ⟨i, hi⟩ := List.getElem?_of_mem hproc
    have hdone : r.s.st i = DONE := by
      by_contra h
      have := (active_pos_iff r.s).mpr ⟨i, h⟩
      omega
    have := h2.good.done i hdone
    simp only [Scheduler.code, hi] at this
    simp [this]
  refine ⟨r, ?_, h2, h3, ?_, hzero, ?_, ?_, h7⟩
  · unfold Run
    have : ¬ s.procInfo.length = 0 := by
      intro h; exact hne (List.length_eq_zero.mp h)
    rw [if_neg this]; exact h1
  · rw [hzero, hcpu, hcs] at h4; simpa using h4
  · rw [hzero, hclock, hcs] at h5; simpa using h5
  · rw [hclock] at h6
    have : (potential (runInit s) : Int) ≤ (((s.ioLength.toNat + 2) * codeSum s + s.procInfo.length : Nat) : Int) := by
      exact_mod_cast hpot
    omega

/-! ### The loaders -/

theorem NewProcess_eq (s : Scheduler) :
    NewProcess s = (s.withNewProcess [], (s.procInfo.length : Int)) := rfl

theorem appendCode_withNewProcess (s : Scheduler) (a b : List Instr) :
    (s.withNewProcess a).appendCode (s.procInfo.length : Int) b = s.withNewProcess (a ++ b) := by
  unfold Scheduler.appendCode Scheduler.setCode
  simp [Scheduler.withNewProcess]

theorem LoadProgram_loop_eq (s : Scheduler) : ∀ (tokens : List (List Char)) (a : List Instr),
    LoadProgram.loop (s.procInfo.length : Int) (s.withNewProcess a) tokens =
      (s.withNewProcess (a ++ (tokensCode tokens).1), (tokensCode tokens).2)
  | [], a => by simp [LoadProgram.loop, tokensCode]
  | [] :: rest, a => by
    simp only [LoadProgram.loop, tokensCode]
    exact LoadProgram_loop_eq s rest a
  | (opcode :: arg) :: rest, a => by
    simp only [LoadProgram.loop, tokensCode]
    by_cases hc : opcode = 'c'
    · simp only [hc, if_true]
      cases hA : Atoi arg with
      | none => simp
      | some num =>
        simp only
        rw [appendCode_withNewProcess, LoadProgram_loop_eq s rest, List.append_assoc]
    · simp only [hc, if_false]
      by_cases hi : opcode = 'i'
      · simp only [hi, if_true]
        rw [appendCode_withNewProcess, LoadProgram_loop_eq s rest, List.append_assoc]
      · simp [hi]

/-- `LoadProgram` adds one process whose `Code` is what the tokens before the first
rejected token expand to, and returns the error of that token, if any. -/
theorem LoadProgram_eq (s : Scheduler) (program : List Char) :
    LoadProgram s program =
      (s.withNewProcess (tokensCode (stringsSplit ',' program)).1,
        (tokensCode (stringsSplit ',' program)).2) := by
  unfold LoadProgram
  rw [NewProcess_eq]
  simpa using LoadProgram_loop_eq s (stringsSplit ',' program) []

theorem tokensCode_error_iff : ∀ tokens : List (List Char),
    (tokensCode tokens).2.isSome = true ↔ ∃ tok ∈ tokens, RejectedToken tok
  | [] => by simp [tokensCode]
  | [] :: rest => by
    simp only [tokensCode]
    rw [tokensCode_error_iff rest]
    constructor
    · rintro ⟨tok, h1, h2⟩; exact ⟨tok, List.mem_cons_of_mem _ h1, h2⟩
    · rintro ⟨tok, h1, h2⟩
      rcases List.mem_cons.mp h1 with h | h
      · subst h; obtain ⟨o, a, h, -⟩ := h2; cases h
      · exact ⟨tok, h, h2⟩
  | (opcode :: arg) :: rest => by
    simp only [tokensCode]
    by_cases hc : opcode = 'c'
    · simp only [hc, if_true]
      cases hA : Atoi arg with
      | none =>
        simp only [Option.isSome_some, true_iff]
        exact ⟨_, List.mem_cons_self _ _, 'c', arg, rfl, Or.inr ⟨rfl, hA⟩⟩
      | some num =>
        simp only
        rw [tokensCode_error_iff rest]
        constructor
        · rintro ⟨tok, h1, h2⟩; exact ⟨tok, List.mem_cons_of_mem _ h1, h2⟩
        · rintro ⟨tok, h1, h2⟩
          rcases List.mem_cons.mp h1 with h | h
          · subst h
            obtain ⟨o, a, h, h'⟩ := h2
            simp only [List.cons.injEq] at h
            obtain ⟨rfl, rfl⟩ := h
            rcases h' with h' | h'
            · exact absurd rfl h'.1
            · rw [hA] at h'; cases h'.2
          · exact ⟨tok, h, h2⟩
    · simp only [hc, if_false]
      by_cases hi : opcode = 'i'
      · simp only [hi, if_true]
        rw [tokensCode_error_iff rest]
        constructor
        · rintro ⟨tok, h1, h2⟩; exact ⟨tok, List.mem_cons_of_mem _ h1, h2⟩
        · rintro ⟨tok, h1, h2⟩
          rcases List.mem_cons.mp h1 with h | h
          · subst h
            obtain ⟨o, a, h, h'⟩ := h2
            simp only [List.cons.injEq] at h
            obtain ⟨rfl, rfl⟩ := h
            rcases h' with h' | h'
            · exact absurd rfl h'.2
            · exact absurd h'.1 (by decide)
          · exact ⟨tok, h, h2⟩
      · simp only [hi, if_false, Option.isSome_some, true_iff]
        exact ⟨_, List.mem_cons_self _ _, opcode, arg, rfl, Or.inl ⟨hc, hi⟩⟩

theorem Atoi_numeral (ds : List Char) (h : IsNumeral ds) (hr : decimalValue ds < 2 ^ (intSize - 1)) :
    Atoi ds = some (decimalValue ds : Int) := by
  obtain ⟨hne, hdig⟩ := h
  cases ds with
  | nil => exact absurd rfl hne
  | cons c rest =>
    have hc : isDigit c = true := hdig c (List.mem_cons_self _ _)
    have hm : c ≠ '-' := by
      intro h; rw [h] at hc; revert hc; decide
    have hp : c ≠ '+' := by
      intro h; rw [h] at hc; revert hc; decide
    have hall : (c :: rest).all isDigit = true := List.all_eq_true.mpr hdig
    unfold Atoi
    simp only [hm, hp, or_self, if_false, decide_False, List.isEmpty_cons, hall, Bool.not_true,
      Bool.or_self, Bool.false_eq_true, hr, if_true]

theorem tokensCode_wellFormed : ∀ tokens : List (List Char),
    (∀ tok ∈ tokens, WellFormedToken tok ∧
      ∀ ds, tok = 'c' :: ds → decimalValue ds < 2 ^ (intSize - 1)) →
      tokensCode tokens = ((tokens.map expandToken).flatten, none)
  | [], _ => by simp [tokensCode]
  | tok :: rest, h => by
    have ih := tokensCode_wellFormed rest (fun t ht => h t (List.mem_cons_of_mem _ ht))
    obtain ⟨hw, hr⟩ := h tok (List.mem_cons_self _ _)
    rcases hw with rfl | rfl | ⟨ds, rfl, hnum, hpos⟩
    · simp [tokensCode, ih, expandToken]
    · simp [tokensCode, ih, expandToken]
    · have hA := Atoi_numeral ds hnum (hr ds rfl)
      simp [tokensCode, ih, expandToken, hA]

theorem Load_loop_eq (s : Scheduler) (chanceCPU : GoFloat) (draws : Nat → ℚ) :
    ∀ (k i : Nat) (a : List Instr),
      Load.loop (s.procInfo.length : Int) chanceCPU draws k i (s.withNewProcess a) =
        s.withNewProcess (a ++ drawsCode chanceCPU draws k i)
  | 0, i, a => by simp [Load.loop, drawsCode]
  | k + 1, i, a => by
    simp only [Load.loop, drawsCode]
    split
    · rw [appendCode_withNewProcess, Load_loop_eq s chanceCPU draws k (i + 1), List.append_assoc]
    · rw [appendCode_withNewProcess, Load_loop_eq s chanceCPU draws k (i + 1), List.append_assoc]

theorem drawsCode_all_cpu (draws : Nat → ℚ) (hd : ∀ i, draws i < 1) : ∀ k i : Nat,
    drawsCode (GoFloat.div100 (GoFloat.finite 100)) draws k i = List.replicate k Instr.cpu
  | 0, _ => rfl
  | k + 1, i => by
    have : GoFloat.drawLt (draws i) (GoFloat.div100 (GoFloat.finite 100)) = true := by
      simp only [GoFloat.div100, GoFloat.drawLt, decide_eq_true_eq]
      have := hd i
      norm_num
      exact this
    simp only [drawsCode, this, if_true, drawsCode_all_cpu draws hd k (i + 1)]
    rfl

theorem drawsCode_all_io (draws : Nat → ℚ) (hd : ∀ i, 0 ≤ draws i) : ∀ k i : Nat,
    drawsCode (GoFloat.div100 (GoFloat.finite 0)) draws k i =
      (List.replicate k [Instr.io, Instr.io_done]).flatten
  | 0, _ => rfl
  | k + 1, i => by
    have : GoFloat.drawLt (draws i) (GoFloat.div100 (GoFloat.finite 0)) = false := by
      simp only [GoFloat.div100, GoFloat.drawLt, decide_eq_false_iff_not, not_lt]
      have := hd i
      norm_num
      exact this
    simp only [drawsCode, this, drawsCode_all_io draws hd k (i + 1)]
    simp [List.replicate_succ]

theorem stringsSplit_no_sep (sep : Char) : ∀ (l : List Char), sep ∉ l → stringsSplit sep l = [l]
  | [], _ => rfl
  | c :: cs, h => by
    have hc : c ≠ sep := fun h' => h (h' ▸ List.mem_cons_self _ _)
    have := stringsSplit_no_sep sep cs (fun h' => h (List.mem_cons_of_mem _ h'))
    simp [stringsSplit, hc, this]

theorem stringsSplit_append (sep : Char) : ∀ (l r : List Char), sep ∉ l →
    stringsSplit sep (l ++ sep :: r) = l :: stringsSplit sep r
  | [], r, _ => by simp [stringsSplit]
  | c :: cs, r, h => by
    have hc : c ≠ sep := fun h' => h (h' ▸ List.mem_cons_self _ _)
    have := stringsSplit_append sep cs r (fun h' => h (List.mem_cons_of_mem _ h'))
    simp [stringsSplit, hc, this]

theorem numeral_no_colon (ds : List Char) (h : IsNumeral ds) : ':' ∉ ds := by
  intro hmem
  have := h.2 ':' hmem
  revert this
  decide

theorem all_done_of_inactive (s : Scheduler) (hG : Good s) (h : GetNumActive s = 0) :
    ∀ proc ∈ s.procInfo, proc.State = DONE ∧ proc.Code = [] := by
  intro proc hproc
  obtain ⟨i, hi⟩ := List.getElem?_of_mem hproc
  have hdone : s.st i = DONE := by
    by_contra hne
    have := (active_pos_iff s).mpr ⟨i, hne⟩
    omega
  have hcode := hG.done i hdone
  simp only [Scheduler.st, hi] at hdone
  simp only [Scheduler.code, hi] at hcode
  exact ⟨hdone, hcode⟩

theorem length_eq_counts (l : List Instr) :
    l.length = l.count Instr.cpu + l.count Instr.io + l.count Instr.io_done := by
  induction l with
  | nil => rfl
  | cons a l ih =>
    cases a <;> simp [List.count_cons, ih] <;> omega

theorem codeSum_eq_counts (s : Scheduler) :
    codeSum s = countInstr Instr.cpu s + countInstr Instr.io s + countInstr Instr.io_done s := by
  unfold codeSum countInstr
  induction s.procInfo with
  | nil => rfl
  | cons p ps ih =>
    simp only [List.map_cons, List.sum_cons, ih, length_eq_counts p.Code]
    omega

/-- C1. `Run` terminates on every non-empty table whose processes are all READY, for
both switch policies, both I/O-done policies, every `ioLength ≥ 0` and every order in
which the completion scan visits the processes: with `fuelBound s` loop iterations or
more the loop exits, every process is then DONE with an empty `Code`, and at most
`fuelBound s` ticks have elapsed. -/
theorem Run_terminates (order : Int → List Nat) (fuel : Nat) (s : Scheduler)
    (hL : 0 ≤ s.ioLength) (hne : s.procInfo ≠ [])
    (hready : ∀ proc ∈ s.procInfo, proc.State = READY)
    (hperm : ∀ t, (order t).Perm (List.range s.procInfo.length))
    (hfuel : fuelBound s ≤ fuel) :
    ∃ r, Run order fuel s = some r ∧ GetNumActive r.s = 0 ∧
      (∀ proc ∈ r.s.procInfo, proc.State = DONE ∧ proc.Code = []) ∧
      r.clockTick ≤ (fuelBound s : Int) := by
  obtain ⟨r, h1, h2, h3, -, -, -, h7, -⟩ := Run_spec order fuel s hL hne hready hperm hfuel
  exact ⟨r, h1, h3, all_done_of_inactive r.s h2.good h3, h7⟩

theorem Run_terminates_witness :
    ∃ r, Run (fun _ => List.range scenario.procInfo.length) 40 scenario = some r ∧
      GetNumActive r.s = 0 ∧
      (∀ proc ∈ r.s.procInfo, proc.State = DONE ∧ proc.Code = []) ∧
      r.clockTick ≤ (fuelBound scenario : Int) :=
  Run_terminates (fun _ => List.range scenario.procInfo.length) 40 scenario (by decide) (by decide)
    (by decide) (fun _ => List.Perm.refl _) (by decide)

/-- C2, as amended. The CPU-busy count returned by `Run` is the total number of
instructions of every kind in the loaded `Code` of all processes: the `cpu` tokens and
also the `io` and `io_done` tokens, since every executed instruction increments
`cpuBusy`. -/
theorem Run_cpuBusy_counts_all_tokens (order : Int → List Nat) (fuel : Nat) (s : Scheduler)
    (hL : 0 ≤ s.ioLength) (hne : s.procInfo ≠ [])
    (hready : ∀ proc ∈ s.procInfo, proc.State = READY)
    (hperm : ∀ t, (order t).Perm (List.range s.procInfo.length))
    (hfuel : fuelBound s ≤ fuel) :
    ∃ r, Run order fuel s = some r ∧
      r.cpuBusy =
        ((countInstr Instr.cpu s + countInstr Instr.io s + countInstr Instr.io_done s : Nat) : Int) := by
  obtain ⟨r, h1, -, -, h4, -⟩ := Run_spec order fuel s hL hne hready hperm hfuel
  exact ⟨r, h1, by rw [h4, codeSum_eq_counts]⟩

theorem Run_cpuBusy_counts_all_tokens_witness :
    ∃ r, Run (fun _ => List.range ioOnly.procInfo.length) 5 ioOnly = some r ∧
      r.cpuBusy =
        ((countInstr Instr.cpu ioOnly + countInstr Instr.io ioOnly +
          countInstr Instr.io_done ioOnly : Nat) : Int) :=
  Run_cpuBusy_counts_all_tokens (fun _ => List.range ioOnly.procInfo.length) 5 ioOnly
    (by decide) (by decide) (by decide) (fun _ => List.Perm.refl _) (by decide)

/-- C2, as stated, fails: the single process `"i"` holds no `cpu` instruction, and
`Run` returns a CPU-busy count of 2. -/
theorem Run_cpuBusy_not_cpu_count :
    countInstr Instr.cpu ioOnly = 0 ∧
      (Run (fun _ => [0]) 5 ioOnly).map (fun r => r.cpuBusy) = some 2 := by
  decide

/-- C3, as amended. In the end-to-end scenario process 0 holds 5 instructions (2 `cpu`,
`io`, `io_done`, 1 `cpu`) and process 1 holds 3, and `Run` returns a CPU-busy count of
exactly 8 (the `io` and `io_done` instructions of process 0 count too) and a tick count
of at least 6 + 2, whatever the order of the completion scan. -/
theorem Run_scenario (order : Int → List Nat) (fuel : Nat)
    (hperm : ∀ t, (order t).Perm (List.range 2)) (hfuel : 34 ≤ fuel) :
    scenario.procInfo.map (fun proc => proc.Code.length) = [5, 3] ∧
      ∃ r, Run order fuel scenario = some r ∧ r.cpuBusy = 8 ∧ 6 + 2 ≤ r.clockTick := by
  obtain ⟨r, h1, -, -, h4, -, h6, -⟩ := Run_spec order fuel scenario (by decide) (by decide)
    (by decide) hperm hfuel
  have hcs : codeSum scenario = 8 := by decide
  rw [hcs] at h4 h6
  exact ⟨by decide, r, h1, h4, by omega⟩

theorem Run_scenario_witness :
    scenario.procInfo.map (fun proc => proc.Code.length) = [5, 3] ∧
      ∃ r, Run (fun _ => [1, 0]) 34 scenario = some r ∧ r.cpuBusy = 8 ∧ 6 + 2 ≤ r.clockTick :=
  Run_scenario (fun _ => [1, 0]) 34 (fun _ => List.Perm.swap 0 1 []) (le_refl _)

/-- C3, as stated, fails: in the end-to-end scenario `Run` returns the counters
(cpuBusy, ioBusy, ticks) = (8, 2, 8), not a CPU-busy count of 6. -/
theorem Run_scenario_cpuBusy_is_8 :
    (Run (fun _ => [0, 1]) 34 scenario).map (fun r => (r.cpuBusy, r.ioBusy, r.clockTick)) =
      some (8, 2, 8) := by
  decide

/-- C4. Every state change made during `Run` (freshly loaded table, `ioLength ≥ 0`) is
one of the five documented transitions; a process enters DONE only from RUNNING with
an empty `Code`, no change leaves DONE, and every process enters DONE exactly once. -/
theorem Run_transitions_documented (order : Int → List Nat) (fuel : Nat) (s : Scheduler)
    (hL : 0 ≤ s.ioLength) (hne : s.procInfo ≠ [])
    (hready : ∀ proc ∈ s.procInfo, proc.State = READY)
    (hperm : ∀ t, (order t).Perm (List.range s.procInfo.length))
    (hfuel : fuelBound s ≤ fuel) :
    ∃ r, Run order fuel s = some r ∧
      (∀ t ∈ r.transitions,
        (t.src = READY ∧ t.dst = RUNNING) ∨ (t.src = RUNNING ∧ t.dst = READY) ∨
        (t.src = RUNNING ∧ t.dst = BLOCKED) ∨ (t.src = BLOCKED ∧ t.dst = READY) ∨
        (t.src = RUNNING ∧ t.dst = DONE)) ∧
      (∀ t ∈ r.transitions, t.dst = DONE → t.src = RUNNING ∧ t.code = []) ∧
      (∀ t ∈ r.transitions, t.src ≠ DONE) ∧
      (∀ p, p < s.procInfo.length →
        r.transitions.countP (fun t => decide (t.pid = p ∧ t.dst = DONE)) = 1) := by
  obtain ⟨r, h1, h2, h3, -, -, -, -, h8⟩ := Run_spec order fuel s hL hne hready hperm hfuel
  refine ⟨r, h1, ?_, ?_, ?_, ?_⟩
  · intro t ht
    rcases h2.ghost.trans t ht with h | h | h | h | h
    · exact Or.inl h
    · exact Or.inr (Or.inl h)
    · exact Or.inr (Or.inr (Or.inl h))
    · exact Or.inr (Or.inr (Or.inr (Or.inl h)))
    · exact Or.inr (Or.inr (Or.inr (Or.inr ⟨h.1, h.2.1⟩)))
  · intro t ht hd
    rcases h2.ghost.trans t ht with h | h | h | h | h
    · rw [h.2] at hd; cases hd
    · rw [h.2] at hd; cases hd
    · rw [h.2] at hd; cases hd
    · rw [h.2] at hd; cases hd
    · exact ⟨h.1, h.2.2⟩
  · intro t ht
    exact (h2.ghost.trans t ht).src_ne_done
  · intro p hp
    rw [h2.ghost.doneOnce p]
    have hdone : r.s.st p = DONE := by
      by_contra hne'
      have := (active_pos_iff r.s).mpr ⟨p, hne'⟩
      omega
    simp [h8, hp, hdone]

theorem Run_transitions_documented_witness :
    ∃ r, Run (fun _ => List.range scenario.procInfo.length) 34 scenario = some r ∧
      (∀ t ∈ r.transitions,
        (t.src = READY ∧ t.dst = RUNNING) ∨ (t.src = RUNNING ∧ t.dst = READY) ∨
        (t.src = RUNNING ∧ t.dst = BLOCKED) ∨ (t.src = BLOCKED ∧ t.dst = READY) ∨
        (t.src = RUNNING ∧ t.dst = DONE)) ∧
      (∀ t ∈ r.transitions, t.dst = DONE → t.src = RUNNING ∧ t.code = []) ∧
      (∀ t ∈ r.transitions, t.src ≠ DONE) ∧
      (∀ p, p < scenario.procInfo.length →
        r.transitions.countP (fun t => decide (t.pid = p ∧ t.dst = DONE)) = 1) :=
  Run_transitions_documented (fun _ => List.range scenario.procInfo.length) 34 scenario
    (by decide) (by decide) (by decide) (fun _ => List.Perm.refl _) (by decide)

/-- C5. During `Run` on a non-empty table whose processes are all READY, with
`ioLength ≥ 0` and any policies, no call that `Run` makes to `MoveToReady`,
`MoveToWait`, `MoveToRunning`, `NextProc` or `CheckIfDone` returns an error: the log of
the errors that `Run` discards is empty when `Run` returns. -/
theorem Run_no_errors (order : Int → List Nat) (fuel : Nat) (s : Scheduler)
    (hL : 0 ≤ s.ioLength) (hne : s.procInfo ≠ [])
    (hready : ∀ proc ∈ s.procInfo, proc.State = READY)
    (hperm : ∀ t, (order t).Perm (List.range s.procInfo.length))
    (hfuel : fuelBound s ≤ fuel) :
    ∃ r, Run order fuel s = some r ∧ r.errs = [] := by
  obtain ⟨r, h1, h2, -⟩ := Run_spec order fuel s hL hne hready hperm hfuel
  exact ⟨r, h1, h2.ghost.errs⟩

theorem Run_no_errors_witness :
    ∃ r, Run (fun _ => List.range scenario.procInfo.length) 34 scenario = some r ∧ r.errs = [] :=
  Run_no_errors (fun _ => List.range scenario.procInfo.length) 34 scenario
    (by decide) (by decide) (by decide) (fun _ => List.Perm.refl _) (by decide)

/-- C6, as amended. For every malformed description (it does not split on `:` into
exactly two fields, or `strconv.Atoi` rejects the first field, or
`strconv.ParseFloat` rejects the second) `Load` returns an error, leaves every
existing process and the rest of the scheduler unchanged, and has added exactly one
process: PID equal to the old process count, READY, with an empty `Code`. -/
theorem Load_malformed (parseFloat : List Char → Option GoFloat) (draws : Nat → ℚ)
    (s : Scheduler) (programDescription : List Char)
    (h : (stringsSplit ':' programDescription).length ≠ 2 ∨
      ∃ f0 f1, stringsSplit ':' programDescription = [f0, f1] ∧
        (Atoi f0 = none ∨ parseFloat f1 = none)) :
    (Load parseFloat draws s programDescription).2.isSome = true ∧
      (Load parseFloat draws s programDescription).1 = s.withNewProcess [] ∧
      (s.withNewProcess []).procInfo =
        s.procInfo ++ [{ PID := (s.procInfo.length : Int), PC := 0, Code := [],
                         State := READY, IOTime := 0 }] := by
  have key : Load parseFloat draws s programDescription =
      (s.withNewProcess [], (Load parseFloat draws s programDescription).2) ∧
      (Load parseFloat draws s programDescription).2.isSome = true := by
    unfold Load
    rw [NewProcess_eq]
    simp only
    rcases h with h | ⟨f0, f1, hsplit, h⟩
    · generalize stringsSplit ':' programDescription = tmp at h
      rcases tmp with _ | ⟨a, _ | ⟨b, _ | ⟨c, rest⟩⟩⟩
      · exact ⟨rfl, rfl⟩
      · exact ⟨rfl, rfl⟩
      · exact absurd rfl h
      · exact ⟨rfl, rfl⟩
    · rw [hsplit]
      simp only
      rcases h with h | h
      · rw [h]; exact ⟨rfl, rfl⟩
      · cases hA : Atoi f0 with
        | none => exact ⟨rfl, rfl⟩
        | some n => simp [h]
  refine ⟨key.2, ?_, rfl⟩
  rw [key.1]

theorem Load_malformed_witness :
    (Load (fun _ => some (GoFloat.finite 50)) (fun _ => 0)
        (NewScheduler SwitchBehavior.SWITCH_ON_IO IODoneBehavior.IO_RUN_LATER 5)
        "abc:50".toList).2.isSome = true ∧
      (Load (fun _ => some (GoFloat.finite 50)) (fun _ => 0)
        (NewScheduler SwitchBehavior.SWITCH_ON_IO IODoneBehavior.IO_RUN_LATER 5)
        "abc:50".toList).1 =
        (NewScheduler SwitchBehavior.SWITCH_ON_IO IODoneBehavior.IO_RUN_LATER 5).withNewProcess [] ∧
      ((NewScheduler SwitchBehavior.SWITCH_ON_IO IODoneBehavior.IO_RUN_LATER 5).withNewProcess
          []).procInfo =
        (NewScheduler SwitchBehavior.SWITCH_ON_IO IODoneBehavior.IO_RUN_LATER 5).procInfo ++
          [{ PID := ((NewScheduler SwitchBehavior.SWITCH_ON_IO IODoneBehavior.IO_RUN_LATER
                5).procInfo.length : Int),
             PC := 0, Code := [], State := READY, IOTime := 0 }] :=
  Load_malformed (fun _ => some (GoFloat.finite 50)) (fun _ => 0)
    (NewScheduler SwitchBehavior.SWITCH_ON_IO IODoneBehavior.IO_RUN_LATER 5) "abc:50".toList
    (Or.inr ⟨"abc".toList, "50".toList, by decide, Or.inl (by decide)⟩)

/-- C6, as stated, fails: `Load("abc:50")` returns an error and the process table,
empty before the call, holds one process after it. -/
theorem Load_abc50_changes_table :
    (Load (fun _ => some (GoFloat.finite 50)) (fun _ => 0)
        (NewScheduler SwitchBehavior.SWITCH_ON_IO IODoneBehavior.IO_RUN_LATER 5)
        "abc:50".toList).2.isSome = true ∧
      (Load (fun _ => some (GoFloat.finite 50)) (fun _ => 0)
        (NewScheduler SwitchBehavior.SWITCH_ON_IO IODoneBehavior.IO_RUN_LATER 5)
        "abc:50".toList).1.procInfo ≠
        (NewScheduler SwitchBehavior.SWITCH_ON_IO IODoneBehavior.IO_RUN_LATER 5).procInfo := by
  decide

/-- C7, as amended. Whenever `LoadProgram` returns an error, every existing process
and the rest of the scheduler are unchanged and exactly one process has been added:
PID equal to the old process count, READY, its `Code` being the instructions that the
tokens before the rejected one expand to. -/
theorem LoadProgram_error_state (s : Scheduler) (program : List Char) (e : SchedError)
    (h : (LoadProgram s program).2 = some e) :
    (LoadProgram s program).1 = s.withNewProcess (tokensCode (stringsSplit ',' program)).1 ∧
      (LoadProgram s program).1.procInfo =
        s.procInfo ++ [{ PID := (s.procInfo.length : Int), PC := 0,
                         Code := (tokensCode (stringsSplit ',' program)).1,
                         State := READY, IOTime := 0 }] ∧
      (tokensCode (stringsSplit ',' program)).2 = some e := by
  rw [LoadProgram_eq] at h ⊢
  exact ⟨rfl, rfl, h⟩

theorem LoadProgram_error_state_witness :
    (LoadProgram (NewScheduler SwitchBehavior.SWITCH_ON_IO IODoneBehavior.IO_RUN_LATER 5)
        "c2,cz".toList).1 =
      (NewScheduler SwitchBehavior.SWITCH_ON_IO IODoneBehavior.IO_RUN_LATER 5).withNewProcess
        (tokensCode (stringsSplit ',' "c2,cz".toList)).1 ∧
      (LoadProgram (NewScheduler SwitchBehavior.SWITCH_ON_IO IODoneBehavior.IO_RUN_LATER 5)
        "c2,cz".toList).1.procInfo =
        (NewScheduler SwitchBehavior.SWITCH_ON_IO IODoneBehavior.IO_RUN_LATER 5).procInfo ++
          [{ PID := ((NewScheduler SwitchBehavior.SWITCH_ON_IO IODoneBehavior.IO_RUN_LATER
                5).procInfo.length : Int),
             PC := 0, Code := (tokensCode (stringsSplit ',' "c2,cz".toList)).1,
             State := READY, IOTime := 0 }] ∧
      (tokensCode (stringsSplit ',' "c2,cz".toList)).2 =
        some (SchedError.invalidComputeInstructions "cz".toList) :=
  LoadProgram_error_state (NewScheduler SwitchBehavior.SWITCH_ON_IO IODoneBehavior.IO_RUN_LATER 5)
    "c2,cz".toList (SchedError.invalidComputeInstructions "cz".toList) (by decide)

/-- C7, as stated, fails: `LoadProgram("c2,x")` returns an error and leaves in the
table, empty before the call, a new process holding the two instructions expanded
from `c2`. -/
theorem LoadProgram_c2x_partial_commit :
    (LoadProgram (NewScheduler SwitchBehavior.SWITCH_ON_IO IODoneBehavior.IO_RUN_LATER 5)
        "c2,x".toList) =
      ({ NewScheduler SwitchBehavior.SWITCH_ON_IO IODoneBehavior.IO_RUN_LATER 5 with
          procInfo := [{ PID := 0, PC := 0, Code := [Instr.cpu, Instr.cpu], State := READY,
                         IOTime := 0 }] },
        some (SchedError.badOpcode 'x')) := by
  decide

/-- C8, as amended. For every well-formed explicit-opcode program whose compute counts
fit a Go `int` (they are below `2^63`), `LoadProgram` succeeds and the new process's
`Code` is the concatenation, in token order, of `n` copies of `cpu` for each token
`cn` and the pair `io`, `io_done` for each token `i`, empty tokens contributing
nothing. -/
theorem LoadProgram_wellFormed (s : Scheduler) (program : List Char)
    (hwf : ∀ tok ∈ stringsSplit ',' program, WellFormedToken tok)
    (hrange : ∀ tok ∈ stringsSplit ',' program, ∀ ds, tok = 'c' :: ds →
      decimalValue ds < 2 ^ 63) :
    LoadProgram s program =
      (s.withNewProcess ((stringsSplit ',' program).map expandToken).flatten, none) := by
  rw [LoadProgram_eq, tokensCode_wellFormed _ (fun tok ht => ⟨hwf tok ht, hrange tok ht⟩)]

theorem LoadProgram_wellFormed_witness :
    LoadProgram (NewScheduler SwitchBehavior.SWITCH_ON_IO IODoneBehavior.IO_RUN_LATER 5)
        "c3,i,c2".toList =
      ((NewScheduler SwitchBehavior.SWITCH_ON_IO IODoneBehavior.IO_RUN_LATER 5).withNewProcess
        [Instr.cpu, Instr.cpu, Instr.cpu, Instr.io, Instr.io_done, Instr.cpu, Instr.cpu], none) :=
  (LoadProgram_wellFormed (NewScheduler SwitchBehavior.SWITCH_ON_IO IODoneBehavior.IO_RUN_LATER 5)
    "c3,i,c2".toList
    (by
      have hs : stringsSplit ',' "c3,i,c2".toList = ["c3".toList, "i".toList, "c2".toList] := by
        decide
      rw [hs]
      intro tok ht
      simp only [List.mem_cons, List.mem_singleton, List.not_mem_nil, or_false] at ht
      rcases ht with rfl | rfl | rfl
      · exact Or.inr (Or.inr ⟨"3".toList, rfl, ⟨by decide, by decide⟩, by decide⟩)
      · exact Or.inr (Or.inl rfl)
      · exact Or.inr (Or.inr ⟨"2".toList, rfl, ⟨by decide, by decide⟩, by decide⟩))
    (by
      have hs : stringsSplit ',' "c3,i,c2".toList = ["c3".toList, "i".toList, "c2".toList] := by
        decide
      rw [hs]
      intro tok ht ds hds
      simp only [List.mem_cons, List.mem_singleton, List.not_mem_nil, or_false] at ht
      rcases ht with rfl | rfl | rfl
      · have : ds = "3".toList := by
          have := (List.cons.inj hds).2; exact this.symm
        rw [this]; decide
      · cases hds
      · have : ds = "2".toList := by
          have := (List.cons.inj hds).2; exact this.symm
        rw [this]; decide)).trans (by decide)

/-- C8, as stated, fails: the one-token program `c9223372036854775808` is well formed
(`c` followed by a positive integer) and `LoadProgram` rejects it, because the count
does not fit a Go `int`. -/
theorem LoadProgram_rejects_large_count :
    (∀ tok ∈ stringsSplit ',' "c9223372036854775808".toList, WellFormedToken tok) ∧
      (LoadProgram (NewScheduler SwitchBehavior.SWITCH_ON_IO IODoneBehavior.IO_RUN_LATER 5)
        "c9223372036854775808".toList).2 =
        some (SchedError.invalidComputeInstructions "c9223372036854775808".toList) := by
  refine ⟨?_, by decide⟩
  have hs : stringsSplit ',' "c9223372036854775808".toList = ["c9223372036854775808".toList] := by
    decide
  rw [hs]
  intro tok ht
  simp only [List.mem_singleton] at ht
  subst ht
  exact Or.inr (Or.inr ⟨"9223372036854775808".toList, rfl, ⟨by decide, by decide⟩, by decide⟩)

/-- C9, as amended. `LoadProgram` returns an error if and only if some non-empty
comma-separated token of the program either begins with a character other than `c`
and `i`, or begins with `c` and `strconv.Atoi` rejects the rest of the token (the rest
is not an optionally signed run of decimal digits whose value fits a Go `int`); empty
tokens never cause an error, and the empty program loads as a process with an empty
`Code`. -/
theorem LoadProgram_error_iff (s : Scheduler) (program : List Char) :
    ((LoadProgram s program).2.isSome = true ↔
        ∃ tok ∈ stringsSplit ',' program, ∃ opcode arg, tok = opcode :: arg ∧
          ((opcode ≠ 'c' ∧ opcode ≠ 'i') ∨ (opcode = 'c' ∧ Atoi arg = none))) ∧
      LoadProgram s [] = (s.withNewProcess [], none) := by
  refine ⟨?_, by rw [LoadProgram_eq]; rfl⟩
  rw [LoadProgram_eq]
  exact tokensCode_error_iff _

/-- C9, as stated, fails: `LoadProgram("c99999999999999999999")` returns an error
although the only token begins with `c` and the rest of the token is a numeric count
(a run of decimal digits). -/
theorem LoadProgram_error_on_numeric_count :
    (LoadProgram (NewScheduler SwitchBehavior.SWITCH_ON_IO IODoneBehavior.IO_RUN_LATER 5)
        "c99999999999999999999".toList).2.isSome = true ∧
      ¬ ∃ tok ∈ stringsSplit ',' "c99999999999999999999".toList, ∃ opcode arg,
          tok = opcode :: arg ∧
            ((opcode ≠ 'c' ∧ opcode ≠ 'i') ∨ (opcode = 'c' ∧ ¬ IsNumeral arg)) := by
  refine ⟨by decide, ?_⟩
  have hs : stringsSplit ',' "c99999999999999999999".toList = ["c99999999999999999999".toList] := by
    decide
  rw [hs]
  rintro ⟨tok, ht, opcode, arg, heq, h⟩
  simp only [List.mem_singleton] at ht
  subst ht
  have h1 : opcode = 'c' := (List.cons.inj heq).1.symm
  have h2 : arg = "99999999999999999999".toList := (List.cons.inj heq).2.symm
  rcases h with h | h
  · exact h.1 h1
  · apply h.2
    rw [h2]
    exact ⟨by decide, by decide⟩

/-- C10, as amended. For every decimal numeral denoting a number `X` below `2^63` and
every sequence of draws in `[0, 1)`, `Load("X:100")` yields a process whose `Code` is
exactly `X` `cpu` instructions and `Load("X:0")` one whose `Code` is exactly `X`
consecutive pairs `io`, `io_done`. -/
theorem Load_all_cpu_or_all_io (parseFloat : List Char → Option GoFloat) (draws : Nat → ℚ)
    (s : Scheduler) (ds : List Char) (hds : IsNumeral ds) (hrange : decimalValue ds < 2 ^ 63)
    (hdraws : ∀ i, 0 ≤ draws i ∧ draws i < 1)
    (h100 : parseFloat "100".toList = some (GoFloat.finite 100))
    (h0 : parseFloat "0".toList = some (GoFloat.finite 0)) :
    Load parseFloat draws s (ds ++ ":100".toList) =
        (s.withNewProcess (List.replicate (decimalValue ds) Instr.cpu), none) ∧
      Load parseFloat draws s (ds ++ ":0".toList) =
        (s.withNewProcess (List.replicate (decimalValue ds) [Instr.io, Instr.io_done]).flatten,
          none) := by
  have hA := Atoi_numeral ds hds hrange
  have hnc := numeral_no_colon ds hds
  have e1 : stringsSplit ':' (ds ++ ":100".toList) = [ds, "100".toList] := by
    have : ":100".toList = ':' :: "100".toList := rfl
    rw [this, stringsSplit_append ':' ds _ hnc, stringsSplit_no_sep ':' _ (by decide)]
  have e2 : stringsSplit ':' (ds ++ ":0".toList) = [ds, "0".toList] := by
    have : ":0".toList = ':' :: "0".toList := rfl
    rw [this, stringsSplit_append ':' ds _ hnc, stringsSplit_no_sep ':' _ (by decide)]
  constructor
  · unfold Load
    rw [e1, NewProcess_eq]
    simp only [hA, h100, Int.toNat_natCast]
    rw [Load_loop_eq, drawsCode_all_cpu draws (fun i => (hdraws i).2)]
    rfl
  · unfold Load
    rw [e2, NewProcess_eq]
    simp only [hA, h0, Int.toNat_natCast]
    rw [Load_loop_eq, drawsCode_all_io draws (fun i => (hdraws i).1)]
    rfl

theorem Load_all_cpu_or_all_io_witness :
    Load (fun f => if f = "100".toList then some (GoFloat.finite 100) else some (GoFloat.finite 0))
        (fun _ => 1 / 2)
        (NewScheduler SwitchBehavior.SWITCH_ON_IO IODoneBehavior.IO_RUN_LATER 5)
        ("4".toList ++ ":100".toList) =
        ((NewScheduler SwitchBehavior.SWITCH_ON_IO IODoneBehavior.IO_RUN_LATER 5).withNewProcess
          (List.replicate (decimalValue "4".toList) Instr.cpu), none) ∧
      Load (fun f => if f = "100".toList then some (GoFloat.finite 100) else some (GoFloat.finite 0))
        (fun _ => 1 / 2)
        (NewScheduler SwitchBehavior.SWITCH_ON_IO IODoneBehavior.IO_RUN_LATER 5)
        ("4".toList ++ ":0".toList) =
        ((NewScheduler SwitchBehavior.SWITCH_ON_IO IODoneBehavior.IO_RUN_LATER 5).withNewProcess
          (List.replicate (decimalValue "4".toList) [Instr.io, Instr.io_done]).flatten, none) :=
  Load_all_cpu_or_all_io _ _ _ "4".toList ⟨by decide, by decide⟩ (by decide)
    (fun _ => ⟨by norm_num, by norm_num⟩) (if_pos rfl) (if_neg (by decide))

/-- C10, as stated, fails: for `X = 9223372036854775808` the call
`Load("9223372036854775808:100")` returns an error and the new process has an empty
`Code`, not `X` `cpu` instructions. -/
theorem Load_rejects_large_count :
    Load (fun _ => some (GoFloat.finite 100)) (fun _ => 0)
        (NewScheduler SwitchBehavior.SWITCH_ON_IO IODoneBehavior.IO_RUN_LATER 5)
        "9223372036854775808:100".toList =
      ((NewScheduler SwitchBehavior.SWITCH_ON_IO IODoneBehavior.IO_RUN_LATER 5).withNewProcess [],
        some (SchedError.invalidNumberOfInstructions "9223372036854775808".toList)) := by
  decide

/-! ### Round-robin selection -/

theorem range_filter_ge (n k : Nat) (hk : k ≤ n) :
    (List.range n).filter (fun i => decide (k ≤ i)) = List.drop k (List.range n) := by
  obtain ⟨m, rfl⟩ := Nat.exists_eq_add_of_le hk
  rw [List.range_add, List.filter_append]
  have h1 : (List.range k).filter (fun i => decide (k ≤ i)) = [] := by
    rw [List.filter_eq_nil_iff]
    intro a ha
    simp only [List.mem_range] at ha
    simp
    omega
  have h2 : (List.map (fun x => k + x) (List.range m)).filter (fun i => decide (k ≤ i)) =
      List.map (fun x => k + x) (List.range m) := by
    rw [List.filter_eq_self]
    intro a ha
    simp only [List.mem_map, List.mem_range] at ha
    obtain ⟨x, -, rfl⟩ := ha
    simp
  rw [h1, h2, List.nil_append]
  exact (List.drop_left' (List.length_range k)).symm

theorem scan_eq_find (s : Scheduler) (h1 : -1 ≤ s.currProc)
    (h2 : s.currProc < (s.procInfo.length : Int)) :
    NextProc.scan s = (roundRobinOrder s.procInfo.length s.currProc).find? s.isReady := by
  obtain ⟨k, hk⟩ : ∃ k : Nat, s.currProc + 1 = (k : Int) := ⟨(s.currProc + 1).toNat, by omega⟩
  have hkn : k ≤ s.procInfo.length := by omega
  unfold NextProc.scan roundRobinOrder
  rw [hk, Int.toNat_natCast]
  have hf : (List.range s.procInfo.length).filter (fun (i : Nat) => decide ((k : Int) ≤ (i : Int))) =
      List.drop k (List.range s.procInfo.length) := by
    rw [← range_filter_ge _ _ hkn]
    congr 1
    funext i
    simp
  rw [hf, List.rotate_eq_drop_append_take (by simpa using hkn), List.find?_append, List.take_range,
    Nat.min_eq_left hkn]
  cases List.find? s.isReady (List.drop k (List.range s.procInfo.length)) <;> rfl

theorem setState_eq_set (s : Scheduler) (x : Int) (i : Nat) (proc : Process) (v : ProcState)
    (h : s.procInfo[i]? = some proc) :
    Scheduler.setState { s with currProc := x } (i : Int) v =
      { s with currProc := x, procInfo := s.procInfo.set i { proc with State := v } } := by
  unfold Scheduler.setState
  simp [Scheduler.proc?, h]

/-- C11. Round-robin selection: for a table of `n` processes and `-1 ≤ currProc < n`,
`NextProc(-1)` selects the first READY process in the order
`currProc+1, ..., n-1, 0, ..., currProc`, makes it the current process, changes its
`State` from READY to RUNNING, leaves everything else unchanged and returns no error;
when no process is READY it changes nothing and returns no error. -/
theorem NextProc_round_robin (s : Scheduler) (h1 : -1 ≤ s.currProc)
    (h2 : s.currProc < (s.procInfo.length : Int)) :
    (∀ i, (roundRobinOrder s.procInfo.length s.currProc).find? s.isReady = some i →
      ∃ proc, s.procInfo[i]? = some proc ∧ proc.State = READY ∧
        NextProc s (-1) =
          ({ s with currProc := (i : Int)
                    procInfo := s.procInfo.set i { proc with State := RUNNING } }, none)) ∧
      ((∀ proc ∈ s.procInfo, proc.State ≠ READY) → NextProc s (-1) = (s, none)) := by
  constructor
  · intro i hi
    rw [← scan_eq_find s h1 h2] at hi
    have hst := scan_some s hi
    obtain ⟨proc, hget, hps, -⟩ := get_of_st_ne_done s (p := i) (by rw [hst]; decide)
    refine ⟨proc, hget, hps.trans hst, ?_⟩
    rw [NextProc_rr_some s hi, setState_eq_set s _ i proc RUNNING hget]
  · intro hno
    apply NextProc_rr_none
    rw [scan_eq_find s h1 h2, List.find?_eq_none]
    intro i _ hi
    have hst := (isReady_iff s i).mp hi
    obtain ⟨proc, hget, hps, -⟩ := get_of_st_ne_done s (p := i) (by rw [hst]; decide)
    exact hno proc (List.getElem?_mem hget) (hps.trans hst)

theorem NextProc_round_robin_witness :
    (∀ i, (roundRobinOrder scenario.procInfo.length 0).find?
        (Scheduler.isReady { scenario with currProc := 0 }) = some i →
      ∃ proc, scenario.procInfo[i]? = some proc ∧ proc.State = READY ∧
        NextProc { scenario with currProc := 0 } (-1) =
          ({ scenario with currProc := (i : Int)
                           procInfo := scenario.procInfo.set i { proc with State := RUNNING } },
            none)) ∧
      ((∀ proc ∈ scenario.procInfo, proc.State ≠ READY) →
        NextProc { scenario with currProc := 0 } (-1) = ({ scenario with currProc := 0 }, none)) :=
  NextProc_round_robin { scenario with currProc := 0 } (by decide) (by decide)

/-! ### The transition operations -/

theorem setState_of_get (s : Scheduler) (t : Int) (proc : Process) (v : ProcState)
    (h : s.proc? t = some proc) :
    s.setState t v = { s with procInfo := s.procInfo.set t.toNat { proc with State := v } } := by
  unfold Scheduler.setState
  rw [h]

theorem proc?_neg_one (s : Scheduler) : s.proc? (-1) = none := by
  simp [Scheduler.proc?]

theorem MoveToReady_contract (s : Scheduler) (expected : ProcState) (pid : Int) :
    TransitionContract (fun s => MoveToReady s expected pid) s
      (if pid = -1 then s.currProc else pid) expected READY := by
  unfold TransitionContract MoveToReady
  simp only
  cases h : s.proc? (if pid = -1 then s.currProc else pid) with
  | none => simp
  | some proc =>
    by_cases he : proc.State = expected
    · simp [he, setState_of_get s _ proc READY h]
    · simp [he]

theorem MoveToWait_contract (s : Scheduler) (expected : ProcState) :
    TransitionContract (fun s => MoveToWait s expected) s s.currProc expected BLOCKED := by
  unfold TransitionContract MoveToWait
  by_cases hc : s.currProc = -1
  · simp [hc, proc?_neg_one]
  · simp only [hc, if_false]
    cases h : s.proc? s.currProc with
    | none => simp
    | some proc =>
      by_cases he : proc.State = expected
      · simp [he, setState_of_get s _ proc BLOCKED h]
      · simp [he]

theorem MoveToRunning_contract (s : Scheduler) (expected : ProcState) :
    TransitionContract (fun s => MoveToRunning s expected) s s.currProc expected RUNNING := by
  unfold TransitionContract MoveToRunning
  by_cases hc : s.currProc = -1
  · simp [hc, proc?_neg_one]
  · simp only [hc, if_false]
    cases h : s.proc? s.currProc with
    | none => simp
    | some proc =>
      by_cases he : proc.State = expected
      · simp [he, setState_of_get s _ proc RUNNING h]
      · simp [he]

theorem MoveToDone_contract (s : Scheduler) (expected : ProcState) :
    TransitionContract (fun s => MoveToDone s expected) s s.currProc expected DONE := by
  unfold TransitionContract MoveToDone
  by_cases hc : s.currProc = -1
  · simp [hc, proc?_neg_one]
  · simp only [hc, if_false]
    cases h : s.proc? s.currProc with
    | none => simp
    | some proc =>
      by_cases he : proc.State = expected
      · simp [he, setState_of_get s _ proc DONE h]
      · simp [he]

/-- C12. Each transition operation returns an error if and only if its target process
(`pid`, or the current process when `pid` is -1 and for the current-process forms)
does not exist or is not in the `expected` state; in particular the current-process
forms fail when `currProc` is -1.  On error the scheduler is unchanged; on success
the `State` of the target process is set to READY, BLOCKED, RUNNING, DONE
respectively and nothing else changes. -/
theorem transition_operations_contract (s : Scheduler) (expected : ProcState) (pid : Int) :
    TransitionContract (fun s => MoveToReady s expected pid) s
        (if pid = -1 then s.currProc else pid) expected READY ∧
      TransitionContract (fun s => MoveToWait s expected) s s.currProc expected BLOCKED ∧
      TransitionContract (fun s => MoveToRunning s expected) s s.currProc expected RUNNING ∧
      TransitionContract (fun s => MoveToDone s expected) s s.currProc expected DONE ∧
      (s.currProc = -1 →
        (MoveToWait s expected).2 = some SchedError.noCurrentProcess ∧
        (MoveToRunning s expected).2 = some SchedError.noCurrentProcess ∧
        (MoveToDone s expected).2 = some SchedError.noCurrentProcess) := by
  refine ⟨MoveToReady_contract s expected pid, MoveToWait_contract s expected,
    MoveToRunning_contract s expected, MoveToDone_contract s expected, ?_⟩
  intro hc
  simp [MoveToWait, MoveToRunning, MoveToDone, hc]

/-! ### Process creation -/

theorem Load_fst (parseFloat : List Char → Option GoFloat) (draws : Nat → ℚ) (s : Scheduler)
    (programDescription : List Char) :
    ∃ code, (Load parseFloat draws s programDescription).1 = s.withNewProcess code := by
  unfold Load
  rw [NewProcess_eq]
  simp only
  split
  · rename_i f0 f1 _
    cases Atoi f0 with
    | none => exact ⟨[], rfl⟩
    | some n =>
      cases parseFloat f1 with
      | none => exact ⟨[], rfl⟩
      | some c =>
        simp only
        rw [Load_loop_eq]
        exact ⟨_, rfl⟩
  · exact ⟨[], rfl⟩

theorem Creation_run_fst (parseFloat : List Char → Option GoFloat) (s : Scheduler) (c : Creation) :
    ∃ code, (c.run parseFloat s).1 = s.withNewProcess code := by
  cases c with
  | newProcess => exact ⟨[], rfl⟩
  | loadProgram program =>
    exact ⟨(tokensCode (stringsSplit ',' program)).1, by simp only [Creation.run, LoadProgram_eq]⟩
  | load d draws => exact Load_fst parseFloat draws s d

theorem createAll_pids (parseFloat : List Char → Option GoFloat) :
    ∀ (cs : List Creation) (s s' : Scheduler),
      (∀ (i : Nat) (proc : Process), s.procInfo[i]? = some proc →
        proc.PID = (i : Int) ∧ proc.State = READY) →
      createAll parseFloat s cs = some s' →
        s'.procInfo.length = s.procInfo.length + cs.length ∧
        (∀ (i : Nat) (proc : Process), s'.procInfo[i]? = some proc →
          proc.PID = (i : Int) ∧ proc.State = READY) ∧
        s'.currProc = s.currProc
  | [], s, s', h, hc => by
    simp only [createAll, Option.some.injEq] at hc
    subst hc
    exact ⟨rfl, h, rfl⟩
  | c :: cs, s, s', h, hc => by
    simp only [createAll] at hc
    obtain ⟨code, hcode⟩ := Creation_run_fst parseFloat s c
    cases he : (c.run parseFloat s).2 with
    | some e => rw [he] at hc; cases hc
    | none =>
      rw [he] at hc
      simp only at hc
      rw [hcode] at hc
      have h' : ∀ (i : Nat) (proc : Process), (s.withNewProcess code).procInfo[i]? = some proc →
          proc.PID = (i : Int) ∧ proc.State = READY := by
        intro i proc hi
        simp only [Scheduler.withNewProcess] at hi
        by_cases hlt : i < s.procInfo.length
        · rw [List.getElem?_append_left hlt] at hi
          exact h i proc hi
        · rw [List.getElem?_append_right (by omega)] at hi
          have hi0 : i - s.procInfo.length = 0 := by
            by_contra hne
            obtain ⟨m, hm⟩ := Nat.exists_eq_succ_of_ne_zero hne
            rw [hm] at hi
            simp at hi
          rw [hi0] at hi
          simp only [List.getElem?_cons_zero, Option.some.injEq] at hi
          subst hi
          have : i = s.procInfo.length := by omega
          exact ⟨by simp [this], rfl⟩
      obtain ⟨h1, h2, h3⟩ := createAll_pids parseFloat cs _ s' h' hc
      refine ⟨?_, h2, ?_⟩
      · rw [h1]; simp [Scheduler.withNewProcess]; omega
      · rw [h3]; rfl

/-- C17. Each of `NewProcess`, `LoadProgram` and `Load` adds exactly one process, at
the end of the table, whose PID is the number of processes before the call and whose
`State` is READY, and changes nothing else (this holds whether or not the loader
returns an error).  Hence after `k` successful creations on a new scheduler the table
holds `k` processes, the process at index `i` has PID `i` and is READY. -/
theorem creation_assigns_pids (parseFloat : List Char → Option GoFloat) (s : Scheduler) :
    (∀ c : Creation, ∃ code,
      (c.run parseFloat s).1 =
        { s with procInfo := s.procInfo ++
            [{ PID := (s.procInfo.length : Int), PC := 0, Code := code, State := READY,
               IOTime := 0 }] }) ∧
      NewProcess s = (s.withNewProcess [], (s.procInfo.length : Int)) ∧
      (∀ (sw : SwitchBehavior) (iod : IODoneBehavior) (L : Int) (cs : List Creation)
        (s' : Scheduler), createAll parseFloat (NewScheduler sw iod L) cs = some s' →
          s'.procInfo.length = cs.length ∧
          s'.procInfo.map (fun proc => proc.PID) = (List.range cs.length).map (fun (i : Nat) => (i : Int)) ∧
          ∀ proc ∈ s'.procInfo, proc.State = READY) := by
  refine ⟨fun c => Creation_run_fst parseFloat s c, rfl, ?_⟩
  intro sw iod L cs s' hc
  obtain ⟨h1, h2, -⟩ := createAll_pids parseFloat cs (NewScheduler sw iod L) s'
    (by intro i proc hi; simp [NewScheduler] at hi) hc
  have hlen : s'.procInfo.length = cs.length := by
    rw [h1]; simp [NewScheduler]
  refine ⟨hlen, ?_, ?_⟩
  · apply List.ext_getElem?
    intro i
    simp only [List.getElem?_map]
    by_cases hi : i < cs.length
    · have hget : s'.procInfo[i]? = some (s'.procInfo.get ⟨i, hlen ▸ hi⟩) :=
        List.getElem?_eq_getElem (hlen ▸ hi)
      rw [hget, List.getElem?_range hi]
      simp only [Option.map_some']
      rw [(h2 i _ hget).1]
    · have h3 : s'.procInfo[i]? = none := by
        rw [List.getElem?_eq_none_iff]; omega
      have h4 : (List.range cs.length)[i]? = none := by
        rw [List.getElem?_eq_none_iff]; simp; omega
      rw [h3, h4]; rfl
  · intro proc hp
    obtain ⟨i, hi⟩ := List.getElem?_of_mem hp
    exact (h2 i proc hi).2

/-! ### Validity of the current process -/

/-- C19, where the claim fails: on the table of the end-to-end scenario (two
processes, PIDs 0 and 1, `currProc = -1`), `NextProc(7)` returns the error that
process 7 does not exist, yet it leaves `currProc = 7`, which is neither -1 nor the
PID of a process: `NextProc` assigns `currProc` before `MoveToRunning` checks that
the process exists.  (`MoveToReady(expected, 7)` on the same table returns its error
and changes nothing.) -/
theorem NextProc_leaves_invalid_currProc :
    scenario.currProc = -1 ∧ scenario.procInfo.length = 2 ∧
      NextProc scenario 7 =
        ({ scenario with currProc := 7 }, some (SchedError.processDoesNotExist 7)) ∧
      (NextProc scenario 7).1.currProc ≠ -1 ∧
      ¬ (NextProc scenario 7).1.currProc < ((NextProc scenario 7).1.procInfo.length : Int) ∧
      MoveToReady scenario READY 7 = (scenario, some (SchedError.processDoesNotExist 7)) := by
  decide

/-! ### Runs as sequences of loop iterations -/

theorem runLoop_mono (order : Int → List Nat) :
    ∀ (fuel : Nat) (r a : RunState), runLoop order fuel r = some a →
      ∀ fuel', fuel ≤ fuel' → runLoop order fuel' r = some a
  | 0, r, a, h, fuel', _ => by
    unfold runLoop at h
    split at h
    · cases h
    · rename_i hz
      cases fuel' with
      | zero => simp only [runLoop, hz, if_false]; exact h
      | succ f => simp only [runLoop, hz, if_false]; exact h
  | fuel + 1, r, a, h, fuel', hle => by
    obtain ⟨f, rfl⟩ : ∃ f, fuel' = f + 1 := ⟨fuel' - 1, by omega⟩
    unfold runLoop at h ⊢
    split at h
    · rename_i hpos
      rw [if_pos hpos]
      exact runLoop_mono order fuel _ a h f (by omega)
    · rename_i hz
      rw [if_neg hz]; exact h

theorem runLoop_iterate (order : Int → List Nat) :
    ∀ (fuel : Nat) (r a : RunState), runLoop order fuel r = some a →
      ∃ k, k ≤ fuel ∧ a = (tick order)^[k] r ∧ GetNumActive a.s = 0 ∧
        ∀ i, i < k → 0 < GetNumActive ((tick order)^[i] r).s
  | 0, r, a, h => by
    unfold runLoop at h
    split at h
    · cases h
    · rename_i hz
      cases h
      exact ⟨0, le_refl _, rfl, by omega, fun i hi => absurd hi (Nat.not_lt_zero i)⟩
  | fuel + 1, r, a, h => by
    unfold runLoop at h
    split at h
    · rename_i hpos
      obtain ⟨k, hk, ha, hz, hrun⟩ := runLoop_iterate order fuel _ a h
      refine ⟨k + 1, by omega, by rw [Function.iterate_succ_apply]; exact ha, hz, ?_⟩
      intro i hi
      cases i with
      | zero => exact hpos
      | succ i =>
        rw [Function.iterate_succ_apply]
        exact hrun i (by omega)
    · rename_i hz
      cases h
      exact ⟨0, Nat.zero_le _, rfl, by omega, fun i hi => absurd hi (Nat.not_lt_zero i)⟩

theorem runState_eq_iterate (order : Int → List Nat) (s : Scheduler) :
    ∀ k, runState order s k = (tick order)^[k] (runInit s)
  | 0 => rfl
  | k + 1 => by
    rw [Function.iterate_succ_apply', ← runState_eq_iterate order s k]
    rfl

/-- The result of `Run` on a non-empty table is the state after some number `k` of
loop iterations, all of which were entered with an active process, and no process is
active in it. -/
theorem Run_eq_runState (order : Int → List Nat) (fuel : Nat) (s : Scheduler) (r : RunState)
    (hne : s.procInfo ≠ []) (h : Run order fuel s = some r) :
    ∃ k, k ≤ fuel ∧ r = runState order s k ∧ LoopRuns order s k ∧ GetNumActive r.s = 0 := by
  unfold Run at h
  have : ¬ s.procInfo.length = 0 := fun h0 => hne (List.length_eq_zero.mp h0)
  rw [if_neg this] at h
  obtain ⟨k, hk, ha, hz, hrun⟩ := runLoop_iterate order fuel _ r h
  refine ⟨k, hk, by rw [runState_eq_iterate]; exact ha, ?_, hz⟩
  intro i hi
  rw [runState_eq_iterate]
  exact hrun i hi

theorem LoopRuns.of_le {order : Int → List Nat} {s : Scheduler} {k j : Nat}
    (h : LoopRuns order s k) (hj : j ≤ k) : LoopRuns order s j :=
  fun i hi => h i (by omega)

theorem LoopRuns.succ {order : Int → List Nat} {s : Scheduler} {k : Nat}
    (h : LoopRuns order s k) (hact : 0 < GetNumActive (runState order s k).s) :
    LoopRuns order s (k + 1) := by
  intro i hi
  by_cases hik : i = k
  · rw [hik]; exact hact
  · exact h i (by omega)

/-- The invariant of the loop holds after every iteration, and the clock counts the
iterations. -/
theorem runState_inv (order : Int → List Nat) (s : Scheduler) (hL : 0 ≤ s.ioLength)
    (hne : s.procInfo ≠ []) (hready : ∀ proc ∈ s.procInfo, proc.State = READY)
    (hperm : ∀ t, (order t).Perm (List.range s.procInfo.length)) :
    ∀ k, LoopRuns order s k →
      LoopInv (runState order s k) ∧ (runState order s k).clockTick = (k : Int) ∧
        (runState order s k).s.procInfo.length = s.procInfo.length ∧
        (codeSum s : Int) ≤ (k : Int) + (codeSum (runState order s k).s : Int)
  | 0, _ => by
    obtain ⟨hI, -, hclock, hcs, hlen, -, -⟩ := runInit_spec s hL hne hready
    refine ⟨hI, hclock, hlen, ?_⟩
    show (codeSum s : Int) ≤ ((0 : Nat) : Int) + (codeSum (runInit s).s : Int)
    rw [hcs]; simp
  | k + 1, hrun => by
    obtain ⟨hI, hclock, hlen, hcs⟩ := runState_inv order s hL hne hready hperm k (hrun.of_le (by omega))
    obtain ⟨hI', -, -, hclock', hcs', hlen', -⟩ :=
      tick_spec order (runState order s k) hI (by rw [hlen]; exact hperm _) (hrun k (by omega))
    refine ⟨hI', ?_, hlen'.trans hlen, ?_⟩
    · show (tick order (runState order s k)).clockTick = _
      rw [hclock', hclock]; push_cast; ring
    · show _ ≤ _ + (codeSum (tick order (runState order s k)).s : Int)
      push_cast
      omega

theorem foldr_max_le (l : List Nat) (b : Nat) (h : ∀ x ∈ l, x ≤ b) : l.foldr max 0 ≤ b := by
  induction l with
  | nil => simp
  | cons x xs ih =>
    simp only [List.foldr_cons]
    exact max_le (h x (List.mem_cons_self _ _)) (ih (fun y hy => h y (List.mem_cons_of_mem _ hy)))

theorem le_foldr_max (l : List Nat) (x : Nat) (h : x ∈ l) : x ≤ l.foldr max 0 := by
  induction l with
  | nil => cases h
  | cons y ys ih =>
    simp only [List.foldr_cons]
    rcases List.mem_cons.mp h with h | h
    · rw [h]; exact le_max_left _ _
    · exact le_trans (ih h) (le_max_right _ _)

theorem maxCodeLength_le_codeSum (s : Scheduler) : maxCodeLength s ≤ codeSum s := by
  unfold maxCodeLength codeSum
  apply foldr_max_le
  intro x hx
  exact List.single_le_sum (fun _ _ => Nat.zero_le _) x hx

theorem numRunning_le_one (s : Scheduler) (hG : Good s) : numRunning s ≤ 1 := by
  unfold numRunning
  rw [countP_le_one_iff]
  intro i j a b hi hj ha hb
  have h1 : s.st i = RUNNING := by rw [st_of_get s hi]; simpa using ha
  have h2 : s.st j = RUNNING := by rw [st_of_get s hj]; simpa using hb
  rw [hG.running i h1, hG.running j h2]

/-- On unbounded integers: for every run of `Run` that returns, on a table whose
processes are all READY and with `ioLength ≥ 0`, the tick count returned is at least
the length of the longest loaded `Code`. -/
theorem ticks_ge_max_code_ideal (order : Int → List Nat) (fuel : Nat) (s : Scheduler)
    (r : RunState) (hL : 0 ≤ s.ioLength)
    (hready : ∀ proc ∈ s.procInfo, proc.State = READY)
    (hperm : ∀ t, (order t).Perm (List.range s.procInfo.length))
    (hrun : Run order fuel s = some r) :
    (maxCodeLength s : Int) ≤ r.clockTick ∧
      ∀ proc ∈ s.procInfo, (proc.Code.length : Int) ≤ r.clockTick := by
  have hmax : (maxCodeLength s : Int) ≤ r.clockTick := by
    by_cases hne : s.procInfo = []
    · have : r.clockTick = 0 := by
        simp only [Run, hne, List.length_nil, if_true, Option.some.injEq] at hrun
        rw [← hrun]
      rw [this]
      simp [maxCodeLength, hne]
    · obtain ⟨k, -, hr, hk, hz⟩ := Run_eq_runState order fuel s r hne hrun
      obtain ⟨hI, hclock, -, hcs⟩ := runState_inv order s hL hne hready hperm k hk
      rw [← hr] at hI hclock hcs
      have hzero : codeSum r.s = 0 := by
        have hall := all_done_of_inactive r.s hI.good hz
        unfold codeSum
        rw [List.sum_eq_zero_iff]
        intro x hx
        obtain ⟨proc, hproc, rfl⟩ := List.mem_map.mp hx
        simp [(hall proc hproc).2]
      rw [hzero] at hcs
      have := maxCodeLength_le_codeSum s
      rw [hclock]
      have h2 : (maxCodeLength s : Int) ≤ (codeSum s : Int) := by exact_mod_cast this
      simpa using le_trans h2 hcs
  refine ⟨hmax, fun proc hp => le_trans ?_ hmax⟩
  have : proc.Code.length ≤ maxCodeLength s :=
    le_foldr_max _ _ (List.mem_map.mpr ⟨proc, hp, rfl⟩)
  exact_mod_cast this

/-- C18. At the start of the loop of `Run` (`k = 0`) and after each of its iterations
(`k ≥ 1`), on a non-empty table whose processes are all READY, with `ioLength ≥ 0`,
for both switch policies, both I/O-done policies and every scan order, at most one
process has `State` RUNNING; the same holds in the state that `Run` returns. -/
theorem Run_at_most_one_running (order : Int → List Nat) (s : Scheduler)
    (hL : 0 ≤ s.ioLength) (hne : s.procInfo ≠ [])
    (hready : ∀ proc ∈ s.procInfo, proc.State = READY)
    (hperm : ∀ t, (order t).Perm (List.range s.procInfo.length)) :
    (∀ k, LoopRuns order s k → numRunning (runState order s k).s ≤ 1) ∧
      ∀ fuel r, Run order fuel s = some r → numRunning r.s ≤ 1 := by
  have h1 : ∀ k, LoopRuns order s k → numRunning (runState order s k).s ≤ 1 := fun k hk =>
    numRunning_le_one _ (runState_inv order s hL hne hready hperm k hk).1.good
  refine ⟨h1, fun fuel r hr => ?_⟩
  obtain ⟨k, -, hrk, hk, -⟩ := Run_eq_runState order fuel s r hne hr
  rw [hrk]; exact h1 k hk

theorem Run_at_most_one_running_witness :
    (∀ k, LoopRuns (fun _ => [0, 1]) scenario k →
        numRunning (runState (fun _ => [0, 1]) scenario k).s ≤ 1) ∧
      ∀ fuel r, Run (fun _ => [0, 1]) fuel scenario = some r → numRunning r.s ≤ 1 :=
  Run_at_most_one_running (fun _ => [0, 1]) scenario (by decide) (by decide) (by decide)
    (fun _ => List.Perm.refl _)

/-! ### The shape of the operations, without any assumption on the scheduler -/

theorem proc?_some (s : Scheduler) (t : Int) (proc : Process) (h : s.proc? t = some proc) :
    ∃ c : Nat, t = (c : Int) ∧ c < s.procInfo.length ∧ s.st c = proc.State ∧
      s.code c = proc.Code := by
  unfold Scheduler.proc? at h
  split at h
  · rename_i h0
    have hlt : t.toNat < s.procInfo.length := by
      by_contra hge
      have : s.procInfo[t.toNat]? = none := by
        rw [List.getElem?_eq_none_iff]; omega
      rw [this] at h; cases h
    exact ⟨t.toNat, by omega, hlt, by simp [Scheduler.st, h], by simp [Scheduler.code, h]⟩
  · cases h

theorem contract_step {op : Scheduler → Scheduler × Option SchedError} {s : Scheduler}
    {target : Int} {e v : ProcState} (h : TransitionContract op s target e v) :
    (op s).1 = s ∨ ∃ c : Nat, target = (c : Int) ∧ c < s.procInfo.length ∧ s.st c = e ∧
      (op s).1 = s.setState (c : Int) v := by
  obtain ⟨-, herr, hok⟩ := h
  cases he : (op s).2 with
  | some err => left; exact herr (by rw [he]; rfl)
  | none =>
    right
    obtain ⟨proc, hget, hst, hres⟩ := hok he
    obtain ⟨c, hc, hlt, hsc, -⟩ := proc?_some s target proc hget
    refine ⟨c, hc, hlt, hsc.trans hst, ?_⟩
    rw [hres, ← hc, setState_of_get s target proc v hget]

theorem SameData.sameData_refl (s : Scheduler) : SameData s s := ⟨rfl, rfl, rfl, rfl, rfl, fun _ => rfl⟩

theorem SameData.trans {s1 s2 s3 : Scheduler} (h1 : SameData s1 s2) (h2 : SameData s2 s3) :
    SameData s1 s3 :=
  ⟨h2.len.trans h1.len, h2.sw.trans h1.sw, h2.iod.trans h1.iod, h2.ioLength.trans h1.ioLength,
    h2.times.trans h1.times, fun p => (h2.code p).trans (h1.code p)⟩

theorem SameData.of_setState (s : Scheduler) (c : Nat) (v : ProcState) :
    SameData s (s.setState (c : Int) v) :=
  ⟨by simp, by simp, by simp, by simp, by simp, fun p => by simp⟩

theorem SameData.of_withCur (s : Scheduler) (cp : Int) : SameData s { s with currProc := cp } :=
  ⟨rfl, rfl, rfl, rfl, rfl, fun _ => rfl⟩

theorem Moves.moves_refl (A : Nat → ProcState → ProcState → Prop) (s : Scheduler) : Moves A s s :=
  ⟨SameData.sameData_refl s, fun _ h => absurd rfl h⟩

theorem Moves.moves_withCur (A : Nat → ProcState → ProcState → Prop) (s : Scheduler) (cp : Int) :
    Moves A s { s with currProc := cp } :=
  ⟨SameData.of_withCur s cp, fun _ h => absurd rfl h⟩

theorem Moves.moves_mono {A B : Nat → ProcState → ProcState → Prop} {s s' : Scheduler}
    (h : Moves A s s') (hAB : ∀ p a b, A p a b → B p a b) : Moves B s s' :=
  ⟨h.data, fun p hp => hAB _ _ _ (h.st p hp)⟩

theorem Moves.moves_setState (A : Nat → ProcState → ProcState → Prop) (s : Scheduler) (c : Nat)
    (v : ProcState) (h : A c (s.st c) v) : Moves A s (s.setState (c : Int) v) := by
  refine ⟨SameData.of_setState s c v, fun p hp => ?_⟩
  rw [setState_st] at hp ⊢
  by_cases hpc : p = c ∧ c < s.procInfo.length
  · rw [if_pos hpc, hpc.1]; exact h
  · rw [if_neg hpc] at hp; exact absurd rfl hp

theorem Moves.of_step {A : Nat → ProcState → ProcState → Prop} {s s' : Scheduler} {t : Int}
    {e v : ProcState}
    (h : s' = s ∨ ∃ c : Nat, t = (c : Int) ∧ c < s.procInfo.length ∧ s.st c = e ∧
      s' = s.setState (c : Int) v)
    (hA : ∀ c : Nat, t = (c : Int) → A c e v) : Moves A s s' := by
  rcases h with h | ⟨c, hc, -, hst, h⟩
  · rw [h]; exact Moves.moves_refl A s
  · rw [h]; exact Moves.moves_setState A s c v (by rw [hst]; exact hA c hc)

theorem MoveToReady_moves (s : Scheduler) (e : ProcState) (pid : Int) :
    Moves (fun p a b => (p : Int) = (if pid = -1 then s.currProc else pid) ∧ a = e ∧ b = READY)
      s (MoveToReady s e pid).1 :=
  Moves.of_step (contract_step (MoveToReady_contract s e pid)) (fun _ hc => ⟨hc.symm, rfl, rfl⟩)

theorem MoveToWait_moves (s : Scheduler) (e : ProcState) :
    Moves (fun p a b => (p : Int) = s.currProc ∧ a = e ∧ b = BLOCKED) s (MoveToWait s e).1 :=
  Moves.of_step (contract_step (MoveToWait_contract s e)) (fun _ hc => ⟨hc.symm, rfl, rfl⟩)

theorem MoveToRunning_moves (s : Scheduler) (e : ProcState) :
    Moves (fun p a b => (p : Int) = s.currProc ∧ a = e ∧ b = RUNNING) s (MoveToRunning s e).1 :=
  Moves.of_step (contract_step (MoveToRunning_contract s e)) (fun _ hc => ⟨hc.symm, rfl, rfl⟩)

theorem MoveToReady_currProc (s : Scheduler) (e : ProcState) (pid : Int) :
    (MoveToReady s e pid).1.currProc = s.currProc := by
  rcases contract_step (MoveToReady_contract s e pid) with h | ⟨c, -, -, -, h⟩
  · exact congrArg Scheduler.currProc h
  · exact (congrArg Scheduler.currProc h).trans (setState_currProc s _ _)

theorem MoveToWait_currProc (s : Scheduler) (e : ProcState) :
    (MoveToWait s e).1.currProc = s.currProc := by
  rcases contract_step (MoveToWait_contract s e) with h | ⟨c, -, -, -, h⟩
  · exact congrArg Scheduler.currProc h
  · exact (congrArg Scheduler.currProc h).trans (setState_currProc s _ _)

theorem NextProc_moves (s : Scheduler) (pid : Int) :
    Moves (fun _ a b => a = READY ∧ b = RUNNING) s (NextProc s pid).1 := by
  have key : ∀ cp : Int, Moves (fun _ a b => a = READY ∧ b = RUNNING) s
      (MoveToRunning { s with currProc := cp } READY).1 := by
    intro cp
    have h := MoveToRunning_moves { s with currProc := cp } READY
    exact ⟨(SameData.of_withCur s cp).trans h.data, fun p hp => (h.st p hp).2⟩
  unfold NextProc
  split
  · exact key pid
  · split
    · exact key _
    · exact Moves.moves_refl _ s

theorem CheckIfDone_moves (s : Scheduler) :
    Moves (fun _ a b => (a = READY ∧ b = RUNNING) ∨ (a = RUNNING ∧ b = DONE)) s
      (CheckIfDone s).1 := by
  unfold CheckIfDone
  split
  · exact Moves.moves_refl _ s
  · cases hget : s.proc? s.currProc with
    | none => exact Moves.moves_refl _ s
    | some proc =>
      simp only
      split
      · rename_i hcond
        obtain ⟨c, hc, hlt, hst, -⟩ := proc?_some s _ proc hget
        have h1 : Moves (fun p a b => a = RUNNING ∧ b = DONE) s (s.setState s.currProc DONE) := by
          rw [hc]; exact Moves.moves_setState _ s c DONE ⟨by rw [hst]; exact hcond.2, rfl⟩
        have h2 := NextProc_moves (s.setState s.currProc DONE) (-1)
        refine ⟨h1.data.trans h2.data, fun p hp => ?_⟩
        by_cases hp1 : (s.setState s.currProc DONE).st p = s.st p
        · left
          have := h2.st p (by rw [hp1]; exact hp)
          rw [hp1] at this; exact this
        · right
          have h3 := h1.st p hp1
          by_cases hp2 : (NextProc (s.setState s.currProc DONE) (-1)).1.st p =
              (s.setState s.currProc DONE).st p
          · rw [hp2]; exact h3
          · have h4 := h2.st p hp2
            rw [h3.2] at h4; cases h4.1
      · exact Moves.moves_refl _ s

/-! ### The log of transitions -/

theorem stateChanges_mem : ∀ (ps qs : List Process) (i k : Nat) (p q : Process),
    ps[k]? = some p → qs[k]? = some q → p.State ≠ q.State →
      ({ pid := i + k, src := p.State, dst := q.State, code := q.Code } : Transition) ∈
        stateChanges i ps qs
  | [], _, _, k, p, q, h1, _, _ => by simp at h1
  | _ :: _, [], _, k, p, q, _, h2, _ => by simp at h2
  | p0 :: ps, q0 :: qs, i, 0, p, q, h1, h2, hne => by
    simp at h1 h2
    subst h1 h2
    unfold stateChanges
    rw [if_pos hne]
    exact List.mem_cons_self _ _
  | p0 :: ps, q0 :: qs, i, k + 1, p, q, h1, h2, hne => by
    simp at h1 h2
    have ih := stateChanges_mem ps qs (i + 1) k p q h1 h2 hne
    have e : i + 1 + k = i + (k + 1) := by omega
    rw [e] at ih
    unfold stateChanges
    split
    · exact List.mem_cons_of_mem _ ih
    · exact ih

theorem Logged.of_same {Q : Transition → Prop} {r r' : RunState}
    (hlen : r'.s.procInfo.length = r.s.procInfo.length) (ht : r'.transitions = r.transitions)
    (hst : ∀ p, r'.s.st p = r.s.st p) : Logged Q r r' :=
  ⟨hlen, [], (by rw [ht, List.append_nil]), (fun _ h => absurd h (List.not_mem_nil _)),
    (fun p hp => absurd (hst p) hp)⟩

theorem Logged.logged_refl (Q : Transition → Prop) (r : RunState) : Logged Q r r :=
  Logged.of_same rfl rfl (fun _ => rfl)

theorem Logged.logged_trans {Q : Transition → Prop} {r1 r2 r3 : RunState}
    (h1 : Logged Q r1 r2) (h2 : Logged Q r2 r3) : Logged Q r1 r3 := by
  obtain ⟨hl1, n1, ht1, hq1, hc1⟩ := h1
  obtain ⟨hl2, n2, ht2, hq2, hc2⟩ := h2
  refine ⟨hl2.trans hl1, n1 ++ n2, by rw [ht2, ht1, List.append_assoc], ?_, ?_⟩
  · intro x hx
    rcases List.mem_append.mp hx with h | h
    · exact hq1 x h
    · exact hq2 x h
  · intro p hp
    by_cases h12 : r2.s.st p = r1.s.st p
    · obtain ⟨x, hx, hpid, hsrc⟩ := hc2 p (by rw [h12]; exact hp)
      exact ⟨x, List.mem_append_right _ hx, hpid, hsrc.trans h12⟩
    · obtain ⟨x, hx, hpid, hsrc⟩ := hc1 p h12
      exact ⟨x, List.mem_append_left _ hx, hpid, hsrc⟩

theorem Logged.logged_mono {Q Q' : Transition → Prop} {r r' : RunState} (h : Logged Q r r')
    (hQ : ∀ x, Q x → Q' x) : Logged Q' r r' := by
  obtain ⟨hl, n, ht, hq, hc⟩ := h
  exact ⟨hl, n, ht, fun x hx => hQ x (hq x hx), hc⟩

theorem Logged.of_call {A : Nat → ProcState → ProcState → Prop} {Q : Transition → Prop}
    (r : RunState) (op : Scheduler → Scheduler × Option SchedError)
    (hm : Moves A r.s (op r.s).1) (hQ : ∀ x : Transition, A x.pid x.src x.dst → Q x) :
    Logged Q r (r.call op) := by
  refine ⟨hm.data.len, stateChanges 0 r.s.procInfo (op r.s).1.procInfo, rfl, ?_, ?_⟩
  · intro x hx
    obtain ⟨k, p, q, hp, hq, hne, hxe⟩ := mem_stateChanges _ _ 0 x hx
    apply hQ
    have h1 : r.s.st k = p.State := st_of_get r.s hp
    have h2 : (op r.s).1.st k = q.State := st_of_get _ hq
    have := hm.st k (by rw [h1, h2]; exact fun h => hne h.symm)
    rw [h1, h2] at this
    rw [hxe]
    simpa using this
  · intro p hp
    simp only [call_s] at hp
    have hlt : p < r.s.procInfo.length := by
      by_contra hge
      have h1 : r.s.st p = DONE := by
        by_contra h; exact hge (lt_of_st_ne_done r.s h)
      have h2 : (op r.s).1.st p = DONE := by
        by_contra h
        have := lt_of_st_ne_done _ h
        rw [hm.data.len] at this
        exact hge this
      exact hp (h2.trans h1.symm)
    obtain ⟨a, ha, hsa, -⟩ := get_of_lt r.s hlt
    obtain ⟨b, hb, hsb, -⟩ := get_of_lt (op r.s).1 (by rw [hm.data.len]; exact hlt)
    have hne : a.State ≠ b.State := by
      rw [hsa, hsb]; exact fun h => hp h.symm
    have := stateChanges_mem _ _ 0 p a b ha hb hne
    refine ⟨_, this, by simp, by simp [hsa]⟩

theorem Logged.new {Q : Transition → Prop} {r r' : RunState} (h : Logged Q r r') :
    r'.transitions = r.transitions ++ newTransitions r r' ∧
      (∀ x ∈ newTransitions r r', Q x) ∧
      ∀ p, r'.s.st p ≠ r.s.st p → ∃ x ∈ newTransitions r r', x.pid = p ∧ x.src = r.s.st p := by
  obtain ⟨-, n, ht, hq, hc⟩ := h
  have : newTransitions r r' = n := by
    unfold newTransitions
    rw [ht, List.drop_left]
  rw [this]
  exact ⟨ht, hq, hc⟩

/-! ### What the handling of one I/O completion logs -/

theorem Logged.step_if {A : Nat → ProcState → ProcState → Prop} {Q : Transition → Prop}
    {r r2 : RunState} (c : Prop) [Decidable c] (op : Scheduler → Scheduler × Option SchedError)
    (h : Logged Q r r2) (hm : Moves A r2.s (op r2.s).1)
    (hQ : ∀ x : Transition, A x.pid x.src x.dst → Q x) :
    Logged Q r (if c then r2.call op else r2) := by
  split
  · exact h.logged_trans (Logged.of_call r2 op hm hQ)
  · exact h

theorem ioRunImmediate_logged (pid : Int) (r : RunState) :
    Logged (fun x => x.src ≠ BLOCKED ∧ x.dst ≠ BLOCKED) r (ioRunImmediate pid r) := by
  have h1 : Logged (fun x => x.src ≠ BLOCKED ∧ x.dst ≠ BLOCKED) r
      (if r.s.currProc ≠ pid ∧ r.s.currIsRunning = true then
        r.call (fun s => MoveToReady s RUNNING s.currProc) else r) := by
    apply Logged.step_if _ _ (Logged.logged_refl _ r) (MoveToReady_moves r.s RUNNING r.s.currProc)
    intro x hx
    rw [hx.2.1, hx.2.2]
    exact ⟨by decide, by decide⟩
  refine h1.logged_trans ?_
  apply Logged.of_call _ (fun s => NextProc s pid) (NextProc_moves _ pid)
  intro x hx
  rw [hx.1, hx.2]
  exact ⟨by decide, by decide⟩

theorem ioRunLater_logged (pid : Int) (r : RunState) :
    Logged (fun x => x.src = READY ∧ x.dst = RUNNING) r (ioRunLater pid r) :=
  Logged.step_if _ (fun s => NextProc s pid)
    (Logged.step_if _ (fun s => NextProc s pid) (Logged.logged_refl _ r)
      (NextProc_moves r.s pid) (fun _ hx => hx))
    (NextProc_moves _ pid) (fun _ hx => hx)

theorem CheckIfDone_logged (r : RunState) :
    Logged (fun x => (x.src = READY ∧ x.dst = RUNNING) ∨ (x.src = RUNNING ∧ x.dst = DONE))
      r (r.call CheckIfDone) :=
  Logged.of_call r _ (CheckIfDone_moves r.s) (fun _ hx => hx)

theorem handleIODone_logged (p : Nat) (r : RunState) :
    Logged (fun x => (x.src = BLOCKED → x.pid = p ∧ x.dst = READY) ∧
        x.dst ≠ BLOCKED ∧
        (r.s.ioDoneBehavior = IODoneBehavior.IO_RUN_LATER →
          ¬ (x.src = RUNNING ∧ x.dst = READY)))
      r (handleIODone (p : Int) r) := by
  have hm := MoveToReady_moves r.s BLOCKED (p : Int)
  obtain ⟨r1, hr1⟩ : ∃ r1 : RunState, r1 = r.call (fun s => MoveToReady s BLOCKED (p : Int)) :=
    ⟨_, rfl⟩
  have hdef : handleIODone (p : Int) r =
      (if r1.s.ioDoneBehavior = IODoneBehavior.IO_RUN_IMMEDIATE then ioRunImmediate (p : Int) r1
        else ioRunLater (p : Int) r1).call CheckIfDone := by
    rw [hr1]; rfl
  have h1 : Logged (fun x => (x.src = BLOCKED → x.pid = p ∧ x.dst = READY) ∧
        x.dst ≠ BLOCKED ∧
        (r.s.ioDoneBehavior = IODoneBehavior.IO_RUN_LATER →
          ¬ (x.src = RUNNING ∧ x.dst = READY)))
      r r1 := by
    rw [hr1]
    apply Logged.of_call r _ hm
    intro x hx
    simp only [natCast_ne_neg_one, if_false] at hx
    obtain ⟨h1, h2, h3⟩ := hx
    refine ⟨fun _ => ⟨by exact_mod_cast h1, h3⟩, by rw [h3]; decide, fun _ h => ?_⟩
    rw [h2] at h; cases h.1
  have hiod : r1.s.ioDoneBehavior = r.s.ioDoneBehavior := by rw [hr1]; exact hm.data.iod
  rw [hdef]
  refine (h1.logged_trans ?_).logged_trans ((CheckIfDone_logged _).logged_mono ?_)
  · split
    · rename_i himm
      refine (ioRunImmediate_logged _ _).logged_mono (fun x hx => ⟨fun h => absurd h hx.1, hx.2, ?_⟩)
      intro hl
      rw [hiod, hl] at himm; cases himm
    · refine (ioRunLater_logged _ _).logged_mono (fun x hx => ⟨fun h => ?_, ?_, fun _ h => ?_⟩)
      · rw [hx.1] at h; cases h
      · rw [hx.2]; decide
      · rw [hx.1] at h; cases h.1
  · intro x hx
    rcases hx with hx | hx
    · refine ⟨fun h => ?_, ?_, fun _ h => ?_⟩
      · rw [hx.1] at h; cases h
      · rw [hx.2]; decide
      · rw [hx.1] at h; cases h.1
    · refine ⟨fun h => ?_, ?_, fun _ h => ?_⟩
      · rw [hx.1] at h; cases h
      · rw [hx.2]; decide
      · rw [hx.2] at h; cases h.2

/-! ### The completion scan as a sequence of handled completions -/

theorem scanPid_cases (r : RunState) (p : Nat) (c : Int) (hG : Good r.s)
    (hclock : r.clockTick = c + 1) (hT : TimeOK c r.s p) :
    (scanPid r p = r ∧ r.clockTick ∉ r.s.times p) ∨
      (scanPid r p = handleIODone (p : Int) r ∧ r.s.st p = BLOCKED ∧
        r.clockTick ∈ r.s.times p) := by
  have hsplit := countP_gt_split (r.s.times p) c
  unfold TimeOK at hT
  rw [hT] at hsplit
  have hdef : scanPid r p = (r.s.times p).foldl
      (fun r t => if t = r.clockTick then handleIODone (p : Int) r else r) r := rfl
  by_cases hcnt : (r.s.times p).count (c + 1) = 0
  · left
    have hno : r.clockTick ∉ r.s.times p := by
      rw [hclock]; exact List.count_eq_zero.mp hcnt
    refine ⟨?_, hno⟩
    rw [hdef]
    exact fold_none _ _ _ (fun t ht heq => hno (heq ▸ ht))
  · right
    have hb : r.s.st p = BLOCKED := by
      by_contra hnb
      simp only [hnb, if_false] at hsplit
      omega
    simp only [hb, if_true] at hsplit
    have hone : (r.s.times p).count r.clockTick = 1 := by rw [hclock]; omega
    obtain ⟨hC, -, -, -⟩ := handleIODone_good r p hG hb
    refine ⟨?_, hb, ?_⟩
    · rw [hdef]; exact fold_one _ _ _ hC.clock hone
    · rw [hclock]
      exact List.count_pos_iff.mp (by omega)

/-- Whatever is kept by the handling of every I/O completion of a BLOCKED process is
kept by the completion scan. -/
theorem ioScan_induct (P : RunState → Prop)
    (hstep : ∀ (r : RunState) (p : Nat), Good r.s → r.s.st p = BLOCKED →
      r.clockTick ∈ r.s.times p → P r → P (handleIODone (p : Int) r)) :
    ∀ (order : List Nat) (r : RunState) (c : Int), order.Nodup → Good r.s →
      r.clockTick = c + 1 → (∀ p ∈ order, TimeOK c r.s p) → P r → P (ioScan order r)
  | [], r, c, _, _, _, _, hP => hP
  | p :: ps, r, c, hnd, hG, hclock, hin, hP => by
    obtain ⟨hC, hG1, -, hfr⟩ := scanPid_good r p c hG hclock (hin p (List.mem_cons_self _ _))
    have hnd' := List.nodup_cons.mp hnd
    have hP1 : P (scanPid r p) := by
      rcases scanPid_cases r p c hG hclock (hin p (List.mem_cons_self _ _)) with
        ⟨h, -⟩ | ⟨h, hb, hm⟩
      · rw [h]; exact hP
      · rw [h]; exact hstep r p hG hb hm hP
    exact ioScan_induct P hstep ps (scanPid r p) c hnd'.2 hG1 (hC.clock.trans hclock)
      (by
        intro q hq
        have hqp : q ≠ p := fun h => hnd'.1 (h ▸ hq)
        exact (hin q (List.mem_cons_of_mem _ hq)).transfer hC.times (hfr q hqp))
      hP1

/-- The state at the start of a tick, after the clock has advanced. -/
theorem scanned_spec (order : Int → List Nat) (r : RunState) (hI : LoopInv r)
    (hperm : (order (r.clockTick + 1)).Perm (List.range r.s.procInfo.length)) :
    Calls { r with clockTick := r.clockTick + 1 } (scanned order r) ∧
      Good (scanned order r).s ∧ (∀ p, TimeOK (r.clockTick + 1) (scanned order r).s p) ∧
      (scanned order r).clockTick = r.clockTick + 1 := by
  obtain ⟨hC, hG, hT⟩ := ioScan_good (order (r.clockTick + 1))
    { r with clockTick := r.clockTick + 1 } r.clockTick
    (hperm.nodup_iff.mpr (List.nodup_range _)) hI.good rfl
    (fun p _ => hI.time p)
    (by
      intro p hp
      apply TimeOK_out_of_range _ _ _ hI.good.times_len
      intro hlt
      apply hp
      rw [hperm.mem_iff, List.mem_range]
      exact hlt)
  exact ⟨hC, hG, hT, hC.clock⟩

theorem scanned_induct (P : RunState → Prop) (order : Int → List Nat) (r : RunState)
    (hI : LoopInv r)
    (hperm : (order (r.clockTick + 1)).Perm (List.range r.s.procInfo.length))
    (hstep : ∀ (r' : RunState) (p : Nat), Good r'.s → r'.s.st p = BLOCKED →
      r'.clockTick ∈ r'.s.times p → P r' → P (handleIODone (p : Int) r'))
    (h0 : P { r with clockTick := r.clockTick + 1 }) : P (scanned order r) :=
  ioScan_induct P hstep (order (r.clockTick + 1)) { r with clockTick := r.clockTick + 1 }
    r.clockTick (hperm.nodup_iff.mpr (List.nodup_range _)) hI.good rfl
    (fun p _ => hI.time p) h0

/-! ### The part of a tick that follows the completion scan -/

theorem tick_eq (order : Int → List Nat) (r : RunState) :
    tick order r =
      afterExec (execStep (scanned order r)).2 (ioBusyStep (execStep (scanned order r)).1) := rfl

theorem ioBusyStep_s (r : RunState) : (ioBusyStep r).s = r.s := by
  unfold ioBusyStep; split <;> rfl

theorem ioBusyStep_clockTick (r : RunState) : (ioBusyStep r).clockTick = r.clockTick := by
  unfold ioBusyStep; split <;> rfl

theorem ioBusyStep_execs (r : RunState) : (ioBusyStep r).execs = r.execs := by
  unfold ioBusyStep; split <;> rfl

theorem ioBusyStep_transitions (r : RunState) : (ioBusyStep r).transitions = r.transitions := by
  unfold ioBusyStep; split <;> rfl

theorem times_congr {s s' : Scheduler} (h : s'.ioFinishTimes = s.ioFinishTimes) (p : Nat) :
    s'.times p = s.times p := by
  simp [Scheduler.times, h]

theorem SameData.recordFinish {s s' : Scheduler} (h : SameData s s') (c t : Int) :
    SameData (s.recordFinish c t) (s'.recordFinish c t) :=
  ⟨h.len, h.sw, h.iod, h.ioLength, by simp [Scheduler.recordFinish, h.times], h.code⟩

theorem ioIssue_data (r : RunState) :
    SameData (r.s.recordFinish r.s.currProc (r.clockTick + r.s.ioLength + 1)) (ioIssue r).s ∧
      (ioIssue r).execs = r.execs ∧ (ioIssue r).clockTick = r.clockTick := by
  have hm := (MoveToWait_moves r.s RUNNING).data
  have hcp := MoveToWait_currProc r.s RUNNING
  obtain ⟨r5, hr5⟩ : ∃ r5 : RunState, r5 =
    { r.call (fun s : Scheduler => MoveToWait s RUNNING) with
      s := (r.call (fun s : Scheduler => MoveToWait s RUNNING)).s.recordFinish
        (r.call (fun s : Scheduler => MoveToWait s RUNNING)).s.currProc
        ((r.call (fun s : Scheduler => MoveToWait s RUNNING)).clockTick +
          (r.call (fun s : Scheduler => MoveToWait s RUNNING)).s.ioLength + 1) } := ⟨_, rfl⟩
  have hdef : ioIssue r =
      if r5.s.processSwitchBehavior = SwitchBehavior.SWITCH_ON_IO then
        r5.call (fun s => NextProc s (-1))
      else r5 := by rw [hr5]; rfl
  have h5 : SameData (r.s.recordFinish r.s.currProc (r.clockTick + r.s.ioLength + 1)) r5.s := by
    rw [hr5]
    simp only [call_s, call_clockTick]
    rw [hcp, hm.ioLength]
    exact hm.recordFinish _ _
  have he5 : r5.execs = r.execs := by rw [hr5]; rfl
  have hc5 : r5.clockTick = r.clockTick := by rw [hr5]; rfl
  rw [hdef]
  split
  · exact ⟨h5.trans (NextProc_moves r5.s (-1)).data, he5, hc5⟩
  · exact ⟨h5, he5, hc5⟩

theorem afterExec_data (i : Option Instr) (r : RunState) :
    SameData (if i = some Instr.io then
        r.s.recordFinish r.s.currProc (r.clockTick + r.s.ioLength + 1) else r.s)
      (afterExec i r).s ∧
      (afterExec i r).execs = r.execs ∧ (afterExec i r).clockTick = r.clockTick := by
  unfold afterExec
  by_cases hi : i = some Instr.io
  · simp only [hi, if_true]
    obtain ⟨h1, h2, h3⟩ := ioIssue_data r
    exact ⟨h1.trans (CheckIfDone_moves _).data, h2, h3⟩
  · simp only [hi, if_false]
    exact ⟨(CheckIfDone_moves _).data, rfl, rfl⟩

theorem ioIssue_logged (r : RunState) :
    Logged (fun x => x.src ≠ BLOCKED ∧ ¬ (x.src = RUNNING ∧ x.dst = READY)) r (ioIssue r) := by
  obtain ⟨r4, hr4⟩ : ∃ r4 : RunState, r4 = r.call (fun s : Scheduler => MoveToWait s RUNNING) :=
    ⟨_, rfl⟩
  obtain ⟨r5, hr5⟩ : ∃ r5 : RunState, r5 =
    { r4 with s := r4.s.recordFinish r4.s.currProc (r4.clockTick + r4.s.ioLength + 1) } :=
    ⟨_, rfl⟩
  have hdef : ioIssue r =
      if r5.s.processSwitchBehavior = SwitchBehavior.SWITCH_ON_IO then
        r5.call (fun s => NextProc s (-1))
      else r5 := by rw [hr5, hr4]; rfl
  have h4 : Logged (fun x => x.src ≠ BLOCKED ∧ ¬ (x.src = RUNNING ∧ x.dst = READY)) r r4 := by
    rw [hr4]
    apply Logged.of_call r _ (MoveToWait_moves r.s RUNNING)
    intro x hx
    rw [hx.2.1, hx.2.2]
    exact ⟨by decide, by decide⟩
  have h45 : Logged (fun x => x.src ≠ BLOCKED ∧ ¬ (x.src = RUNNING ∧ x.dst = READY)) r4 r5 := by
    rw [hr5]
    exact Logged.of_same rfl rfl (fun _ => rfl)
  rw [hdef]
  apply Logged.step_if _ _ (h4.logged_trans h45) (NextProc_moves r5.s (-1))
  intro x hx
  rw [hx.1, hx.2]
  exact ⟨by decide, by decide⟩

theorem afterExec_logged (i : Option Instr) (r : RunState) :
    Logged (fun x => x.src ≠ BLOCKED ∧ ¬ (x.src = RUNNING ∧ x.dst = READY)) r
      (afterExec i r) := by
  have h1 : Logged (fun x => x.src ≠ BLOCKED ∧ ¬ (x.src = RUNNING ∧ x.dst = READY)) r
      (if i = some Instr.io then ioIssue r else r) := by
    split
    · exact ioIssue_logged r
    · exact Logged.logged_refl _ r
  refine h1.logged_trans ((CheckIfDone_logged _).logged_mono ?_)
  intro x hx
  rcases hx with hx | hx <;> rw [hx.1, hx.2] <;> exact ⟨by decide, by decide⟩

theorem execStep_logged (Q : Transition → Prop) (r : RunState) :
    Logged Q r (execStep r).1 := by
  unfold execStep
  split
  · split
    · split
      · rename_i proc hget _ _ instr rest _
        obtain ⟨c, hc, -, -, -⟩ := proc?_some r.s _ proc hget
        refine Logged.of_same ?_ rfl (fun p => ?_)
        · simp
        · show (r.s.setCode r.s.currProc rest).st p = r.s.st p
          rw [hc]; simp
      · exact Logged.logged_refl Q r
    · exact Logged.logged_refl Q r
  · exact Logged.logged_refl Q r

/-- What the part of a tick after the completion scan logs: no transition out of
BLOCKED and no transition from RUNNING to READY. -/
theorem postScan_logged (order : Int → List Nat) (r : RunState) :
    Logged (fun x => x.src ≠ BLOCKED ∧ ¬ (x.src = RUNNING ∧ x.dst = READY))
      (scanned order r) (tick order r) := by
  rw [tick_eq]
  refine (execStep_logged _ (scanned order r)).logged_trans (Logged.logged_trans ?_
    (afterExec_logged _ _))
  exact Logged.of_same (by rw [ioBusyStep_s]) (ioBusyStep_transitions _)
    (fun p => by rw [ioBusyStep_s])

/-! ### One tick in detail -/

/-- One iteration of the loop of `Run`, in detail: the configuration is kept; if the
current process after the completion scan is RUNNING and has an instruction, that
instruction is executed and removed from its `Code`, and when it is `io` the finish
time `clockTick + ioLength + 1` is recorded for that process; nothing else changes
in any `Code`, in the recorded finish times and in the log of executed instructions. -/
theorem tick_detail (order : Int → List Nat) (r : RunState) (hI : LoopInv r)
    (hperm : (order (r.clockTick + 1)).Perm (List.range r.s.procInfo.length)) :
    (tick order r).s.processSwitchBehavior = r.s.processSwitchBehavior ∧
    (tick order r).s.ioDoneBehavior = r.s.ioDoneBehavior ∧
    (tick order r).s.ioLength = r.s.ioLength ∧
    (((execStep (scanned order r)).2 = none ∧
        ¬ ((scanned order r).s.st (scanned order r).s.cur = RUNNING ∧
            r.s.code (scanned order r).s.cur ≠ []) ∧
        (tick order r).execs = r.execs ∧
        (∀ p, (tick order r).s.code p = r.s.code p) ∧
        (∀ p, (tick order r).s.times p = r.s.times p)) ∨
      ∃ instr rest, (execStep (scanned order r)).2 = some instr ∧
        (scanned order r).s.st (scanned order r).s.cur = RUNNING ∧
        r.s.code (scanned order r).s.cur = instr :: rest ∧
        (tick order r).execs =
          r.execs ++ [(r.clockTick + 1, ((scanned order r).s.cur : Int), instr)] ∧
        (∀ p, (tick order r).s.code p =
          if p = (scanned order r).s.cur then rest else r.s.code p) ∧
        (∀ p, (tick order r).s.times p =
          if instr = Instr.io ∧ p = (scanned order r).s.cur then
            r.s.times p ++ [r.clockTick + 1 + r.s.ioLength + 1]
          else r.s.times p)) := by
  obtain ⟨hC, hG1, hT1, hc1⟩ := scanned_spec order r hI hperm
  obtain ⟨r1, hr1⟩ : ∃ r1 : RunState, r1 = scanned order r := ⟨_, rfl⟩
  rw [← hr1] at hC hG1 hT1 hc1 ⊢
  have htimes1 : r1.s.ioFinishTimes = r.s.ioFinishTimes := hC.times
  have hcode1 : ∀ p, r1.s.code p = r.s.code p := hC.code
  have hexecs1 : r1.execs = r.execs := hC.execs
  have hsw1 : r1.s.processSwitchBehavior = r.s.processSwitchBehavior := hC.sw
  have hiod1 : r1.s.ioDoneBehavior = r.s.ioDoneBehavior := hC.iod
  have hL1 : r1.s.ioLength = r.s.ioLength := hC.ioLength
  have htick : tick order r = afterExec (execStep r1).2 (ioBusyStep (execStep r1).1) := by
    rw [hr1]; rfl
  obtain ⟨hD, hE, -⟩ := afterExec_data (execStep r1).2 (ioBusyStep (execStep r1).1)
  rw [← htick, ioBusyStep_s, ioBusyStep_clockTick] at hD
  rw [← htick, ioBusyStep_execs] at hE
  rcases execStep_spec r1 hG1 with ⟨hnone, heq, hneg⟩ | ⟨instr, rest, hrun, hcode, hsome, heq⟩
  · rw [hnone, heq] at hD
    rw [heq] at hE
    simp only [reduceCtorEq, if_false] at hD
    refine ⟨hD.sw.trans hsw1, hD.iod.trans hiod1, hD.ioLength.trans hL1, Or.inl ⟨hnone, ?_, ?_, ?_, ?_⟩⟩
    · rw [← hcode1]; exact hneg
    · rw [hE, hexecs1]
    · intro p; rw [hD.code, hcode1]
    · intro p; rw [times_congr hD.times, times_congr htimes1]
  · have hs2 : (execStep r1).1.s = r1.s.setCode (r1.s.cur : Int) rest := by rw [heq]
    have hc2 : (execStep r1).1.clockTick = r1.clockTick := by rw [heq]
    have he2 : (execStep r1).1.execs = r1.execs ++ [(r1.clockTick, r1.s.currProc, instr)] := by
      rw [heq]
    rw [hsome, hs2, hc2] at hD
    have hcfg : (tick order r).s.processSwitchBehavior = r1.s.processSwitchBehavior ∧
        (tick order r).s.ioDoneBehavior = r1.s.ioDoneBehavior ∧
        (tick order r).s.ioLength = r1.s.ioLength := by
      refine ⟨hD.sw.trans ?_, hD.iod.trans ?_, hD.ioLength.trans ?_⟩ <;> split <;> simp
    refine ⟨hcfg.1.trans hsw1, hcfg.2.1.trans hiod1, hcfg.2.2.trans hL1,
      Or.inr ⟨instr, rest, hsome, hrun, by rw [← hcode1]; exact hcode, ?_, ?_, ?_⟩⟩
    · rw [hE, he2, hexecs1, hc1, hG1.currProc_eq]
    · intro p
      rw [hD.code]
      have : ∀ X : Scheduler, (if some instr = some Instr.io then
          (r1.s.setCode (r1.s.cur : Int) rest).recordFinish X.currProc
            (r1.clockTick + X.ioLength + 1)
          else r1.s.setCode (r1.s.cur : Int) rest).code p =
          (r1.s.setCode (r1.s.cur : Int) rest).code p := by
        intro X; split <;> simp
      rw [this, setCode_code, ← hcode1]
      simp [hG1.cur_lt]
    · intro p
      rw [times_congr hD.times]
      by_cases hio : instr = Instr.io
      · simp only [hio, if_true, true_and]
        rw [setCode_currProc, setCode_ioLength, hG1.currProc_eq, recordFinish_times]
        have hlt : r1.s.cur < (r1.s.setCode (r1.s.cur : Int) rest).ioFinishTimes.length := by
          rw [setCode_times, hG1.times_len]; exact hG1.cur_lt
        simp only [hlt, and_true, setCode_times']
        rw [hc1, hL1]
        by_cases hp : p = r1.s.cur
        · simp only [hp, if_true]
          rw [times_congr htimes1]
        · simp only [hp, if_false]
          rw [times_congr htimes1]
      · have : ¬ (some instr = some Instr.io) := fun h => hio (Option.some.inj h)
        simp only [this, hio, if_false, false_and, setCode_times']
        rw [times_congr htimes1]

/-! ### Facts about every state of a run -/

theorem runInit_data (s : Scheduler) :
    (runInit s).s.processSwitchBehavior = s.processSwitchBehavior ∧
      (runInit s).s.ioDoneBehavior = s.ioDoneBehavior ∧
      (∀ p, (runInit s).s.times p = []) ∧ (runInit s).execs = [] ∧
      (∀ p, (runInit s).s.code p = s.code p) ∧
      ∀ x ∈ (runInit s).transitions, x.src = READY ∧ x.dst = RUNNING := by
  obtain ⟨s1, hs1⟩ : ∃ s1 : Scheduler, s1 =
    { s with ioFinishTimes := List.replicate s.procInfo.length [], currProc := 0 } := ⟨_, rfl⟩
  obtain ⟨r0, hr0⟩ : ∃ r0 : RunState, r0 =
    { s := s1, cpuBusy := 0, ioBusy := 0, clockTick := 0, errs := [], transitions := [],
      execs := [] } := ⟨_, rfl⟩
  have hinit : runInit s = r0.call (fun s => MoveToRunning s READY) := by
    rw [hr0, hs1]; rfl
  have hm := MoveToRunning_moves r0.s READY
  have hr0s : r0.s = s1 := by rw [hr0]
  have hlog : Logged (fun x => x.src = READY ∧ x.dst = RUNNING) r0 (runInit s) := by
    rw [hinit]
    exact Logged.of_call r0 _ hm (fun x hx => hx.2)
  rw [hinit]
  simp only [call_s, call_execs]
  refine ⟨hm.data.sw.trans (by rw [hr0s, hs1]), hm.data.iod.trans (by rw [hr0s, hs1]), ?_,
    by rw [hr0], ?_, ?_⟩
  · intro p
    rw [times_congr hm.data.times, hr0s, hs1]
    simp only [Scheduler.times, List.getD_eq_getElem?_getD, List.getElem?_replicate]
    split <;> rfl
  · intro p
    rw [hm.data.code, hr0s, hs1]; rfl
  · obtain ⟨-, n, ht, hq, -⟩ := hlog
    rw [hinit] at ht
    intro x hx
    rw [ht] at hx
    have : r0.transitions = [] := by rw [hr0]
    rw [this, List.nil_append] at hx
    exact hq x hx

theorem runState_facts (order : Int → List Nat) (s : Scheduler) (hL : 0 ≤ s.ioLength)
    (hne : s.procInfo ≠ []) (hready : ∀ proc ∈ s.procInfo, proc.State = READY)
    (hperm : ∀ t, (order t).Perm (List.range s.procInfo.length)) :
    ∀ k, LoopRuns order s k → RunFacts order s k
  | 0, _ => by
    obtain ⟨hI, -, hclock, -, hlen, hioL, -⟩ := runInit_spec s hL hne hready
    obtain ⟨hsw, hiod, htimes, hexecs, -, -⟩ := runInit_data s
    refine ⟨hI, hclock, hlen, hsw, hiod, hioL, ?_, ?_, ?_, ?_⟩
    · show (order ((runInit s).clockTick + 1)).Perm (List.range (runInit s).s.procInfo.length)
      rw [hlen]; exact hperm _
    · intro e he
      have : (runInit s).execs = [] := hexecs
      rw [show (runState order s 0).execs = (runInit s).execs from rfl, this] at he
      cases he
    · intro p x hx
      rw [show (runState order s 0).s.times p = (runInit s).s.times p from rfl, htimes] at hx
      cases hx
    · intro p q x hx
      rw [show (runState order s 0).s.times p = (runInit s).s.times p from rfl, htimes] at hx
      cases hx
  | k + 1, hrun => by
    have hF := runState_facts order s hL hne hready hperm k (hrun.of_le (by omega))
    obtain ⟨hI', -, -, hclock', -, hlen', -⟩ :=
      tick_spec order (runState order s k) hF.inv hF.perm (hrun k (by omega))
    obtain ⟨hsw, hiod, hioL, hcase⟩ := tick_detail order (runState order s k) hF.inv hF.perm
    have hstep : runState order s (k + 1) = tick order (runState order s k) := rfl
    have hclock : (runState order s (k + 1)).clockTick = ((k + 1 : Nat) : Int) := by
      rw [hstep, hclock', hF.clock]; push_cast; ring
    rw [hF.clock, hF.ioLength] at hcase
    refine ⟨hI', hclock, hlen'.trans hF.len, hsw.trans hF.sw, hiod.trans hF.iod,
      hioL.trans hF.ioLength, ?_, ?_, ?_, ?_⟩
    · rw [hstep, hlen', hF.len]; exact hperm _
    · intro e he
      rw [hstep] at he
      rcases hcase with ⟨-, -, hex, -, -⟩ | ⟨instr, rest, -, -, -, hex, -, -⟩
      · rw [hex] at he
        have := hF.execs_le e he
        push_cast; omega
      · rw [hex] at he
        rcases List.mem_append.mp he with h | h
        · have := hF.execs_le e h
          push_cast; omega
        · rw [List.mem_singleton] at h
          rw [h]; push_cast; omega
    · intro p x hx
      rw [hstep] at hx
      rcases hcase with ⟨-, -, -, -, ht⟩ | ⟨instr, rest, -, -, -, -, -, ht⟩
      · rw [ht] at hx
        have := hF.times_le p x hx
        push_cast; omega
      · rw [ht] at hx
        split at hx
        · rcases List.mem_append.mp hx with h | h
          · have := hF.times_le p x h
            push_cast; omega
          · rw [List.mem_singleton] at h
            rw [h]; push_cast; omega
        · have := hF.times_le p x hx
          push_cast; omega
    · intro p q x hp hq
      rw [hstep] at hp hq
      rcases hcase with ⟨-, -, -, -, ht⟩ | ⟨instr, rest, -, -, -, -, -, ht⟩
      · rw [ht] at hp hq
        exact hF.times_inj p q x hp hq
      · rw [ht] at hp hq
        have hold : ∀ y, ∀ z ∈ (runState order s k).s.times y, z ≠ (k : Int) + 1 + s.ioLength + 1 := by
          intro y z hz
          have := hF.times_le y z hz
          omega
        by_cases hcp : instr = Instr.io ∧ p = (scanned order (runState order s k)).s.cur
        · by_cases hcq : instr = Instr.io ∧ q = (scanned order (runState order s k)).s.cur
          · rw [hcp.2, hcq.2]
          · rw [if_pos hcp] at hp
            rw [if_neg hcq] at hq
            rcases List.mem_append.mp hp with h | h
            · exact hF.times_inj p q x h hq
            · rw [List.mem_singleton] at h
              exact absurd h (hold q x hq)
        · rw [if_neg hcp] at hp
          by_cases hcq : instr = Instr.io ∧ q = (scanned order (runState order s k)).s.cur
          · rw [if_pos hcq] at hq
            rcases List.mem_append.mp hq with h | h
            · exact hF.times_inj p q x hp h
            · rw [List.mem_singleton] at h
              exact absurd h (hold p x hp)
          · rw [if_neg hcq] at hq
            exact hF.times_inj p q x hp hq

/-! ### Finish times and the BLOCKED state -/

theorem blocked_of_time {T : Int} {s : Scheduler} {p : Nat} (hT : TimeOK T s p) {x : Int}
    (hx : x ∈ s.times p) (hgt : x > T) : s.st p = BLOCKED := by
  unfold TimeOK at hT
  by_contra hnb
  rw [if_neg hnb, List.countP_eq_zero] at hT
  have := hT x hx
  simp at this
  omega

theorem not_blocked_of_no_time {T : Int} {s : Scheduler} {p : Nat} (hT : TimeOK T s p)
    (h : ∀ x ∈ s.times p, ¬ x > T) : s.st p ≠ BLOCKED := by
  unfold TimeOK at hT
  intro hb
  rw [if_pos hb] at hT
  have : 0 < (s.times p).countP (fun t => decide (t > T)) := by omega
  obtain ⟨x, hx, hgt⟩ := List.countP_pos_iff.mp this
  exact h x hx (by simpa using hgt)

theorem no_later_time {T : Int} {s : Scheduler} {p : Nat} (hT : TimeOK T s p)
    (hnow : T + 1 ∈ s.times p) : ∀ x ∈ s.times p, ¬ x > T + 1 := by
  have hsplit := countP_gt_split (s.times p) T
  unfold TimeOK at hT
  rw [hT] at hsplit
  have hc : 0 < (s.times p).count (T + 1) := List.count_pos_iff.mpr hnow
  have hz : (s.times p).countP (fun t => decide (t > T + 1)) = 0 := by
    split at hsplit <;> omega
  rw [List.countP_eq_zero] at hz
  intro x hx hgt
  exact hz x hx (by simpa using hgt)

theorem not_now_of_later {T : Int} {s : Scheduler} {p : Nat} (hT : TimeOK T s p) {x : Int}
    (hx : x ∈ s.times p) (hgt : x > T + 1) : T + 1 ∉ s.times p :=
  fun hnow => no_later_time hT hnow x hx hgt

/-! ### What a tick logs -/

/-- The completion scan of a tick logs, as transitions out of BLOCKED, only
BLOCKED → READY of processes one of whose recorded finish times is this tick; it
logs no transition into BLOCKED, and under `IO_RUN_LATER` none from RUNNING to
READY. -/
theorem scanned_logged (order : Int → List Nat) (r : RunState) (hI : LoopInv r)
    (hperm : (order (r.clockTick + 1)).Perm (List.range r.s.procInfo.length)) :
    Logged (fun x => (x.src = BLOCKED → r.clockTick + 1 ∈ r.s.times x.pid ∧ x.dst = READY) ∧
        x.dst ≠ BLOCKED ∧
        (r.s.ioDoneBehavior = IODoneBehavior.IO_RUN_LATER →
          ¬ (x.src = RUNNING ∧ x.dst = READY)))
      r (scanned order r) := by
  have key := scanned_induct
    (fun r' => Calls { r with clockTick := r.clockTick + 1 } r' ∧
      Logged (fun x => (x.src = BLOCKED → r.clockTick + 1 ∈ r.s.times x.pid ∧ x.dst = READY) ∧
        x.dst ≠ BLOCKED ∧
        (r.s.ioDoneBehavior = IODoneBehavior.IO_RUN_LATER →
          ¬ (x.src = RUNNING ∧ x.dst = READY))) r r')
    order r hI hperm
    (by
      intro r' p hG hb hm ⟨hC, hlog⟩
      obtain ⟨hC', -, -, -⟩ := handleIODone_good r' p hG hb
      refine ⟨hC.calls_trans hC', hlog.logged_trans ((handleIODone_logged p r').logged_mono ?_)⟩
      intro x ⟨h1, h2, h3⟩
      refine ⟨fun hsrc => ?_, h2, fun hl => h3 (by rw [hC.iod]; exact hl)⟩
      obtain ⟨hp, hd⟩ := h1 hsrc
      refine ⟨?_, hd⟩
      rw [hp]
      have : r'.s.times p = r.s.times p := times_congr hC.times p
      rw [← this, ← (show r'.clockTick = r.clockTick + 1 from hC.clock)]
      exact hm)
    ⟨Calls.calls_refl _, Logged.of_same rfl rfl (fun _ => rfl)⟩
  exact key.2

theorem tick_logged (order : Int → List Nat) (r : RunState) (hI : LoopInv r)
    (hperm : (order (r.clockTick + 1)).Perm (List.range r.s.procInfo.length)) :
    Logged (fun x => (x.src = BLOCKED → r.clockTick + 1 ∈ r.s.times x.pid ∧ x.dst = READY) ∧
        (r.s.ioDoneBehavior = IODoneBehavior.IO_RUN_LATER →
          ¬ (x.src = RUNNING ∧ x.dst = READY)))
      r (tick order r) := by
  refine ((scanned_logged order r hI hperm).logged_mono ?_).logged_trans
    ((postScan_logged order r).logged_mono ?_)
  · intro x hx; exact ⟨hx.1, hx.2.2⟩
  · intro x hx; exact ⟨fun h => absurd h hx.1, fun _ => hx.2⟩

/-! ### I/O issue and completion -/

/-- An entry `(t, p, i)` of the log of executed instructions of the state after tick
`t` was made at tick `t`, by the current process after the completion scan. -/
theorem executed_at (order : Int → List Nat) (s : Scheduler) (hL : 0 ≤ s.ioLength)
    (hne : s.procInfo ≠ []) (hready : ∀ proc ∈ s.procInfo, proc.State = READY)
    (hperm : ∀ t, (order t).Perm (List.range s.procInfo.length)) (t p : Nat) (i : Instr)
    (hrun : LoopRuns order s t)
    (hexec : ((t : Int), (p : Int), i) ∈ (runState order s t).execs) :
    ∃ k, t = k + 1 ∧ (scanned order (runState order s k)).s.cur = p ∧
      (scanned order (runState order s k)).s.st p = RUNNING ∧
      ∃ rest, (runState order s k).s.code p = i :: rest ∧
        (∀ q, (runState order s t).s.code q =
          if q = p then rest else (runState order s k).s.code q) ∧
        (∀ q, (runState order s t).s.times q =
          if i = Instr.io ∧ q = p then
            (runState order s k).s.times q ++ [(t : Int) + s.ioLength + 1]
          else (runState order s k).s.times q) := by
  cases t with
  | zero =>
    have : (runState order s 0).execs = [] := (runInit_data s).2.2.2.1
    rw [this] at hexec; cases hexec
  | succ k =>
    refine ⟨k, rfl, ?_⟩
    have hF := runState_facts order s hL hne hready hperm k (hrun.of_le (by omega))
    obtain ⟨-, -, -, hcase⟩ := tick_detail order (runState order s k) hF.inv hF.perm
    rw [hF.clock, hF.ioLength] at hcase
    have hstep : runState order s (k + 1) = tick order (runState order s k) := rfl
    rw [hstep] at hexec ⊢
    rcases hcase with ⟨-, -, hex, -, -⟩ | ⟨instr, rest, -, hst, hcode, hex, hc, ht⟩
    · rw [hex] at hexec
      have := hF.execs_le _ hexec
      simp only at this
      push_cast at this
      omega
    · rw [hex] at hexec
      rcases List.mem_append.mp hexec with h | h
      · have := hF.execs_le _ h
        simp only at this
        push_cast at this
        omega
      · rw [List.mem_singleton] at h
        simp only [Prod.mk.injEq] at h
        obtain ⟨-, hp, hi⟩ := h
        have hp' : (scanned order (runState order s k)).s.cur = p := by exact_mod_cast hp.symm
        rw [hp'] at hst hcode hc ht
        rw [← hi] at hcode ht
        refine ⟨hp', hst, rest, hcode, hc, ?_⟩
        intro q
        rw [ht q]
        push_cast
        rfl

theorem times_mono_tick (order : Int → List Nat) (s : Scheduler) (k : Nat)
    (hF : RunFacts order s k) (p : Nat) (x : Int) (hx : x ∈ (runState order s k).s.times p) :
    x ∈ (runState order s (k + 1)).s.times p := by
  obtain ⟨-, -, -, hcase⟩ := tick_detail order (runState order s k) hF.inv hF.perm
  show x ∈ (tick order (runState order s k)).s.times p
  rcases hcase with ⟨-, -, -, -, ht⟩ | ⟨instr, rest, -, -, -, -, -, ht⟩
  · rw [ht]; exact hx
  · rw [ht]
    split
    · exact List.mem_append_left _ hx
    · exact hx

theorem active_of_blocked (s : Scheduler) (p : Nat) (h : s.st p = BLOCKED) :
    0 < GetNumActive s :=
  (active_pos_iff s).mpr ⟨p, by rw [h]; decide⟩

/-- While a finish time later than the current tick is recorded for `p`, the loop
keeps running and the time stays recorded. -/
theorem pending_io (order : Int → List Nat) (s : Scheduler) (hL : 0 ≤ s.ioLength)
    (hne : s.procInfo ≠ []) (hready : ∀ proc ∈ s.procInfo, proc.State = READY)
    (hperm : ∀ t, (order t).Perm (List.range s.procInfo.length)) (t p : Nat) (x : Int)
    (hrun : LoopRuns order s t) (hx : x ∈ (runState order s t).s.times p) :
    ∀ d : Nat, (t : Int) + d < x →
      LoopRuns order s (t + d + 1) ∧ x ∈ (runState order s (t + d)).s.times p ∧
        (runState order s (t + d)).s.st p = BLOCKED
  | 0, hd => by
    have hF := runState_facts order s hL hne hready hperm t hrun
    have hb : (runState order s t).s.st p = BLOCKED :=
      blocked_of_time (hF.inv.time p) hx (by rw [hF.clock]; simpa using hd)
    exact ⟨hrun.succ (active_of_blocked _ p hb), hx, hb⟩
  | d + 1, hd => by
    obtain ⟨hrun', hx', -⟩ := pending_io order s hL hne hready hperm t p x hrun hx d
      (by push_cast at hd; omega)
    have hF := runState_facts order s hL hne hready hperm (t + d) (hrun'.of_le (by omega))
    have hF' := runState_facts order s hL hne hready hperm (t + d + 1) hrun'
    have hx'' := times_mono_tick order s (t + d) hF p x hx'
    have hb : (runState order s (t + d + 1)).s.st p = BLOCKED :=
      blocked_of_time (hF'.inv.time p) hx'' (by rw [hF'.clock]; push_cast at hd ⊢; omega)
    exact ⟨hrun'.succ (active_of_blocked _ p hb), hx'', hb⟩

/-- A tick before the recorded finish time of a pending I/O of `p`: `p` is still
BLOCKED after the completion scan and the tick logs no transition of `p` out of
BLOCKED. -/
theorem pending_scan_early (order : Int → List Nat) (s : Scheduler) (j p : Nat) (x : Int)
    (hF : RunFacts order s j) (hx : x ∈ (runState order s j).s.times p)
    (hgt : (j : Int) + 1 < x) :
    (scanned order (runState order s j)).s.st p = BLOCKED ∧
      ∀ y ∈ newTransitions (runState order s j) (runState order s (j + 1)),
        y.pid = p → y.src ≠ BLOCKED := by
  obtain ⟨hC, -, hT, -⟩ := scanned_spec order (runState order s j) hF.inv hF.perm
  constructor
  · have hxs : x ∈ (scanned order (runState order s j)).s.times p := by
      rw [times_congr hC.times p]; exact hx
    exact blocked_of_time (hT p) hxs (by rw [hF.clock]; omega)
  · obtain ⟨-, hq, -⟩ := (tick_logged order (runState order s j) hF.inv hF.perm).new
    intro y hy hpid hsrc
    have h1 := ((hq y hy).1 hsrc).1
    rw [hpid, hF.clock] at h1
    exact not_now_of_later (hF.clock ▸ hF.inv.time p) hx (by omega) h1

/-- The tick at the recorded finish time of a pending I/O of `p`: the completion scan
moves `p` from BLOCKED to READY. -/
theorem pending_scan_due (order : Int → List Nat) (s : Scheduler) (j p : Nat)
    (hF : RunFacts order s j) (hx : (j : Int) + 1 ∈ (runState order s j).s.times p) :
    (runState order s j).s.st p = BLOCKED ∧
      (scanned order (runState order s j)).s.st p ≠ BLOCKED ∧
      ∃ y ∈ newTransitions (runState order s j) (scanned order (runState order s j)),
        y.pid = p ∧ y.src = BLOCKED ∧ y.dst = READY := by
  obtain ⟨hC, -, hT, -⟩ := scanned_spec order (runState order s j) hF.inv hF.perm
  have hTj : TimeOK (j : Int) (runState order s j).s p := hF.clock ▸ hF.inv.time p
  have hb : (runState order s j).s.st p = BLOCKED := blocked_of_time hTj hx (by omega)
  have hnb : (scanned order (runState order s j)).s.st p ≠ BLOCKED := by
    apply not_blocked_of_no_time (hT p)
    rw [times_congr hC.times p, hF.clock]
    exact no_later_time hTj hx
  refine ⟨hb, hnb, ?_⟩
  obtain ⟨-, hq, hc⟩ := (scanned_logged order (runState order s j) hF.inv hF.perm).new
  obtain ⟨y, hy, hpid, hsrc⟩ := hc p (by rw [hb]; exact hnb)
  rw [hb] at hsrc
  exact ⟨y, hy, hpid, hsrc, ((hq y hy).1 hsrc).2⟩

/-- On unbounded integers, for `ioLength ≥ 0` (table freshly loaded, any policies,
any scan order): when process `p` executes an `io` instruction at tick `t`, the finish
time `t + ioLength + 1`, which is later than `t`, is recorded for `p`; the loop runs at
least until tick `t + ioLength + 1`; `p` is BLOCKED at the end of every tick from `t`
to `t + ioLength`, is still BLOCKED after the completion scan of every tick from
`t + 1` to `t + ioLength`, and none of these ticks logs a transition of `p` out of
BLOCKED; the completion scan of tick `t + ioLength + 1` moves `p` from BLOCKED to
READY. -/
theorem io_blocks_ideal (order : Int → List Nat) (s : Scheduler)
    (hL : 0 ≤ s.ioLength) (hne : s.procInfo ≠ [])
    (hready : ∀ proc ∈ s.procInfo, proc.State = READY)
    (hperm : ∀ t, (order t).Perm (List.range s.procInfo.length)) (t p : Nat)
    (hrun : LoopRuns order s t)
    (hexec : ((t : Int), (p : Int), Instr.io) ∈ (runState order s t).execs) :
    (t : Int) + s.ioLength + 1 ∈ (runState order s t).s.times p ∧
      (t : Int) < (t : Int) + s.ioLength + 1 ∧
      LoopRuns order s (t + s.ioLength.toNat + 1) ∧
      (∀ j, t ≤ j → j ≤ t + s.ioLength.toNat → (runState order s j).s.st p = BLOCKED) ∧
      (∀ j, t ≤ j → j < t + s.ioLength.toNat →
        (scanned order (runState order s j)).s.st p = BLOCKED ∧
        ∀ y ∈ newTransitions (runState order s j) (runState order s (j + 1)),
          y.pid = p → y.src ≠ BLOCKED) ∧
      (scanned order (runState order s (t + s.ioLength.toNat))).s.st p ≠ BLOCKED ∧
      ∃ y ∈ newTransitions (runState order s (t + s.ioLength.toNat))
          (scanned order (runState order s (t + s.ioLength.toNat))),
        y.pid = p ∧ y.src = BLOCKED ∧ y.dst = READY := by
  obtain ⟨k, -, -, -, rest, -, -, ht⟩ :=
    executed_at order s hL hne hready hperm t p Instr.io hrun hexec
  have hx : (t : Int) + s.ioLength + 1 ∈ (runState order s t).s.times p := by
    rw [ht p]; simp
  have hLn : ((s.ioLength.toNat : Nat) : Int) = s.ioLength := Int.toNat_of_nonneg hL
  have hpend := pending_io order s hL hne hready hperm t p _ hrun hx
  have hall : ∀ j, t ≤ j → j ≤ t + s.ioLength.toNat →
      LoopRuns order s (j + 1) ∧ (t : Int) + s.ioLength + 1 ∈ (runState order s j).s.times p ∧
        (runState order s j).s.st p = BLOCKED := by
    intro j h1 h2
    obtain ⟨d, rfl⟩ : ∃ d, j = t + d := ⟨j - t, by omega⟩
    exact hpend d (by omega)
  refine ⟨hx, by omega, (hall (t + s.ioLength.toNat) (by omega) (le_refl _)).1,
    fun j h1 h2 => (hall j h1 h2).2.2,
    ?_, ?_⟩
  · intro j h1 h2
    obtain ⟨hr, hxj, -⟩ := hall j h1 (by omega)
    have hF := runState_facts order s hL hne hready hperm j (hr.of_le (by omega))
    exact pending_scan_early order s j p _ hF hxj (by omega)
  · obtain ⟨hr, hxj, -⟩ := hall (t + s.ioLength.toNat) (by omega) (le_refl _)
    have hF := runState_facts order s hL hne hready hperm (t + s.ioLength.toNat)
      (hr.of_le (by omega))
    have hdue := pending_scan_due order s (t + s.ioLength.toNat) p hF
      (by
        have : ((t + s.ioLength.toNat : Nat) : Int) + 1 = (t : Int) + s.ioLength + 1 := by
          push_cast; omega
        rw [this]; exact hxj)
    exact hdue.2

/-! ### The remaining code during a run -/

theorem IoFollowed.followed_tail {a : Instr} {l : List Instr} (h : IoFollowed (a :: l)) : IoFollowed l := by
  intro i hi
  have := h (i + 1) (by simpa using hi)
  simpa using this

theorem IoDonePrecededAfterFront.preceded_tail {a : Instr} {l : List Instr}
    (h : IoDonePrecededAfterFront (a :: l)) : IoDonePrecededAfterFront l := by
  intro i hi
  have := h (i + 1) (by simpa using hi)
  simpa using this

theorem IoDonePreceded.afterFront {l : List Instr} (h : IoDonePreceded l) :
    IoDonePrecededAfterFront l := by
  intro i hi
  obtain ⟨j, hj, hio⟩ := h (i + 1) hi
  have : j = i := by omega
  rw [← this]; exact hio

theorem IoDonePreceded.front {l : List Instr} (h : IoDonePreceded l) :
    l[0]? ≠ some Instr.io_done := by
  intro h0
  obtain ⟨j, hj, -⟩ := h 0 h0
  omega

theorem code_of_table (P : List Instr → Prop) (s : Scheduler) (hnil : P [])
    (h : ∀ proc ∈ s.procInfo, P proc.Code) (p : Nat) : P (s.code p) := by
  unfold Scheduler.code
  cases hp : s.procInfo[p]? with
  | none => exact hnil
  | some proc => exact h proc (List.getElem?_mem hp)

/-- A property of instruction sequences that is kept when the front instruction is
removed holds for every remaining `Code` throughout a run if it holds for every
loaded `Code`. -/
theorem runState_code (P : List Instr → Prop) (hnil : P [])
    (htail : ∀ a l, P (a :: l) → P l)
    (order : Int → List Nat) (s : Scheduler) (hL : 0 ≤ s.ioLength)
    (hne : s.procInfo ≠ []) (hready : ∀ proc ∈ s.procInfo, proc.State = READY)
    (hperm : ∀ t, (order t).Perm (List.range s.procInfo.length))
    (hcode : ∀ proc ∈ s.procInfo, P proc.Code) :
    ∀ k, LoopRuns order s k → ∀ p, P ((runState order s k).s.code p)
  | 0, _, p => by
    show P ((runInit s).s.code p)
    rw [(runInit_data s).2.2.2.2.1 p]
    exact code_of_table P s hnil hcode p
  | k + 1, hrun, p => by
    have ih := runState_code P hnil htail order s hL hne hready hperm hcode k
      (hrun.of_le (by omega))
    have hF := runState_facts order s hL hne hready hperm k (hrun.of_le (by omega))
    obtain ⟨-, -, -, hcase⟩ := tick_detail order (runState order s k) hF.inv hF.perm
    show P ((tick order (runState order s k)).s.code p)
    rcases hcase with ⟨-, -, -, hc, -⟩ | ⟨instr, rest, -, -, hcur, -, hc, -⟩
    · rw [hc]; exact ih p
    · rw [hc]
      split
      · have := ih (scanned order (runState order s k)).s.cur
        rw [hcur] at this
        exact htail _ _ this
      · exact ih p

/-- When every loaded `Code` has each `io` followed by `io_done`, the `Code` of a
BLOCKED process starts with `io_done`. -/
theorem runState_blocked_front (order : Int → List Nat) (s : Scheduler) (hL : 0 ≤ s.ioLength)
    (hne : s.procInfo ≠ []) (hready : ∀ proc ∈ s.procInfo, proc.State = READY)
    (hperm : ∀ t, (order t).Perm (List.range s.procInfo.length))
    (hcode : ∀ proc ∈ s.procInfo, IoFollowed proc.Code) :
    ∀ k, LoopRuns order s k → ∀ p, (runState order s k).s.st p = BLOCKED →
      ((runState order s k).s.code p)[0]? = some Instr.io_done
  | 0, hrun, p => by
    intro hb
    have hF := runState_facts order s hL hne hready hperm 0 hrun
    exfalso
    refine not_blocked_of_no_time (hF.inv.time p) ?_ hb
    intro x hx
    have : (runState order s 0).s.times p = [] := (runInit_data s).2.2.1 p
    rw [this] at hx; cases hx
  | k + 1, hrun, p => by
    intro hb
    have ih := runState_blocked_front order s hL hne hready hperm hcode k
      (hrun.of_le (by omega))
    have hfol := runState_code IoFollowed (fun i hi => by simp at hi)
      (fun a l h => h.followed_tail) order s hL hne hready hperm hcode k (hrun.of_le (by omega))
    have hF := runState_facts order s hL hne hready hperm k (hrun.of_le (by omega))
    have hF' := runState_facts order s hL hne hready hperm (k + 1) hrun
    obtain ⟨-, -, -, hcase⟩ := tick_detail order (runState order s k) hF.inv hF.perm
    obtain ⟨hC, -, hT1, -⟩ := scanned_spec order (runState order s k) hF.inv hF.perm
    obtain ⟨x, hx, hgt⟩ := exists_time_of_blocked (hF'.inv.time p) hb
    rw [hF'.clock] at hgt
    have hold : x ∈ (runState order s k).s.times p →
        (runState order s k).s.st p = BLOCKED ∧
          (scanned order (runState order s k)).s.st p = BLOCKED := by
      intro hxo
      refine ⟨blocked_of_time (hF.inv.time p) hxo (by rw [hF.clock]; push_cast at hgt; omega),
        blocked_of_time (hT1 p) (by rw [times_congr hC.times p]; exact hxo)
          (by rw [hF.clock]; push_cast at hgt; omega)⟩
    have hstep : runState order s (k + 1) = tick order (runState order s k) := rfl
    rw [hstep] at hx ⊢
    rcases hcase with ⟨-, -, -, hc, ht⟩ | ⟨instr, rest, -, hrunning, hcur, -, hc, ht⟩
    · rw [ht] at hx
      rw [hc]; exact ih p (hold hx).1
    · rw [ht] at hx
      rw [hc]
      by_cases hcond : instr = Instr.io ∧ p = (scanned order (runState order s k)).s.cur
      · rw [if_pos hcond.2]
        have := hfol (scanned order (runState order s k)).s.cur
        rw [hcur, hcond.1] at this
        simpa using this 0 (by simp)
      · rw [if_neg hcond] at hx
        obtain ⟨hb0, hb1⟩ := hold hx
        have hne' : p ≠ (scanned order (runState order s k)).s.cur := by
          intro h
          rw [h, hrunning] at hb1; cases hb1
        rw [if_neg hne']
        exact ih p hb0

/-! ### The two I/O-done policies, explicitly -/

theorem ioRunImmediate_s (pid : Int) (r : RunState) :
    (ioRunImmediate pid r).s =
      (NextProc (if r.s.currProc ≠ pid ∧ r.s.currIsRunning = true then
          (MoveToReady r.s RUNNING r.s.currProc).1 else r.s) pid).1 := by
  unfold ioRunImmediate
  split <;> rfl

theorem ioRunLater_s (pid : Int) (r : RunState)
    (h1 : ¬ (r.s.processSwitchBehavior = SwitchBehavior.SWITCH_ON_END ∧ GetNumRunnable r.s > 1))
    (h2 : GetNumRunnable r.s ≠ 1) : ioRunLater pid r = r := by
  unfold ioRunLater
  simp only [h1, if_false, h2]

theorem handleIODone_s (pid : Int) (r : RunState) :
    (handleIODone pid r).s =
      (CheckIfDone
        (if (MoveToReady r.s BLOCKED pid).1.ioDoneBehavior = IODoneBehavior.IO_RUN_IMMEDIATE then
          ioRunImmediate pid (r.call (fun s => MoveToReady s BLOCKED pid))
        else ioRunLater pid (r.call (fun s => MoveToReady s BLOCKED pid))).s).1 := rfl

/-- Under `IO_RUN_IMMEDIATE`, handling the I/O completion of a BLOCKED process `p`
that has instructions left makes `p` the current process and RUNNING, and demotes
the process that was RUNNING to READY. -/
theorem handleIODone_immediate (r : RunState) (p : Nat) (hG : Good r.s)
    (hb : r.s.st p = BLOCKED)
    (himm : r.s.ioDoneBehavior = IODoneBehavior.IO_RUN_IMMEDIATE)
    (hcode : r.s.code p ≠ []) :
    (handleIODone (p : Int) r).s.currProc = (p : Int) ∧
      (handleIODone (p : Int) r).s.st p = RUNNING ∧
      ∀ q, q ≠ p → r.s.st q = RUNNING → (handleIODone (p : Int) r).s.st q = READY := by
  have hplt : p < r.s.procInfo.length := lt_of_st_ne_done r.s (by rw [hb]; decide)
  have hop1 : MoveToReady r.s BLOCKED (p : Int) = (r.s.setState (p : Int) READY, none) :=
    MoveToReady_eq r.s p BLOCKED hb (by decide)
  obtain ⟨s1, hs1⟩ : ∃ s1 : Scheduler, s1 = r.s.setState (p : Int) READY := ⟨_, rfl⟩
  have hst1 : ∀ q, s1.st q = if q = p then READY else r.s.st q := by
    intro q; rw [hs1, setState_st]; simp [hplt]
  have hcur1 : s1.currProc = (r.s.cur : Int) := by
    rw [hs1, setState_currProc]; exact hG.currProc_eq
  have hlen1 : s1.procInfo.length = r.s.procInfo.length := by rw [hs1]; simp
  -- the demotion
  obtain ⟨s2, hs2⟩ : ∃ s2 : Scheduler, s2 =
    (if s1.currProc ≠ (p : Int) ∧ s1.currIsRunning = true then
      (MoveToReady s1 RUNNING s1.currProc).1 else s1) := ⟨_, rfl⟩
  have hs2' : (s2 = s1 ∧ ¬ (r.s.cur ≠ p ∧ r.s.st r.s.cur = RUNNING)) ∨
      (s2 = s1.setState (r.s.cur : Int) READY ∧ r.s.cur ≠ p ∧ r.s.st r.s.cur = RUNNING) := by
    by_cases hcond : s1.currProc ≠ (p : Int) ∧ s1.currIsRunning = true
    · right
      have hcp : r.s.cur ≠ p := by
        intro h; apply hcond.1; rw [hcur1, h]
      have hrun1 : s1.st r.s.cur = RUNNING := (currIsRunning_iff s1 r.s.cur hcur1).mp hcond.2
      have hrun0 : r.s.st r.s.cur = RUNNING := by
        rw [hst1, if_neg hcp] at hrun1; exact hrun1
      refine ⟨?_, hcp, hrun0⟩
      rw [hs2, if_pos hcond, hcur1, MoveToReady_eq s1 r.s.cur RUNNING hrun1 (by decide)]
    · left
      refine ⟨by rw [hs2, if_neg hcond], ?_⟩
      intro ⟨hcp, hrun0⟩
      apply hcond
      refine ⟨?_, (currIsRunning_iff s1 r.s.cur hcur1).mpr ?_⟩
      · rw [hcur1]; exact_mod_cast hcp
      · rw [hst1, if_neg hcp]; exact hrun0
  have hst2 : ∀ q, s2.st q = if q = p then READY
      else if q = r.s.cur ∧ r.s.st r.s.cur = RUNNING then READY else r.s.st q := by
    intro q
    rcases hs2' with ⟨h, hn⟩ | ⟨h, hcp, hrun0⟩
    · rw [h, hst1]
      by_cases hqp : q = p
      · simp [hqp]
      · simp only [hqp, if_false]
        by_cases hq : q = r.s.cur ∧ r.s.st r.s.cur = RUNNING
        · exfalso; exact hn ⟨hq.1 ▸ hqp, hq.2⟩
        · rw [if_neg hq]
    · rw [h, setState_st, hst1, hlen1]
      by_cases hqp : q = p
      · have : ¬ (q = r.s.cur) := fun h' => hcp (h'.symm.trans hqp)
        simp [hqp, this]
      · simp only [hqp, if_false]
        by_cases hq : q = r.s.cur
        · simp [hq, hG.cur_lt, hrun0]
        · simp [hq]
  have hlen2 : s2.procInfo.length = r.s.procInfo.length := by
    rcases hs2' with ⟨h, -⟩ | ⟨h, -, -⟩ <;> rw [h] <;> simp [hlen1]
  have hcode2 : s2.code p = r.s.code p := by
    rcases hs2' with ⟨h, -⟩ | ⟨h, -, -⟩ <;> rw [h, hs1] <;> simp
  -- the forced selection
  have hp2 : s2.st p = READY := by rw [hst2]; simp
  have hnext := NextProc_pid_eq s2 p hp2
  obtain ⟨s3, hs3⟩ : ∃ s3 : Scheduler, s3 =
    Scheduler.setState { s2 with currProc := (p : Int) } (p : Int) RUNNING := ⟨_, rfl⟩
  have hcur3 : s3.currProc = (p : Int) := by rw [hs3, setState_currProc]
  have hlen3 : s3.procInfo.length = r.s.procInfo.length := by rw [hs3]; simpa using hlen2
  have hst3 : ∀ q, s3.st q = if q = p then RUNNING else s2.st q := by
    intro q
    rw [hs3, setState_st]
    have : p < ({ s2 with currProc := (p : Int) } : Scheduler).procInfo.length := by
      show p < s2.procInfo.length
      rw [hlen2]; exact hplt
    simp [this]
  have hcode3 : s3.code p = r.s.code p := by rw [hs3]; simpa using hcode2
  have hcheck : CheckIfDone s3 = (s3, none) := by
    rw [CheckIfDone_eq s3 p hcur3 (by rw [hlen3]; exact hplt)]
    rw [if_neg]
    rw [hcode3]
    exact fun h => hcode h.1
  have hres : (handleIODone (p : Int) r).s = s3 := by
    rw [handleIODone_s, hop1]
    simp only [setState_iod, himm, if_true]
    rw [ioRunImmediate_s]
    simp only [call_s, hop1]
    rw [← hs1, ← hs2, hnext, ← hs3, hcheck]
  rw [hres]
  refine ⟨hcur3, by rw [hst3]; simp, ?_⟩
  intro q hqp hq
  have hqc : q = r.s.cur := hG.running q hq
  rw [hst3, if_neg hqp, hst2, if_neg hqp, if_pos ⟨hqc, hqc ▸ hq⟩]

/-- Under `IO_RUN_LATER`, handling the I/O completion of a BLOCKED process leaves a
current process that is RUNNING and has instructions left current and RUNNING. -/
theorem handleIODone_later (r : RunState) (p : Nat) (hG : Good r.s)
    (hb : r.s.st p = BLOCKED)
    (hlater : r.s.ioDoneBehavior = IODoneBehavior.IO_RUN_LATER)
    (hrun : r.s.st r.s.cur = RUNNING) (hcode : r.s.code r.s.cur ≠ []) :
    (handleIODone (p : Int) r).s = r.s.setState (p : Int) READY := by
  have hplt : p < r.s.procInfo.length := lt_of_st_ne_done r.s (by rw [hb]; decide)
  have hpc : p ≠ r.s.cur := by
    intro h; rw [h, hrun] at hb; cases hb
  have hop1 : MoveToReady r.s BLOCKED (p : Int) = (r.s.setState (p : Int) READY, none) :=
    MoveToReady_eq r.s p BLOCKED hb (by decide)
  obtain ⟨s1, hs1⟩ : ∃ s1 : Scheduler, s1 = r.s.setState (p : Int) READY := ⟨_, rfl⟩
  have hst1 : ∀ q, s1.st q = if q = p then READY else r.s.st q := by
    intro q; rw [hs1, setState_st]; simp [hplt]
  have hcur1 : s1.currProc = (r.s.cur : Int) := by
    rw [hs1, setState_currProc]; exact hG.currProc_eq
  have hlen1 : s1.procInfo.length = r.s.procInfo.length := by rw [hs1]; simp
  have hsw : r.s.processSwitchBehavior ≠ SwitchBehavior.SWITCH_ON_END := by
    intro h
    exact hpc (hG.blocked h p hb)
  have hnum : GetNumRunnable s1 ≠ 1 := by
    intro h
    have := runnable_unique s1 (le_of_eq h) (p := p) (q := r.s.cur)
      (Or.inl (by rw [hst1]; simp)) (Or.inr (by rw [hst1, if_neg (Ne.symm hpc)]; exact hrun))
    exact hpc this
  have hcheck : CheckIfDone s1 = (s1, none) := by
    rw [CheckIfDone_eq s1 r.s.cur hcur1 (by rw [hlen1]; exact hG.cur_lt)]
    rw [if_neg]
    intro h
    apply hcode
    have : s1.code r.s.cur = r.s.code r.s.cur := by rw [hs1]; simp
    rw [← this]; exact h.1
  rw [handleIODone_s, hop1]
  have hne : ¬ (r.s.setState (p : Int) READY).ioDoneBehavior = IODoneBehavior.IO_RUN_IMMEDIATE := by
    rw [setState_iod, hlater]; decide
  simp only [hne, if_false]
  rw [ioRunLater_s]
  · simp only [call_s, hop1]
    rw [← hs1, hcheck]
  · simp only [call_s, hop1, setState_sw]
    exact fun h => hsw h.1
  · simp only [call_s, hop1]
    rw [← hs1]; exact hnum

/-! ### I/O completion under the two policies -/

/-- When a recorded finish time of `p` is the next tick, the completion scan of that
tick handles exactly the completion of `p`. -/
theorem scanned_eq_handle (order : Int → List Nat) (s : Scheduler) (k p : Nat)
    (hF : RunFacts order s k) (hdue : (k : Int) + 1 ∈ (runState order s k).s.times p) :
    scanned order (runState order s k) =
      handleIODone (p : Int)
        { runState order s k with clockTick := (runState order s k).clockTick + 1 } := by
  obtain ⟨r0, hr0⟩ : ∃ r0 : RunState, r0 =
    { runState order s k with clockTick := (runState order s k).clockTick + 1 } := ⟨_, rfl⟩
  have hs0 : r0.s = (runState order s k).s := by rw [hr0]
  have hc0 : r0.clockTick = (k : Int) + 1 := by rw [hr0]; simp [hF.clock]
  obtain ⟨hb, hnb, -⟩ := pending_scan_due order s k p hF hdue
  have hG0 : Good r0.s := hs0 ▸ hF.inv.good
  obtain ⟨hCp, -, hnbp, -⟩ := handleIODone_good r0 p hG0 (hs0 ▸ hb)
  have key := scanned_induct (fun r' => r' = r0 ∨ r' = handleIODone (p : Int) r0)
    order (runState order s k) hF.inv hF.perm
    (by
      intro r' q hG hbq hm hP
      have hdata : r'.s.ioFinishTimes = (runState order s k).s.ioFinishTimes ∧
          r'.clockTick = (k : Int) + 1 := by
        rcases hP with h | h
        · rw [h]; exact ⟨by rw [hs0], hc0⟩
        · rw [h]; exact ⟨hCp.times.trans (by rw [hs0]), hCp.clock.trans hc0⟩
      rw [hdata.2, times_congr hdata.1 q] at hm
      have hqp : p = q := hF.times_inj p q _ hdue hm
      subst hqp
      rcases hP with h | h
      · right; rw [h]
      · rw [h] at hbq; exact absurd hbq hnbp)
    (Or.inl hr0.symm)
  rw [← hr0]
  rcases key with h | h
  · exfalso
    rw [h, hs0] at hnb
    exact hnb hb
  · exact h

/-- C14. Under `IO_RUN_IMMEDIATE`, with either switch policy, `ioLength ≥ 0` and any
scan order (table freshly loaded, every `io` of a loaded `Code` followed by
`io_done`): when a finish time recorded for `p` is tick `k + 1`, the loop runs that
tick and its completion scan force-selects `p`: after the scan `p` is the current
process and RUNNING, no other process is RUNNING, a process that was RUNNING has
been demoted to READY, and the instruction executed at tick `k + 1` is the `io_done`
of `p`. -/
theorem io_run_immediate_selects (order : Int → List Nat) (s : Scheduler)
    (hL : 0 ≤ s.ioLength) (hne : s.procInfo ≠ [])
    (hready : ∀ proc ∈ s.procInfo, proc.State = READY)
    (hperm : ∀ t, (order t).Perm (List.range s.procInfo.length))
    (himm : s.ioDoneBehavior = IODoneBehavior.IO_RUN_IMMEDIATE)
    (hcode : ∀ proc ∈ s.procInfo, IoFollowed proc.Code) (k p : Nat)
    (hrun : LoopRuns order s k)
    (hdue : (k : Int) + 1 ∈ (runState order s k).s.times p) :
    LoopRuns order s (k + 1) ∧
      (scanned order (runState order s k)).s.currProc = (p : Int) ∧
      (scanned order (runState order s k)).s.st p = RUNNING ∧
      (∀ q, q ≠ p → (scanned order (runState order s k)).s.st q ≠ RUNNING) ∧
      (∀ q, q ≠ p → (runState order s k).s.st q = RUNNING →
        (scanned order (runState order s k)).s.st q = READY) ∧
      (((k + 1 : Nat) : Int), (p : Int), Instr.io_done) ∈ (runState order s (k + 1)).execs := by
  have hF := runState_facts order s hL hne hready hperm k hrun
  obtain ⟨hb, -, -⟩ := pending_scan_due order s k p hF hdue
  have hfront := runState_blocked_front order s hL hne hready hperm hcode k hrun p hb
  have hcne : (runState order s k).s.code p ≠ [] := by
    intro h; rw [h] at hfront; cases hfront
  have heq := scanned_eq_handle order s k p hF hdue
  obtain ⟨h1, h2, h3⟩ := handleIODone_immediate
    { runState order s k with clockTick := (runState order s k).clockTick + 1 } p
    hF.inv.good hb (hF.iod.trans himm) hcne
  rw [← heq] at h1 h2 h3
  obtain ⟨-, hG1, -, -⟩ := scanned_spec order (runState order s k) hF.inv hF.perm
  have hcur : (scanned order (runState order s k)).s.cur = p := by
    unfold Scheduler.cur; rw [h1]; simp
  refine ⟨hrun.succ (active_of_blocked _ p hb), h1, h2, ?_, h3, ?_⟩
  · intro q hqp hq
    exact hqp ((hG1.running q hq).trans hcur)
  · obtain ⟨-, -, -, hcase⟩ := tick_detail order (runState order s k) hF.inv hF.perm
    show _ ∈ (tick order (runState order s k)).execs
    rw [hcur] at hcase
    rcases hcase with ⟨-, hneg, -, -, -⟩ | ⟨instr, rest, -, -, hc, hex, -, -⟩
    · exact absurd ⟨h2, hcne⟩ hneg
    · rw [hex, hF.clock]
      rw [hc] at hfront
      simp only [List.getElem?_cons_zero, Option.some.injEq] at hfront
      rw [hfront]
      apply List.mem_append_right
      rw [List.mem_singleton]
      push_cast
      rfl

theorem transitions_later (order : Int → List Nat) (s : Scheduler) (hL : 0 ≤ s.ioLength)
    (hne : s.procInfo ≠ []) (hready : ∀ proc ∈ s.procInfo, proc.State = READY)
    (hperm : ∀ t, (order t).Perm (List.range s.procInfo.length))
    (hlater : s.ioDoneBehavior = IODoneBehavior.IO_RUN_LATER) :
    ∀ k, LoopRuns order s k → ∀ x ∈ (runState order s k).transitions,
      ¬ (x.src = RUNNING ∧ x.dst = READY)
  | 0, _, x, hx => by
    have := (runInit_data s).2.2.2.2.2 x hx
    intro h
    rw [this.1] at h; cases h.1
  | k + 1, hrun, x, hx => by
    have hF := runState_facts order s hL hne hready hperm k (hrun.of_le (by omega))
    obtain ⟨ht, hq, -⟩ := (tick_logged order (runState order s k) hF.inv hF.perm).new
    have hx' : x ∈ (tick order (runState order s k)).transitions := hx
    rw [ht] at hx'
    rcases List.mem_append.mp hx' with h | h
    · exact transitions_later order s hL hne hready hperm hlater k (hrun.of_le (by omega)) x h
    · exact (hq x h).2 (hF.iod.trans hlater)

/-- Under `IO_RUN_LATER`, the completion scan leaves a RUNNING process that has
instructions left current and RUNNING. -/
theorem scanned_later (order : Int → List Nat) (s : Scheduler) (k q : Nat)
    (hF : RunFacts order s k) (hlater : s.ioDoneBehavior = IODoneBehavior.IO_RUN_LATER)
    (hq : (runState order s k).s.st q = RUNNING) (hcode : (runState order s k).s.code q ≠ []) :
    (scanned order (runState order s k)).s.currProc = (q : Int) ∧
      (scanned order (runState order s k)).s.st q = RUNNING := by
  have hqc : q = (runState order s k).s.cur := hF.inv.good.running q hq
  have key := scanned_induct
    (fun r' => Calls { runState order s k with
        clockTick := (runState order s k).clockTick + 1 } r' ∧
      r'.s.currProc = (q : Int) ∧ r'.s.st q = RUNNING)
    order (runState order s k) hF.inv hF.perm
    (by
      intro r' p hG hb _ ⟨hC, hcp, hst⟩
      obtain ⟨hC', -, -, -⟩ := handleIODone_good r' p hG hb
      have hcur : r'.s.cur = q := by unfold Scheduler.cur; rw [hcp]; simp
      have hres := handleIODone_later r' p hG hb
        ((hC.iod.trans hF.iod).trans hlater) (by rw [hcur]; exact hst)
        (by rw [hcur, hC.code]; exact hcode)
      refine ⟨hC.calls_trans hC', ?_, ?_⟩
      · rw [hres, setState_currProc]; exact hcp
      · rw [hres, setState_st]
        have hqp : q ≠ p := by
          intro h; rw [h, hb] at hst; cases hst
        simp [hqp, hst])
    ⟨Calls.calls_refl _, by
      show (runState order s k).s.currProc = (q : Int)
      rw [hF.inv.good.currProc_eq, ← hqc], hq⟩
  exact key.2

/-- C15. Under `IO_RUN_LATER`, with either switch policy, `ioLength ≥ 0` and any scan
order (table freshly loaded), an I/O completion never preempts: no transition from
RUNNING to READY is ever logged, during the run or in the state `Run` returns; and
whatever I/O completes at tick `k + 1`, a process that is RUNNING with a non-empty
`Code` at the start of that tick is still the current process and RUNNING after the
completion scan, and the instruction executed at tick `k + 1` is the first
instruction of its `Code`. -/
theorem io_run_later_no_preemption (order : Int → List Nat) (s : Scheduler)
    (hL : 0 ≤ s.ioLength) (hne : s.procInfo ≠ [])
    (hready : ∀ proc ∈ s.procInfo, proc.State = READY)
    (hperm : ∀ t, (order t).Perm (List.range s.procInfo.length))
    (hlater : s.ioDoneBehavior = IODoneBehavior.IO_RUN_LATER) :
    (∀ k, LoopRuns order s k → ∀ x ∈ (runState order s k).transitions,
        ¬ (x.src = RUNNING ∧ x.dst = READY)) ∧
      (∀ fuel r, Run order fuel s = some r →
        ∀ x ∈ r.transitions, ¬ (x.src = RUNNING ∧ x.dst = READY)) ∧
      ∀ k q, LoopRuns order s k → (runState order s k).s.st q = RUNNING →
        (runState order s k).s.code q ≠ [] →
          LoopRuns order s (k + 1) ∧
          (scanned order (runState order s k)).s.currProc = (q : Int) ∧
          (scanned order (runState order s k)).s.st q = RUNNING ∧
          ∃ instr rest, (runState order s k).s.code q = instr :: rest ∧
            (((k + 1 : Nat) : Int), (q : Int), instr) ∈ (runState order s (k + 1)).execs ∧
            (runState order s (k + 1)).s.code q = rest := by
  have h1 := transitions_later order s hL hne hready hperm hlater
  refine ⟨h1, ?_, ?_⟩
  · intro fuel r hr
    obtain ⟨k, -, hrk, hk, -⟩ := Run_eq_runState order fuel s r hne hr
    rw [hrk]; exact h1 k hk
  · intro k q hrun hq hcode
    have hF := runState_facts order s hL hne hready hperm k hrun
    obtain ⟨hcp, hst⟩ := scanned_later order s k q hF hlater hq hcode
    have hcur : (scanned order (runState order s k)).s.cur = q := by
      unfold Scheduler.cur; rw [hcp]; simp
    have hact : 0 < GetNumActive (runState order s k).s :=
      (active_pos_iff _).mpr ⟨q, by rw [hq]; decide⟩
    refine ⟨hrun.succ hact, hcp, hst, ?_⟩
    obtain ⟨-, -, -, hcase⟩ := tick_detail order (runState order s k) hF.inv hF.perm
    rw [hcur] at hcase
    rcases hcase with ⟨-, hneg, -, -, -⟩ | ⟨instr, rest, -, -, hc, hex, hcd, -⟩
    · exact absurd ⟨hst, hcode⟩ hneg
    · refine ⟨instr, rest, hc, ?_, ?_⟩
      · show _ ∈ (tick order (runState order s k)).execs
        rw [hex, hF.clock]
        apply List.mem_append_right
        rw [List.mem_singleton]
        push_cast
        rfl
      · show (tick order (runState order s k)).s.code q = rest
        rw [hcd]; simp

theorem io_run_later_no_preemption_witness :
    (∀ k, LoopRuns (fun _ => [0, 1]) scenario k →
        ∀ x ∈ (runState (fun _ => [0, 1]) scenario k).transitions,
          ¬ (x.src = RUNNING ∧ x.dst = READY)) ∧
      (∀ fuel r, Run (fun _ => [0, 1]) fuel scenario = some r →
        ∀ x ∈ r.transitions, ¬ (x.src = RUNNING ∧ x.dst = READY)) ∧
      ∀ k q, LoopRuns (fun _ => [0, 1]) scenario k →
        (runState (fun _ => [0, 1]) scenario k).s.st q = RUNNING →
        (runState (fun _ => [0, 1]) scenario k).s.code q ≠ [] →
          LoopRuns (fun _ => [0, 1]) scenario (k + 1) ∧
          (scanned (fun _ => [0, 1]) (runState (fun _ => [0, 1]) scenario k)).s.currProc =
            (q : Int) ∧
          (scanned (fun _ => [0, 1]) (runState (fun _ => [0, 1]) scenario k)).s.st q = RUNNING ∧
          ∃ instr rest, (runState (fun _ => [0, 1]) scenario k).s.code q = instr :: rest ∧
            (((k + 1 : Nat) : Int), (q : Int), instr) ∈
              (runState (fun _ => [0, 1]) scenario (k + 1)).execs ∧
            (runState (fun _ => [0, 1]) scenario (k + 1)).s.code q = rest :=
  io_run_later_no_preemption (fun _ => [0, 1]) scenario (by decide) (by decide) (by decide)
    (fun _ => List.Perm.refl _) rfl

/-! ### The pairing of `io` and `io_done` -/

theorem paired_nil : IoFollowed [] ∧ IoDonePreceded [] :=
  ⟨fun i hi => by simp at hi, fun i hi => by simp at hi⟩

theorem paired_cpu {l : List Instr} (h : IoFollowed l ∧ IoDonePreceded l) :
    IoFollowed (Instr.cpu :: l) ∧ IoDonePreceded (Instr.cpu :: l) := by
  constructor
  · intro i hi
    cases i with
    | zero => simp at hi
    | succ i =>
      have := h.1 i (by simpa using hi)
      simpa using this
  · intro i hi
    cases i with
    | zero => simp at hi
    | succ i =>
      obtain ⟨j, hj, hio⟩ := h.2 i (by simpa using hi)
      exact ⟨j + 1, by omega, by simpa using hio⟩

theorem paired_io {l : List Instr} (h : IoFollowed l ∧ IoDonePreceded l) :
    IoFollowed (Instr.io :: Instr.io_done :: l) ∧
      IoDonePreceded (Instr.io :: Instr.io_done :: l) := by
  constructor
  · intro i hi
    match i, hi with
    | 0, _ => simp
    | 1, hi => simp at hi
    | i + 2, hi =>
      have := h.1 i (by simpa using hi)
      simpa using this
  · intro i hi
    match i, hi with
    | 0, hi => simp at hi
    | 1, _ => exact ⟨0, rfl, rfl⟩
    | i + 2, hi =>
      obtain ⟨j, hj, hio⟩ := h.2 i (by simpa using hi)
      exact ⟨j + 2, by omega, by simpa using hio⟩

theorem paired_replicate_cpu (n : Nat) {l : List Instr} (h : IoFollowed l ∧ IoDonePreceded l) :
    IoFollowed (List.replicate n Instr.cpu ++ l) ∧
      IoDonePreceded (List.replicate n Instr.cpu ++ l) := by
  induction n with
  | zero => simpa using h
  | succ n ih =>
    rw [List.replicate_succ, List.cons_append]
    exact paired_cpu ih

theorem tokensCode_paired : ∀ tokens : List (List Char),
    IoFollowed (tokensCode tokens).1 ∧ IoDonePreceded (tokensCode tokens).1
  | [] => paired_nil
  | instr :: rest => by
    have ih := tokensCode_paired rest
    unfold tokensCode
    split
    · exact ih
    · split
      · split
        · exact paired_nil
        · exact paired_replicate_cpu _ ih
      · split
        · exact paired_io ih
        · exact paired_nil

theorem drawsCode_paired (chanceCPU : GoFloat) (draws : Nat → ℚ) : ∀ k i : Nat,
    IoFollowed (drawsCode chanceCPU draws k i) ∧ IoDonePreceded (drawsCode chanceCPU draws k i)
  | 0, _ => paired_nil
  | k + 1, i => by
    have ih := drawsCode_paired chanceCPU draws k (i + 1)
    unfold drawsCode
    split
    · exact paired_cpu ih
    · exact paired_io ih

theorem Load_code (parseFloat : List Char → Option GoFloat) (draws : Nat → ℚ) (s : Scheduler)
    (programDescription : List Char) :
    ∃ code, (Load parseFloat draws s programDescription).1 = s.withNewProcess code ∧
      IoFollowed code ∧ IoDonePreceded code := by
  unfold Load
  rw [NewProcess_eq]
  simp only
  split
  · rename_i f0 f1 _
    cases Atoi f0 with
    | none => exact ⟨[], rfl, paired_nil⟩
    | some n =>
      cases parseFloat f1 with
      | none => exact ⟨[], rfl, paired_nil⟩
      | some c =>
        simp only
        rw [Load_loop_eq]
        exact ⟨_, rfl, by simpa using drawsCode_paired _ draws _ _⟩
  · exact ⟨[], rfl, paired_nil⟩

theorem paired_withNewProcess (s : Scheduler) (code : List Instr)
    (hs : ∀ proc ∈ s.procInfo, IoFollowed proc.Code ∧ IoDonePreceded proc.Code)
    (hc : IoFollowed code ∧ IoDonePreceded code) :
    ∀ proc ∈ (s.withNewProcess code).procInfo, IoFollowed proc.Code ∧ IoDonePreceded proc.Code := by
  intro proc hp
  simp only [Scheduler.withNewProcess, List.mem_append, List.mem_singleton] at hp
  rcases hp with h | h
  · exact hs proc h
  · rw [h]; exact hc

/-- Every `Code` of a table built by `LoadProgram` on a table with paired codes is
paired. -/
theorem LoadProgram_paired (s : Scheduler) (program : List Char)
    (hs : ∀ proc ∈ s.procInfo, IoFollowed proc.Code ∧ IoDonePreceded proc.Code) :
    ∀ proc ∈ (LoadProgram s program).1.procInfo,
      IoFollowed proc.Code ∧ IoDonePreceded proc.Code := by
  rw [LoadProgram_eq]
  exact paired_withNewProcess s _ hs (tokensCode_paired _)

theorem runState_front (order : Int → List Nat) (s : Scheduler) (hL : 0 ≤ s.ioLength)
    (hne : s.procInfo ≠ []) (hready : ∀ proc ∈ s.procInfo, proc.State = READY)
    (hperm : ∀ t, (order t).Perm (List.range s.procInfo.length))
    (hcode : ∀ proc ∈ s.procInfo, IoDonePreceded proc.Code) :
    ∀ k, LoopRuns order s k → ∀ p,
      ((runState order s k).s.code p)[0]? = some Instr.io_done →
        ∃ t : Int, (t, (p : Int), Instr.io) ∈ (runState order s k).execs
  | 0, _, p => by
    intro h
    have hc : (runState order s 0).s.code p = s.code p := (runInit_data s).2.2.2.2.1 p
    rw [hc] at h
    exact absurd h (code_of_table (fun l => l[0]? ≠ some Instr.io_done) s (by simp)
      (fun proc hp => (hcode proc hp).front) p)
  | k + 1, hrun, p => by
    intro h
    have ih := runState_front order s hL hne hready hperm hcode k (hrun.of_le (by omega))
    have hpre := runState_code IoDonePrecededAfterFront (fun i hi => by simp at hi)
      (fun a l h => h.preceded_tail) order s hL hne hready hperm
      (fun proc hp => (hcode proc hp).afterFront) k (hrun.of_le (by omega))
    have hF := runState_facts order s hL hne hready hperm k (hrun.of_le (by omega))
    obtain ⟨-, -, -, hcase⟩ := tick_detail order (runState order s k) hF.inv hF.perm
    have hstep : runState order s (k + 1) = tick order (runState order s k) := rfl
    rw [hstep] at h ⊢
    rcases hcase with ⟨-, -, hex, hc, -⟩ | ⟨instr, rest, -, -, hcur, hex, hc, -⟩
    · rw [hc] at h
      rw [hex]; exact ih p h
    · rw [hc] at h
      rw [hex]
      by_cases hp : p = (scanned order (runState order s k)).s.cur
      · rw [if_pos hp] at h
        have h2 := hpre (scanned order (runState order s k)).s.cur
        rw [hcur] at h2
        have h3 := h2 0 (by simpa using h)
        simp only [List.getElem?_cons_zero, Option.some.injEq] at h3
        refine ⟨(runState order s k).clockTick + 1, List.mem_append_right _ ?_⟩
        rw [List.mem_singleton, h3, hp]
      · rw [if_neg hp] at h
        obtain ⟨t, ht⟩ := ih p h
        exact ⟨t, List.mem_append_left _ ht⟩

/-- C20. The `Code` of the process that `LoadProgram` adds (whether or not it returns
an error) and of the process that `Load` adds (for every sequence of random draws) has
every `io` immediately followed by `io_done` and every `io_done` immediately preceded
by `io`.  During `Run` on a table of such codes (all processes READY, `ioLength ≥ 0`,
any policies and scan order), in the remaining `Code` of every process every `io` is
immediately followed by `io_done`, every `io_done` other than the front instruction is
immediately preceded by `io`, and when the front instruction is `io_done` that
process has executed an `io`. -/
theorem io_pairing (parseFloat : List Char → Option GoFloat) (order : Int → List Nat)
    (s : Scheduler) (hL : 0 ≤ s.ioLength) (hne : s.procInfo ≠ [])
    (hready : ∀ proc ∈ s.procInfo, proc.State = READY)
    (hperm : ∀ t, (order t).Perm (List.range s.procInfo.length))
    (hcode : ∀ proc ∈ s.procInfo, IoFollowed proc.Code ∧ IoDonePreceded proc.Code) :
    (∀ (s0 : Scheduler) (program : List Char), ∃ code,
        (LoadProgram s0 program).1 = s0.withNewProcess code ∧
          IoFollowed code ∧ IoDonePreceded code) ∧
      (∀ (s0 : Scheduler) (draws : Nat → ℚ) (programDescription : List Char), ∃ code,
        (Load parseFloat draws s0 programDescription).1 = s0.withNewProcess code ∧
          IoFollowed code ∧ IoDonePreceded code) ∧
      ∀ k, LoopRuns order s k → ∀ p,
        IoFollowed ((runState order s k).s.code p) ∧
        IoDonePrecededAfterFront ((runState order s k).s.code p) ∧
        (((runState order s k).s.code p)[0]? = some Instr.io_done →
          ∃ t : Int, (t, (p : Int), Instr.io) ∈ (runState order s k).execs) := by
  refine ⟨fun s0 program => ⟨(tokensCode (stringsSplit ',' program)).1,
      by rw [LoadProgram_eq], tokensCode_paired _⟩,
    fun s0 draws d => Load_code parseFloat draws s0 d, fun k hk p => ⟨?_, ?_, ?_⟩⟩
  · exact runState_code IoFollowed (fun i hi => by simp at hi) (fun a l h => h.followed_tail)
      order s hL hne hready hperm (fun proc hp => (hcode proc hp).1) k hk p
  · exact runState_code IoDonePrecededAfterFront (fun i hi => by simp at hi)
      (fun a l h => h.preceded_tail) order s hL hne hready hperm
      (fun proc hp => (hcode proc hp).2.afterFront) k hk p
  · exact runState_front order s hL hne hready hperm (fun proc hp => (hcode proc hp).2) k hk p

theorem io_run_immediate_selects_witness :
    LoopRuns (fun _ => [0, 1]) immediateScenario (2 + 1) ∧
      (scanned (fun _ => [0, 1]) (runState (fun _ => [0, 1]) immediateScenario 2)).s.currProc =
        ((0 : Nat) : Int) ∧
      (scanned (fun _ => [0, 1]) (runState (fun _ => [0, 1]) immediateScenario 2)).s.st 0 =
        RUNNING ∧
      (∀ q, q ≠ 0 →
        (scanned (fun _ => [0, 1]) (runState (fun _ => [0, 1]) immediateScenario 2)).s.st q ≠
          RUNNING) ∧
      (∀ q, q ≠ 0 → (runState (fun _ => [0, 1]) immediateScenario 2).s.st q = RUNNING →
        (scanned (fun _ => [0, 1]) (runState (fun _ => [0, 1]) immediateScenario 2)).s.st q =
          READY) ∧
      (((2 + 1 : Nat) : Int), ((0 : Nat) : Int), Instr.io_done) ∈
        (runState (fun _ => [0, 1]) immediateScenario (2 + 1)).execs :=
  io_run_immediate_selects (fun _ => [0, 1]) immediateScenario (by decide) (by decide)
    (by decide) (fun _ => List.Perm.refl _) rfl
    (fun proc hp => (LoadProgram_paired _ _ (LoadProgram_paired _ _
      (fun proc' hp' => absurd hp' (List.not_mem_nil _))) proc hp).1)
    2 0
    (fun i hi => by
      have : i = 0 ∨ i = 1 := by omega
      rcases this with h | h <;> subst h <;> decide)
    (by decide)

theorem io_pairing_witness :
    (∀ (s0 : Scheduler) (program : List Char), ∃ code,
        (LoadProgram s0 program).1 = s0.withNewProcess code ∧
          IoFollowed code ∧ IoDonePreceded code) ∧
      (∀ (s0 : Scheduler) (draws : Nat → ℚ) (programDescription : List Char), ∃ code,
        (Load (fun _ => none) draws s0 programDescription).1 = s0.withNewProcess code ∧
          IoFollowed code ∧ IoDonePreceded code) ∧
      ∀ k, LoopRuns (fun _ => [0, 1]) scenario k → ∀ p,
        IoFollowed ((runState (fun _ => [0, 1]) scenario k).s.code p) ∧
        IoDonePrecededAfterFront ((runState (fun _ => [0, 1]) scenario k).s.code p) ∧
        (((runState (fun _ => [0, 1]) scenario k).s.code p)[0]? = some Instr.io_done →
          ∃ t : Int, (t, (p : Int), Instr.io) ∈ (runState (fun _ => [0, 1]) scenario k).execs) :=
  io_pairing (fun _ => none) (fun _ => [0, 1]) scenario (by decide) (by decide) (by decide)
    (fun _ => List.Perm.refl _)
    (LoadProgram_paired _ _ (LoadProgram_paired _ _
      (fun proc' hp' => absurd hp' (List.not_mem_nil _))))

theorem creation_assigns_pids_witness :
    (∀ c : Creation, ∃ code,
      (c.run (fun _ => none) scenario).1 =
        { scenario with procInfo := scenario.procInfo ++
            [{ PID := (scenario.procInfo.length : Int), PC := 0, Code := code, State := READY,
               IOTime := 0 }] }) ∧
      NewProcess scenario = (scenario.withNewProcess [], (scenario.procInfo.length : Int)) ∧
      (∀ (sw : SwitchBehavior) (iod : IODoneBehavior) (L : Int) (cs : List Creation)
        (s' : Scheduler), createAll (fun _ => none) (NewScheduler sw iod L) cs = some s' →
          s'.procInfo.length = cs.length ∧
          s'.procInfo.map (fun proc => proc.PID) =
            (List.range cs.length).map (fun (i : Nat) => (i : Int)) ∧
          ∀ proc ∈ s'.procInfo, proc.State = READY) :=
  creation_assigns_pids (fun _ => none) scenario

/-! ### Calls of the operations on an arbitrary table -/

theorem Quiet.quiet_refl (r : RunState) : Quiet r r :=
  ⟨SameData.sameData_refl r.s, rfl, rfl, rfl, rfl, id⟩

theorem Quiet.quiet_trans {r1 r2 r3 : RunState} (h1 : Quiet r1 r2) (h2 : Quiet r2 r3) :
    Quiet r1 r3 :=
  ⟨h1.data.trans h2.data, h2.cpu.trans h1.cpu, h2.io.trans h1.io, h2.clock.trans h1.clock,
    h2.execs.trans h1.execs, fun h => h2.done (h1.done h)⟩

theorem Quiet.of_moves {A : Nat → ProcState → ProcState → Prop} (r : RunState)
    (op : Scheduler → Scheduler × Option SchedError) (hm : Moves A r.s (op r.s).1)
    (hA : ∀ p a, A p a DONE → r.s.code p = []) : Quiet r (r.call op) := by
  refine ⟨hm.data, rfl, rfl, rfl, rfl, ?_⟩
  intro hd p hp
  simp only [call_s] at hp ⊢
  rw [hm.data.code]
  by_cases hsame : (op r.s).1.st p = r.s.st p
  · exact hd p (hsame ▸ hp)
  · have := hm.st p hsame
    rw [hp] at this
    exact hA p _ this

theorem Quiet.quiet_step_if {A : Nat → ProcState → ProcState → Prop} {r r2 : RunState} (c : Prop)
    [Decidable c] (op : Scheduler → Scheduler × Option SchedError) (h : Quiet r r2)
    (hm : Moves A r2.s (op r2.s).1) (hA : ∀ p a, A p a DONE → r2.s.code p = []) :
    Quiet r (if c then r2.call op else r2) := by
  split
  · exact h.quiet_trans (Quiet.of_moves r2 op hm hA)
  · exact h

theorem CheckIfDone_moves_done (s : Scheduler) :
    Moves (fun p a b => (a = READY ∧ b = RUNNING) ∨ (a = RUNNING ∧ b = DONE ∧ s.code p = [])) s
      (CheckIfDone s).1 := by
  unfold CheckIfDone
  split
  · exact Moves.moves_refl _ s
  · cases hget : s.proc? s.currProc with
    | none => exact Moves.moves_refl _ s
    | some proc =>
      simp only
      split
      · rename_i hcond
        obtain ⟨c, hc, hlt, hst, hcode⟩ := proc?_some s _ proc hget
        have hempty : s.code c = [] := by
          rw [hcode]; exact List.length_eq_zero.mp hcond.1
        have h1 : Moves (fun p a b => a = RUNNING ∧ b = DONE ∧ s.code p = []) s
            (s.setState s.currProc DONE) := by
          rw [hc]
          exact Moves.moves_setState _ s c DONE ⟨by rw [hst]; exact hcond.2, rfl, hempty⟩
        have h2 := NextProc_moves (s.setState s.currProc DONE) (-1)
        refine ⟨h1.data.trans h2.data, fun p hp => ?_⟩
        by_cases hp1 : (s.setState s.currProc DONE).st p = s.st p
        · left
          have := h2.st p (by rw [hp1]; exact hp)
          rw [hp1] at this; exact this
        · right
          have h3 := h1.st p hp1
          by_cases hp2 : (NextProc (s.setState s.currProc DONE) (-1)).1.st p =
              (s.setState s.currProc DONE).st p
          · rw [hp2]; exact h3
          · have h4 := h2.st p hp2
            rw [h3.2.1] at h4; cases h4.1
      · exact Moves.moves_refl _ s

theorem CheckIfDone_quiet (r : RunState) : Quiet r (r.call CheckIfDone) := by
  apply Quiet.of_moves r _ (CheckIfDone_moves_done r.s)
  intro p a h
  rcases h with h | h
  · cases h.2
  · exact h.2.2

theorem NextProc_quiet (pid : Int) (r : RunState) : Quiet r (r.call (fun s => NextProc s pid)) :=
  Quiet.of_moves r _ (NextProc_moves r.s pid) (fun _ _ h => by cases h.2)

theorem MoveToReady_quiet (e : ProcState) (pid : Int) (r : RunState) :
    Quiet r (r.call (fun s => MoveToReady s e pid)) :=
  Quiet.of_moves r _ (MoveToReady_moves r.s e pid) (fun _ _ h => by cases h.2.2)

theorem ioRunImmediate_quiet (pid : Int) (r : RunState) : Quiet r (ioRunImmediate pid r) := by
  have h1 : Quiet r
      (if r.s.currProc ≠ pid ∧ r.s.currIsRunning = true then
        r.call (fun s => MoveToReady s RUNNING s.currProc) else r) :=
    Quiet.quiet_step_if _ _ (Quiet.quiet_refl r) (MoveToReady_moves r.s RUNNING r.s.currProc)
      (fun _ _ h => by cases h.2.2)
  exact h1.quiet_trans (NextProc_quiet pid _)

theorem ioRunLater_quiet (pid : Int) (r : RunState) : Quiet r (ioRunLater pid r) :=
  Quiet.quiet_step_if _ (fun s => NextProc s pid)
    (Quiet.quiet_step_if _ (fun s => NextProc s pid) (Quiet.quiet_refl r)
      (NextProc_moves r.s pid) (fun _ _ h => by cases h.2))
    (NextProc_moves _ pid) (fun _ _ h => by cases h.2)

theorem handleIODone_quiet (pid : Int) (r : RunState) : Quiet r (handleIODone pid r) := by
  obtain ⟨r1, hr1⟩ : ∃ r1 : RunState, r1 = r.call (fun s => MoveToReady s BLOCKED pid) :=
    ⟨_, rfl⟩
  have hdef : handleIODone pid r =
      (if r1.s.ioDoneBehavior = IODoneBehavior.IO_RUN_IMMEDIATE then ioRunImmediate pid r1
        else ioRunLater pid r1).call CheckIfDone := by
    rw [hr1]; rfl
  have h1 : Quiet r r1 := by rw [hr1]; exact MoveToReady_quiet BLOCKED pid r
  rw [hdef]
  refine (h1.quiet_trans ?_).quiet_trans (CheckIfDone_quiet _)
  split
  · exact ioRunImmediate_quiet pid r1
  · exact ioRunLater_quiet pid r1

theorem fold_quiet (f : RunState → RunState) (hf : ∀ r, Quiet r (f r)) :
    ∀ (l : List Int) (r : RunState),
      Quiet r (l.foldl (fun r t => if t = r.clockTick then f r else r) r)
  | [], r => Quiet.quiet_refl r
  | t :: l, r => by
    simp only [List.foldl_cons]
    split
    · exact (hf r).quiet_trans (fold_quiet f hf l (f r))
    · exact fold_quiet f hf l r

theorem scanPid_quiet (r : RunState) (pid : Nat) : Quiet r (scanPid r pid) :=
  fold_quiet _ (handleIODone_quiet (pid : Int)) _ r

theorem ioScan_quiet : ∀ (order : List Nat) (r : RunState), Quiet r (ioScan order r)
  | [], r => Quiet.quiet_refl r
  | p :: ps, r => (scanPid_quiet r p).quiet_trans (ioScan_quiet ps (scanPid r p))

theorem scanned_quiet (order : Int → List Nat) (r : RunState) :
    Quiet { r with clockTick := r.clockTick + 1 } (scanned order r) :=
  ioScan_quiet _ _

/-! ### One tick on an arbitrary state -/

theorem Moves.keeps_blocked {A : Nat → ProcState → ProcState → Prop} {s s' : Scheduler}
    (hm : Moves A s s') (hA : ∀ p b, ¬ A p BLOCKED b) :
    ∀ p, s.st p = BLOCKED → s'.st p = BLOCKED := by
  intro p hp
  by_contra hne
  have := hm.st p (by rw [hp]; exact hne)
  rw [hp] at this
  exact hA p _ this

theorem execStep_cases (r : RunState) :
    ((execStep r).2 = none ∧ (execStep r).1 = r) ∨
    ∃ (c : Nat) (instr : Instr) (rest : List Instr),
      r.s.currProc = (c : Int) ∧ c < r.s.procInfo.length ∧ r.s.st c = RUNNING ∧
      r.s.code c = instr :: rest ∧ (execStep r).2 = some instr ∧
      (execStep r).1 = { r with s := r.s.setCode (c : Int) rest
                                cpuBusy := r.cpuBusy + 1
                                execs := r.execs ++ [(r.clockTick, (c : Int), instr)] } := by
  unfold execStep
  cases hget : r.s.proc? r.s.currProc with
  | none => exact Or.inl ⟨rfl, rfl⟩
  | some proc =>
    simp only
    obtain ⟨c, hc, hlt, hst, hcode⟩ := proc?_some r.s _ proc hget
    by_cases hrun : proc.State = RUNNING
    · rw [if_pos hrun]
      cases hcd : proc.Code with
      | nil => exact Or.inl ⟨rfl, rfl⟩
      | cons instr rest =>
        right
        refine ⟨c, instr, rest, hc, hlt, hst.trans hrun, hcode.trans hcd, rfl, ?_⟩
        simp only [hc]
    · rw [if_neg hrun]
      exact Or.inl ⟨rfl, rfl⟩

theorem DoneEmpty.done_of_same {s s' : Scheduler} (h : DoneEmpty s) (hst : ∀ p, s'.st p = s.st p)
    (hcode : ∀ p, s'.code p = s.code p) : DoneEmpty s' := by
  intro p hp
  rw [hcode]; exact h p (hst p ▸ hp)

/-- The effect of the I/O-issue block when the current process `c` is RUNNING. -/
theorem ioIssue_effect (r : RunState) :
    (ioIssue r).cpuBusy = r.cpuBusy ∧ (ioIssue r).ioBusy = r.ioBusy ∧
      (DoneEmpty r.s → DoneEmpty (ioIssue r).s) ∧
      (∀ p, r.s.st p = BLOCKED → (ioIssue r).s.st p = BLOCKED) ∧
      (∀ c : Nat, r.s.currProc = (c : Int) → r.s.st c = RUNNING →
        (ioIssue r).s.st c = BLOCKED) := by
  obtain ⟨r4, hr4⟩ : ∃ r4 : RunState, r4 = r.call (fun s : Scheduler => MoveToWait s RUNNING) :=
    ⟨_, rfl⟩
  obtain ⟨r5, hr5⟩ : ∃ r5 : RunState, r5 =
    { r4 with s := r4.s.recordFinish r4.s.currProc (r4.clockTick + r4.s.ioLength + 1) } :=
    ⟨_, rfl⟩
  have hdef : ioIssue r =
      if r5.s.processSwitchBehavior = SwitchBehavior.SWITCH_ON_IO then
        r5.call (fun s => NextProc s (-1))
      else r5 := by rw [hr5, hr4]; rfl
  have hm4 := MoveToWait_moves r.s RUNNING
  have hq4 : Quiet r r4 := by
    rw [hr4]; exact Quiet.of_moves r _ hm4 (fun _ _ h => by cases h.2.2)
  have hst5 : ∀ p, r5.s.st p = r4.s.st p := by intro p; rw [hr5]; rfl
  have hcode5 : ∀ p, r5.s.code p = r4.s.code p := by intro p; rw [hr5]; rfl
  have hcpu5 : r5.cpuBusy = r.cpuBusy := by rw [hr5]; exact hq4.cpu
  have hio5 : r5.ioBusy = r.ioBusy := by rw [hr5]; exact hq4.io
  have hdone5 : DoneEmpty r.s → DoneEmpty r5.s := fun h => (hq4.done h).done_of_same hst5 hcode5
  have hb4 : ∀ p, r.s.st p = BLOCKED → r4.s.st p = BLOCKED := by
    rw [hr4]
    exact hm4.keeps_blocked (fun _ _ h => by cases h.2.1)
  have hb5 : ∀ p, r.s.st p = BLOCKED → r5.s.st p = BLOCKED := fun p hp => by
    rw [hst5]; exact hb4 p hp
  have hc5 : ∀ c : Nat, r.s.currProc = (c : Int) → r.s.st c = RUNNING →
      r5.s.st c = BLOCKED := by
    intro c hc hst
    rw [hst5, hr4]
    simp only [call_s]
    rw [MoveToWait_eq r.s c RUNNING hc hst (by decide), setState_st]
    simp [lt_of_st_ne_done r.s (p := c) (by rw [hst]; decide)]
  rw [hdef]
  split
  · have hq := NextProc_quiet (-1) r5
    have hm := NextProc_moves r5.s (-1)
    have hk := hm.keeps_blocked (fun _ _ h => by cases h.1)
    exact ⟨hq.cpu.trans hcpu5, hq.io.trans hio5, fun h => hq.done (hdone5 h),
      fun p hp => hk p (hb5 p hp), fun c hc hst => hk c (hc5 c hc hst)⟩
  · exact ⟨hcpu5, hio5, hdone5, hb5, hc5⟩

theorem afterExec_effect (i : Option Instr) (r : RunState) :
    (afterExec i r).cpuBusy = r.cpuBusy ∧ (afterExec i r).ioBusy = r.ioBusy ∧
      (DoneEmpty r.s → DoneEmpty (afterExec i r).s) ∧
      (∀ p, r.s.st p = BLOCKED → (afterExec i r).s.st p = BLOCKED) ∧
      (i = some Instr.io → ∀ c : Nat, r.s.currProc = (c : Int) → r.s.st c = RUNNING →
        (afterExec i r).s.st c = BLOCKED) := by
  obtain ⟨r6, hr6⟩ : ∃ r6 : RunState, r6 = (if i = some Instr.io then ioIssue r else r) :=
    ⟨_, rfl⟩
  have hdef : afterExec i r = r6.call CheckIfDone := by rw [hr6]; rfl
  have h6 : r6.cpuBusy = r.cpuBusy ∧ r6.ioBusy = r.ioBusy ∧
      (DoneEmpty r.s → DoneEmpty r6.s) ∧
      (∀ p, r.s.st p = BLOCKED → r6.s.st p = BLOCKED) ∧
      (i = some Instr.io → ∀ c : Nat, r.s.currProc = (c : Int) → r.s.st c = RUNNING →
        r6.s.st c = BLOCKED) := by
    rw [hr6]
    split
    · obtain ⟨h1, h2, h3, h4, h5⟩ := ioIssue_effect r
      exact ⟨h1, h2, h3, h4, fun _ => h5⟩
    · rename_i hi
      exact ⟨rfl, rfl, id, fun _ h => h, fun h => absurd h hi⟩
  obtain ⟨h1, h2, h3, h4, h5⟩ := h6
  have hq := CheckIfDone_quiet r6
  have hk := (CheckIfDone_moves r6.s).keeps_blocked
    (fun _ _ h => by rcases h with h | h <;> cases h.1)
  rw [hdef]
  exact ⟨hq.cpu.trans h1, hq.io.trans h2, fun h => hq.done (h3 h),
    fun p hp => hk p (h4 p hp), fun hi c hc hst => hk c (h5 hi c hc hst)⟩

theorem ioBusyStep_cpuBusy (r : RunState) : (ioBusyStep r).cpuBusy = r.cpuBusy := by
  unfold ioBusyStep; split <;> rfl

theorem ioBusyStep_ioBusy (r : RunState) :
    (ioBusyStep r).ioBusy = r.ioBusy + (if GetIOSInFlight r.s r.clockTick > 0 then 1 else 0) := by
  unfold ioBusyStep; split <;> simp

theorem inflight_congr {s s' : Scheduler} (h : s'.ioFinishTimes = s.ioFinishTimes) (T : Int) :
    GetIOSInFlight s' T = GetIOSInFlight s T := by
  unfold GetIOSInFlight; rw [h]

theorem SameData.of_setCode {s s' : Scheduler} (h : SameData s s') (c : Nat)
    (rest : List Instr) : SameData (s.setCode (c : Int) rest) (s'.setCode (c : Int) rest) := by
  refine ⟨by simp [h.len], by simp [h.sw], by simp [h.iod], by simp [h.ioLength],
    by simp [h.times], fun p => ?_⟩
  rw [setCode_code, setCode_code, h.len, h.code]

/-- The effect of one iteration of the loop of `Run`, on an arbitrary state and for an
arbitrary scan order. -/
theorem tick_effect (order : Int → List Nat) (r : RunState) : TickEffect order r := by
  have hq := scanned_quiet order r
  obtain ⟨r1, hr1⟩ : ∃ r1 : RunState, r1 = scanned order r := ⟨_, rfl⟩
  have htick : tick order r = afterExec (execStep r1).2 (ioBusyStep (execStep r1).1) := by
    rw [hr1]; rfl
  have hq1 : Quiet { r with clockTick := r.clockTick + 1 } r1 := hr1 ▸ hq
  have hdata : SameData r.s r1.s := hq1.data
  have hclock1 : r1.clockTick = r.clockTick + 1 := hq1.clock
  obtain ⟨hD, hE, hCk⟩ := afterExec_data (execStep r1).2 (ioBusyStep (execStep r1).1)
  obtain ⟨hcpu, hio, hdone, hblk, hbio⟩ :=
    afterExec_effect (execStep r1).2 (ioBusyStep (execStep r1).1)
  rw [← htick, ioBusyStep_s, ioBusyStep_clockTick] at hD
  rw [← htick, ioBusyStep_execs] at hE
  rw [← htick, ioBusyStep_clockTick] at hCk
  rw [← htick, ioBusyStep_cpuBusy] at hcpu
  rw [← htick, ioBusyStep_ioBusy] at hio
  rw [← htick, ioBusyStep_s] at hdone hblk hbio
  rcases execStep_cases r1 with ⟨hnone, heq⟩ | ⟨c, instr, rest, hc, hlt, hst, hcode, hsome, heq⟩
  · rw [heq] at hD hE hCk hcpu hio hdone hblk
    rw [hnone] at hD
    simp only [reduceCtorEq, if_false] at hD
    refine ⟨hq, hCk.trans hclock1, ?_, fun h => hdone (hq1.done h), ?_, Or.inl ⟨?_, ?_, ?_, ?_⟩⟩
    · rw [hio, hq1.io, hclock1, inflight_congr hdata.times]
    · rw [← hr1]; exact hblk
    · rw [← hr1]; exact hnone
    · exact hdata.trans hD
    · rw [hcpu]; exact hq1.cpu
    · rw [hE]; exact hq1.execs
  · have hs2 : (execStep r1).1.s = r1.s.setCode (c : Int) rest := by rw [heq]
    have hc2 : (execStep r1).1.clockTick = r1.clockTick := by rw [heq]
    have he2 : (execStep r1).1.execs = r1.execs ++ [(r1.clockTick, (c : Int), instr)] := by
      rw [heq]
    have hcpu2 : (execStep r1).1.cpuBusy = r1.cpuBusy + 1 := by rw [heq]
    have hio2 : (execStep r1).1.ioBusy = r1.ioBusy := by rw [heq]
    rw [hs2] at hD hio hdone hblk hbio
    rw [hc2] at hD hCk hio
    rw [hsome] at hD hbio
    have hlt0 : c < r.s.procInfo.length := by rw [← hdata.len]; exact hlt
    refine ⟨hq, hCk.trans hclock1, ?_, ?_, ?_, Or.inr ⟨c, instr, rest, ?_, ?_, hlt0, ?_, ?_, ?_,
      ?_, ?_, ?_⟩⟩
    · rw [hio, hio2, hq1.io, hclock1, inflight_congr (setCode_times _ _ _),
        inflight_congr hdata.times]
    · intro h
      apply hdone
      intro p hp
      rw [setCode_st] at hp
      rw [setCode_code]
      by_cases hpc : p = c
      · rw [hpc, hst] at hp; cases hp
      · simp only [hpc, false_and, if_false]
        exact hq1.done h p hp
    · intro p hp
      rw [← hr1] at hp
      exact hblk p (by rw [setCode_st]; exact hp)
    · rw [← hr1]; exact hsome
    · rw [← hr1]; exact hc
    · rw [← hr1]; exact hst
    · rw [← hdata.code]; exact hcode
    · refine SameData.trans ?_ hD
      rw [setCode_currProc, setCode_ioLength, hc, hclock1, hdata.ioLength]
      by_cases hi : instr = Instr.io
      · simp only [hi, if_true]
        exact (hdata.of_setCode c rest).recordFinish _ _
      · have : ¬ (some instr = some Instr.io) := fun h => hi (Option.some.inj h)
        simp only [hi, this, if_false]
        exact hdata.of_setCode c rest
    · rw [hcpu, hcpu2, hq1.cpu]
    · rw [hE, he2, hq1.execs, hclock1]
    · intro hi
      apply hbio (by rw [hi]) c
      · rw [setCode_currProc]; exact hc
      · rw [setCode_st]; exact hst

/-! ### Every state of a run, on an arbitrary table -/

theorem runInit_effect (s : Scheduler) :
    (runInit s).cpuBusy = 0 ∧ (runInit s).ioBusy = 0 ∧ (runInit s).clockTick = 0 ∧
      (runInit s).execs = [] ∧ (runInit s).s.procInfo.length = s.procInfo.length ∧
      (runInit s).s.processSwitchBehavior = s.processSwitchBehavior ∧
      (runInit s).s.ioDoneBehavior = s.ioDoneBehavior ∧
      (runInit s).s.ioLength = s.ioLength ∧
      (runInit s).s.ioFinishTimes = List.replicate s.procInfo.length [] ∧
      (∀ p, (runInit s).s.code p = s.code p) ∧
      (DoneEmpty s → DoneEmpty (runInit s).s) := by
  obtain ⟨s1, hs1⟩ : ∃ s1 : Scheduler, s1 =
    { s with ioFinishTimes := List.replicate s.procInfo.length [], currProc := 0 } := ⟨_, rfl⟩
  obtain ⟨r0, hr0⟩ : ∃ r0 : RunState, r0 =
    { s := s1, cpuBusy := 0, ioBusy := 0, clockTick := 0, errs := [], transitions := [],
      execs := [] } := ⟨_, rfl⟩
  have hinit : runInit s = r0.call (fun s => MoveToRunning s READY) := by
    rw [hr0, hs1]; rfl
  have hq : Quiet r0 (runInit s) := by
    rw [hinit]
    exact Quiet.of_moves r0 _ (MoveToRunning_moves r0.s READY) (fun _ _ h => by cases h.2.2)
  have hr0s : r0.s = s1 := by rw [hr0]
  have hd := hq.data
  rw [hr0s] at hd
  refine ⟨hq.cpu.trans (by rw [hr0]), hq.io.trans (by rw [hr0]), hq.clock.trans (by rw [hr0]),
    hq.execs.trans (by rw [hr0]), hd.len.trans (by rw [hs1]), hd.sw.trans (by rw [hs1]),
    hd.iod.trans (by rw [hs1]), hd.ioLength.trans (by rw [hs1]), hd.times.trans (by rw [hs1]),
    fun p => (hd.code p).trans (by rw [hs1]; rfl), fun h => hq.done ?_⟩
  rw [hr0s, hs1]
  exact h

theorem times_replicate (n p : Nat) :
    (List.replicate n ([] : List Int)).getD p [] = [] := by
  rw [List.getD_eq_getElem?_getD, List.getElem?_replicate]
  split <;> rfl

theorem executedBy_append (p : Nat) (l : List (Int × Int × Instr)) (t : Int) (c : Nat)
    (i : Instr) :
    executedBy p (l ++ [(t, (c : Int), i)]) =
      if c = p then executedBy p l ++ [i] else executedBy p l := by
  unfold executedBy
  rw [List.filter_append, List.map_append]
  by_cases h : c = p
  · simp [h]
  · have : ¬ ((c : Int) = (p : Int)) := by exact_mod_cast h
    simp [h, this]

theorem runState_trace (order : Int → List Nat) (s : Scheduler) :
    ∀ k, TraceFacts order s k
  | 0 => by
    obtain ⟨hcpu, -, hclock, hexecs, hlen, hsw, hiod, hioL, htimes, hcode, hdone⟩ :=
      runInit_effect s
    have ht : ∀ p, (runInit s).s.times p = [] := by
      intro p
      unfold Scheduler.times
      rw [htimes]; exact times_replicate _ _
    refine ⟨hclock, hlen, hsw, hiod, hioL, by
        show (runInit s).s.ioFinishTimes.length = _
        rw [htimes]; simp, ?_, ?_, ?_, ?_, ?_, ?_, ?_, ?_, hdone⟩
    · show (runInit s).cpuBusy + (codeSum (runInit s).s : Int) = _
      rw [hcpu, codeSum_congr hlen hcode]; simp
    · show (runInit s).cpuBusy ≤ _
      rw [hcpu]; simp
    · intro p
      show executedBy p (runInit s).execs ++ (runInit s).s.code p = _
      rw [hexecs, hcode]; rfl
    · intro e he
      have he' : e ∈ (runInit s).execs := he
      rw [hexecs] at he'; cases he'
    · show ((runInit s).execs.map (fun e => e.1)).Pairwise _
      rw [hexecs]; exact List.Pairwise.nil
    · intro p x hx
      have hx' : x ∈ (runInit s).s.times p := hx
      rw [ht] at hx'; cases hx'
    · intro p q x hx
      have hx' : x ∈ (runInit s).s.times p := hx
      rw [ht] at hx'; cases hx'
    · intro p
      show ((runInit s).s.times p).Nodup
      rw [ht]; exact List.nodup_nil
  | k + 1 => by
    have hF := runState_trace order s k
    have hE := tick_effect order (runState order s k)
    have hstep : runState order s (k + 1) = tick order (runState order s k) := rfl
    have hclock : (tick order (runState order s k)).clockTick = ((k + 1 : Nat) : Int) := by
      rw [hE.clock, hF.clock]; push_cast; ring
    have hdone : DoneEmpty s → DoneEmpty (tick order (runState order s k)).s := fun h => hE.done (hF.done h)
    have hexec := hE.exec
    rcases hexec with ⟨-, hD, hcpu, hex⟩ |
      ⟨c, instr, rest, -, -, hlt, -, hcode, hD, hcpu, hex, -⟩
    · have htm : ∀ p, (tick order (runState order s k)).s.times p = (runState order s k).s.times p := times_congr hD.times
      refine ⟨hclock, hD.len.trans hF.len, hD.sw.trans hF.sw, hD.iod.trans hF.iod,
        hD.ioLength.trans hF.ioLength, by rw [hstep, hD.times]; exact hF.timesLen, ?_, ?_, ?_, ?_, ?_,
        ?_, ?_, ?_, hdone⟩
      · rw [hstep]
        rw [hcpu, codeSum_congr hD.len hD.code]; exact hF.cpu
      · rw [hstep]
        rw [hcpu]; have := hF.cpu_le; push_cast; omega
      · rw [hstep]
        intro p; rw [hex, hD.code]; exact hF.executed p
      · rw [hstep]
        intro e he
        rw [hex] at he
        have := hF.execs_le e he
        push_cast; omega
      · rw [hstep]
        rw [hex]; exact hF.execs_sorted
      · rw [hstep]
        intro p x hx
        rw [htm] at hx
        have := hF.times_le p x hx
        push_cast; omega
      · rw [hstep]
        intro p q x hp hq
        rw [htm] at hp hq
        exact hF.times_inj p q x hp hq
      · rw [hstep]
        intro p; rw [htm]; exact hF.times_nodup p
    · -- an instruction is executed by the current process `c`
      obtain ⟨X, hX⟩ : ∃ X : Scheduler, X =
        (if instr = Instr.io then
          ((runState order s k).s.setCode (c : Int) rest).recordFinish (c : Int)
            ((runState order s k).clockTick + 1 + (runState order s k).s.ioLength + 1)
        else (runState order s k).s.setCode (c : Int) rest) := ⟨_, rfl⟩
      rw [← hX] at hD
      have hXlen : X.procInfo.length = (runState order s k).s.procInfo.length := by
        rw [hX]; split <;> simp
      have hXsw : X.processSwitchBehavior = (runState order s k).s.processSwitchBehavior := by
        rw [hX]; split <;> simp
      have hXiod : X.ioDoneBehavior = (runState order s k).s.ioDoneBehavior := by
        rw [hX]; split <;> simp
      have hXioL : X.ioLength = (runState order s k).s.ioLength := by
        rw [hX]; split <;> simp
      have hXtl : X.ioFinishTimes.length = (runState order s k).s.ioFinishTimes.length := by
        rw [hX]; split <;> simp [Scheduler.recordFinish]
      have hXcode : ∀ p, X.code p = if p = c then rest else (runState order s k).s.code p := by
        intro p
        have h1 : X.code p = ((runState order s k).s.setCode (c : Int) rest).code p := by
          rw [hX]; split <;> simp
        rw [h1, setCode_code]
        simp [hlt]
      have hXsum : codeSum X + 1 = codeSum (runState order s k).s := by
        have h1 : codeSum X = codeSum ((runState order s k).s.setCode (c : Int) rest) := by
          apply codeSum_congr
          · rw [hXlen]; simp
          · intro p
            rw [hX]; split <;> simp
        have h2 := codeSum_setCode (runState order s k).s c rest hlt
        rw [hcode] at h2
        simp only [List.length_cons] at h2
        omega
      have hctl : c < (runState order s k).s.ioFinishTimes.length := by rw [hF.timesLen, ← hF.len]; exact hlt
      have hXtimes : ∀ p, X.times p = if instr = Instr.io ∧ p = c then
          (runState order s k).s.times p ++ [(k : Int) + 1 + s.ioLength + 1] else (runState order s k).s.times p := by
        intro p
        rw [hX]
        by_cases hi : instr = Instr.io
        · simp only [hi, if_true, true_and]
          rw [recordFinish_times]
          have : c < ((runState order s k).s.setCode (c : Int) rest).ioFinishTimes.length := by
            rw [setCode_times]; exact hctl
          simp only [this, and_true, setCode_times']
          rw [hF.clock, hF.ioLength]
          by_cases hp : p = c
          · simp [hp]
          · simp [hp]
        · simp only [hi, if_false, false_and, setCode_times']
      have htm : ∀ p, (tick order (runState order s k)).s.times p = if instr = Instr.io ∧ p = c then
          (runState order s k).s.times p ++ [(k : Int) + 1 + s.ioLength + 1] else (runState order s k).s.times p := by
        intro p; rw [times_congr hD.times, hXtimes]
      have hold : ∀ y, ∀ z ∈ (runState order s k).s.times y, z < (k : Int) + 1 + s.ioLength + 1 := by
        intro y z hz
        have := hF.times_le y z hz
        omega
      refine ⟨hclock, (hD.len.trans hXlen).trans hF.len, (hD.sw.trans hXsw).trans hF.sw,
        (hD.iod.trans hXiod).trans hF.iod, (hD.ioLength.trans hXioL).trans hF.ioLength,
        by rw [hstep, hD.times, hXtl]; exact hF.timesLen, ?_, ?_, ?_, ?_, ?_, ?_, ?_, ?_, hdone⟩
      · rw [hstep]
        rw [hcpu, codeSum_congr hD.len hD.code, ← hF.cpu, ← hXsum]
        push_cast; ring
      · rw [hstep]
        rw [hcpu]; have := hF.cpu_le; push_cast; omega
      · rw [hstep]
        intro p
        rw [hex, executedBy_append, hD.code, hXcode]
        by_cases hp : p = c
        · subst hp
          rw [if_pos rfl, if_pos rfl, List.append_assoc, List.singleton_append, ← hcode]
          exact hF.executed p
        · have hcp : ¬ c = p := fun h => hp h.symm
          rw [if_neg hcp, if_neg hp]
          exact hF.executed p
      · rw [hstep]
        intro e he
        rw [hex] at he
        rcases List.mem_append.mp he with h | h
        · have := hF.execs_le e h
          push_cast; omega
        · rw [List.mem_singleton] at h
          rw [h, hF.clock]
          push_cast
          constructor <;> omega
      · rw [hstep]
        rw [hex, List.map_append, List.pairwise_append]
        refine ⟨hF.execs_sorted, by simp, ?_⟩
        intro a ha b hb
        obtain ⟨e, he, rfl⟩ := List.mem_map.mp ha
        simp only [List.map_cons, List.map_nil, List.mem_singleton] at hb
        rw [hb, hF.clock]
        have := (hF.execs_le e he).2
        omega
      · rw [hstep]
        intro p x hx
        rw [htm] at hx
        split at hx
        · rcases List.mem_append.mp hx with h | h
          · have := hF.times_le p x h
            push_cast; omega
          · rw [List.mem_singleton] at h
            rw [h]; push_cast; omega
        · have := hF.times_le p x hx
          push_cast; omega
      · rw [hstep]
        intro p q x hp hq
        rw [htm] at hp hq
        by_cases hcp : instr = Instr.io ∧ p = c
        · by_cases hcq : instr = Instr.io ∧ q = c
          · rw [hcp.2, hcq.2]
          · rw [if_pos hcp] at hp
            rw [if_neg hcq] at hq
            rcases List.mem_append.mp hp with h | h
            · exact hF.times_inj p q x h hq
            · rw [List.mem_singleton] at h
              exact absurd h (ne_of_lt (hold q x hq))
        · rw [if_neg hcp] at hp
          by_cases hcq : instr = Instr.io ∧ q = c
          · rw [if_pos hcq] at hq
            rcases List.mem_append.mp hq with h | h
            · exact hF.times_inj p q x hp h
            · rw [List.mem_singleton] at h
              exact absurd h (ne_of_lt (hold p x hp))
          · rw [if_neg hcq] at hq
            exact hF.times_inj p q x hp hq
      · rw [hstep]
        intro p
        rw [htm]
        split
        · rw [List.nodup_append]
          refine ⟨hF.times_nodup p, List.nodup_singleton _, ?_⟩
          intro a ha hb
          rw [List.mem_singleton] at hb
          exact absurd hb (ne_of_lt (hold p a ha))
        · exact hF.times_nodup p

/-! ### The completion scan and the order of its visits -/

theorem scanPid_noop (r : RunState) (p : Nat) (h : r.clockTick ∉ r.s.times p) :
    scanPid r p = r :=
  fold_none _ _ _ (fun _ ht heq => h (heq ▸ ht))

theorem ioScan_noop : ∀ (order : List Nat) (r : RunState),
    (∀ p ∈ order, r.clockTick ∉ r.s.times p) → ioScan order r = r
  | [], _, _ => rfl
  | p :: ps, r, h => by
    show ioScan ps (scanPid r p) = r
    rw [scanPid_noop r p (h p (List.mem_cons_self _ _))]
    exact ioScan_noop ps r (fun q hq => h q (List.mem_cons_of_mem _ hq))

theorem scanPid_one (r : RunState) (p : Nat) (hm : r.clockTick ∈ r.s.times p)
    (hnd : (r.s.times p).Nodup) : scanPid r p = handleIODone (p : Int) r :=
  fold_one _ _ _ (handleIODone_quiet (p : Int) r).clock (List.count_eq_one_of_mem hnd hm)

theorem ioScan_single : ∀ (order : List Nat) (r : RunState) (p : Nat), order.Nodup →
    p ∈ order → r.clockTick ∈ r.s.times p → (r.s.times p).Nodup →
    (∀ q ∈ order, q ≠ p → r.clockTick ∉ r.s.times q) →
      ioScan order r = handleIODone (p : Int) r
  | [], _, _, _, hp, _, _, _ => by cases hp
  | q :: qs, r, p, hnd, hp, hm, hn, hothers => by
    have hnd' := List.nodup_cons.mp hnd
    show ioScan qs (scanPid r q) = _
    by_cases hqp : q = p
    · subst hqp
      rw [scanPid_one r q hm hn]
      apply ioScan_noop
      intro q' hq'
      have hq := handleIODone_quiet (q : Int) r
      rw [hq.clock, times_congr hq.data.times q']
      exact hothers q' (List.mem_cons_of_mem _ hq') (fun h => hnd'.1 (h ▸ hq'))
    · rw [scanPid_noop r q (hothers q (List.mem_cons_self _ _) hqp)]
      have hp' : p ∈ qs := by
        rcases List.mem_cons.mp hp with h | h
        · exact absurd h.symm hqp
        · exact h
      exact ioScan_single qs r p hnd'.2 hp' hm hn
        (fun q' hq' => hothers q' (List.mem_cons_of_mem _ hq'))

/-- When the recorded finish times are pairwise distinct, the completion scan does the
same whatever the order in which it visits the processes. -/
theorem ioScan_order (o1 o2 : List Nat) (r : RunState) (hperm : o1.Perm o2) (hnd : o1.Nodup)
    (hinj : ∀ p q x, x ∈ r.s.times p → x ∈ r.s.times q → p = q)
    (hn : ∀ p, (r.s.times p).Nodup) : ioScan o1 r = ioScan o2 r := by
  by_cases h : ∃ p ∈ o1, r.clockTick ∈ r.s.times p
  · obtain ⟨p, hp, hm⟩ := h
    have hothers : ∀ q, q ≠ p → r.clockTick ∉ r.s.times q :=
      fun q hqp hq => hqp (hinj q p _ hq hm)
    rw [ioScan_single o1 r p hnd hp hm (hn p) (fun q _ hqp => hothers q hqp),
      ioScan_single o2 r p (hperm.nodup_iff.mp hnd) (hperm.mem_iff.mp hp) hm (hn p)
        (fun q _ hqp => hothers q hqp)]
  · push_neg at h
    rw [ioScan_noop o1 r h, ioScan_noop o2 r (fun p hp => h p (hperm.mem_iff.mpr hp))]

theorem runState_order (o1 o2 : Int → List Nat) (s : Scheduler)
    (hperm : ∀ t, (o1 t).Perm (o2 t)) (hnd : ∀ t, (o1 t).Nodup) :
    ∀ k, runState o1 s k = runState o2 s k
  | 0 => rfl
  | k + 1 => by
    have ih := runState_order o1 o2 s hperm hnd k
    have hF := runState_trace o1 s k
    show tick o1 (runState o1 s k) = tick o2 (runState o2 s k)
    rw [← ih, tick_eq, tick_eq]
    have hscan : scanned o1 (runState o1 s k) = scanned o2 (runState o1 s k) :=
      ioScan_order _ _ _ (hperm _) (hnd _) hF.times_inj hF.times_nodup
    rw [hscan]

theorem runLoop_congr (o1 o2 : Int → List Nat) :
    ∀ (fuel : Nat) (r : RunState), (∀ k, (tick o1)^[k] r = (tick o2)^[k] r) →
      runLoop o1 fuel r = runLoop o2 fuel r
  | 0, _, _ => rfl
  | fuel + 1, r, h => by
    unfold runLoop
    split
    · have h1 : tick o1 r = tick o2 r := h 1
      rw [← h1]
      apply runLoop_congr o1 o2 fuel
      intro k
      have := h (k + 1)
      rw [Function.iterate_succ_apply, Function.iterate_succ_apply, ← h1] at this
      exact this
    · rfl

/-- C23. During `Run` (any table, configuration and scan order) the recorded I/O
finish times are pairwise distinct: no time is recorded for two processes and none
twice for one process, so at any tick at most one process has an I/O completing.
Consequently the whole state of `Run` after every iteration, and the result of `Run`
(the returned counters and the final table), are the same for any two orders in
which the completion scan visits the processes (each order visiting every process
once). -/
theorem Run_order_independent (o1 o2 : Int → List Nat) (s : Scheduler)
    (hperm : ∀ t, (o1 t).Perm (o2 t)) (hnd : ∀ t, (o1 t).Nodup) :
    (∀ k p q x, x ∈ (runState o1 s k).s.times p → x ∈ (runState o1 s k).s.times q → p = q) ∧
      (∀ k p, ((runState o1 s k).s.times p).Nodup) ∧
      (∀ k p q, ((k : Int) + 1) ∈ (runState o1 s k).s.times p →
        ((k : Int) + 1) ∈ (runState o1 s k).s.times q → p = q) ∧
      (∀ k, runState o1 s k = runState o2 s k) ∧
      ∀ fuel, Run o1 fuel s = Run o2 fuel s := by
  refine ⟨fun k => (runState_trace o1 s k).times_inj,
    fun k => (runState_trace o1 s k).times_nodup,
    fun k p q => (runState_trace o1 s k).times_inj p q _,
    runState_order o1 o2 s hperm hnd, fun fuel => ?_⟩
  unfold Run
  split
  · rfl
  · apply runLoop_congr
    intro k
    rw [← runState_eq_iterate, ← runState_eq_iterate]
    exact runState_order o1 o2 s hperm hnd k

theorem Run_order_independent_witness :
    (∀ k p q x, x ∈ (runState (fun _ => [0, 1]) scenario k).s.times p →
        x ∈ (runState (fun _ => [0, 1]) scenario k).s.times q → p = q) ∧
      (∀ k p, ((runState (fun _ => [0, 1]) scenario k).s.times p).Nodup) ∧
      (∀ k p q, ((k : Int) + 1) ∈ (runState (fun _ => [0, 1]) scenario k).s.times p →
        ((k : Int) + 1) ∈ (runState (fun _ => [0, 1]) scenario k).s.times q → p = q) ∧
      (∀ k, runState (fun _ => [0, 1]) scenario k = runState (fun _ => [1, 0]) scenario k) ∧
      ∀ fuel, Run (fun _ => [0, 1]) fuel scenario = Run (fun _ => [1, 0]) fuel scenario :=
  Run_order_independent (fun _ => [0, 1]) (fun _ => [1, 0]) scenario
    (fun _ => List.Perm.swap 1 0 []) (fun _ => (by decide : [0, 1].Nodup))

/-! ### What a terminating run has executed -/

theorem DoneEmpty_of_ready (s : Scheduler) (hready : ∀ proc ∈ s.procInfo, proc.State = READY) :
    DoneEmpty s := by
  intro p hp
  unfold Scheduler.st at hp
  unfold Scheduler.code
  cases hg : s.procInfo[p]? with
  | none => rfl
  | some proc =>
    rw [hg] at hp
    simp only at hp
    rw [hready proc (List.getElem?_mem hg)] at hp
    cases hp

theorem codes_empty_of_inactive (s : Scheduler) (hd : DoneEmpty s) (h : GetNumActive s = 0) :
    ∀ p, s.code p = [] := by
  intro p
  apply hd
  by_contra hne
  have := (active_pos_iff s).mpr ⟨p, hne⟩
  omega

theorem codeSum_eq_zero (s : Scheduler) (h : ∀ p, s.code p = []) : codeSum s = 0 := by
  unfold codeSum
  rw [List.sum_eq_zero_iff]
  intro x hx
  obtain ⟨proc, hproc, rfl⟩ := List.mem_map.mp hx
  obtain ⟨i, hi⟩ := List.getElem?_of_mem hproc
  have := h i
  simp only [Scheduler.code, hi] at this
  simp [this]

/-- The result of a run that returns, on any table: either the table is empty and
nothing happened, or the result is the state after some number of iterations in which
no process is active. -/
theorem Run_result (order : Int → List Nat) (fuel : Nat) (s : Scheduler) (r : RunState)
    (h : Run order fuel s = some r) :
    (s.procInfo = [] ∧
      r = ({ s := s, cpuBusy := 0, ioBusy := 0, clockTick := 0, errs := [],
             transitions := [], execs := [] } : RunState)) ∨
    (s.procInfo ≠ [] ∧ ∃ k, k ≤ fuel ∧ r = runState order s k ∧ LoopRuns order s k ∧
      GetNumActive r.s = 0) := by
  by_cases hne : s.procInfo = []
  · left
    refine ⟨hne, ?_⟩
    simp only [Run, hne, List.length_nil, if_true, Option.some.injEq] at h
    rw [← h]
  · exact Or.inr ⟨hne, Run_eq_runState order fuel s r hne h⟩

/-- On unbounded integers: for every run of `Run` that returns, on a table whose
processes are all READY, `cpuBusy` is the total length of the loaded `Code`, which is
the number of `cpu`, `io` and `io_done` instructions together, and it is at most the
tick count. -/
theorem cpuBusy_eq_total_ideal (order : Int → List Nat) (fuel : Nat) (s : Scheduler)
    (r : RunState) (hready : ∀ proc ∈ s.procInfo, proc.State = READY)
    (hrun : Run order fuel s = some r) :
    r.cpuBusy = ((s.procInfo.map (fun proc => proc.Code.length)).sum : Nat) ∧
      r.cpuBusy = ((countInstr Instr.cpu s + countInstr Instr.io s +
        countInstr Instr.io_done s : Nat) : Int) ∧
      r.cpuBusy ≤ r.clockTick := by
  have key : r.cpuBusy = (codeSum s : Int) ∧ r.cpuBusy ≤ r.clockTick := by
    rcases Run_result order fuel s r hrun with ⟨hnil, hr⟩ | ⟨-, k, -, hr, -, hz⟩
    · rw [hr]
      simp [codeSum, hnil]
    · have hcodes := codes_empty_of_inactive r.s
        (by rw [hr]; exact (runState_trace order s k).done (DoneEmpty_of_ready s hready)) hz
      have h1 := (runState_trace order s k).cpu
      have h2 := (runState_trace order s k).cpu_le
      have h3 := (runState_trace order s k).clock
      rw [← hr] at h1 h2 h3
      rw [codeSum_eq_zero r.s hcodes] at h1
      constructor
      · simpa using h1
      · rw [h3]; exact h2
  refine ⟨key.1, ?_, key.2⟩
  rw [key.1, codeSum_eq_counts]

theorem code_length_step (order : Int → List Nat) (s : Scheduler) (k p : Nat) :
    ((runState order s (k + 1)).s.code p).length ≤ ((runState order s k).s.code p).length := by
  have h1 := (runState_trace order s k).executed p
  have h2 := (runState_trace order s (k + 1)).executed p
  have hE := (tick_effect order (runState order s k)).exec
  have hstep : runState order s (k + 1) = tick order (runState order s k) := rfl
  rw [hstep] at h2 ⊢
  have hlen := congrArg List.length (h2.trans h1.symm)
  simp only [List.length_append] at hlen
  rcases hE with ⟨-, -, -, hex⟩ | ⟨c, instr, rest, -, -, -, -, -, -, -, hex, -⟩
  · rw [hex] at hlen; omega
  · rw [hex, executedBy_append] at hlen
    split at hlen
    · simp only [List.length_append, List.length_singleton] at hlen; omega
    · omega

/-- C22. For every run of `Run` that returns, on a table whose processes are all READY
(whatever `ioLength`, the policies and the scan order), and every process `p`: the
instructions that `p` executed, in the order of the log of executed instructions, are
exactly the loaded `Code` of `p`, in the same order, each once.  The log is in strict
tick order, so at most one instruction is executed per tick.  After every iteration
the instructions executed so far by `p` followed by the remaining `Code` of `p` are the
loaded `Code` of `p`, and the length of the `Code` of `p` never increases. -/
theorem Run_executes_loaded_code (order : Int → List Nat) (fuel : Nat) (s : Scheduler)
    (r : RunState) (hready : ∀ proc ∈ s.procInfo, proc.State = READY)
    (hrun : Run order fuel s = some r) :
    (∀ p, executedBy p r.execs = s.code p) ∧
      (∀ p proc, s.procInfo[p]? = some proc → executedBy p r.execs = proc.Code) ∧
      (r.execs.map (fun e => e.1)).Pairwise (fun a b => a < b) ∧
      (∀ k p, executedBy p (runState order s k).execs ++ (runState order s k).s.code p =
        s.code p) ∧
      (∀ k p, ((runState order s (k + 1)).s.code p).length ≤
        ((runState order s k).s.code p).length) := by
  have key : (∀ p, executedBy p r.execs = s.code p) ∧
      (r.execs.map (fun e => e.1)).Pairwise (fun a b => a < b) := by
    rcases Run_result order fuel s r hrun with ⟨hnil, hr⟩ | ⟨-, k, -, hr, -, hz⟩
    · rw [hr]
      refine ⟨fun p => ?_, List.Pairwise.nil⟩
      simp [executedBy, Scheduler.code, hnil]
    · have hcodes := codes_empty_of_inactive r.s
        (by rw [hr]; exact (runState_trace order s k).done (DoneEmpty_of_ready s hready)) hz
      have h1 := (runState_trace order s k).executed
      have h2 := (runState_trace order s k).execs_sorted
      rw [← hr] at h1 h2
      refine ⟨fun p => ?_, h2⟩
      have := h1 p
      rw [hcodes p, List.append_nil] at this
      exact this
  refine ⟨key.1, ?_, key.2, fun k => (runState_trace order s k).executed,
    code_length_step order s⟩
  intro p proc hp
  rw [key.1 p]
  simp [Scheduler.code, hp]

theorem Run_executes_loaded_code_witness :
    (∀ p, executedBy p ((Run (fun _ => [0, 1]) 34 scenario).get (by decide)).execs =
        scenario.code p) ∧
      (∀ p proc, scenario.procInfo[p]? = some proc →
        executedBy p ((Run (fun _ => [0, 1]) 34 scenario).get (by decide)).execs = proc.Code) ∧
      (((Run (fun _ => [0, 1]) 34 scenario).get (by decide)).execs.map
        (fun e => e.1)).Pairwise (fun a b => a < b) ∧
      (∀ k p, executedBy p (runState (fun _ => [0, 1]) scenario k).execs ++
          (runState (fun _ => [0, 1]) scenario k).s.code p = scenario.code p) ∧
      (∀ k p, ((runState (fun _ => [0, 1]) scenario (k + 1)).s.code p).length ≤
        ((runState (fun _ => [0, 1]) scenario k).s.code p).length) :=
  Run_executes_loaded_code (fun _ => [0, 1]) 34 scenario _ (by decide)
    (Option.some_get _).symm

/-! ### Negative I/O lengths -/

theorem scanned_negative (order : Int → List Nat) (s : Scheduler) (hL : s.ioLength < 0)
    (k : Nat) :
    scanned order (runState order s k) =
      { runState order s k with clockTick := (runState order s k).clockTick + 1 } := by
  apply ioScan_noop
  intro p _ hm
  have h1 := (runState_trace order s k).times_le p _ hm
  have h2 := (runState_trace order s k).clock
  simp only at h1
  omega

theorem execs_mono_step (order : Int → List Nat) (s : Scheduler) (k : Nat)
    (e : Int × Int × Instr) (he : e ∈ (runState order s k).execs) :
    e ∈ (runState order s (k + 1)).execs := by
  show e ∈ (tick order (runState order s k)).execs
  rcases (tick_effect order (runState order s k)).exec with ⟨-, -, -, hex⟩ |
    ⟨c, instr, rest, -, -, -, -, -, -, -, hex, -⟩
  · rw [hex]; exact he
  · rw [hex]; exact List.mem_append_left _ he

theorem execs_mono (order : Int → List Nat) (s : Scheduler) (k : Nat)
    (e : Int × Int × Instr) (he : e ∈ (runState order s k).execs) :
    ∀ j, k ≤ j → e ∈ (runState order s j).execs := by
  intro j hj
  induction j with
  | zero =>
    have : k = 0 := by omega
    subst this; exact he
  | succ j ih =>
    by_cases hk : k = j + 1
    · subst hk; exact he
    · exact execs_mono_step order s j e (ih (by omega))

/-- With a negative I/O length, a process that has executed an `io` is BLOCKED. -/
theorem issued_blocked (order : Int → List Nat) (s : Scheduler) (hL : s.ioLength < 0) :
    ∀ (k p : Nat) (t : Int), (t, (p : Int), Instr.io) ∈ (runState order s k).execs →
      (runState order s k).s.st p = BLOCKED
  | 0, p, t, h => by
    have : (runState order s 0).execs = [] := (runInit_effect s).2.2.2.1
    rw [this] at h; cases h
  | k + 1, p, t, h => by
    have ih := issued_blocked order s hL k p t
    have hE := tick_effect order (runState order s k)
    have hscan := scanned_negative order s hL k
    have hblk := hE.blocked p
    rw [hscan] at hblk
    have hstep : runState order s (k + 1) = tick order (runState order s k) := rfl
    rw [hstep] at h ⊢
    rcases hE.exec with ⟨-, -, -, hex⟩ | ⟨c, instr, rest, -, -, -, -, -, -, -, hex, hio⟩
    · rw [hex] at h
      exact hblk (ih h)
    · rw [hex] at h
      rcases List.mem_append.mp h with h' | h'
      · exact hblk (ih h')
      · rw [List.mem_singleton] at h'
        simp only [Prod.mk.injEq] at h'
        obtain ⟨-, hp, hi⟩ := h'
        have hpc : p = c := by exact_mod_cast hp
        rw [hpc]
        exact hio hi.symm

theorem mem_executedBy {p : Nat} {i : Instr} {execs : List (Int × Int × Instr)}
    (h : i ∈ executedBy p execs) : ∃ t : Int, (t, (p : Int), i) ∈ execs := by
  unfold executedBy at h
  obtain ⟨e, he, hi⟩ := List.mem_map.mp h
  rw [List.mem_filter] at he
  obtain ⟨t, q, i'⟩ := e
  simp only [decide_eq_true_eq] at he
  simp only at hi
  exact ⟨t, by rw [← he.2, ← hi]; exact he.1⟩

theorem runLoop_none (order : Int → List Nat) :
    ∀ (fuel : Nat) (r : RunState), (∀ k, 0 < GetNumActive ((tick order)^[k] r).s) →
      runLoop order fuel r = none
  | 0, r, h => by
    have := h 0
    simp only [Function.iterate_zero, id_eq] at this
    simp [runLoop, this]
  | fuel + 1, r, h => by
    have h0 := h 0
    simp only [Function.iterate_zero, id_eq] at h0
    simp only [runLoop, h0, if_true]
    apply runLoop_none order fuel
    intro k
    have := h (k + 1)
    rw [Function.iterate_succ_apply] at this
    exact this

/-- On unbounded integers, for every `ioLength < 0` and every table of READY
processes in which some `Code` contains an `io`: no recorded finish time is later than
the tick at which it is recorded, so the completion scan never finds a completion; a
process that has executed an `io` is BLOCKED from then on; after every number of
iterations some process is not DONE; and `Run` does not return. -/
theorem negative_ioLength_ideal (order : Int → List Nat) (s : Scheduler)
    (hL : s.ioLength < 0) (hready : ∀ proc ∈ s.procInfo, proc.State = READY)
    (hio : ∃ proc ∈ s.procInfo, Instr.io ∈ proc.Code) :
    (∀ sw iod, (NewScheduler sw iod s.ioLength).ioLength = s.ioLength) ∧
      (∀ k p, ∀ x ∈ (runState order s k).s.times p, x ≤ (k : Int)) ∧
      (∀ k, scanned order (runState order s k) =
        { runState order s k with clockTick := (runState order s k).clockTick + 1 }) ∧
      (∀ (k p : Nat) (t : Int), (t, (p : Int), Instr.io) ∈ (runState order s k).execs →
        ∀ j, k ≤ j → (runState order s j).s.st p = BLOCKED) ∧
      (∀ k, 0 < GetNumActive (runState order s k).s) ∧
      ∀ fuel, Run order fuel s = none := by
  have hactive : ∀ k, 0 < GetNumActive (runState order s k).s := by
    intro k
    by_contra hz
    have hz' : GetNumActive (runState order s k).s = 0 := by omega
    have hF := runState_trace order s k
    have hcodes := codes_empty_of_inactive _ (hF.done (DoneEmpty_of_ready s hready)) hz'
    obtain ⟨proc, hproc, hmem⟩ := hio
    obtain ⟨p, hp⟩ := List.getElem?_of_mem hproc
    have hcode : s.code p = proc.Code := by simp [Scheduler.code, hp]
    have hex := hF.executed p
    rw [hcodes p, List.append_nil, hcode] at hex
    obtain ⟨t, ht⟩ := mem_executedBy (hex ▸ hmem)
    have hb := issued_blocked order s hL k p t ht
    have hd : (runState order s k).s.st p = DONE := by
      by_contra hne
      have := (active_pos_iff _).mpr ⟨p, hne⟩
      omega
    rw [hb] at hd; cases hd
  refine ⟨fun _ _ => rfl, ?_, scanned_negative order s hL, ?_, hactive, ?_⟩
  · intro k p x hx
    have := (runState_trace order s k).times_le p x hx
    omega
  · intro k p t h j hj
    exact issued_blocked order s hL j p t (execs_mono order s k _ h j hj)
  · intro fuel
    unfold Run
    obtain ⟨proc, hproc, -⟩ := hio
    have hne : ¬ s.procInfo.length = 0 := by
      intro h
      rw [List.length_eq_zero] at h
      rw [h] at hproc; cases hproc
    rw [if_neg hne]
    apply runLoop_none
    intro k
    rw [← runState_eq_iterate]
    exact hactive k

/-! ### The I/O-busy count -/

theorem wait1_succ (T : Int) : ∀ l : List Int,
    (l.map (fun t => (t - T).toNat)).sum =
      (l.map (fun t => (t - (T + 1)).toNat)).sum + l.countP (fun t => decide (t > T))
  | [] => by simp
  | t :: l => by
    have ih := wait1_succ T l
    simp only [List.map_cons, List.sum_cons, List.countP_cons, ih]
    by_cases h : t > T
    · simp only [h, decide_True, if_true]; omega
    · simp only [h, decide_False]; simp; omega

/-- The waiting time left at time `T` is the waiting time left at `T + 1` plus the
number of I/Os in flight at `T`. -/
theorem waitSum_succ (T : Int) (s : Scheduler) :
    waitSum T s = waitSum (T + 1) s + GetIOSInFlight s T := by
  unfold waitSum GetIOSInFlight
  induction s.ioFinishTimes with
  | nil => simp
  | cons l ls ih =>
    simp only [List.map_cons, List.sum_cons, ih, wait1_succ T l]
    omega

theorem countInstr_congr (i : Instr) {s s' : Scheduler}
    (hlen : s'.procInfo.length = s.procInfo.length) (hcode : ∀ p, s'.code p = s.code p) :
    countInstr i s' = countInstr i s := by
  unfold countInstr
  congr 1
  apply List.ext_getElem?
  intro m
  simp only [List.getElem?_map]
  have h := hcode m
  unfold Scheduler.code at h
  cases h1 : s'.procInfo[m]? with
  | none =>
    cases h2 : s.procInfo[m]? with
    | none => rfl
    | some b =>
      have l1 := List.getElem?_eq_none_iff.mp h1
      have l2 : m < s.procInfo.length := by
        by_contra hge
        have := List.getElem?_eq_none_iff.mpr (Nat.le_of_not_lt hge)
        rw [this] at h2; cases h2
      omega
  | some a =>
    cases h2 : s.procInfo[m]? with
    | none =>
      have l2 := List.getElem?_eq_none_iff.mp h2
      have l1 : m < s'.procInfo.length := by
        by_contra hge
        have := List.getElem?_eq_none_iff.mpr (Nat.le_of_not_lt hge)
        rw [this] at h1; cases h1
      omega
    | some b =>
      rw [h1, h2] at h
      simp only at h
      simp [h]

theorem countInstr_setCode (i : Instr) (s : Scheduler) (c : Nat) (code : List Instr)
    (hc : c < s.procInfo.length) :
    countInstr i (s.setCode (c : Int) code) + (s.code c).count i =
      countInstr i s + code.count i := by
  obtain ⟨proc, hget, -, hcode⟩ := get_of_lt s hc
  unfold countInstr
  rw [setCode_procInfo]
  have := sum_map_modify (fun proc : Process => proc.Code.count i)
    (fun proc => { proc with Code := code }) s.procInfo c proc hget
  simpa [hcode] using this

theorem waitSum_runInit (T : Int) (s : Scheduler) : waitSum T (runInit s).s = 0 := by
  unfold waitSum
  rw [(runInit_effect s).2.2.2.2.2.2.2.2.1]
  exact waitSum_replicate T _

/-- The I/O-busy count, the waiting time still to come and `ioLength` for every `io`
not yet executed never exceed `ioLength` for every loaded `io`. -/
theorem ioBusy_bound (order : Int → List Nat) (s : Scheduler) (hL : 0 ≤ s.ioLength) :
    ∀ k, 0 ≤ (runState order s k).ioBusy ∧
      (runState order s k).ioBusy + (waitSum ((k : Int) + 1) (runState order s k).s : Int) +
          ((s.ioLength.toNat * countInstr Instr.io (runState order s k).s : Nat) : Int) ≤
        ((s.ioLength.toNat * countInstr Instr.io s : Nat) : Int)
  | 0 => by
    obtain ⟨-, hio, -, -, hlen, -, -, -, -, hcode, -⟩ := runInit_effect s
    have h1 : (runState order s 0).ioBusy = 0 := hio
    have h2 : waitSum (((0 : Nat) : Int) + 1) (runState order s 0).s = 0 := waitSum_runInit _ s
    have h3 : countInstr Instr.io (runState order s 0).s = countInstr Instr.io s :=
      countInstr_congr Instr.io hlen hcode
    rw [h1, h2, h3]
    simp
  | k + 1 => by
    obtain ⟨ih0, ih⟩ := ioBusy_bound order s hL k
    have hF := runState_trace order s k
    have hE := tick_effect order (runState order s k)
    have hstep : runState order s (k + 1) = tick order (runState order s k) := rfl
    have hio := hE.ioBusy
    rw [hF.clock] at hio
    have hws := waitSum_succ ((k : Int) + 1) (runState order s k).s
    have hle : (tick order (runState order s k)).ioBusy ≤
        (runState order s k).ioBusy + (GetIOSInFlight (runState order s k).s ((k : Int) + 1) : Int) := by
      rw [hio]
      split
      · rename_i h; omega
      · omega
    have hnn : 0 ≤ (tick order (runState order s k)).ioBusy := by
      rw [hio]; split <;> omega
    rw [hstep]
    refine ⟨hnn, ?_⟩
    have hcast : (((k + 1 : Nat) : Int) + 1) = (k : Int) + 1 + 1 := by push_cast; ring
    rw [hcast]
    rcases hE.exec with ⟨-, hD, -, -⟩ | ⟨c, instr, rest, -, -, hlt, -, hcode, hD, -, -, -⟩
    · rw [waitSum_congr _ hD.times, countInstr_congr Instr.io hD.len hD.code]
      omega
    · have hctl : c < (runState order s k).s.ioFinishTimes.length := by
        rw [hF.timesLen, ← hF.len]; exact hlt
      have hcnt := countInstr_setCode Instr.io (runState order s k).s c rest hlt
      rw [hcode] at hcnt
      by_cases hi : instr = Instr.io
      · simp only [hi, if_true] at hD
        have h1 : countInstr Instr.io (tick order (runState order s k)).s =
            countInstr Instr.io ((runState order s k).s.setCode (c : Int) rest) :=
          countInstr_congr Instr.io (by rw [hD.len]; simp) (fun p => by rw [hD.code]; simp)
        have h2 : waitSum ((k : Int) + 1 + 1) (tick order (runState order s k)).s =
            waitSum ((k : Int) + 1 + 1) (runState order s k).s + s.ioLength.toNat := by
          rw [waitSum_congr _ hD.times,
            waitSum_recordFinish _ _ c _ (by rw [setCode_times]; exact hctl),
            waitSum_congr _ (setCode_times _ _ _), hF.clock, hF.ioLength]
          congr 1
          omega
        rw [hi] at hcnt
        simp only [List.count_cons_self] at hcnt
        have h3 : countInstr Instr.io (runState order s k).s =
            countInstr Instr.io (tick order (runState order s k)).s + 1 := by
          rw [h1]; omega
        rw [h3, Nat.mul_succ] at ih
        rw [h2]
        push_cast at ih ⊢
        omega
      · simp only [hi, if_false] at hD
        have h1 : countInstr Instr.io (tick order (runState order s k)).s =
            countInstr Instr.io (runState order s k).s := by
          rw [countInstr_congr Instr.io hD.len hD.code]
          rw [List.count_cons_of_ne (fun h => hi h.symm)] at hcnt
          omega
        rw [waitSum_congr _ hD.times, waitSum_congr _ (setCode_times _ _ _), h1]
        omega

/-! ### Runs that finish -/

theorem runLoop_some (order : Int → List Nat) :
    ∀ (k fuel : Nat) (r : RunState),
      (∀ i, i < k → 0 < GetNumActive ((tick order)^[i] r).s) →
      GetNumActive ((tick order)^[k] r).s = 0 → k ≤ fuel →
        runLoop order fuel r = some ((tick order)^[k] r)
  | 0, fuel, r, _, hz, _ => by
    simp only [Function.iterate_zero, id_eq] at hz ⊢
    cases fuel <;> simp [runLoop, hz]
  | k + 1, fuel, r, hrun, hz, hle => by
    obtain ⟨f, rfl⟩ : ∃ f, fuel = f + 1 := ⟨fuel - 1, by omega⟩
    have h0 := hrun 0 (by omega)
    simp only [Function.iterate_zero, id_eq] at h0
    simp only [runLoop, h0, if_true]
    rw [Function.iterate_succ_apply]
    apply runLoop_some order k f (tick order r)
    · intro i hi
      have := hrun (i + 1) (by omega)
      rw [Function.iterate_succ_apply] at this
      exact this
    · rw [Function.iterate_succ_apply] at hz; exact hz
    · omega

/-- If the loop of `Run` makes `k` iterations and no process is active after them,
`Run` returns the state after `k` iterations, given at least `k` iterations. -/
theorem Run_of_runs (order : Int → List Nat) (s : Scheduler) (k fuel : Nat)
    (hne : s.procInfo ≠ []) (hrun : LoopRuns order s k)
    (hz : GetNumActive (runState order s k).s = 0) (hle : k ≤ fuel) :
    Run order fuel s = some (runState order s k) := by
  unfold Run
  have : ¬ s.procInfo.length = 0 := fun h => hne (List.length_eq_zero.mp h)
  rw [if_neg this, runState_eq_iterate]
  apply runLoop_some order k fuel
  · intro i hi
    rw [← runState_eq_iterate]; exact hrun i hi
  · rw [← runState_eq_iterate]; exact hz
  · exact hle

theorem inflight_pos (s : Scheduler) (p : Nat) (x T : Int) (hx : x ∈ s.times p) (hgt : x > T) :
    0 < GetIOSInFlight s T := by
  unfold Scheduler.times at hx
  rw [List.getD_eq_getElem?_getD] at hx
  cases hg : s.ioFinishTimes[p]? with
  | none => rw [hg] at hx; cases hx
  | some l =>
    rw [hg] at hx
    simp only [Option.getD_some] at hx
    unfold GetIOSInFlight
    have hl : l ∈ s.ioFinishTimes := List.getElem?_mem hg
    have h1 : 0 < l.countP (fun t => decide (t > T)) :=
      List.countP_pos_iff.mpr ⟨x, hx, by simpa using hgt⟩
    have h2 : l.countP (fun t => decide (t > T)) ≤
        (s.ioFinishTimes.map (fun l => l.countP (fun t => decide (t > T)))).sum :=
      List.single_le_sum (fun _ _ => Nat.zero_le _) _ (List.mem_map.mpr ⟨l, hl, rfl⟩)
    omega

theorem executedBy_mem {p : Nat} {i : Instr} {t : Int} {execs : List (Int × Int × Instr)}
    (h : (t, (p : Int), i) ∈ execs) : i ∈ executedBy p execs := by
  unfold executedBy
  exact List.mem_map.mpr ⟨(t, (p : Int), i), List.mem_filter.mpr ⟨h, by simp⟩, rfl⟩

/-- A tick in which the current process executes its last instruction, which is not
`io`, ends with one active process fewer. -/
theorem tick_finishes (order : Int → List Nat) (r : RunState) (hI : LoopInv r)
    (hperm : (order (r.clockTick + 1)).Perm (List.range r.s.procInfo.length))
    (instr : Instr) (hni : instr ≠ Instr.io)
    (hrun : (scanned order r).s.st (scanned order r).s.cur = RUNNING)
    (hcode : r.s.code (scanned order r).s.cur = [instr]) :
    GetNumActive (tick order r).s + 1 = GetNumActive (scanned order r).s := by
  obtain ⟨hC, hG1, -, -⟩ := scanned_spec order r hI hperm
  obtain ⟨r1, hr1⟩ : ∃ r1 : RunState, r1 = scanned order r := ⟨_, rfl⟩
  rw [← hr1] at hC hG1 hrun hcode ⊢
  have hcode1 : r1.s.code r1.s.cur = [instr] := by rw [hC.code]; exact hcode
  have htick : tick order r = afterExec (execStep r1).2 (ioBusyStep (execStep r1).1) := by
    rw [hr1]; rfl
  rcases execStep_spec r1 hG1 with ⟨-, -, hneg⟩ | ⟨i, rest, -, hc, hsome, heq⟩
  · exact absurd ⟨hrun, by rw [hcode1]; simp⟩ hneg
  · rw [hcode1] at hc
    simp only [List.cons.injEq] at hc
    obtain ⟨hi, hrest⟩ := hc
    have hs2 : (execStep r1).1.s = r1.s.setCode (r1.s.cur : Int) [] := by rw [heq, ← hrest]
    obtain ⟨r3, hr3⟩ : ∃ r3 : RunState, r3 = ioBusyStep (execStep r1).1 := ⟨_, rfl⟩
    have hs3 : r3.s = r1.s.setCode (r1.s.cur : Int) [] := by rw [hr3, ioBusyStep_s, hs2]
    have hdef : tick order r = r3.call CheckIfDone := by
      rw [htick, hsome, ← hr3]
      unfold afterExec
      have : ¬ (some i = some Instr.io) := fun h => hni (hi ▸ Option.some.inj h)
      simp only [this, if_false]
    have hG3 : Good r3.s := by rw [hs3]; exact Good_setCode r1.s hG1 [] hrun
    obtain ⟨-, -, -, hact⟩ := CheckIfDone_call r3 hG3
    have hcur3 : r3.s.cur = r1.s.cur := by rw [hs3]; simp
    have hcond : r3.s.code r3.s.cur = [] ∧ r3.s.st r3.s.cur = RUNNING := by
      rw [hcur3, hs3]
      refine ⟨?_, by simpa using hrun⟩
      rw [setCode_code]; simp [hG1.cur_lt]
    rw [if_pos hcond] at hact
    rw [hdef, hact, hs3]
    exact active_setCode _ _ _

/-! ### The single process `"i"` -/

theorem ioTable_procInfo (sw : SwitchBehavior) (iod : IODoneBehavior) (L : Int) :
    (ioTable sw iod L).procInfo =
      [{ PID := 0, PC := 0, Code := [Instr.io, Instr.io_done], State := READY, IOTime := 0 }] := rfl

theorem ioTable_ready (sw : SwitchBehavior) (iod : IODoneBehavior) (L : Int) :
    ∀ proc ∈ (ioTable sw iod L).procInfo, proc.State = READY := by
  intro proc hp
  rw [ioTable_procInfo] at hp
  rw [List.mem_singleton.mp hp]

theorem ioTable_followed (sw : SwitchBehavior) (iod : IODoneBehavior) (L : Int) :
    ∀ proc ∈ (ioTable sw iod L).procInfo, IoFollowed proc.Code := by
  intro proc hp
  rw [ioTable_procInfo] at hp
  rw [List.mem_singleton.mp hp]
  intro i hi
  match i, hi with
  | 0, _ => rfl
  | 1, h => cases h
  | (_ + 2), h => cases h

theorem ioTable_counts (sw : SwitchBehavior) (iod : IODoneBehavior) (L : Int) :
    codeSum (ioTable sw iod L) = 2 ∧ countInstr Instr.io (ioTable sw iod L) = 1 ∧
      (ioTable sw iod L).ioLength = L ∧ (ioTable sw iod L).procInfo.length = 1 :=
  ⟨rfl, rfl, rfl, rfl⟩

theorem active_le_length (s : Scheduler) : GetNumActive s ≤ s.procInfo.length :=
  List.countP_le_length _

theorem code_after_io {l rest : List Instr}
    (h : l ++ Instr.io_done :: rest = [Instr.io, Instr.io_done]) : rest = [] := by
  match l, h with
  | [], h => simp at h
  | [_], h =>
    simp at h
    exact h.2
  | _ :: _ :: l, h => simp at h

/-- The first tick of the single process `"i"` executes `io` and records the finish
time `ioLength + 2`. -/
theorem ioTable_first_tick (order : Int → List Nat) (sw : SwitchBehavior) (iod : IODoneBehavior)
    (L : Int) (hL : 0 ≤ L) (hperm : ∀ t, (order t).Perm (List.range 1)) :
    LoopRuns order (ioTable sw iod L) 1 ∧
      L + 2 ∈ (runState order (ioTable sw iod L) 1).s.times 0 := by
  have hne : (ioTable sw iod L).procInfo ≠ [] := by rw [ioTable_procInfo]; simp
  have hrun0 : LoopRuns order (ioTable sw iod L) 0 := fun i hi => absurd hi (by omega)
  have hF := runState_facts order (ioTable sw iod L) hL hne (ioTable_ready sw iod L) hperm 0 hrun0
  have hst : (runState order (ioTable sw iod L) 0).s.st 0 = RUNNING := rfl
  have hrun1 : LoopRuns order (ioTable sw iod L) 1 := by
    intro i hi
    obtain rfl : i = 0 := by omega
    exact (active_pos_iff _).mpr ⟨0, by rw [hst]; decide⟩
  refine ⟨hrun1, ?_⟩
  have hscan : scanned order (runState order (ioTable sw iod L) 0) =
      { runState order (ioTable sw iod L) 0 with
        clockTick := (runState order (ioTable sw iod L) 0).clockTick + 1 } := by
    apply ioScan_noop
    intro p _ hm
    have : (runState order (ioTable sw iod L) 0).s.times p = [] := (runInit_data _).2.2.1 p
    simp only at hm
    rw [this] at hm
    cases hm
  obtain ⟨-, -, -, hcase⟩ := tick_detail order (runState order (ioTable sw iod L) 0) hF.inv hF.perm
  rw [hscan] at hcase
  have hcur : (runState order (ioTable sw iod L) 0).s.cur = 0 := rfl
  have hcode : (runState order (ioTable sw iod L) 0).s.code 0 = [Instr.io, Instr.io_done] := rfl
  have hclock : (runState order (ioTable sw iod L) 0).clockTick = 0 := rfl
  have hlen : (runState order (ioTable sw iod L) 0).s.ioLength = L := rfl
  simp only [hcur, hcode, hst, hclock, hlen] at hcase
  rcases hcase with ⟨-, hneg, -⟩ | ⟨instr, rest, -, -, hc, -, -, htimes⟩
  · exact absurd ⟨trivial, by simp⟩ hneg
  · simp only [List.cons.injEq] at hc
    have h0 := htimes 0
    rw [← hc.1] at h0
    simp only [true_and, if_true] at h0
    show L + 2 ∈ (tick order (runState order (ioTable sw iod L) 0)).s.times 0
    rw [h0]
    have : (0 : Int) + 1 + L + 1 = L + 2 := by ring
    rw [this]
    exact List.mem_append_right _ (List.mem_singleton_self _)

/-- The run of the single process `"i"` with I/O length `n`: the loop makes exactly
`n + 2` iterations, and the counters are then `2`, `n` and `n + 2`. -/
theorem ioTable_run (order : Int → List Nat) (sw : SwitchBehavior) (iod : IODoneBehavior)
    (n : Nat) (hperm : ∀ t, (order t).Perm (List.range 1)) :
    LoopRuns order (ioTable sw iod (n : Int)) (1 + n + 1) ∧
      GetNumActive (runState order (ioTable sw iod (n : Int)) (1 + n + 1)).s = 0 ∧
      (runState order (ioTable sw iod (n : Int)) (1 + n + 1)).cpuBusy = 2 ∧
      (runState order (ioTable sw iod (n : Int)) (1 + n + 1)).ioBusy = (n : Int) ∧
      (runState order (ioTable sw iod (n : Int)) (1 + n + 1)).clockTick = (n : Int) + 2 := by
  have hL : 0 ≤ (ioTable sw iod (n : Int)).ioLength := Int.natCast_nonneg n
  have hne : (ioTable sw iod (n : Int)).procInfo ≠ [] := by rw [ioTable_procInfo]; simp
  have hready := ioTable_ready sw iod (n : Int)
  obtain ⟨hsum, hcnt, hlen, hsize⟩ := ioTable_counts sw iod (n : Int)
  obtain ⟨hrun1, hx1⟩ := ioTable_first_tick order sw iod (n : Int) (Int.natCast_nonneg n) hperm
  have hP := pending_io order (ioTable sw iod (n : Int)) hL hne hready hperm 1 0 ((n : Int) + 2)
    hrun1 hx1
  obtain ⟨hrunK, hxn, hbn⟩ := hP n (by push_cast; omega)
  have hF := runState_facts order (ioTable sw iod (n : Int)) hL hne hready hperm (1 + n)
    (hrunK.of_le (by omega))
  have hdue : (((1 + n : Nat) : Int)) + 1 ∈
      (runState order (ioTable sw iod (n : Int)) (1 + n)).s.times 0 := by
    have : (((1 + n : Nat) : Int)) + 1 = (n : Int) + 2 := by push_cast; ring
    rw [this]; exact hxn
  obtain ⟨-, hnb, -⟩ := pending_scan_due order (ioTable sw iod (n : Int)) (1 + n) 0 hF hdue
  obtain ⟨hC, hG1, -, -⟩ := scanned_spec order _ hF.inv hF.perm
  have hT := runState_trace order (ioTable sw iod (n : Int))
  have hcur : (scanned order (runState order (ioTable sw iod (n : Int)) (1 + n))).s.cur = 0 := by
    have h1 := hG1.cur_lt
    have h2 := hC.len
    have h3 := hF.len
    simp only at h2
    omega
  -- the code left is `[io_done]`
  have hfront := runState_blocked_front order (ioTable sw iod (n : Int)) hL hne hready hperm
    (ioTable_followed sw iod (n : Int)) (1 + n) (hrunK.of_le (by omega)) 0 hbn
  have hexec := (hT (1 + n)).executed 0
  have hcode : (runState order (ioTable sw iod (n : Int)) (1 + n)).s.code 0 = [Instr.io_done] := by
    have hs : (ioTable sw iod (n : Int)).code 0 = [Instr.io, Instr.io_done] := rfl
    rw [hs] at hexec
    cases hc : (runState order (ioTable sw iod (n : Int)) (1 + n)).s.code 0 with
    | nil => rw [hc] at hfront; cases hfront
    | cons a rest =>
      rw [hc] at hfront hexec
      simp only [List.getElem?_cons_zero, Option.some.injEq] at hfront
      rw [hfront] at hexec
      rw [hfront, code_after_io hexec]
  have hst : (scanned order (runState order (ioTable sw iod (n : Int)) (1 + n))).s.st 0 = RUNNING := by
    cases h : (scanned order (runState order (ioTable sw iod (n : Int)) (1 + n))).s.st 0 with
    | RUNNING => rfl
    | BLOCKED => exact absurd h hnb
    | READY =>
      rcases hG1.ready 0 h with h1 | ⟨-, h1⟩ <;> rw [hcur, h] at h1 <;> cases h1
    | DONE =>
      have h1 := hG1.done 0 h
      rw [hC.code 0] at h1
      simp only at h1
      rw [hcode] at h1
      cases h1
  have hfin := tick_finishes order (runState order (ioTable sw iod (n : Int)) (1 + n)) hF.inv
    hF.perm Instr.io_done (by decide) (by rw [hcur]; exact hst) (by rw [hcur]; exact hcode)
  have hz : GetNumActive (runState order (ioTable sw iod (n : Int)) (1 + n + 1)).s = 0 := by
    have h1 := active_le_length (scanned order (runState order (ioTable sw iod (n : Int)) (1 + n))).s
    have h2 := hC.len
    have h3 := hF.len
    simp only at h2
    have h4 : GetNumActive (tick order (runState order (ioTable sw iod (n : Int)) (1 + n))).s = 0 := by
      omega
    exact h4
  refine ⟨hrunK, hz, ?_, ?_, ?_⟩
  · have h1 := (hT (1 + n + 1)).cpu
    have h2 := codeSum_eq_zero _
      (codes_empty_of_inactive _ ((hT (1 + n + 1)).done (DoneEmpty_of_ready _ hready)) hz)
    rw [h2, hsum] at h1
    simpa using h1
  · have hup := (ioBusy_bound order (ioTable sw iod (n : Int)) hL (1 + n + 1)).2
    rw [hcnt, hlen] at hup
    have hlow : ∀ d : Nat, d ≤ n →
        (d : Int) ≤ (runState order (ioTable sw iod (n : Int)) (1 + d)).ioBusy := by
      intro d
      induction d with
      | zero => intro _; exact (ioBusy_bound order (ioTable sw iod (n : Int)) hL (1 + 0)).1
      | succ d ih =>
        intro hd
        have h1 := ih (by omega)
        obtain ⟨-, hxd, -⟩ := hP d (by push_cast; omega)
        have h2 := (tick_effect order (runState order (ioTable sw iod (n : Int)) (1 + d))).ioBusy
        have hpos := inflight_pos _ 0 _
          ((runState order (ioTable sw iod (n : Int)) (1 + d)).clockTick + 1) hxd
          (by rw [(hT (1 + d)).clock]; push_cast; omega)
        rw [if_pos hpos] at h2
        have h3 : (runState order (ioTable sw iod (n : Int)) (1 + (d + 1))).ioBusy =
            (tick order (runState order (ioTable sw iod (n : Int)) (1 + d))).ioBusy := rfl
        rw [h3, h2]
        push_cast
        omega
    have h1 := hlow n (le_refl n)
    have h2 := (tick_effect order (runState order (ioTable sw iod (n : Int)) (1 + n))).ioBusy
    have h3 : (runState order (ioTable sw iod (n : Int)) (1 + n + 1)).ioBusy =
        (tick order (runState order (ioTable sw iod (n : Int)) (1 + n))).ioBusy := rfl
    rw [h3] at hup ⊢
    have h4 : (0 : Int) ≤ (waitSum (((1 + n + 1 : Nat) : Int) + 1)
        (runState order (ioTable sw iod (n : Int)) (1 + n + 1)).s : Int) := Int.natCast_nonneg _
    have h5 : (0 : Int) ≤ (((n : Int).toNat *
        countInstr Instr.io (runState order (ioTable sw iod (n : Int)) (1 + n + 1)).s : Nat) : Int) :=
      Int.natCast_nonneg _
    have h6 : (((n : Int).toNat * 1 : Nat) : Int) = (n : Int) := by simp
    rw [h6] at hup
    split at h2 <;> omega
  · rw [(hT (1 + n + 1)).clock]; push_cast; ring

/-- On unbounded integers: for every run of `Run` that returns, on a table with
`ioLength ≥ 0`, the I/O-busy count returned is at least 0 and at most `ioLength` times
the number of `io` instructions loaded, and it is 0 when `ioLength = 0`; in every
iteration the count goes up by one exactly when some recorded finish time is later than
the current tick; a finish time recorded by tick `k` is at most `k + ioLength + 1`; and
the single process `"i"` runs `ioLength + 2` ticks with `cpuBusy = 2` and
`ioBusy = ioLength`. -/
theorem ioBusy_bound_ideal (order : Int → List Nat) (fuel : Nat) (s : Scheduler) (r : RunState)
    (hL : 0 ≤ s.ioLength) (hrun : Run order fuel s = some r) :
    0 ≤ r.ioBusy ∧ r.ioBusy ≤ s.ioLength * (countInstr Instr.io s : Int) ∧
      (s.ioLength = 0 → r.ioBusy = 0) ∧
      (∀ k, (runState order s (k + 1)).ioBusy = (runState order s k).ioBusy +
        (if GetIOSInFlight (runState order s k).s ((k : Int) + 1) > 0 then 1 else 0)) ∧
      (∀ k p, ∀ x ∈ (runState order s k).s.times p, x ≤ (k : Int) + s.ioLength + 1) ∧
      (∀ (sw : SwitchBehavior) (iod : IODoneBehavior) (L : Int) (o : Int → List Nat) (f : Nat),
        0 ≤ L → (∀ t, (o t).Perm (List.range 1)) → L.toNat + 2 ≤ f →
          ∃ res, Run o f (ioTable sw iod L) = some res ∧
            res.cpuBusy = 2 ∧ res.ioBusy = L ∧ res.clockTick = L + 2) := by
  have key : 0 ≤ r.ioBusy ∧ r.ioBusy ≤ s.ioLength * (countInstr Instr.io s : Int) := by
    rcases Run_result order fuel s r hrun with ⟨-, hr⟩ | ⟨-, k, -, hr, -, -⟩
    · rw [hr]
      exact ⟨le_refl _, mul_nonneg hL (Int.natCast_nonneg _)⟩
    · obtain ⟨h0, hb⟩ := ioBusy_bound order s hL k
      rw [hr]
      refine ⟨h0, ?_⟩
      have h1 : (0 : Int) ≤ (waitSum ((k : Int) + 1) (runState order s k).s : Int) :=
        Int.natCast_nonneg _
      have h2 : (0 : Int) ≤
          ((s.ioLength.toNat * countInstr Instr.io (runState order s k).s : Nat) : Int) :=
        Int.natCast_nonneg _
      have h3 : ((s.ioLength.toNat * countInstr Instr.io s : Nat) : Int) =
          s.ioLength * (countInstr Instr.io s : Int) := by
        push_cast
        rw [Int.toNat_of_nonneg hL]
      rw [h3] at hb
      omega
  refine ⟨key.1, key.2, ?_, ?_, ?_, ?_⟩
  · intro h0
    have h := key.2
    rw [h0, zero_mul] at h
    exact le_antisymm h key.1
  · intro k
    have h := (tick_effect order (runState order s k)).ioBusy
    rw [(runState_trace order s k).clock] at h
    exact h
  · intro k
    exact (runState_trace order s k).times_le
  · intro sw iod L o f hL0 hperm hf
    obtain ⟨n, rfl⟩ : ∃ n : Nat, L = (n : Int) := ⟨L.toNat, (Int.toNat_of_nonneg hL0).symm⟩
    obtain ⟨hruns, hz, hcpu, hio, hclock⟩ := ioTable_run o sw iod n hperm
    refine ⟨runState o (ioTable sw iod (n : Int)) (1 + n + 1), ?_, hcpu, hio, hclock⟩
    apply Run_of_runs o _ _ f _ hruns hz
    · simp only [Int.toNat_ofNat] at hf
      omega
    · rw [ioTable_procInfo]; simp

/-! ### 64-bit wrap-around -/

theorem wrap64_of_inRange {x : Int} (h : InRange64 x) : wrap64 x = x := by
  unfold InRange64 at h
  unfold wrap64
  omega

theorem wrap64_wrap_add (x y : Int) : wrap64 (wrap64 x + y) = wrap64 (x + y) := by
  unfold wrap64
  omega

theorem wrap64_inRange (x : Int) : InRange64 (wrap64 x) := by
  unfold InRange64 wrap64
  omega

theorem runState64_eq_iterate (order : Int → List Nat) (s : Scheduler) :
    ∀ k, runState64 order s k = (tick64 order)^[k] (runInit s)
  | 0 => rfl
  | k + 1 => by
    rw [Function.iterate_succ_apply']
    show tick64 order (runState64 order s k) = _
    rw [runState64_eq_iterate order s k]

theorem runLoop64_some (order : Int → List Nat) :
    ∀ (k fuel : Nat) (r : RunState),
      (∀ i, i < k → 0 < GetNumActive ((tick64 order)^[i] r).s) →
      GetNumActive ((tick64 order)^[k] r).s = 0 → k ≤ fuel →
        runLoop64 order fuel r = some ((tick64 order)^[k] r)
  | 0, fuel, r, _, hz, _ => by
    simp only [Function.iterate_zero, id_eq] at hz ⊢
    cases fuel <;> simp [runLoop64, hz]
  | k + 1, fuel, r, hrun, hz, hle => by
    obtain ⟨f, rfl⟩ : ∃ f, fuel = f + 1 := ⟨fuel - 1, by omega⟩
    have h0 := hrun 0 (by omega)
    simp only [Function.iterate_zero, id_eq] at h0
    simp only [runLoop64, h0, if_true]
    rw [Function.iterate_succ_apply]
    apply runLoop64_some order k f (tick64 order r)
    · intro i hi
      have := hrun (i + 1) (by omega)
      rw [Function.iterate_succ_apply] at this
      exact this
    · rw [Function.iterate_succ_apply] at hz; exact hz
    · omega

theorem runLoop64_none (order : Int → List Nat) :
    ∀ (fuel : Nat) (r : RunState),
      (∀ i, i ≤ fuel → 0 < GetNumActive ((tick64 order)^[i] r).s) →
        runLoop64 order fuel r = none
  | 0, r, h => by
    have h0 := h 0 (le_refl 0)
    simp only [Function.iterate_zero, id_eq] at h0
    simp [runLoop64, h0]
  | fuel + 1, r, h => by
    have h0 := h 0 (by omega)
    simp only [Function.iterate_zero, id_eq] at h0
    simp only [runLoop64, h0, if_true]
    apply runLoop64_none order fuel
    intro i hi
    have := h (i + 1) (by omega)
    rw [Function.iterate_succ_apply] at this
    exact this

/-- If the loop of `Run64` makes `k` iterations and no process is active after them,
`Run64` returns the state after `k` iterations, given at least `k` iterations. -/
theorem Run64_of_runs (order : Int → List Nat) (s : Scheduler) (k fuel : Nat)
    (hne : s.procInfo ≠ []) (hrun : LoopRuns64 order s k)
    (hz : GetNumActive (runState64 order s k).s = 0) (hle : k ≤ fuel) :
    Run64 order fuel s = some (runState64 order s k) := by
  unfold Run64
  have : ¬ s.procInfo.length = 0 := fun h => hne (List.length_eq_zero.mp h)
  rw [if_neg this, runState64_eq_iterate]
  apply runLoop64_some order k fuel
  · intro i hi
    rw [← runState64_eq_iterate]; exact hrun i hi
  · rw [← runState64_eq_iterate]; exact hz
  · exact hle

/-- If the loop condition of `Run64` holds in each of the first `fuel + 1` states,
`Run64` does not return within `fuel` iterations. -/
theorem Run64_none_of_runs (order : Int → List Nat) (s : Scheduler) (fuel : Nat)
    (hne : s.procInfo ≠ []) (hrun : LoopRuns64 order s (fuel + 1)) :
    Run64 order fuel s = none := by
  unfold Run64
  have : ¬ s.procInfo.length = 0 := fun h => hne (List.length_eq_zero.mp h)
  rw [if_neg this]
  apply runLoop64_none order fuel
  intro i hi
  rw [← runState64_eq_iterate]
  exact hrun i (by omega)

/-! ### The single process `"i"` while its I/O is pending -/

theorem pending_active (L F c b : Int) : GetNumActive (pendingState L F c b).s = 1 := rfl

/-- A tick of `Run64` in which the pending I/O does not complete only advances the
clock, and counts the I/O when its finish time is later than the new clock. -/
theorem pending_tick (L F c b : Int) (h : wrap64 (c + 1) ≠ F) :
    tick64 (fun _ => [0]) (pendingState L F c b) =
      pendingState L F (wrap64 (c + 1)) (if F > wrap64 (c + 1) then wrap64 (b + 1) else b) := by
  have hscan : ioScan [0] { pendingState L F c b with clockTick := wrap64 (c + 1) } =
      { pendingState L F c b with clockTick := wrap64 (c + 1) } := by
    apply ioScan_noop
    intro p _ hm
    have hm2 : wrap64 (c + 1) ∈ (pendingState L F c b).s.times p := hm
    match p, hm2 with
    | 0, hm2 =>
      have : (pendingState L F c b).s.times 0 = [F] := rfl
      rw [this] at hm2
      exact h (List.mem_singleton.mp hm2)
    | (p + 1), hm2 =>
      have : (pendingState L F c b).s.times (p + 1) = [] := rfl
      rw [this] at hm2
      cases hm2
  show afterExec64 (execStep64 (ioScan [0] { pendingState L F c b with clockTick := wrap64 (c + 1) })).2
    (ioBusyStep64 (execStep64 (ioScan [0] { pendingState L F c b with clockTick := wrap64 (c + 1) })).1) = _
  rw [hscan]
  have he : execStep64 { pendingState L F c b with clockTick := wrap64 (c + 1) } =
      ({ pendingState L F c b with clockTick := wrap64 (c + 1) }, none) := rfl
  rw [he]
  have hin : GetIOSInFlight (pendingState L F c b).s (wrap64 (c + 1)) =
      if F > wrap64 (c + 1) then 1 else 0 := by
    simp [GetIOSInFlight, pendingState, List.countP_cons]
  unfold ioBusyStep64
  simp only [hin]
  by_cases hF : F > wrap64 (c + 1)
  · simp only [hF, if_true]
    rfl
  · simp only [hF, if_false]
    rfl

/-! ### The run of `"i"` with `ioLength = 2^63 - 1` on 64-bit integers -/

theorem overflow_first :
    runState64 (fun _ => [0])
      (ioTable SwitchBehavior.SWITCH_ON_END IODoneBehavior.IO_RUN_LATER 9223372036854775807) 1 =
      pendingState 9223372036854775807 (-9223372036854775807) 1 0 := by decide

/-- Ticks `1` to `2^63 - 1`: the recorded finish time is negative, so the process
waits and no I/O counts as in flight. -/
theorem overflow_wait : ∀ k : Nat, 1 ≤ k → k ≤ 9223372036854775807 →
    runState64 (fun _ => [0])
      (ioTable SwitchBehavior.SWITCH_ON_END IODoneBehavior.IO_RUN_LATER 9223372036854775807) k =
      pendingState 9223372036854775807 (-9223372036854775807) (k : Int) 0
  | 0, h, _ => absurd h (by omega)
  | 1, _, _ => overflow_first
  | k + 2, _, hk => by
    show tick64 (fun _ => [0]) (runState64 (fun _ => [0]) _ (k + 1)) = _
    rw [overflow_wait (k + 1) (by omega) (by omega)]
    have hw : wrap64 (((k + 1 : Nat) : Int) + 1) = ((k + 2 : Nat) : Int) := by
      rw [wrap64_of_inRange (by unfold InRange64; push_cast; omega)]
      push_cast; ring
    rw [pending_tick _ _ _ _ (by rw [hw]; push_cast; omega), hw]
    rw [if_neg (by push_cast; omega)]

/-- Tick `2^63`: the clock wraps to `-2^63`, below the recorded finish time. -/
theorem overflow_wrap :
    runState64 (fun _ => [0])
      (ioTable SwitchBehavior.SWITCH_ON_END IODoneBehavior.IO_RUN_LATER 9223372036854775807)
      9223372036854775808 =
      pendingState 9223372036854775807 (-9223372036854775807) (-9223372036854775808) 1 := by
  show tick64 (fun _ => [0]) (runState64 (fun _ => [0]) _ 9223372036854775807) = _
  rw [overflow_wait 9223372036854775807 (by omega) (le_refl _)]
  have hw : wrap64 (((9223372036854775807 : Nat) : Int) + 1) = -9223372036854775808 := by decide
  rw [pending_tick _ _ _ _ (by rw [hw]; decide), hw]
  rw [if_pos (by decide)]
  have : wrap64 (0 + 1) = 1 := by decide
  rw [this]

theorem overflow_last :
    GetNumActive (tick64 (fun _ => [0])
        (pendingState 9223372036854775807 (-9223372036854775807) (-9223372036854775808) 1)).s = 0 ∧
      (tick64 (fun _ => [0])
        (pendingState 9223372036854775807 (-9223372036854775807) (-9223372036854775808) 1)).cpuBusy = 2 ∧
      (tick64 (fun _ => [0])
        (pendingState 9223372036854775807 (-9223372036854775807) (-9223372036854775808) 1)).ioBusy = 1 ∧
      (tick64 (fun _ => [0])
        (pendingState 9223372036854775807 (-9223372036854775807) (-9223372036854775808) 1)).clockTick =
        -9223372036854775807 := by decide

/-- On 64-bit integers the single process `"i"` with `ioLength = 2^63 - 1` finishes at
iteration `2^63 + 1`: `Run64` returns `cpuBusy = 2`, `ioBusy = 1` and the tick count
`-2^63 + 1`. -/
theorem overflow_run (fuel : Nat) (hfuel : 9223372036854775809 ≤ fuel) :
    ∃ r, Run64 (fun _ => [0]) fuel
        (ioTable SwitchBehavior.SWITCH_ON_END IODoneBehavior.IO_RUN_LATER 9223372036854775807) =
        some r ∧ r.cpuBusy = 2 ∧ r.ioBusy = 1 ∧ r.clockTick = -9223372036854775807 := by
  have hlast : runState64 (fun _ => [0])
      (ioTable SwitchBehavior.SWITCH_ON_END IODoneBehavior.IO_RUN_LATER 9223372036854775807)
      9223372036854775809 =
      tick64 (fun _ => [0])
        (pendingState 9223372036854775807 (-9223372036854775807) (-9223372036854775808) 1) := by
    show tick64 (fun _ => [0]) (runState64 (fun _ => [0]) _ 9223372036854775808) = _
    rw [overflow_wrap]
  obtain ⟨h1, h2, h3, h4⟩ := overflow_last
  refine ⟨_, Run64_of_runs _ _ 9223372036854775809 fuel ?_ ?_ ?_ hfuel, ?_, ?_, ?_⟩
  · rw [ioTable_procInfo]; simp
  · intro i hi
    by_cases h0 : i = 0
    · subst h0; decide
    · by_cases hi2 : i ≤ 9223372036854775807
      · rw [overflow_wait i (by omega) hi2, pending_active]; omega
      · obtain rfl : i = 9223372036854775808 := by omega
        rw [overflow_wrap, pending_active]; omega
  · rw [hlast]; exact h1
  · rw [hlast]; exact h2
  · rw [hlast]; exact h3
  · rw [hlast]; exact h4

/-! ### The run of `"i"` with `ioLength = -1` on 64-bit integers -/

theorem negative_first :
    runState64 (fun _ => [0])
      (ioTable SwitchBehavior.SWITCH_ON_END IODoneBehavior.IO_RUN_LATER (-1)) 1 =
      pendingState (-1) 1 1 0 := by decide

/-- Ticks `1` to `2^63 - 1`: the recorded finish time `1` is not later than the clock. -/
theorem negative_wait : ∀ k : Nat, 1 ≤ k → k ≤ 9223372036854775807 →
    runState64 (fun _ => [0])
      (ioTable SwitchBehavior.SWITCH_ON_END IODoneBehavior.IO_RUN_LATER (-1)) k =
      pendingState (-1) 1 (k : Int) 0
  | 0, h, _ => absurd h (by omega)
  | 1, _, _ => negative_first
  | k + 2, _, hk => by
    show tick64 (fun _ => [0]) (runState64 (fun _ => [0]) _ (k + 1)) = _
    rw [negative_wait (k + 1) (by omega) (by omega)]
    have hw : wrap64 (((k + 1 : Nat) : Int) + 1) = ((k + 2 : Nat) : Int) := by
      rw [wrap64_of_inRange (by unfold InRange64; push_cast; omega)]
      push_cast; ring
    rw [pending_tick _ _ _ _ (by rw [hw]; push_cast; omega), hw]
    rw [if_neg (by push_cast; omega)]

/-- Ticks `2^63` to `2^64`: the clock has wrapped to `-2^63` and climbs to `0`; the
finish time `1` is later than the clock, so every tick counts an I/O in flight. -/
theorem negative_wrapped : ∀ j : Nat, j ≤ 9223372036854775808 →
    runState64 (fun _ => [0])
      (ioTable SwitchBehavior.SWITCH_ON_END IODoneBehavior.IO_RUN_LATER (-1))
      (9223372036854775808 + j) =
      pendingState (-1) 1 ((j : Int) - 9223372036854775808) (wrap64 ((j : Int) + 1))
  | 0, _ => by
    show tick64 (fun _ => [0]) (runState64 (fun _ => [0]) _ 9223372036854775807) = _
    rw [negative_wait 9223372036854775807 (by omega) (le_refl _)]
    have hw : wrap64 (((9223372036854775807 : Nat) : Int) + 1) = -9223372036854775808 := by decide
    rw [pending_tick _ _ _ _ (by rw [hw]; decide), hw]
    rw [if_pos (by decide)]
    rfl
  | j + 1, hj => by
    show tick64 (fun _ => [0]) (runState64 (fun _ => [0]) _ (9223372036854775808 + j)) = _
    rw [negative_wrapped j (by omega)]
    have hw : wrap64 ((j : Int) - 9223372036854775808 + 1) =
        ((j + 1 : Nat) : Int) - 9223372036854775808 := by
      rw [wrap64_of_inRange (by unfold InRange64; omega)]
      push_cast; ring
    rw [pending_tick _ _ _ _ (by rw [hw]; push_cast; omega), hw]
    rw [if_pos (by push_cast; omega), wrap64_wrap_add]
    push_cast
    rfl

theorem negative_last :
    GetNumActive (tick64 (fun _ => [0]) (pendingState (-1) 1 0 (-9223372036854775807))).s = 0 ∧
      (tick64 (fun _ => [0]) (pendingState (-1) 1 0 (-9223372036854775807))).cpuBusy = 2 ∧
      (tick64 (fun _ => [0]) (pendingState (-1) 1 0 (-9223372036854775807))).ioBusy =
        -9223372036854775807 ∧
      (tick64 (fun _ => [0]) (pendingState (-1) 1 0 (-9223372036854775807))).clockTick = 1 := by
  decide

/-- On 64-bit integers the single process `"i"` with `ioLength = -1` finishes at
iteration `2^64 + 1`, when the clock has wrapped around to the recorded finish time
`1`: `Run64` returns, with the tick count `1`. -/
theorem negative_run (fuel : Nat) (hfuel : 18446744073709551617 ≤ fuel) :
    ∃ r, Run64 (fun _ => [0]) fuel
        (ioTable SwitchBehavior.SWITCH_ON_END IODoneBehavior.IO_RUN_LATER (-1)) = some r ∧
      GetNumActive r.s = 0 ∧ r.cpuBusy = 2 ∧ r.ioBusy = -9223372036854775807 ∧
      r.clockTick = 1 := by
  have hpen : runState64 (fun _ => [0])
      (ioTable SwitchBehavior.SWITCH_ON_END IODoneBehavior.IO_RUN_LATER (-1))
      18446744073709551616 = pendingState (-1) 1 0 (-9223372036854775807) := by
    have h := negative_wrapped 9223372036854775808 (le_refl _)
    have hb : wrap64 (((9223372036854775808 : Nat) : Int) + 1) = -9223372036854775807 := by decide
    rw [hb] at h
    exact h
  have hlast : runState64 (fun _ => [0])
      (ioTable SwitchBehavior.SWITCH_ON_END IODoneBehavior.IO_RUN_LATER (-1))
      18446744073709551617 =
      tick64 (fun _ => [0]) (pendingState (-1) 1 0 (-9223372036854775807)) := by
    show tick64 (fun _ => [0]) (runState64 (fun _ => [0]) _ 18446744073709551616) = _
    rw [hpen]
  obtain ⟨h1, h2, h3, h4⟩ := negative_last
  refine ⟨_, Run64_of_runs _ _ 18446744073709551617 fuel ?_ ?_ ?_ hfuel, ?_, ?_, ?_, ?_⟩
  · rw [ioTable_procInfo]; simp
  · intro i hi
    by_cases h0 : i = 0
    · subst h0; decide
    · by_cases hi2 : i ≤ 9223372036854775807
      · rw [negative_wait i (by omega) hi2, pending_active]; omega
      · obtain ⟨j, rfl⟩ : ∃ j, i = 9223372036854775808 + j := ⟨i - 9223372036854775808, by omega⟩
        rw [negative_wrapped j (by omega), pending_active]; omega
  · rw [hlast]; exact h1
  · rw [hlast]; exact h1
  · rw [hlast]; exact h2
  · rw [hlast]; exact h3
  · rw [hlast]; exact h4

/-! ### `Run64` agrees with `Run` while no value leaves the 64-bit range -/

theorem execStep64_eq (r : RunState) (h : InRange64 (r.cpuBusy + 1)) :
    execStep64 r = execStep r := by
  have hw := wrap64_of_inRange h
  cases hget : r.s.proc? r.s.currProc with
  | none => simp only [execStep64, execStep, hget]
  | some proc =>
    by_cases hr : proc.State = RUNNING
    · cases hc : proc.Code with
      | nil => simp only [execStep64, execStep, hget, hr, hc, if_true]
      | cons a l => simp only [execStep64, execStep, hget, hr, hc, if_true, hw]
    · simp only [execStep64, execStep, hget, hr, if_false]

theorem ioBusyStep64_eq (r : RunState) (h : InRange64 (r.ioBusy + 1)) :
    ioBusyStep64 r = ioBusyStep r := by
  unfold ioBusyStep64 ioBusyStep
  rw [wrap64_of_inRange h]

theorem ioIssue64_eq (r : RunState) (h : InRange64 (r.clockTick + r.s.ioLength + 1)) :
    ioIssue64 r = ioIssue r := by
  have hL : (r.call (fun s => MoveToWait s RUNNING)).s.ioLength = r.s.ioLength := by
    rw [call_s]; exact (MoveToWait_moves r.s RUNNING).data.ioLength
  have hc : (r.call (fun s => MoveToWait s RUNNING)).clockTick = r.clockTick := call_clockTick _ _
  have key : wrap64 (wrap64 ((r.call (fun s => MoveToWait s RUNNING)).clockTick +
      (r.call (fun s => MoveToWait s RUNNING)).s.ioLength) + 1) =
      (r.call (fun s => MoveToWait s RUNNING)).clockTick +
        (r.call (fun s => MoveToWait s RUNNING)).s.ioLength + 1 := by
    rw [wrap64_wrap_add, hL, hc, wrap64_of_inRange h]
  unfold ioIssue64 ioIssue
  simp only [key]

theorem afterExec64_eq (i : Option Instr) (r : RunState)
    (h : i = some Instr.io → InRange64 (r.clockTick + r.s.ioLength + 1)) :
    afterExec64 i r = afterExec i r := by
  unfold afterExec64 afterExec
  by_cases hi : i = some Instr.io
  · simp only [hi, if_true, ioIssue64_eq r (h hi)]
  · simp only [hi, if_false]

theorem execStep_fields (r : RunState) :
    (execStep r).1.ioBusy = r.ioBusy ∧ (execStep r).1.clockTick = r.clockTick ∧
      (execStep r).1.s.ioLength = r.s.ioLength := by
  rcases execStep_cases r with ⟨-, h⟩ | ⟨c, instr, rest, -, -, -, -, -, h⟩
  · rw [h]; exact ⟨rfl, rfl, rfl⟩
  · rw [h]; exact ⟨rfl, rfl, by simp⟩

theorem ioBusyStep_ioLength (r : RunState) : (ioBusyStep r).s.ioLength = r.s.ioLength := by
  rw [ioBusyStep_s]

/-- A tick of `Run64` is the tick of `Run` when the new clock value, the two counters
after an increment and, if an `io` is executed, its finish time are 64-bit values. -/
theorem tick64_eq (order : Int → List Nat) (r : RunState)
    (hc : InRange64 (r.clockTick + 1)) (hcpu : InRange64 (r.cpuBusy + 1))
    (hio : InRange64 (r.ioBusy + 1))
    (hfin : (execStep (scanned order r)).2 = some Instr.io →
      InRange64 (r.clockTick + 1 + r.s.ioLength + 1)) :
    tick64 order r = tick order r := by
  have hq := scanned_quiet order r
  have h1 : tick64 order r =
      afterExec64 (execStep64 (scanned64 order r)).2 (ioBusyStep64 (execStep64 (scanned64 order r)).1) :=
    rfl
  have h2 : scanned64 order r = scanned order r := by
    unfold scanned64 scanned
    rw [wrap64_of_inRange hc]
  rw [h1, h2, tick_eq]
  have hcpu1 : (scanned order r).cpuBusy = r.cpuBusy := hq.cpu
  have hio1 : (scanned order r).ioBusy = r.ioBusy := hq.io
  have hclock1 : (scanned order r).clockTick = r.clockTick + 1 := hq.clock
  have hL1 : (scanned order r).s.ioLength = r.s.ioLength := hq.data.ioLength
  obtain ⟨hf1, hf2, hf3⟩ := execStep_fields (scanned order r)
  rw [execStep64_eq _ (by rw [hcpu1]; exact hcpu),
    ioBusyStep64_eq _ (by rw [hf1, hio1]; exact hio)]
  apply afterExec64_eq
  intro hi
  rw [ioBusyStep_clockTick, ioBusyStep_ioLength, hf2, hf3, hclock1, hL1]
  exact hfin hi

/-- Both busy counters of `Run` lie between 0 and the number of ticks made. -/
theorem counters_range (order : Int → List Nat) (s : Scheduler) :
    ∀ k, 0 ≤ (runState order s k).cpuBusy ∧ (runState order s k).cpuBusy ≤ (k : Int) ∧
      0 ≤ (runState order s k).ioBusy ∧ (runState order s k).ioBusy ≤ (k : Int)
  | 0 => by
    obtain ⟨hcpu, hio, -⟩ := runInit_effect s
    have h1 : (runState order s 0).cpuBusy = 0 := hcpu
    have h2 : (runState order s 0).ioBusy = 0 := hio
    rw [h1, h2]; simp
  | k + 1 => by
    obtain ⟨h1, h2, h3, h4⟩ := counters_range order s k
    have hE := tick_effect order (runState order s k)
    have hio := hE.ioBusy
    have hstep : runState order s (k + 1) = tick order (runState order s k) := rfl
    rw [hstep]
    have hcpu : (tick order (runState order s k)).cpuBusy = (runState order s k).cpuBusy ∨
        (tick order (runState order s k)).cpuBusy = (runState order s k).cpuBusy + 1 := by
      rcases hE.exec with ⟨-, -, h, -⟩ | ⟨c, instr, rest, -, -, -, -, -, -, h, -⟩
      · exact Or.inl h
      · exact Or.inr h
    push_cast
    split at hio <;> rcases hcpu with hcpu | hcpu <;> omega

/-- A tick of `Run64` from a state of `Run` is the tick of `Run` when no value can
leave the 64-bit range by then. -/
theorem tick64_runState (order : Int → List Nat) (s : Scheduler) (k : Nat)
    (hk : (k : Int) + 1 < 2 ^ 63)
    (hfin : (execStep (scanned order (runState order s k))).2 = some Instr.io →
      InRange64 ((k : Int) + 1 + s.ioLength + 1)) :
    tick64 order (runState order s k) = tick order (runState order s k) := by
  obtain ⟨h1, h2, h3, h4⟩ := counters_range order s k
  have hT := runState_trace order s k
  apply tick64_eq
  · rw [hT.clock]; unfold InRange64; omega
  · unfold InRange64; omega
  · unfold InRange64; omega
  · intro hi
    rw [hT.clock, hT.ioLength]
    exact hfin hi

/-- The states of `Run64` are those of `Run` as long as the ticks agree. -/
theorem runState64_of_agree (order : Int → List Nat) (s : Scheduler) (k : Nat)
    (h : ∀ i, i < k → tick64 order (runState order s i) = tick order (runState order s i)) :
    ∀ j, j ≤ k → runState64 order s j = runState order s j
  | 0, _ => rfl
  | j + 1, hj => by
    show tick64 order (runState64 order s j) = tick order (runState order s j)
    rw [runState64_of_agree order s k h j (by omega)]
    exact h j (by omega)

/-- If the first `k` ticks of `Run` agree with those of `Run64` and `Run` ends after
`k` iterations, `Run64` returns the same result. -/
theorem Run64_of_agree (order : Int → List Nat) (s : Scheduler) (k fuel : Nat)
    (hne : s.procInfo ≠ [])
    (h : ∀ i, i < k → tick64 order (runState order s i) = tick order (runState order s i))
    (hrun : LoopRuns order s k) (hz : GetNumActive (runState order s k).s = 0)
    (hle : k ≤ fuel) :
    Run64 order fuel s = some (runState order s k) := by
  have hs := runState64_of_agree order s k h
  rw [← hs k (le_refl k)]
  apply Run64_of_runs order s k fuel hne
  · intro i hi
    rw [hs i (by omega)]; exact hrun i hi
  · rw [hs k (le_refl k)]; exact hz
  · exact hle

/-- During the first `n` ticks no arithmetic of `Run` leaves the 64-bit range when
`NoOverflow s n`: each of these ticks is the same in `Run64` and in `Run`. -/
theorem tick64_of_noOverflow (order : Int → List Nat) (s : Scheduler) (n : Nat)
    (hno : NoOverflow s n) :
    ∀ i, i < n → tick64 order (runState order s i) = tick order (runState order s i) := by
  intro i hi
  obtain ⟨h1, h2, h3⟩ := hno
  apply tick64_runState
  · omega
  · intro _
    unfold InRange64
    omega

theorem runState64_eq (order : Int → List Nat) (s : Scheduler) (n : Nat)
    (hno : NoOverflow s n) : ∀ j, j ≤ n → runState64 order s j = runState order s j :=
  runState64_of_agree order s n (tick64_of_noOverflow order s n hno)

theorem runLoop64_eq (order : Int → List Nat) :
    ∀ (fuel : Nat) (r : RunState),
      (∀ i, i < fuel → tick64 order ((tick order)^[i] r) = tick order ((tick order)^[i] r)) →
        runLoop64 order fuel r = runLoop order fuel r
  | 0, _, _ => rfl
  | fuel + 1, r, h => by
    have h0 := h 0 (by omega)
    simp only [Function.iterate_zero, id_eq] at h0
    simp only [runLoop64, runLoop, h0]
    split
    · apply runLoop64_eq order fuel
      intro i hi
      have := h (i + 1) (by omega)
      rw [Function.iterate_succ_apply] at this
      exact this
    · rfl

/-- `Run64` and `Run` give the same result, or both none, for every number `fuel` of
iterations allowed during which no value can leave the 64-bit range. -/
theorem Run64_eq_Run (order : Int → List Nat) (fuel : Nat) (s : Scheduler)
    (hno : NoOverflow s fuel) : Run64 order fuel s = Run order fuel s := by
  unfold Run64 Run
  split
  · rfl
  · apply runLoop64_eq
    intro i hi
    rw [← runState_eq_iterate]
    exact tick64_of_noOverflow order s fuel hno i hi

theorem NoOverflow.noOverflow_mono {s : Scheduler} {n m : Nat} (h : NoOverflow s n) (hm : m ≤ n) :
    NoOverflow s m := by
  obtain ⟨h1, h2, h3⟩ := h
  exact ⟨h1, by omega, by omega⟩

theorem scanned64_eq (order : Int → List Nat) (r : RunState) (h : InRange64 (r.clockTick + 1)) :
    scanned64 order r = scanned order r := by
  unfold scanned64 scanned
  rw [wrap64_of_inRange h]

theorem LoopRuns64_iff (order : Int → List Nat) (s : Scheduler) (n : Nat)
    (hno : NoOverflow s n) (k : Nat) (hk : k ≤ n + 1) :
    LoopRuns64 order s k ↔ LoopRuns order s k := by
  constructor
  · intro h i hi
    rw [← runState64_eq order s n hno i (by omega)]; exact h i hi
  · intro h i hi
    rw [runState64_eq order s n hno i (by omega)]; exact h i hi

/-! ### Tick count and code length -/

/-- C16, where the claim fails: on 64-bit integers the run of the single process `"i"`
with `ioLength = 2^63 - 1` records the wrapped finish time `-2^63 + 1` and ends when
the wrapped clock reaches it; `Run64` returns the tick count `-2^63 + 1`, below the
length 2 of the loaded `Code`. -/
theorem Run_ticks_below_code_length :
    0 ≤ (ioTable SwitchBehavior.SWITCH_ON_END IODoneBehavior.IO_RUN_LATER
        9223372036854775807).ioLength ∧
      maxCodeLength (ioTable SwitchBehavior.SWITCH_ON_END IODoneBehavior.IO_RUN_LATER
        9223372036854775807) = 2 ∧
      ∃ r, Run64 (fun _ => [0]) 9223372036854775809
          (ioTable SwitchBehavior.SWITCH_ON_END IODoneBehavior.IO_RUN_LATER
            9223372036854775807) = some r ∧
        r.clockTick = -9223372036854775807 ∧
        r.clockTick < (maxCodeLength (ioTable SwitchBehavior.SWITCH_ON_END
          IODoneBehavior.IO_RUN_LATER 9223372036854775807) : Int) := by
  obtain ⟨r, hr, -, -, hclock⟩ := overflow_run 9223372036854775809 (le_refl _)
  refine ⟨by decide, by decide, r, hr, hclock, ?_⟩
  rw [hclock]
  decide

/-- C16, as amended. For every run of `Run64` on a table whose processes are all READY
and with `ioLength ≥ 0` that returns within a number `fuel` of ticks for which no value
leaves the 64-bit range (`fuel + ioLength + 1 < 2^63`), the tick count returned is at
least the length of the longest loaded `Code`, and so at least the length of the `Code`
of every process (`cpu`, `io` and `io_done` tokens all count). -/
theorem Run_ticks_ge_max_code (order : Int → List Nat) (fuel : Nat) (s : Scheduler)
    (r : RunState) (hL : 0 ≤ s.ioLength)
    (hready : ∀ proc ∈ s.procInfo, proc.State = READY)
    (hperm : ∀ t, (order t).Perm (List.range s.procInfo.length))
    (hno : NoOverflow s fuel) (hrun : Run64 order fuel s = some r) :
    (maxCodeLength s : Int) ≤ r.clockTick ∧
      ∀ proc ∈ s.procInfo, (proc.Code.length : Int) ≤ r.clockTick :=
  ticks_ge_max_code_ideal order fuel s r hL hready hperm
    (by rw [← Run64_eq_Run order fuel s hno]; exact hrun)

theorem Run_ticks_ge_max_code_witness :
    (maxCodeLength scenario : Int) ≤
        ((Run64 (fun _ => [0, 1]) 34 scenario).get (by decide)).clockTick ∧
      ∀ proc ∈ scenario.procInfo, (proc.Code.length : Int) ≤
        ((Run64 (fun _ => [0, 1]) 34 scenario).get (by decide)).clockTick :=
  Run_ticks_ge_max_code (fun _ => [0, 1]) 34 scenario _ (by decide) (by decide)
    (fun _ => List.Perm.refl _) ⟨by decide, by decide, by decide⟩ (Option.some_get _).symm

/-! ### Blocking for the duration of an I/O -/

/-- C13, where the claim fails: on 64-bit integers, with `ioLength = 2^63 - 1 ≥ 0`, the
single process `"i"` executes its `io` at tick 1 and the finish time recorded is the
wrapped value `-2^63 + 1`: it is not `1 + ioLength + 1`, and it is not later than
tick 1. -/
theorem io_finish_time_wraps :
    0 ≤ (ioTable SwitchBehavior.SWITCH_ON_END IODoneBehavior.IO_RUN_LATER
        9223372036854775807).ioLength ∧
      ((1 : Int), (0 : Int), Instr.io) ∈ (runState64 (fun _ => [0])
        (ioTable SwitchBehavior.SWITCH_ON_END IODoneBehavior.IO_RUN_LATER
          9223372036854775807) 1).execs ∧
      (runState64 (fun _ => [0])
        (ioTable SwitchBehavior.SWITCH_ON_END IODoneBehavior.IO_RUN_LATER
          9223372036854775807) 1).s.times 0 = [-9223372036854775807] ∧
      (1 : Int) + (ioTable SwitchBehavior.SWITCH_ON_END IODoneBehavior.IO_RUN_LATER
          9223372036854775807).ioLength + 1 ∉
        (runState64 (fun _ => [0])
          (ioTable SwitchBehavior.SWITCH_ON_END IODoneBehavior.IO_RUN_LATER
            9223372036854775807) 1).s.times 0 ∧
      ¬ ((1 : Int) < -9223372036854775807) := by
  rw [overflow_first]
  decide

/-- C13, as amended. For `ioLength ≥ 0` (table freshly loaded, any policies, any scan
order), on 64-bit integers, when process `p` executes an `io` instruction at tick `t`
and no value leaves the 64-bit range up to tick `t + ioLength + 1`
(`(t + ioLength + 1) + ioLength + 1 < 2^63`): the finish time `t + ioLength + 1`, which
is later than `t`, is recorded for `p`; the loop runs at least until tick
`t + ioLength + 1`; `p` is BLOCKED at the end of every tick from `t` to
`t + ioLength`, is still BLOCKED after the completion scan of every tick from `t + 1`
to `t + ioLength`, and none of these ticks logs a transition of `p` out of BLOCKED; the
completion scan of tick `t + ioLength + 1` moves `p` from BLOCKED to READY. -/
theorem io_blocks_until_finish_time (order : Int → List Nat) (s : Scheduler)
    (hL : 0 ≤ s.ioLength) (hne : s.procInfo ≠ [])
    (hready : ∀ proc ∈ s.procInfo, proc.State = READY)
    (hperm : ∀ t, (order t).Perm (List.range s.procInfo.length)) (t p : Nat)
    (hno : NoOverflow s (t + s.ioLength.toNat + 1))
    (hrun : LoopRuns64 order s t)
    (hexec : ((t : Int), (p : Int), Instr.io) ∈ (runState64 order s t).execs) :
    (t : Int) + s.ioLength + 1 ∈ (runState64 order s t).s.times p ∧
      (t : Int) < (t : Int) + s.ioLength + 1 ∧ InRange64 ((t : Int) + s.ioLength + 1) ∧
      LoopRuns64 order s (t + s.ioLength.toNat + 1) ∧
      (∀ j, t ≤ j → j ≤ t + s.ioLength.toNat → (runState64 order s j).s.st p = BLOCKED) ∧
      (∀ j, t ≤ j → j < t + s.ioLength.toNat →
        (scanned64 order (runState64 order s j)).s.st p = BLOCKED ∧
        ∀ y ∈ newTransitions (runState64 order s j) (runState64 order s (j + 1)),
          y.pid = p → y.src ≠ BLOCKED) ∧
      (scanned64 order (runState64 order s (t + s.ioLength.toNat))).s.st p ≠ BLOCKED ∧
      ∃ y ∈ newTransitions (runState64 order s (t + s.ioLength.toNat))
          (scanned64 order (runState64 order s (t + s.ioLength.toNat))),
        y.pid = p ∧ y.src = BLOCKED ∧ y.dst = READY := by
  have hs := runState64_eq order s _ hno
  have hLn : ((s.ioLength.toNat : Nat) : Int) = s.ioLength := Int.toNat_of_nonneg hL
  have hsc : ∀ j, j < t + s.ioLength.toNat + 1 →
      scanned64 order (runState64 order s j) = scanned order (runState order s j) := by
    intro j hj
    rw [hs j (by omega)]
    apply scanned64_eq
    rw [(runState_trace order s j).clock]
    obtain ⟨-, h2, -⟩ := hno
    unfold InRange64
    push_cast at h2
    omega
  have hrun' : LoopRuns order s t :=
    (LoopRuns64_iff order s _ hno t (by omega)).mp hrun
  rw [hs t (by omega)] at hexec
  obtain ⟨h1, h2, h3, h4, h5, h6, h7⟩ :=
    io_blocks_ideal order s hL hne hready hperm t p hrun' hexec
  refine ⟨?_, h2, ?_, ?_, ?_, ?_, ?_, ?_⟩
  · rw [hs t (by omega)]; exact h1
  · obtain ⟨-, hb, -⟩ := hno
    unfold InRange64
    push_cast at hb
    omega
  · exact (LoopRuns64_iff order s _ hno _ (by omega)).mpr h3
  · intro j hj1 hj2
    rw [hs j (by omega)]; exact h4 j hj1 hj2
  · intro j hj1 hj2
    rw [hsc j (by omega), hs j (by omega), hs (j + 1) (by omega)]
    exact h5 j hj1 hj2
  · rw [hsc _ (by omega)]; exact h6
  · rw [hsc _ (by omega), hs _ (by omega)]; exact h7

theorem io_blocks_until_finish_time_witness :
    ((3 : Nat) : Int) + scenario.ioLength + 1 ∈
        (runState64 (fun _ => [0, 1]) scenario 3).s.times 0 ∧
      ((3 : Nat) : Int) < ((3 : Nat) : Int) + scenario.ioLength + 1 ∧
      InRange64 (((3 : Nat) : Int) + scenario.ioLength + 1) ∧
      LoopRuns64 (fun _ => [0, 1]) scenario (3 + scenario.ioLength.toNat + 1) ∧
      (∀ j, 3 ≤ j → j ≤ 3 + scenario.ioLength.toNat →
        (runState64 (fun _ => [0, 1]) scenario j).s.st 0 = BLOCKED) ∧
      (∀ j, 3 ≤ j → j < 3 + scenario.ioLength.toNat →
        (scanned64 (fun _ => [0, 1]) (runState64 (fun _ => [0, 1]) scenario j)).s.st 0 =
          BLOCKED ∧
        ∀ y ∈ newTransitions (runState64 (fun _ => [0, 1]) scenario j)
            (runState64 (fun _ => [0, 1]) scenario (j + 1)),
          y.pid = 0 → y.src ≠ BLOCKED) ∧
      (scanned64 (fun _ => [0, 1])
        (runState64 (fun _ => [0, 1]) scenario (3 + scenario.ioLength.toNat))).s.st 0 ≠
          BLOCKED ∧
      ∃ y ∈ newTransitions (runState64 (fun _ => [0, 1]) scenario (3 + scenario.ioLength.toNat))
          (scanned64 (fun _ => [0, 1])
            (runState64 (fun _ => [0, 1]) scenario (3 + scenario.ioLength.toNat))),
        y.pid = 0 ∧ y.src = BLOCKED ∧ y.dst = READY :=
  io_blocks_until_finish_time (fun _ => [0, 1]) scenario (by decide) (by decide) (by decide)
    (fun _ => List.Perm.refl _) 3 0 ⟨by decide, by decide, by decide⟩
    (fun i hi => by
      have : i = 0 ∨ i = 1 ∨ i = 2 := by omega
      rcases this with h | h | h <;> subst h <;> decide)
    (by decide)

/-! ### Negative I/O length -/

/-- C25, where the claim fails: on 64-bit integers the run of the single process `"i"`
with `ioLength = -1` does reach a state in which every process is DONE.  The finish
time recorded at tick 1 is `1`; the clock wraps around and is `1` again at iteration
`2^64 + 1`, where the completion is found and `Run64` returns. -/
theorem Run_negative_ioLength_returns :
    (ioTable SwitchBehavior.SWITCH_ON_END IODoneBehavior.IO_RUN_LATER (-1)).ioLength < 0 ∧
      (∃ proc ∈ (ioTable SwitchBehavior.SWITCH_ON_END IODoneBehavior.IO_RUN_LATER (-1)).procInfo,
        Instr.io ∈ proc.Code) ∧
      ∃ r, Run64 (fun _ => [0]) 18446744073709551617
          (ioTable SwitchBehavior.SWITCH_ON_END IODoneBehavior.IO_RUN_LATER (-1)) = some r ∧
        GetNumActive r.s = 0 ∧ r.clockTick = 1 := by
  obtain ⟨r, hr, hz, -, -, hclock⟩ := negative_run 18446744073709551617 (le_refl _)
  exact ⟨by decide, by decide, r, hr, hz, hclock⟩

/-- C25, as amended. `NewScheduler` stores a negative `ioLength` as given and `Run` does
not check it.  On 64-bit integers, for every `ioLength < 0` and every table of READY
processes in which some `Code` contains an `io` (whatever the policies and the scan
order), as long as the clock has not wrapped around (fewer than `2^63` ticks): no
recorded finish time is later than the tick at which it is recorded, so the completion
scan finds no completion; a process that has executed an `io` stays BLOCKED; some
process is not DONE; and `Run64` does not return within any number of iterations below
`2^63`. -/
theorem Run_negative_ioLength_diverges (order : Int → List Nat) (s : Scheduler)
    (hL : s.ioLength < 0) (hlo : -2 ^ 63 ≤ s.ioLength)
    (hready : ∀ proc ∈ s.procInfo, proc.State = READY)
    (hio : ∃ proc ∈ s.procInfo, Instr.io ∈ proc.Code) :
    (∀ sw iod, (NewScheduler sw iod s.ioLength).ioLength = s.ioLength) ∧
      (∀ k : Nat, (k : Int) < 2 ^ 63 →
        ∀ p, ∀ x ∈ (runState64 order s k).s.times p, x ≤ (k : Int)) ∧
      (∀ k : Nat, (k : Int) + 1 < 2 ^ 63 → scanned64 order (runState64 order s k) =
        { runState64 order s k with clockTick := (runState64 order s k).clockTick + 1 }) ∧
      (∀ (k p : Nat) (t : Int), (t, (p : Int), Instr.io) ∈ (runState64 order s k).execs →
        ∀ j : Nat, k ≤ j → (j : Int) < 2 ^ 63 → (runState64 order s j).s.st p = BLOCKED) ∧
      (∀ k : Nat, (k : Int) < 2 ^ 63 → 0 < GetNumActive (runState64 order s k).s) ∧
      ∀ fuel : Nat, (fuel : Int) < 2 ^ 63 → Run64 order fuel s = none := by
  have hno : ∀ n : Nat, (n : Int) < 2 ^ 63 → NoOverflow s n := fun n hn =>
    ⟨hlo, hn, by omega⟩
  have hs : ∀ k : Nat, (k : Int) < 2 ^ 63 → runState64 order s k = runState order s k :=
    fun k hk => runState64_eq order s k (hno k hk) k (le_refl k)
  obtain ⟨h1, h2, h3, h4, h5, h6⟩ := negative_ioLength_ideal order s hL hready hio
  refine ⟨h1, ?_, ?_, ?_, ?_, ?_⟩
  · intro k hk
    rw [hs k hk]; exact h2 k
  · intro k hk
    rw [hs k (by omega), scanned64_eq, h3 k]
    rw [(runState_trace order s k).clock]
    unfold InRange64
    omega
  · intro k p t he j hkj hj
    rw [hs k (by omega)] at he
    rw [hs j hj]
    exact h4 k p t he j hkj
  · intro k hk
    rw [hs k hk]; exact h5 k
  · intro fuel hf
    rw [Run64_eq_Run order fuel s (hno fuel hf)]
    exact h6 fuel

theorem Run_negative_ioLength_diverges_witness :
    (∀ sw iod, (NewScheduler sw iod
        (ioTable SwitchBehavior.SWITCH_ON_IO IODoneBehavior.IO_RUN_LATER (-1)).ioLength).ioLength =
        (ioTable SwitchBehavior.SWITCH_ON_IO IODoneBehavior.IO_RUN_LATER (-1)).ioLength) ∧
      (∀ k : Nat, (k : Int) < 2 ^ 63 → ∀ p, ∀ x ∈ (runState64 (fun _ => [0])
        (ioTable SwitchBehavior.SWITCH_ON_IO IODoneBehavior.IO_RUN_LATER (-1)) k).s.times p,
          x ≤ (k : Int)) ∧
      (∀ k : Nat, (k : Int) + 1 < 2 ^ 63 → scanned64 (fun _ => [0]) (runState64 (fun _ => [0])
          (ioTable SwitchBehavior.SWITCH_ON_IO IODoneBehavior.IO_RUN_LATER (-1)) k) =
        { runState64 (fun _ => [0])
            (ioTable SwitchBehavior.SWITCH_ON_IO IODoneBehavior.IO_RUN_LATER (-1)) k with
          clockTick := (runState64 (fun _ => [0])
            (ioTable SwitchBehavior.SWITCH_ON_IO IODoneBehavior.IO_RUN_LATER (-1)) k).clockTick
              + 1 }) ∧
      (∀ (k p : Nat) (t : Int), (t, (p : Int), Instr.io) ∈ (runState64 (fun _ => [0])
          (ioTable SwitchBehavior.SWITCH_ON_IO IODoneBehavior.IO_RUN_LATER (-1)) k).execs →
        ∀ j : Nat, k ≤ j → (j : Int) < 2 ^ 63 → (runState64 (fun _ => [0])
          (ioTable SwitchBehavior.SWITCH_ON_IO IODoneBehavior.IO_RUN_LATER (-1)) j).s.st p =
            BLOCKED) ∧
      (∀ k : Nat, (k : Int) < 2 ^ 63 → 0 < GetNumActive (runState64 (fun _ => [0])
        (ioTable SwitchBehavior.SWITCH_ON_IO IODoneBehavior.IO_RUN_LATER (-1)) k).s) ∧
      ∀ fuel : Nat, (fuel : Int) < 2 ^ 63 → Run64 (fun _ => [0]) fuel
        (ioTable SwitchBehavior.SWITCH_ON_IO IODoneBehavior.IO_RUN_LATER (-1)) = none :=
  Run_negative_ioLength_diverges (fun _ => [0])
    (ioTable SwitchBehavior.SWITCH_ON_IO IODoneBehavior.IO_RUN_LATER (-1)) (by decide)
    (by decide) (by decide) (by decide)

/-! ### The I/O-busy count -/

/-- The single process `"i"` executes its `io` at tick 1. -/
theorem ioTable_first_exec (order : Int → List Nat) (sw : SwitchBehavior) (iod : IODoneBehavior)
    (L : Int) :
    ((1 : Int), (0 : Int), Instr.io) ∈ (runState order (ioTable sw iod L) 1).execs := by
  have hlen : (runState order (ioTable sw iod L) 0).s.procInfo.length = 1 := rfl
  have hcode0 : (runState order (ioTable sw iod L) 0).s.code 0 = [Instr.io, Instr.io_done] := rfl
  have hclock : (runState order (ioTable sw iod L) 0).clockTick = 0 := rfl
  have hexecs : (runState order (ioTable sw iod L) 0).execs = [] := rfl
  have hst : (runState order (ioTable sw iod L) 0).s.st 0 = RUNNING := rfl
  have hcur : (runState order (ioTable sw iod L) 0).s.currProc = 0 := rfl
  have hE := tick_effect order (runState order (ioTable sw iod L) 0)
  rcases hE.exec with ⟨hnone, -⟩ | ⟨c, instr, rest, -, -, hlt, -, hcode, -, -, hex, -⟩
  · exfalso
    have hscan : scanned order (runState order (ioTable sw iod L) 0) =
        { runState order (ioTable sw iod L) 0 with
          clockTick := (runState order (ioTable sw iod L) 0).clockTick + 1 } := by
      apply ioScan_noop
      intro p _ hm
      have : (runState order (ioTable sw iod L) 0).s.times p = [] := (runInit_data _).2.2.1 p
      simp only at hm
      rw [this] at hm
      cases hm
    rw [hscan] at hnone
    have hsome : (execStep { runState order (ioTable sw iod L) 0 with
        clockTick := (runState order (ioTable sw iod L) 0).clockTick + 1 }).2 =
        some Instr.io := rfl
    rw [hsome] at hnone
    cases hnone
  · show _ ∈ (tick order (runState order (ioTable sw iod L) 0)).execs
    obtain rfl : c = 0 := by omega
    rw [hcode0] at hcode
    simp only [List.cons.injEq] at hcode
    rw [hex, hexecs, hclock, ← hcode.1]
    simp

/-- After tick 1 the single process `"i"` executes no further `io`. -/
theorem ioTable_one_io (order : Int → List Nat) (sw : SwitchBehavior) (iod : IODoneBehavior)
    (L : Int) (i : Nat) (hi : 1 ≤ i) :
    (execStep (scanned order (runState order (ioTable sw iod L) i))).2 ≠ some Instr.io := by
  intro hio
  have hT := runState_trace order (ioTable sw iod L) i
  have hex := hT.executed 0
  have hs : (ioTable sw iod L).code 0 = [Instr.io, Instr.io_done] := rfl
  have hlen : (ioTable sw iod L).procInfo.length = 1 := rfl
  rw [hs] at hex
  have hmem : Instr.io ∈ executedBy 0 (runState order (ioTable sw iod L) i).execs := by
    have h1 := execs_mono order (ioTable sw iod L) 1 _ (ioTable_first_exec order sw iod L) i hi
    have h2 : ((1 : Int), ((0 : Nat) : Int), Instr.io) ∈
        (runState order (ioTable sw iod L) i).execs := h1
    exact executedBy_mem h2
  rcases (tick_effect order (runState order (ioTable sw iod L) i)).exec with
    ⟨hnone, -⟩ | ⟨c, instr, rest, hsome, -, hlt, -, hcode, -⟩
  · rw [hnone] at hio; cases hio
  · rw [hsome] at hio
    have hinstr : instr = Instr.io := Option.some.inj hio
    have hc0 : c = 0 := by
      have := hT.len
      omega
    rw [hc0, hinstr] at hcode
    rw [hcode] at hex
    match hE : executedBy 0 (runState order (ioTable sw iod L) i).execs, hmem, hex with
    | [], hm, _ => cases hm
    | [_], _, he => simp at he
    | _ :: _ :: _, _, he => simp at he

/-- On the single process `"i"` with `0 ≤ ioLength` and `ioLength + 2 < 2^63`, the
`ioLength + 2` ticks of the run are the same on 64-bit integers. -/
theorem ioTable_agree (order : Int → List Nat) (sw : SwitchBehavior) (iod : IODoneBehavior)
    (n : Nat) (hn : (n : Int) + 2 < 2 ^ 63) :
    ∀ i, i < 1 + n + 1 →
      tick64 order (runState order (ioTable sw iod (n : Int)) i) =
        tick order (runState order (ioTable sw iod (n : Int)) i) := by
  intro i hi
  apply tick64_runState
  · omega
  · intro hio
    have hL : (ioTable sw iod (n : Int)).ioLength = (n : Int) := rfl
    by_cases h0 : i = 0
    · subst h0
      rw [hL]
      unfold InRange64
      push_cast
      omega
    · exact absurd hio (ioTable_one_io order sw iod _ i (by omega))

/-- C24, where the claim fails: on 64-bit integers the run of the single process `"i"`
with `ioLength = L = 2^63 - 1 ≥ 0` returns `cpuBusy = 2`, `ioBusy = 1` and the tick
count `-2^63 + 1`, not `(2, L, L + 2)`: the finish time recorded at tick 1 wraps to
`-2^63 + 1`, so the I/O counts as in flight at one tick only. -/
theorem Run_single_io_overflow :
    0 ≤ (9223372036854775807 : Int) ∧
      ∃ r, Run64 (fun _ => [0]) 9223372036854775809
          (ioTable SwitchBehavior.SWITCH_ON_END IODoneBehavior.IO_RUN_LATER
            9223372036854775807) = some r ∧
        r.cpuBusy = 2 ∧ r.ioBusy = 1 ∧ r.clockTick = -9223372036854775807 ∧
        r.ioBusy ≠ 9223372036854775807 ∧ r.clockTick ≠ 9223372036854775807 + 2 := by
  obtain ⟨r, hr, hcpu, hio, hclock⟩ := overflow_run 9223372036854775809 (le_refl _)
  refine ⟨by decide, r, hr, hcpu, hio, hclock, ?_, ?_⟩
  · rw [hio]; decide
  · rw [hclock]; decide

/-- C24, as amended. On 64-bit integers, for every run of `Run64` on a table with
`ioLength ≥ 0` that returns within a number `fuel` of ticks for which no value leaves
the 64-bit range (`fuel + ioLength + 1 < 2^63`): the I/O-busy count returned is at
least 0 and at most `ioLength` times the number of `io` instructions in the loaded
`Code` of all processes, and it is 0 when `ioLength = 0`.  In each of these ticks the
count goes up by one exactly when some finish time recorded in an earlier tick is later
than the current tick, and a finish time recorded by tick `k` is at most
`k + ioLength + 1`.  For the single process `"i"`, with any policies, any
`ioLength = L` with `0 ≤ L` and `L + 2 < 2^63`, any scan order and at least `L + 2`
loop iterations allowed, `Run64` returns with `cpuBusy = 2`, `ioBusy = L` and
`clockTick = L + 2`. -/
theorem Run_ioBusy_bound (order : Int → List Nat) (fuel : Nat) (s : Scheduler) (r : RunState)
    (hL : 0 ≤ s.ioLength) (hno : NoOverflow s fuel) (hrun : Run64 order fuel s = some r) :
    0 ≤ r.ioBusy ∧ r.ioBusy ≤ s.ioLength * (countInstr Instr.io s : Int) ∧
      (s.ioLength = 0 → r.ioBusy = 0) ∧
      (∀ k, k < fuel → (runState64 order s (k + 1)).ioBusy = (runState64 order s k).ioBusy +
        (if GetIOSInFlight (runState64 order s k).s ((k : Int) + 1) > 0 then 1 else 0)) ∧
      (∀ k, k ≤ fuel →
        ∀ p, ∀ x ∈ (runState64 order s k).s.times p, x ≤ (k : Int) + s.ioLength + 1) ∧
      (∀ (sw : SwitchBehavior) (iod : IODoneBehavior) (L : Int) (o : Int → List Nat) (f : Nat),
        0 ≤ L → L + 2 < 2 ^ 63 → (∀ t, (o t).Perm (List.range 1)) → L.toNat + 2 ≤ f →
          ∃ res, Run64 o f (ioTable sw iod L) = some res ∧
            res.cpuBusy = 2 ∧ res.ioBusy = L ∧ res.clockTick = L + 2) := by
  have hs := runState64_eq order s fuel hno
  have hrun' : Run order fuel s = some r := by
    rw [← Run64_eq_Run order fuel s hno]; exact hrun
  obtain ⟨h1, h2, h3, h4, h5, -⟩ := ioBusy_bound_ideal order fuel s r hL hrun'
  refine ⟨h1, h2, h3, ?_, ?_, ?_⟩
  · intro k hk
    rw [hs (k + 1) (by omega), hs k (by omega)]
    exact h4 k
  · intro k hk
    rw [hs k hk]
    exact h5 k
  · intro sw iod L o f hL0 hL2 hperm hf
    obtain ⟨n, rfl⟩ : ∃ n : Nat, L = (n : Int) := ⟨L.toNat, (Int.toNat_of_nonneg hL0).symm⟩
    obtain ⟨hruns, hz, hcpu, hio, hclock⟩ := ioTable_run o sw iod n hperm
    refine ⟨runState o (ioTable sw iod (n : Int)) (1 + n + 1), ?_, hcpu, hio, hclock⟩
    apply Run64_of_agree o _ (1 + n + 1) f _ (ioTable_agree o sw iod n hL2) hruns hz
    · simp only [Int.toNat_ofNat] at hf
      omega
    · rw [ioTable_procInfo]; simp

theorem Run_ioBusy_bound_witness :
    (0 ≤ ((Run64 (fun _ => [0, 1]) 34 scenario).get (by decide)).ioBusy ∧
      ((Run64 (fun _ => [0, 1]) 34 scenario).get (by decide)).ioBusy ≤
        scenario.ioLength * (countInstr Instr.io scenario : Int)) ∧
      ∃ res, Run64 (fun _ => [0]) 5
          (ioTable SwitchBehavior.SWITCH_ON_END IODoneBehavior.IO_RUN_IMMEDIATE 3) = some res ∧
        res.cpuBusy = 2 ∧ res.ioBusy = 3 ∧ res.clockTick = 3 + 2 :=
  have h := Run_ioBusy_bound (fun _ => [0, 1]) 34 scenario _ (by decide)
    ⟨by decide, by decide, by decide⟩ (Option.some_get _).symm
  ⟨⟨h.1, h.2.1⟩,
    h.2.2.2.2.2 SwitchBehavior.SWITCH_ON_END IODoneBehavior.IO_RUN_IMMEDIATE 3 (fun _ => [0]) 5
      (by decide) (by decide) (fun _ => List.Perm.refl _) (by decide)⟩

/-! ### Counting executed instructions on 64-bit integers -/

theorem execStep64_cases (r : RunState) :
    ((execStep64 r).2 = none ∧ (execStep64 r).1 = r) ∨
    ∃ (c : Nat) (instr : Instr) (rest : List Instr),
      r.s.currProc = (c : Int) ∧ c < r.s.procInfo.length ∧ r.s.st c = RUNNING ∧
      r.s.code c = instr :: rest ∧ (execStep64 r).2 = some instr ∧
      (execStep64 r).1 = { r with s := r.s.setCode (c : Int) rest
                                  cpuBusy := wrap64 (r.cpuBusy + 1)
                                  execs := r.execs ++ [(r.clockTick, (c : Int), instr)] } := by
  unfold execStep64
  cases hget : r.s.proc? r.s.currProc with
  | none => exact Or.inl ⟨rfl, rfl⟩
  | some proc =>
    simp only
    obtain ⟨c, hc, hlt, hst, hcode⟩ := proc?_some r.s _ proc hget
    by_cases hrun : proc.State = RUNNING
    · rw [if_pos hrun]
      cases hcd : proc.Code with
      | nil => exact Or.inl ⟨rfl, rfl⟩
      | cons instr rest =>
        right
        refine ⟨c, instr, rest, hc, hlt, hst.trans hrun, hcode.trans hcd, rfl, ?_⟩
        simp only [hc]
    · rw [if_neg hrun]
      exact Or.inl ⟨rfl, rfl⟩

/-- What the parts of a tick after the execution step keep, whatever finish time they
record: the busy count, the table size, every `Code`, and that DONE processes have no
instruction left. -/
theorem ioIssue64_keeps (r : RunState) :
    (ioIssue64 r).cpuBusy = r.cpuBusy ∧
      (ioIssue64 r).s.procInfo.length = r.s.procInfo.length ∧
      (∀ p, (ioIssue64 r).s.code p = r.s.code p) ∧
      (DoneEmpty r.s → DoneEmpty (ioIssue64 r).s) := by
  obtain ⟨r4, hr4⟩ : ∃ r4 : RunState, r4 = r.call (fun s : Scheduler => MoveToWait s RUNNING) :=
    ⟨_, rfl⟩
  obtain ⟨r5, hr5⟩ : ∃ r5 : RunState, r5 =
    { r4 with s := r4.s.recordFinish r4.s.currProc
                     (wrap64 (wrap64 (r4.clockTick + r4.s.ioLength) + 1)) } :=
    ⟨_, rfl⟩
  have hdef : ioIssue64 r =
      if r5.s.processSwitchBehavior = SwitchBehavior.SWITCH_ON_IO then
        r5.call (fun s => NextProc s (-1))
      else r5 := by rw [hr5, hr4]; rfl
  have hm4 := MoveToWait_moves r.s RUNNING
  have hq4 : Quiet r r4 := by
    rw [hr4]; exact Quiet.of_moves r _ hm4 (fun _ _ h => by cases h.2.2)
  have hst5 : ∀ p, r5.s.st p = r4.s.st p := by intro p; rw [hr5]; rfl
  have hcode5 : ∀ p, r5.s.code p = r4.s.code p := by intro p; rw [hr5]; rfl
  have hlen5 : r5.s.procInfo.length = r4.s.procInfo.length := by rw [hr5]; rfl
  have hcpu5 : r5.cpuBusy = r.cpuBusy := by rw [hr5]; exact hq4.cpu
  have hdone5 : DoneEmpty r.s → DoneEmpty r5.s := fun h => (hq4.done h).done_of_same hst5 hcode5
  have h5 : r5.cpuBusy = r.cpuBusy ∧ r5.s.procInfo.length = r.s.procInfo.length ∧
      (∀ p, r5.s.code p = r.s.code p) ∧ (DoneEmpty r.s → DoneEmpty r5.s) :=
    ⟨hcpu5, hlen5.trans hq4.data.len, fun p => (hcode5 p).trans (hq4.data.code p), hdone5⟩
  rw [hdef]
  split
  · have hq := NextProc_quiet (-1) r5
    exact ⟨hq.cpu.trans h5.1, hq.data.len.trans h5.2.1,
      fun p => (hq.data.code p).trans (h5.2.2.1 p), fun h => hq.done (h5.2.2.2 h)⟩
  · exact h5

theorem afterExec64_keeps (i : Option Instr) (r : RunState) :
    (afterExec64 i r).cpuBusy = r.cpuBusy ∧
      (afterExec64 i r).s.procInfo.length = r.s.procInfo.length ∧
      (∀ p, (afterExec64 i r).s.code p = r.s.code p) ∧
      (DoneEmpty r.s → DoneEmpty (afterExec64 i r).s) := by
  obtain ⟨r6, hr6⟩ : ∃ r6 : RunState, r6 = (if i = some Instr.io then ioIssue64 r else r) :=
    ⟨_, rfl⟩
  have hdef : afterExec64 i r = r6.call CheckIfDone := by rw [hr6]; rfl
  have h6 : r6.cpuBusy = r.cpuBusy ∧ r6.s.procInfo.length = r.s.procInfo.length ∧
      (∀ p, r6.s.code p = r.s.code p) ∧ (DoneEmpty r.s → DoneEmpty r6.s) := by
    rw [hr6]
    split
    · exact ioIssue64_keeps r
    · exact ⟨rfl, rfl, fun _ => rfl, id⟩
  have hq := CheckIfDone_quiet r6
  rw [hdef]
  exact ⟨hq.cpu.trans h6.1, hq.data.len.trans h6.2.1,
    fun p => (hq.data.code p).trans (h6.2.2.1 p), fun h => hq.done (h6.2.2.2 h)⟩

theorem ioBusyStep64_keeps (r : RunState) :
    (ioBusyStep64 r).cpuBusy = r.cpuBusy ∧ (ioBusyStep64 r).s = r.s := by
  unfold ioBusyStep64
  split <;> exact ⟨rfl, rfl⟩

/-- One iteration of the loop of `Run64`, on an arbitrary state: either no instruction
is executed, or one instruction is popped and `cpuBusy` is incremented on 64 bits. -/
theorem tick64_count (order : Int → List Nat) (r : RunState) :
    (DoneEmpty r.s → DoneEmpty (tick64 order r).s) ∧
      (tick64 order r).s.procInfo.length = r.s.procInfo.length ∧
      (((tick64 order r).cpuBusy = r.cpuBusy ∧ codeSum (tick64 order r).s = codeSum r.s) ∨
        ((tick64 order r).cpuBusy = wrap64 (r.cpuBusy + 1) ∧
          codeSum (tick64 order r).s + 1 = codeSum r.s)) := by
  obtain ⟨r1, hr1⟩ : ∃ r1 : RunState, r1 = scanned64 order r := ⟨_, rfl⟩
  have hq1 : Quiet { r with clockTick := wrap64 (r.clockTick + 1) } r1 := by
    rw [hr1]; exact ioScan_quiet _ _
  have htick : tick64 order r =
      afterExec64 (execStep64 r1).2 (ioBusyStep64 (execStep64 r1).1) := by
    rw [hr1]; rfl
  have hlen1 : r1.s.procInfo.length = r.s.procInfo.length := hq1.data.len
  have hcode1 : ∀ p, r1.s.code p = r.s.code p := hq1.data.code
  have hcpu1 : r1.cpuBusy = r.cpuBusy := hq1.cpu
  obtain ⟨hcpu, hlen, hcode, hdone⟩ :=
    afterExec64_keeps (execStep64 r1).2 (ioBusyStep64 (execStep64 r1).1)
  obtain ⟨hb1, hb2⟩ := ioBusyStep64_keeps (execStep64 r1).1
  rw [← htick, hb1] at hcpu
  rw [← htick, hb2] at hlen hcode hdone
  rcases execStep64_cases r1 with ⟨-, heq⟩ | ⟨c, instr, rest, -, hlt, hst, hcd, -, heq⟩
  · rw [heq] at hcpu hlen hcode hdone
    refine ⟨fun h => hdone (hq1.done h), hlen.trans hlen1, Or.inl ⟨hcpu.trans hcpu1, ?_⟩⟩
    exact (codeSum_congr hlen hcode).trans (codeSum_congr hlen1 hcode1)
  · have hs2 : (execStep64 r1).1.s = r1.s.setCode (c : Int) rest := by rw [heq]
    have hcpu2 : (execStep64 r1).1.cpuBusy = wrap64 (r1.cpuBusy + 1) := by rw [heq]
    rw [hs2] at hlen hcode hdone
    rw [hcpu2, hcpu1] at hcpu
    refine ⟨?_, ?_, Or.inr ⟨hcpu, ?_⟩⟩
    · intro h
      apply hdone
      intro p hp
      rw [setCode_st] at hp
      rw [setCode_code]
      by_cases hpc : p = c
      · rw [hpc, hst] at hp; cases hp
      · simp only [hpc, false_and, if_false]
        exact hq1.done h p hp
    · rw [hlen, setCode_length]; exact hlen1
    · have h1 := codeSum_congr hlen hcode
      have h2 := codeSum_setCode r1.s c rest hlt
      have h3 := codeSum_congr hlen1 hcode1
      rw [hcd] at h2
      simp only [List.length_cons] at h2
      omega

/-- After every number of iterations of `Run64`: `cpuBusy` is the number of
instructions executed so far, on 64 bits. -/
theorem runState64_count (order : Int → List Nat) (s : Scheduler) :
    ∀ k, (DoneEmpty s → DoneEmpty (runState64 order s k).s) ∧
      (runState64 order s k).s.procInfo.length = s.procInfo.length ∧
      codeSum (runState64 order s k).s ≤ codeSum s ∧
      (runState64 order s k).cpuBusy =
        wrap64 ((codeSum s : Int) - (codeSum (runState64 order s k).s : Int))
  | 0 => by
    obtain ⟨hcpu, -, -, -, hlen, -, -, -, -, hcode, hdone⟩ := runInit_effect s
    have hcs : codeSum (runInit s).s = codeSum s := codeSum_congr hlen hcode
    refine ⟨hdone, hlen, le_of_eq hcs, ?_⟩
    show (runInit s).cpuBusy = wrap64 ((codeSum s : Int) - (codeSum (runInit s).s : Int))
    rw [hcpu, hcs, sub_self]
    decide
  | k + 1 => by
    obtain ⟨h1, h2, h3, h4⟩ := runState64_count order s k
    obtain ⟨hd, hl, hc⟩ := tick64_count order (runState64 order s k)
    have hstep : runState64 order s (k + 1) = tick64 order (runState64 order s k) := rfl
    rw [hstep]
    refine ⟨fun h => hd (h1 h), hl.trans h2, ?_, ?_⟩
    · rcases hc with ⟨-, hc⟩ | ⟨-, hc⟩ <;> omega
    · rcases hc with ⟨hcpu, hc⟩ | ⟨hcpu, hc⟩
      · rw [hcpu, hc]; exact h4
      · rw [hcpu, h4, wrap64_wrap_add]
        congr 1
        have : (codeSum (runState64 order s k).s : Int) =
            (codeSum (tick64 order (runState64 order s k)).s : Int) + 1 := by
          exact_mod_cast hc.symm
        omega

theorem runLoop64_result (order : Int → List Nat) :
    ∀ (fuel : Nat) (r0 r : RunState), runLoop64 order fuel r0 = some r →
      ∃ k, k ≤ fuel ∧ r = (tick64 order)^[k] r0 ∧ GetNumActive r.s = 0
  | 0, r0, r, h => by
    simp only [runLoop64] at h
    split at h
    · cases h
    · rename_i hz
      have : r = r0 := (Option.some.inj h).symm
      exact ⟨0, le_refl 0, this, by rw [this]; omega⟩
  | fuel + 1, r0, r, h => by
    simp only [runLoop64] at h
    split at h
    · obtain ⟨k, hk, hr, hz⟩ := runLoop64_result order fuel _ r h
      exact ⟨k + 1, by omega, by rw [Function.iterate_succ_apply]; exact hr, hz⟩
    · rename_i hz
      have : r = r0 := (Option.some.inj h).symm
      exact ⟨0, Nat.zero_le _, this, by rw [this]; omega⟩

/-- The result of a run of `Run64` that returns: either the table is empty and nothing
happened, or the result is the state after some number of iterations in which no
process is active. -/
theorem Run64_result (order : Int → List Nat) (fuel : Nat) (s : Scheduler) (r : RunState)
    (h : Run64 order fuel s = some r) :
    (s.procInfo = [] ∧
      r = ({ s := s, cpuBusy := 0, ioBusy := 0, clockTick := 0, errs := [],
             transitions := [], execs := [] } : RunState)) ∨
    (s.procInfo ≠ [] ∧ ∃ k, k ≤ fuel ∧ r = runState64 order s k ∧ GetNumActive r.s = 0) := by
  by_cases hne : s.procInfo = []
  · left
    refine ⟨hne, ?_⟩
    simp only [Run64, hne, List.length_nil, if_true, Option.some.injEq] at h
    rw [← h]
  · right
    refine ⟨hne, ?_⟩
    have hlen : ¬ s.procInfo.length = 0 := fun h0 => hne (List.length_eq_zero.mp h0)
    simp only [Run64, hlen, if_false] at h
    obtain ⟨k, hk, hr, hz⟩ := runLoop64_result order fuel _ r h
    exact ⟨k, hk, by rw [runState64_eq_iterate]; exact hr, hz⟩

/-! ### The CPU-busy count -/

/-- C21, where the claim fails: on 64-bit integers the run of the single process `"i"`
with `ioLength = 2^63 - 1` returns `cpuBusy = 2`, the length of the loaded `Code`, and
the tick count `-2^63 + 1`: `cpuBusy` is not at most the tick count. -/
theorem Run_cpuBusy_exceeds_ticks :
    (∀ proc ∈ (ioTable SwitchBehavior.SWITCH_ON_END IODoneBehavior.IO_RUN_LATER
        9223372036854775807).procInfo, proc.State = READY) ∧
      ∃ r, Run64 (fun _ => [0]) 9223372036854775809
          (ioTable SwitchBehavior.SWITCH_ON_END IODoneBehavior.IO_RUN_LATER
            9223372036854775807) = some r ∧
        r.cpuBusy = 2 ∧ r.clockTick = -9223372036854775807 ∧ ¬ r.cpuBusy ≤ r.clockTick := by
  obtain ⟨r, hr, hcpu, -, hclock⟩ := overflow_run 9223372036854775809 (le_refl _)
  refine ⟨ioTable_ready _ _ _, r, hr, hcpu, hclock, ?_⟩
  rw [hcpu, hclock]
  decide

/-- C21, as amended. On 64-bit integers, for every run of `Run64` that returns, on a
table whose processes are all READY (as the loaders leave them) and whose `Code`
lengths sum to less than `2^63`, whatever `ioLength`, the policies, the scan order and
the length of the run: the CPU-busy count returned is the sum of the lengths of the
loaded `Code` of all processes, that is the number of `cpu`, `io` and `io_done` tokens
together.  It is at most the tick count returned when the run ends within a number
`fuel` of ticks for which no value leaves the 64-bit range
(`fuel + ioLength + 1 < 2^63`). -/
theorem Run_cpuBusy_eq_total_code (order : Int → List Nat) (fuel : Nat) (s : Scheduler)
    (r : RunState) (hready : ∀ proc ∈ s.procInfo, proc.State = READY)
    (hsum : (codeSum s : Int) < 2 ^ 63) (hrun : Run64 order fuel s = some r) :
    r.cpuBusy = ((s.procInfo.map (fun proc => proc.Code.length)).sum : Nat) ∧
      r.cpuBusy = ((countInstr Instr.cpu s + countInstr Instr.io s +
        countInstr Instr.io_done s : Nat) : Int) ∧
      (NoOverflow s fuel → r.cpuBusy ≤ r.clockTick) := by
  have key : r.cpuBusy = (codeSum s : Int) := by
    rcases Run64_result order fuel s r hrun with ⟨hnil, hr⟩ | ⟨-, k, -, hr, hz⟩
    · rw [hr]
      simp [codeSum, hnil]
    · obtain ⟨hdone, -, -, hcpu⟩ := runState64_count order s k
      rw [← hr] at hdone hcpu
      have hcodes := codes_empty_of_inactive r.s (hdone (DoneEmpty_of_ready s hready)) hz
      rw [codeSum_eq_zero r.s hcodes] at hcpu
      rw [hcpu]
      apply wrap64_of_inRange
      unfold InRange64
      have : (0 : Int) ≤ (codeSum s : Int) := Int.natCast_nonneg _
      push_cast
      omega
  refine ⟨key, ?_, ?_⟩
  · rw [key, codeSum_eq_counts]
  · intro hno
    have hrun' : Run order fuel s = some r := by
      rw [← Run64_eq_Run order fuel s hno]; exact hrun
    exact (cpuBusy_eq_total_ideal order fuel s r hready hrun').2.2

theorem Run_cpuBusy_eq_total_code_witness :
    ((Run64 (fun _ => [0, 1]) 34 scenario).get (by decide)).cpuBusy =
        ((scenario.procInfo.map (fun proc => proc.Code.length)).sum : Nat) ∧
      ((Run64 (fun _ => [0, 1]) 34 scenario).get (by decide)).cpuBusy =
        ((countInstr Instr.cpu scenario + countInstr Instr.io scenario +
          countInstr Instr.io_done scenario : Nat) : Int) ∧
      ((Run64 (fun _ => [0, 1]) 34 scenario).get (by decide)).cpuBusy ≤
        ((Run64 (fun _ => [0, 1]) 34 scenario).get (by decide)).clockTick :=
  have h := Run_cpuBusy_eq_total_code (fun _ => [0, 1]) 34 scenario _ (by decide) (by decide)
    (Option.some_get _).symm
  ⟨h.1, h.2.1, h.2.2 ⟨by decide, by decide, by decide⟩⟩

/-! ### Operations keep `currProc` valid -/

theorem KeepsCur.keeps_refl (s : Scheduler) : KeepsCur s s := ⟨rfl, id⟩

theorem KeepsCur.keeps_trans {s1 s2 s3 : Scheduler} (h1 : KeepsCur s1 s2) (h2 : KeepsCur s2 s3) :
    KeepsCur s1 s3 :=
  ⟨h2.1.trans h1.1, fun h => h2.2 (h1.2 h)⟩

/-- A change that keeps the table size and `currProc` keeps `currProc` valid. -/
theorem KeepsCur.keeps_of_same {s s' : Scheduler} (hlen : s'.procInfo.length = s.procInfo.length)
    (hcur : s'.currProc = s.currProc) : KeepsCur s s' := by
  refine ⟨hlen, fun h => ?_⟩
  unfold ValidCur at h ⊢
  rw [hcur, hlen]
  exact h

/-- A change that keeps the table size and sets `currProc` to a PID of the table. -/
theorem KeepsCur.of_pid {s s' : Scheduler} (hlen : s'.procInfo.length = s.procInfo.length)
    (c : Nat) (hc : c < s.procInfo.length) (hcur : s'.currProc = (c : Int)) : KeepsCur s s' := by
  refine ⟨hlen, fun _ => Or.inr ?_⟩
  rw [hcur, hlen]
  omega

theorem contract_keeps {op : Scheduler → Scheduler × Option SchedError} {s : Scheduler}
    {target : Int} {e v : ProcState} (h : TransitionContract op s target e v) :
    KeepsCur s (op s).1 ∧ (op s).1.currProc = s.currProc := by
  rcases contract_step h with h | ⟨c, -, -, -, h⟩
  · rw [h]; exact ⟨KeepsCur.keeps_refl s, rfl⟩
  · rw [h]
    exact ⟨KeepsCur.keeps_of_same (setState_length s _ _) (setState_currProc s _ _),
      setState_currProc s _ _⟩

theorem MoveToReady_keeps (s : Scheduler) (e : ProcState) (pid : Int) :
    KeepsCur s (MoveToReady s e pid).1 :=
  KeepsCur.keeps_of_same (MoveToReady_moves s e pid).data.len (MoveToReady_currProc s e pid)

theorem MoveToWait_keeps (s : Scheduler) (e : ProcState) : KeepsCur s (MoveToWait s e).1 :=
  (contract_keeps (MoveToWait_contract s e)).1

theorem MoveToRunning_keeps (s : Scheduler) (e : ProcState) :
    KeepsCur s (MoveToRunning s e).1 ∧ (MoveToRunning s e).1.currProc = s.currProc :=
  contract_keeps (MoveToRunning_contract s e)

theorem MoveToDone_keeps (s : Scheduler) (e : ProcState) : KeepsCur s (MoveToDone s e).1 :=
  (contract_keeps (MoveToDone_contract s e)).1

/-- `NextProc` keeps `currProc` valid when its argument is -1 or a PID of the table. -/
theorem NextProc_keeps (s : Scheduler) (pid : Int)
    (hpid : pid = -1 ∨ (0 ≤ pid ∧ pid < (s.procInfo.length : Int))) :
    KeepsCur s (NextProc s pid).1 := by
  unfold NextProc
  by_cases hp : pid = -1
  · simp only [hp, ne_eq, not_true_eq_false, if_false]
    cases hscan : NextProc.scan s with
    | none => exact KeepsCur.keeps_refl s
    | some i =>
      simp only
      have hi : i < s.procInfo.length :=
        lt_of_st_ne_done s (by rw [scan_some s hscan]; decide)
      obtain ⟨hk, hc⟩ := MoveToRunning_keeps { s with currProc := (i : Int) } READY
      exact KeepsCur.of_pid hk.1 i hi hc
  · simp only [ne_eq, hp, not_false_eq_true, if_true]
    rcases hpid with h | ⟨h0, hlt⟩
    · exact absurd h hp
    · obtain ⟨hk, hc⟩ := MoveToRunning_keeps { s with currProc := pid } READY
      obtain ⟨c, rfl⟩ : ∃ c : Nat, pid = (c : Int) := ⟨pid.toNat, (Int.toNat_of_nonneg h0).symm⟩
      exact KeepsCur.of_pid hk.1 c (by omega) hc

theorem CheckIfDone_keeps (s : Scheduler) : KeepsCur s (CheckIfDone s).1 := by
  unfold CheckIfDone
  split
  · exact KeepsCur.keeps_refl s
  · cases hget : s.proc? s.currProc with
    | none => exact KeepsCur.keeps_refl s
    | some proc =>
      simp only
      split
      · obtain ⟨c, hc, -, -, -⟩ := proc?_some s _ proc hget
        have h1 : KeepsCur s (s.setState s.currProc DONE) := by
          rw [hc]
          exact KeepsCur.keeps_of_same (setState_length s _ _) (setState_currProc s _ _)
        exact h1.keeps_trans (NextProc_keeps _ (-1) (Or.inl rfl))
      · exact KeepsCur.keeps_refl s

theorem Creation_keeps_valid (parseFloat : List Char → Option GoFloat) (s : Scheduler)
    (c : Creation) (h : ValidCur s) : ValidCur (c.run parseFloat s).1 := by
  obtain ⟨code, hc⟩ := Creation_run_fst parseFloat s c
  rw [hc]
  unfold ValidCur at h ⊢
  have h1 : (s.withNewProcess code).currProc = s.currProc := rfl
  have h2 : (s.withNewProcess code).procInfo.length = s.procInfo.length + 1 := by
    simp [Scheduler.withNewProcess]
  rw [h1, h2]
  push_cast
  omega

/-! ### `Run` keeps `currProc` valid -/

theorem call_keeps (r : RunState) (op : Scheduler → Scheduler × Option SchedError)
    (h : KeepsCur r.s (op r.s).1) : KeepsCur r.s (r.call op).s := by
  rw [call_s]; exact h

theorem ioRunImmediate_keeps (p : Nat) (r : RunState) (hp : p < r.s.procInfo.length) :
    KeepsCur r.s (ioRunImmediate (p : Int) r).s := by
  unfold ioRunImmediate
  have h1 : KeepsCur r.s
      (if r.s.currProc ≠ (p : Int) ∧ r.s.currIsRunning = true then
        r.call (fun s => MoveToReady s RUNNING s.currProc) else r).s := by
    split
    · exact call_keeps r _ (MoveToReady_keeps _ _ _)
    · exact KeepsCur.keeps_refl _
  refine h1.keeps_trans (call_keeps _ _ (NextProc_keeps _ _ (Or.inr ⟨by omega, ?_⟩)))
  rw [h1.1]
  omega

theorem ioRunLater_keeps (p : Nat) (r : RunState) (hp : p < r.s.procInfo.length) :
    KeepsCur r.s (ioRunLater (p : Int) r).s := by
  obtain ⟨r2, hr2⟩ : ∃ r2 : RunState, r2 =
      (if r.s.processSwitchBehavior = SwitchBehavior.SWITCH_ON_END ∧ GetNumRunnable r.s > 1 then
        r.call (fun s => NextProc s (p : Int)) else r) := ⟨_, rfl⟩
  have hdef : ioRunLater (p : Int) r =
      if GetNumRunnable r2.s = 1 then r2.call (fun s => NextProc s (p : Int)) else r2 := by
    rw [hr2]; rfl
  have h1 : KeepsCur r.s r2.s := by
    rw [hr2]
    split
    · exact call_keeps r _ (NextProc_keeps _ _ (Or.inr ⟨by omega, by omega⟩))
    · exact KeepsCur.keeps_refl _
  rw [hdef]
  split
  · refine h1.keeps_trans (call_keeps _ _ (NextProc_keeps _ _ (Or.inr ⟨by omega, ?_⟩)))
    rw [h1.1]
    omega
  · exact h1

theorem handleIODone_keeps (p : Nat) (r : RunState) (hp : p < r.s.procInfo.length) :
    KeepsCur r.s (handleIODone (p : Int) r).s := by
  unfold handleIODone
  have h1 : KeepsCur r.s (r.call (fun s => MoveToReady s BLOCKED (p : Int))).s :=
    call_keeps r _ (MoveToReady_keeps _ _ _)
  have hp1 : p < (r.call (fun s => MoveToReady s BLOCKED (p : Int))).s.procInfo.length := by
    rw [h1.1]; exact hp
  have h2 : KeepsCur r.s
      (if (r.call (fun s => MoveToReady s BLOCKED (p : Int))).s.ioDoneBehavior =
          IODoneBehavior.IO_RUN_IMMEDIATE then
        ioRunImmediate (p : Int) (r.call (fun s => MoveToReady s BLOCKED (p : Int)))
      else ioRunLater (p : Int) (r.call (fun s => MoveToReady s BLOCKED (p : Int)))).s := by
    split
    · exact h1.keeps_trans (ioRunImmediate_keeps p _ hp1)
    · exact h1.keeps_trans (ioRunLater_keeps p _ hp1)
  exact h2.keeps_trans (call_keeps _ _ (CheckIfDone_keeps _))

theorem fold_keeps (p : Nat) : ∀ (l : List Int) (r0 r : RunState), KeepsCur r0.s r.s →
    p < r0.s.procInfo.length →
    KeepsCur r0.s (l.foldl
      (fun r t => if t = r.clockTick then handleIODone (p : Int) r else r) r).s
  | [], _, _, h, _ => h
  | t :: l, r0, r, h, hp => by
    simp only [List.foldl_cons]
    apply fold_keeps p l r0 _ _ hp
    split
    · exact h.keeps_trans (handleIODone_keeps p r (by rw [h.1]; exact hp))
    · exact h

theorem scanPid_keeps (r : RunState) (p : Nat) (hp : p < r.s.procInfo.length) :
    KeepsCur r.s (scanPid r p).s :=
  fold_keeps p _ r r (KeepsCur.keeps_refl _) hp

theorem ioScan_keeps : ∀ (order : List Nat) (r : RunState),
    (∀ p ∈ order, p < r.s.procInfo.length) → KeepsCur r.s (ioScan order r).s
  | [], r, _ => KeepsCur.keeps_refl _
  | p :: ps, r, h => by
    have h1 := scanPid_keeps r p (h p (List.mem_cons_self _ _))
    have h2 := ioScan_keeps ps (scanPid r p)
      (fun q hq => by rw [h1.1]; exact h q (List.mem_cons_of_mem _ hq))
    exact h1.keeps_trans h2

theorem execStep_keeps (r : RunState) : KeepsCur r.s (execStep r).1.s := by
  rcases execStep_cases r with ⟨-, h⟩ | ⟨c, instr, rest, -, -, -, -, -, h⟩
  · rw [h]; exact KeepsCur.keeps_refl _
  · rw [h]; exact KeepsCur.keeps_of_same (setCode_length _ _ _) (setCode_currProc _ _ _)

theorem execStep64_keeps (r : RunState) : KeepsCur r.s (execStep64 r).1.s := by
  rcases execStep64_cases r with ⟨-, h⟩ | ⟨c, instr, rest, -, -, -, -, -, h⟩
  · rw [h]; exact KeepsCur.keeps_refl _
  · rw [h]; exact KeepsCur.keeps_of_same (setCode_length _ _ _) (setCode_currProc _ _ _)

/-- The I/O-issue block keeps `currProc` valid, whatever finish time it records. -/
theorem issue_keeps (r : RunState) (t : Int) :
    KeepsCur r.s
      (if ({ r.call (fun s => MoveToWait s RUNNING) with
             s := (r.call (fun s => MoveToWait s RUNNING)).s.recordFinish
               (r.call (fun s => MoveToWait s RUNNING)).s.currProc t } :
           RunState).s.processSwitchBehavior = SwitchBehavior.SWITCH_ON_IO then
        ({ r.call (fun s => MoveToWait s RUNNING) with
           s := (r.call (fun s => MoveToWait s RUNNING)).s.recordFinish
             (r.call (fun s => MoveToWait s RUNNING)).s.currProc t } : RunState).call
          (fun s => NextProc s (-1))
      else
        ({ r.call (fun s => MoveToWait s RUNNING) with
           s := (r.call (fun s => MoveToWait s RUNNING)).s.recordFinish
             (r.call (fun s => MoveToWait s RUNNING)).s.currProc t } : RunState)).s := by
  have h1 : KeepsCur r.s (r.call (fun s => MoveToWait s RUNNING)).s :=
    call_keeps r _ (MoveToWait_keeps _ _)
  have h2 : KeepsCur r.s
      ({ r.call (fun s => MoveToWait s RUNNING) with
         s := (r.call (fun s => MoveToWait s RUNNING)).s.recordFinish
           (r.call (fun s => MoveToWait s RUNNING)).s.currProc t } : RunState).s :=
    h1.keeps_trans (KeepsCur.keeps_of_same rfl rfl)
  split
  · exact h2.keeps_trans (call_keeps _ _ (NextProc_keeps _ (-1) (Or.inl rfl)))
  · exact h2

theorem ioIssue_keeps (r : RunState) : KeepsCur r.s (ioIssue r).s := issue_keeps r _

theorem ioIssue64_keepsCur (r : RunState) : KeepsCur r.s (ioIssue64 r).s := issue_keeps r _

theorem afterExec_keeps (i : Option Instr) (r : RunState) : KeepsCur r.s (afterExec i r).s := by
  unfold afterExec
  have h1 : KeepsCur r.s (if i = some Instr.io then ioIssue r else r).s := by
    split
    · exact ioIssue_keeps r
    · exact KeepsCur.keeps_refl _
  exact h1.keeps_trans (call_keeps _ _ (CheckIfDone_keeps _))

theorem afterExec64_keepsCur (i : Option Instr) (r : RunState) :
    KeepsCur r.s (afterExec64 i r).s := by
  unfold afterExec64
  have h1 : KeepsCur r.s (if i = some Instr.io then ioIssue64 r else r).s := by
    split
    · exact ioIssue64_keepsCur r
    · exact KeepsCur.keeps_refl _
  exact h1.keeps_trans (call_keeps _ _ (CheckIfDone_keeps _))

/-- One iteration of the loop of `Run` keeps the table size and the validity of
`currProc`, when the scan visits PIDs of the table. -/
theorem tick_keeps (order : Int → List Nat) (r : RunState)
    (horder : ∀ t, ∀ p ∈ order t, p < r.s.procInfo.length) : KeepsCur r.s (tick order r).s := by
  rw [tick_eq]
  have h1 : KeepsCur r.s (scanned order r).s :=
    ioScan_keeps _ { r with clockTick := r.clockTick + 1 } (horder _)
  have h2 := execStep_keeps (scanned order r)
  have h3 := afterExec_keeps (execStep (scanned order r)).2 (ioBusyStep (execStep (scanned order r)).1)
  rw [ioBusyStep_s] at h3
  exact (h1.keeps_trans h2).keeps_trans h3

theorem tick64_keeps (order : Int → List Nat) (r : RunState)
    (horder : ∀ t, ∀ p ∈ order t, p < r.s.procInfo.length) :
    KeepsCur r.s (tick64 order r).s := by
  have htick : tick64 order r = afterExec64 (execStep64 (scanned64 order r)).2
      (ioBusyStep64 (execStep64 (scanned64 order r)).1) := rfl
  rw [htick]
  have h1 : KeepsCur r.s (scanned64 order r).s :=
    ioScan_keeps _ { r with clockTick := wrap64 (r.clockTick + 1) } (horder _)
  have h2 := execStep64_keeps (scanned64 order r)
  have h3 := afterExec64_keepsCur (execStep64 (scanned64 order r)).2
    (ioBusyStep64 (execStep64 (scanned64 order r)).1)
  rw [(ioBusyStep64_keeps _).2] at h3
  exact (h1.keeps_trans h2).keeps_trans h3

/-- When `Run` reaches its loop on a non-empty table, process 0 is current. -/
theorem runInit_valid (s : Scheduler) (hne : s.procInfo ≠ []) :
    (runInit s).s.procInfo.length = s.procInfo.length ∧ ValidCur (runInit s).s := by
  obtain ⟨hk, hc⟩ := MoveToRunning_keeps
    { s with ioFinishTimes := List.replicate s.procInfo.length [], currProc := 0 } READY
  have hlen : (runInit s).s.procInfo.length = s.procInfo.length := hk.1
  have hcur : (runInit s).s.currProc = 0 := hc
  refine ⟨hlen, Or.inr ?_⟩
  rw [hcur, hlen]
  have : 0 < s.procInfo.length := List.length_pos.mpr hne
  omega

theorem runState_valid (order : Int → List Nat) (s : Scheduler) (hne : s.procInfo ≠ [])
    (horder : ∀ t, ∀ p ∈ order t, p < s.procInfo.length) :
    ∀ k, (runState order s k).s.procInfo.length = s.procInfo.length ∧
      ValidCur (runState order s k).s
  | 0 => runInit_valid s hne
  | k + 1 => by
    obtain ⟨h1, h2⟩ := runState_valid order s hne horder k
    have h := tick_keeps order (runState order s k) (by rw [h1]; exact horder)
    exact ⟨h.1.trans h1, h.2 h2⟩

theorem runState64_valid (order : Int → List Nat) (s : Scheduler) (hne : s.procInfo ≠ [])
    (horder : ∀ t, ∀ p ∈ order t, p < s.procInfo.length) :
    ∀ k, (runState64 order s k).s.procInfo.length = s.procInfo.length ∧
      ValidCur (runState64 order s k).s
  | 0 => runInit_valid s hne
  | k + 1 => by
    obtain ⟨h1, h2⟩ := runState64_valid order s hne horder k
    have h := tick64_keeps order (runState64 order s k) (by rw [h1]; exact horder)
    exact ⟨h.1.trans h1, h.2 h2⟩

/-- C19, as amended. Starting from `NewScheduler`, after any sequence of the scheduler's
operations (`NewProcess`, `LoadProgram`, `Load`, `MoveToReady`, `MoveToWait`,
`MoveToRunning`, `MoveToDone`, `NextProc`, `CheckIfDone`, `Run`), with any arguments and
including calls that return an error, provided every `NextProc(pid)` is called with
`pid = -1` or with the PID of a process of the table: `currProc` is either -1 or
satisfies `0 ≤ currProc < number of processes`.  The same holds in every state that
the loop of `Run` passes through. -/
theorem currProc_valid (parseFloat : List Char → Option GoFloat) (s : Scheduler)
    (h : Reached parseFloat s) :
    ValidCur s ∧
      ∀ order : Int → List Nat, (∀ t, ∀ p ∈ order t, p < s.procInfo.length) →
        s.procInfo ≠ [] →
        ∀ k, ValidCur (runState64 order s k).s ∧ ValidCur (runState order s k).s := by
  have key : ValidCur s := by
    induction h with
    | newScheduler sw iod ioLength => exact Or.inl rfl
    | create s c _ ih => exact Creation_keeps_valid parseFloat s c ih
    | moveToReady s e pid _ ih => exact (MoveToReady_keeps s e pid).2 ih
    | moveToWait s e _ ih => exact (MoveToWait_keeps s e).2 ih
    | moveToRunning s e _ ih => exact (MoveToRunning_keeps s e).1.2 ih
    | moveToDone s e _ ih => exact (MoveToDone_keeps s e).2 ih
    | nextProc s pid _ hpid ih => exact (NextProc_keeps s pid hpid).2 ih
    | checkIfDone s _ ih => exact (CheckIfDone_keeps s).2 ih
    | run64 s order fuel r _ horder hrun ih =>
      rcases Run64_result order fuel s r hrun with ⟨-, hr⟩ | ⟨hne, k, -, hr, -⟩
      · rw [hr]; exact ih
      · rw [hr]; exact (runState64_valid order s hne horder k).2
    | run s order fuel r _ horder hrun ih =>
      rcases Run_result order fuel s r hrun with ⟨-, hr⟩ | ⟨hne, k, -, hr, -, -⟩
      · rw [hr]; exact ih
      · rw [hr]; exact (runState_valid order s hne horder k).2
  exact ⟨key, fun order horder hne k =>
    ⟨(runState64_valid order s hne horder k).2, (runState_valid order s hne horder k).2⟩⟩

theorem currProc_valid_witness :
    ValidCur (MoveToDone (NextProc scenario 1).1 READY).1 ∧
      (MoveToDone (NextProc scenario 1).1 READY).2.isSome = true ∧
      ∀ k, ValidCur (runState64 (fun _ => [0, 1]) scenario k).s :=
  ⟨(currProc_valid (fun _ => none) _
      (Reached.moveToDone _ READY
        (Reached.nextProc scenario 1
          (Reached.create _ (Creation.loadProgram "c3".toList)
            (Reached.create _ (Creation.loadProgram "c2,i,c1".toList)
              (Reached.newScheduler SwitchBehavior.SWITCH_ON_IO IODoneBehavior.IO_RUN_LATER 2)))
          (Or.inr ⟨by decide, by decide⟩)))).1,
    by decide,
    fun k => ((currProc_valid (fun _ => none) scenario
      (Reached.create _ (Creation.loadProgram "c3".toList)
        (Reached.create _ (Creation.loadProgram "c2,i,c1".toList)
          (Reached.newScheduler SwitchBehavior.SWITCH_ON_IO IODoneBehavior.IO_RUN_LATER 2)))).2
      (fun _ => [0, 1])
      (fun _ => (by decide : ∀ p ∈ [0, 1], p < scenario.procInfo.length)) (by decide) k).1⟩

end ProcessRun
